import Mathlib

/-!
# darktable `src/common/cache.h`: a shallow embedding and its properties

The concurrent hopscotch-style cache of darktable is embedded as pure state-passing
functions over a `dt_cache_t` record.

Conventions of the embedding:

* a `dt_cache_bucket_t *` is the index of the bucket in `cache->table`, an `Int`
  (pointer arithmetic can leave the array before a comparison brings it back);
  dereferencing an index outside the array is undefined behaviour (`Outcome.ub`);
* a `dt_cache_segment_t *` is the index of the segment in `cache->segments`;
* `void *` is a `Nat`, `NULL` is `0`;
* `uint32_t` values are `Nat`, `int16_t`/`int` values are `Int`; conversions to
  `int16_t` wrap modulo `2^16` as gcc does;
* every `while`/`do` loop is a recursion on a fuel argument; `Outcome.timeout` means the
  loop was still running when the fuel ran out;
* the code runs single threaded: the compare-and-swap of the lock is a read followed by
  a write.
-/

namespace DtCache

/-! ## Outcomes -/

/-- How a call ends: `ok` is a normal return, `fatal` is `exit(1)` or a failed `assert`,
`ub` is an access outside an array, `timeout` is a loop that outlived its fuel. -/
inductive Outcome (α : Type) where
  | ok (a : α)
  | fatal
  | ub
  | timeout
deriving DecidableEq

/-! ## Constants -/

def SHRT_MIN : Int := -32768
def SHRT_MAX : Int := 32767
def DT_CACHE_NULL_DELTA : Int := SHRT_MIN
/-- The value of `(uint32_t)-1`. -/
def DT_CACHE_EMPTY_HASH : Nat := 4294967295
/-- The value of `(uint32_t)-1`. -/
def DT_CACHE_EMPTY_KEY : Nat := 4294967295
def DT_CACHE_EMPTY_DATA : Nat := 0
def DT_CACHE_INSERT_RANGE : Nat := 1024 * 4

/-- Conversion of an integer value to `int16_t` (wraps modulo `2^16`). -/
def int16_t (x : Int) : Int := (x + 32768) % 65536 - 32768

/-- Conversion of an integer value to `int` (wraps modulo `2^32`). -/
def int32_t (x : Int) : Int := (x + 2147483648) % 4294967296 - 2147483648

/-- Conversion of an integer value to `uint32_t`. -/
def uint32_t (x : Int) : Nat := (x % 4294967296).toNat

/-! ## Data model -/

structure dt_cache_bucket_t where
  first_delta : Int
  next_delta : Int
  read : Int
  write : Int
  lru : Nat
  mru : Nat
  hash : Nat
  key : Nat
  data : Nat
deriving DecidableEq, Inhabited

structure dt_cache_segment_t where
  timestamp : Nat
  lock : Nat
deriving DecidableEq, Inhabited

structure dt_cache_t where
  segment_shift : Nat
  segment_mask : Nat
  bucket_mask : Nat
  segments : List dt_cache_segment_t
  table : List dt_cache_bucket_t
  lru : Nat
  mru : Nat
  cache_mask : Int
  is_cacheline_alignment : Int
deriving DecidableEq

/-- Values the C language and gcc leave undefined and the hardware supplies:
`__builtin_clz(0)` and `x >> s` for `s ≥ 32`. Every theorem holds for all of them. -/
structure undefined_t where
  clz_zero : Int
  shift_wide : Nat → Nat → Nat

/-- A bucket index lies inside the table. -/
def inb (table : List dt_cache_bucket_t) (p : Int) : Prop := 0 ≤ p ∧ p < table.length

instance (table : List dt_cache_bucket_t) (p : Int) : Decidable (inb table p) := by
  unfold inb; infer_instance

/-- The bucket `*p` (only ever used on an index inside the table). -/
def rd (table : List dt_cache_bucket_t) (p : Int) : dt_cache_bucket_t :=
  if 0 ≤ p then table.getD p.toNat default else default

/-- The table after `*p = b` (only ever used on an index inside the table). -/
def wr (table : List dt_cache_bucket_t) (p : Int) (b : dt_cache_bucket_t) :
    List dt_cache_bucket_t :=
  if 0 ≤ p then table.set p.toNat b else table

/-- The table after `p->first_delta = v`. -/
def wr_first_delta (table : List dt_cache_bucket_t) (p : Int) (v : Int) :=
  wr table p { rd table p with first_delta := v }

/-- The table after `p->next_delta = v`. -/
def wr_next_delta (table : List dt_cache_bucket_t) (p : Int) (v : Int) :=
  wr table p { rd table p with next_delta := v }

/-- The table after `p->hash = v`. -/
def wr_hash (table : List dt_cache_bucket_t) (p : Int) (v : Nat) :=
  wr table p { rd table p with hash := v }

/-- The table after `p->key = v`. -/
def wr_key (table : List dt_cache_bucket_t) (p : Int) (v : Nat) :=
  wr table p { rd table p with key := v }

/-- The table after `p->data = v`. -/
def wr_data (table : List dt_cache_bucket_t) (p : Int) (v : Nat) :=
  wr table p { rd table p with data := v }

/-! ## Locks -/

/-- The C function `dt_cache_lock`: spin until the lock word goes from 0 to 1. -/
def dt_cache_lock (segments : List dt_cache_segment_t) (segment : Nat) :
    Nat → Outcome (List dt_cache_segment_t)
  | 0 => .timeout
  | fuel + 1 =>
    if (segments.getD segment default).lock = 0 then
      .ok (segments.set segment { segments.getD segment default with lock := 1 })
    else dt_cache_lock segments segment fuel

/-- The C function `dt_cache_unlock`: swap the lock word from 1 to 0 and assert it was
held. -/
def dt_cache_unlock (segments : List dt_cache_segment_t) (segment : Nat) :
    Outcome (List dt_cache_segment_t) :=
  let res := (segments.getD segment default).lock
  let segments :=
    if res = 1 then segments.set segment { segments.getD segment default with lock := 0 }
    else segments
  if res = 0 then .fatal else .ok segments

/-! ## Arithmetic helpers -/

/-- The loop of `nearest_power_of_two`, `rc` being the running value. -/
def nearest_power_of_two_loop (value : Nat) : Nat → Nat → Outcome Nat
  | 0, rc => if rc < value then .timeout else .ok rc
  | fuel + 1, rc =>
    if rc < value then nearest_power_of_two_loop value fuel ((rc <<< 1) % 4294967296)
    else .ok rc

def nearest_power_of_two (fuel : Nat) (value : Nat) : Outcome Nat :=
  nearest_power_of_two_loop value fuel 1

/-- The loop of `calc_div_shift`. -/
def calc_div_shift_loop (value : Nat) : Nat → Nat → Nat → Outcome Nat
  | 0, curr, shift => if curr < value then .timeout else .ok shift
  | fuel + 1, curr, shift =>
    if curr < value then
      calc_div_shift_loop value fuel ((curr <<< 1) % 4294967296) ((shift + 1) % 4294967296)
    else .ok shift

def calc_div_shift (fuel : Nat) (value : Nat) : Outcome Nat :=
  calc_div_shift_loop value fuel 1 0

/-- The number of zero bits above the highest set bit among the low `n` bits of a
32-bit value `x`, counted from bit 31. -/
def clz_scan (x : Nat) : Nat → Nat
  | 0 => 32
  | n + 1 => if 2 ^ n ≤ x then 31 - n else clz_scan x n

/-- The builtin `__builtin_clz` on a 32-bit operand. -/
def builtin_clz (U : undefined_t) (x : Nat) : Int :=
  if x = 0 then U.clz_zero else (clz_scan x 32 : Nat)

/-- The expression `x >> s` on `uint32_t` operands. -/
def shr32 (U : undefined_t) (x s : Nat) : Nat :=
  if s < 32 then x >>> s else U.shift_wide x s % 4294967296

/-- The segment of a hash: `(hash >> cache->segment_shift) & cache->segment_mask`. -/
def segment_of (U : undefined_t) (cache : dt_cache_t) (hash : Nat) : Nat :=
  shr32 U hash cache.segment_shift &&& cache.segment_mask

/-- The home bucket of a hash: `cache->table + (hash & cache->bucket_mask)`. -/
def home_of (cache : dt_cache_t) (hash : Nat) : Int :=
  ((hash &&& cache.bucket_mask : Nat) : Int)

/-- The C function `get_start_cacheline_bucket`. -/
def get_start_cacheline_bucket (cache : dt_cache_t) (bucket : Int) : Int :=
  bucket - Int.land bucket cache.cache_mask

/-- Sequencing of outcomes: anything other than a normal return is passed on. -/
def Outcome.bind {α β : Type} : Outcome α → (α → Outcome β) → Outcome β
  | .ok a, f => f a
  | .fatal, _ => .fatal
  | .ub, _ => .ub
  | .timeout, _ => .timeout

/-! ## `remove_key` -/

/-- The C function `remove_key(segment, from_bucket, key_bucket, prev_key_bucket, hash)`;
`prev_key_bucket = none` is the `NULL` pointer. -/
def remove_key (cache : dt_cache_t) (segment : Nat) (from_bucket key_bucket : Int)
    (prev_key_bucket : Option Int) (_hash : Nat) : Outcome dt_cache_t :=
  if ¬ inb cache.table key_bucket then .ub else
  let t := wr_hash cache.table key_bucket DT_CACHE_EMPTY_HASH
  let t := wr_key t key_bucket DT_CACHE_EMPTY_KEY
  let t := wr_data t key_bucket DT_CACHE_EMPTY_DATA
  let linked : Outcome (List dt_cache_bucket_t) :=
    match prev_key_bucket with
    | none =>
      if ¬ inb t from_bucket then .ub else
      if (rd t key_bucket).next_delta = DT_CACHE_NULL_DELTA then
        .ok (wr_first_delta t from_bucket DT_CACHE_NULL_DELTA)
      else
        .ok (wr_first_delta t from_bucket
          (int16_t ((rd t from_bucket).first_delta + (rd t key_bucket).next_delta)))
    | some prev =>
      if ¬ inb t prev then .ub else
      if (rd t key_bucket).next_delta = DT_CACHE_NULL_DELTA then
        .ok (wr_next_delta t prev DT_CACHE_NULL_DELTA)
      else
        .ok (wr_next_delta t prev
          (int16_t ((rd t prev).next_delta + (rd t key_bucket).next_delta)))
  linked.bind fun t =>
  if ¬ segment < cache.segments.length then .ub else
  let seg := cache.segments.getD segment default
  let segments := cache.segments.set segment
    { seg with timestamp := (seg.timestamp + 1) % 4294967296 }
  let t := wr_next_delta t key_bucket DT_CACHE_NULL_DELTA
  .ok { cache with table := t, segments := segments }

/-! ## Linking a new key -/

/-- The C function `add_key_to_begining_of_list(keys_bucket, free_bucket, hash, key, data)`. -/
def add_key_to_begining_of_list (table : List dt_cache_bucket_t)
    (keys_bucket free_bucket : Int) (hash key data : Nat) : List dt_cache_bucket_t :=
  let t := wr_data table free_bucket data
  let t := wr_key t free_bucket key
  let t := wr_hash t free_bucket hash
  if (rd t keys_bucket).first_delta = 0 then
    let t :=
      if (rd t keys_bucket).next_delta = DT_CACHE_NULL_DELTA then
        wr_next_delta t free_bucket DT_CACHE_NULL_DELTA
      else
        wr_next_delta t free_bucket
          (int16_t ((keys_bucket + (rd t keys_bucket).next_delta) - free_bucket))
    wr_next_delta t keys_bucket (int16_t (free_bucket - keys_bucket))
  else
    let t :=
      if (rd t keys_bucket).first_delta = DT_CACHE_NULL_DELTA then
        wr_next_delta t free_bucket DT_CACHE_NULL_DELTA
      else
        wr_next_delta t free_bucket
          (int16_t ((keys_bucket + (rd t keys_bucket).first_delta) - free_bucket))
    wr_first_delta t keys_bucket (int16_t (free_bucket - keys_bucket))

/-- The C function
`add_key_to_end_of_list(keys_bucket, free_bucket, hash, key, data, last_bucket)`;
`last_bucket = none` is the `NULL` pointer. -/
def add_key_to_end_of_list (table : List dt_cache_bucket_t)
    (keys_bucket free_bucket : Int) (hash key data : Nat) (last_bucket : Option Int) :
    List dt_cache_bucket_t :=
  let t := wr_data table free_bucket data
  let t := wr_key t free_bucket key
  let t := wr_hash t free_bucket hash
  let t := wr_next_delta t free_bucket DT_CACHE_NULL_DELTA
  match last_bucket with
  | none => wr_first_delta t keys_bucket (int16_t (free_bucket - keys_bucket))
  | some last => wr_next_delta t last (int16_t (free_bucket - last))

/-! ## `optimize_cacheline_use` -/

/-- The body of the `if( curr_delta < 0 || curr_delta > cache->cache_mask )` branch of
`optimize_cacheline_use`: move `relocate_key` into `free_bucket`. -/
def optimize_relocate (cache : dt_cache_t) (segment : Nat)
    (free_bucket opt_bucket relocate_key : Int) (relocate_key_last : Option Int) :
    Outcome dt_cache_t :=
  if ¬ inb cache.table free_bucket then .ub else
  let t := wr_data cache.table free_bucket (rd cache.table relocate_key).data
  let t := wr_key t free_bucket (rd t relocate_key).key
  let t := wr_hash t free_bucket (rd t relocate_key).hash
  let t :=
    if (rd t relocate_key).next_delta = DT_CACHE_NULL_DELTA then
      wr_next_delta t free_bucket DT_CACHE_NULL_DELTA
    else
      wr_next_delta t free_bucket
        (int16_t ((relocate_key + (rd t relocate_key).next_delta) - free_bucket))
  let t :=
    match relocate_key_last with
    | none => wr_first_delta t opt_bucket (int16_t (free_bucket - opt_bucket))
    | some last => wr_next_delta t last (int16_t (free_bucket - last))
  if ¬ segment < cache.segments.length then .ub else
  let seg := cache.segments.getD segment default
  let segments := cache.segments.set segment
    { seg with timestamp := (seg.timestamp + 1) % 4294967296 }
  let t := wr_hash t relocate_key DT_CACHE_EMPTY_HASH
  let t := wr_key t relocate_key DT_CACHE_EMPTY_KEY
  let t := wr_data t relocate_key DT_CACHE_EMPTY_DATA
  let t := wr_next_delta t relocate_key DT_CACHE_NULL_DELTA
  .ok { cache with table := t, segments := segments }

/-- The inner `do ... while(1)` of `optimize_cacheline_use` over the chain of `opt_bucket`;
`some cache'` is the `return` after a relocation, `none` is the `break`. -/
def optimize_cacheline_walk (cache : dt_cache_t) (segment : Nat)
    (free_bucket opt_bucket : Int) :
    Nat → Option Int → Int → Int → Outcome (Option dt_cache_t)
  | 0, _, _, _ => .timeout
  | fuel + 1, relocate_key_last, curr_delta, relocate_key =>
    if ¬ inb cache.table relocate_key then .ub else
    if curr_delta < 0 ∨ curr_delta > cache.cache_mask then
      (optimize_relocate cache segment free_bucket opt_bucket relocate_key
        relocate_key_last).bind fun c => .ok (some c)
    else if (rd cache.table relocate_key).next_delta = DT_CACHE_NULL_DELTA then .ok none
    else
      optimize_cacheline_walk cache segment free_bucket opt_bucket fuel (some relocate_key)
        (curr_delta + (rd cache.table relocate_key).next_delta)
        (relocate_key + (rd cache.table relocate_key).next_delta)

/-- The outer `do ... while (opt_bucket <= end_cacheline_bucket)` of
`optimize_cacheline_use`. -/
def optimize_cacheline_loop (cache : dt_cache_t) (segment : Nat)
    (free_bucket end_cacheline_bucket : Int) : Nat → Int → Outcome dt_cache_t
  | 0, _ => .timeout
  | fuel + 1, opt_bucket =>
    if ¬ inb cache.table opt_bucket then .ub else
    let walked : Outcome (Option dt_cache_t) :=
      if (rd cache.table opt_bucket).first_delta ≠ DT_CACHE_NULL_DELTA then
        optimize_cacheline_walk cache segment free_bucket opt_bucket fuel none
          (rd cache.table opt_bucket).first_delta
          (opt_bucket + (rd cache.table opt_bucket).first_delta)
      else .ok none
    walked.bind fun r =>
    match r with
    | some c => .ok c
    | none =>
      if opt_bucket + 1 ≤ end_cacheline_bucket then
        optimize_cacheline_loop cache segment free_bucket end_cacheline_bucket fuel
          (opt_bucket + 1)
      else .ok cache

/-- The C function `optimize_cacheline_use(cache, segment, free_bucket)`. -/
def optimize_cacheline_use (fuel : Nat) (cache : dt_cache_t) (segment : Nat)
    (free_bucket : Int) : Outcome dt_cache_t :=
  let start_cacheline_bucket := get_start_cacheline_bucket cache free_bucket
  let end_cacheline_bucket := start_cacheline_bucket + cache.cache_mask
  optimize_cacheline_loop cache segment free_bucket end_cacheline_bucket fuel
    start_cacheline_bucket

/-! ## `dt_cache_init` -/

/-- The size of `dt_cache_bucket_t` in bytes (LP64 layout: four 16-bit fields, four 32-bit
fields and one pointer). -/
def sizeof_dt_cache_bucket_t : Nat := 32

/-- The bucket written by the initialisation loop of `dt_cache_init`. -/
def empty_bucket : dt_cache_bucket_t :=
  { first_delta := DT_CACHE_NULL_DELTA, next_delta := DT_CACHE_NULL_DELTA,
    hash := DT_CACHE_EMPTY_HASH, key := DT_CACHE_EMPTY_KEY, data := DT_CACHE_EMPTY_DATA,
    read := 0, write := 0, lru := 0, mru := 0 }

/-- The C function
`dt_cache_init(cache, capacity, num_threads, cache_line_size, optimize_cacheline)`.
The fields `lru` and `mru` of `*cache` are not written and keep what they held. A loop
counter of type `int` that would have to pass `INT_MAX` is a signed overflow (`ub`). -/
def dt_cache_init (U : undefined_t) (fuel : Nat) (cache : dt_cache_t)
    (capacity num_threads cache_line_size optimize_cacheline : Int) : Outcome dt_cache_t :=
  (nearest_power_of_two fuel (uint32_t num_threads)).bind fun adj_num_threads =>
  let cache_mask : Int :=
    int32_t ((((cache_line_size % 18446744073709551616) / (sizeof_dt_cache_bucket_t : Int)
      - 1) % 18446744073709551616))
  let segment_mask : Nat := uint32_t ((adj_num_threads : Int) - 1)
  (nearest_power_of_two fuel (uint32_t num_threads / adj_num_threads)).bind fun p =>
  (calc_div_shift fuel (uint32_t ((p : Int) - 1))).bind fun _segment_shift =>
  (nearest_power_of_two fuel (uint32_t capacity)).bind fun adj_init_cap =>
  let num_buckets : Nat := (adj_init_cap + DT_CACHE_INSERT_RANGE + 1) % 4294967296
  let bucket_mask : Nat := uint32_t ((adj_init_cap : Int) - 1)
  let segment_shift : Nat := uint32_t (builtin_clz U bucket_mask - builtin_clz U segment_mask)
  if 2147483647 ≤ segment_mask then .ub else
  if 2147483647 < num_buckets then .ub else
  .ok { cache with
        cache_mask := cache_mask
        is_cacheline_alignment := optimize_cacheline
        segment_mask := segment_mask
        bucket_mask := bucket_mask
        segment_shift := segment_shift
        segments := List.replicate (segment_mask + 1) { timestamp := 0, lock := 0 }
        table := List.replicate num_buckets empty_bucket }

/-! ## `dt_cache_contains` -/

/-- The inner `while(next_delta != DT_CACHE_NULL_DELTA)` of `dt_cache_contains`:
`1` is the `return 1`, `0` is the loop running to its end. -/
def dt_cache_contains_walk (table : List dt_cache_bucket_t) (hash key : Nat) :
    Nat → Int → Int → Outcome Int
  | 0, _, next_delta => if next_delta ≠ DT_CACHE_NULL_DELTA then .timeout else .ok 0
  | fuel + 1, curr_bucket, next_delta =>
    if next_delta ≠ DT_CACHE_NULL_DELTA then
      if ¬ inb table (curr_bucket + next_delta) then .ub
      else if hash = (rd table (curr_bucket + next_delta)).hash
          ∧ key = (rd table (curr_bucket + next_delta)).key then .ok 1
      else dt_cache_contains_walk table hash key fuel (curr_bucket + next_delta)
        (rd table (curr_bucket + next_delta)).next_delta
    else .ok 0

/-- The outer `do ... while(start_timestamp != segment->timestamp)` of
`dt_cache_contains`; `walk_fuel` is the fuel of each inner loop. -/
def dt_cache_contains_retry (cache : dt_cache_t) (key : Nat) (segment : Nat)
    (walk_fuel : Nat) : Nat → Outcome Int
  | 0 => .timeout
  | fuel + 1 =>
    let hash := key
    if ¬ segment < cache.segments.length then .ub else
    let start_timestamp := (cache.segments.getD segment default).timestamp
    if ¬ inb cache.table (home_of cache hash) then .ub else
    (dt_cache_contains_walk cache.table hash key walk_fuel (home_of cache hash)
      (rd cache.table (home_of cache hash)).first_delta).bind fun found =>
    if found = 1 then .ok 1
    else if start_timestamp ≠ (cache.segments.getD segment default).timestamp then
      dt_cache_contains_retry cache key segment walk_fuel fuel
    else .ok 0

/-- The C function `dt_cache_contains(cache, key)`. -/
def dt_cache_contains (U : undefined_t) (fuel : Nat) (cache : dt_cache_t) (key : Nat) :
    Outcome Int :=
  let hash := key
  dt_cache_contains_retry cache key (segment_of U cache hash) fuel fuel

/-! ## `dt_cache_size` -/

/-- The `for(int k=0;k<num;k++)` of `dt_cache_size`, with `n` iterations left. -/
def dt_cache_size_loop (table : List dt_cache_bucket_t) : Nat → Int → Nat → Outcome Nat
  | 0, _, cnt => .ok cnt
  | n + 1, k, cnt =>
    if 2147483647 < k then .ub else
    if ¬ inb table k then .ub else
    dt_cache_size_loop table n (k + 1)
      (if (rd table k).hash ≠ DT_CACHE_EMPTY_HASH then (cnt + 1) % 4294967296 else cnt)

/-- The C function `dt_cache_size(cache)`. -/
def dt_cache_size (cache : dt_cache_t) : Outcome Nat :=
  let num : Nat := (cache.bucket_mask + DT_CACHE_INSERT_RANGE) % 4294967296
  dt_cache_size_loop cache.table num 0 0

/-! ## `dt_cache_put` -/

/-- What the chain walk of `dt_cache_put` ends with: the data of the matching bucket, or
the last bucket visited (`none` is `NULL`). -/
inductive put_walk_t where
  | found (rc : Nat)
  | absent (last_bucket : Option Int)
deriving DecidableEq

/-- The `while(next_delta != DT_CACHE_NULL_DELTA)` of `dt_cache_put`. -/
def dt_cache_put_walk (table : List dt_cache_bucket_t) (hash key : Nat) :
    Nat → Int → Option Int → Int → Outcome put_walk_t
  | 0, _, last_bucket, next_delta =>
    if next_delta ≠ DT_CACHE_NULL_DELTA then .timeout else .ok (.absent last_bucket)
  | fuel + 1, compare_bucket, last_bucket, next_delta =>
    if next_delta ≠ DT_CACHE_NULL_DELTA then
      if ¬ inb table (compare_bucket + next_delta) then .ub
      else if hash = (rd table (compare_bucket + next_delta)).hash
          ∧ key = (rd table (compare_bucket + next_delta)).key then
        .ok (.found (rd table (compare_bucket + next_delta)).data)
      else dt_cache_put_walk table hash key fuel (compare_bucket + next_delta)
        (some (compare_bucket + next_delta))
        (rd table (compare_bucket + next_delta)).next_delta
    else .ok (.absent last_bucket)

/-- The `do ... while(start_bucket != free_bucket)` over the cache line of the home
bucket: `some p` is the empty bucket found, `none` is the loop running to its end. -/
def dt_cache_put_cacheline_scan (table : List dt_cache_bucket_t)
    (start_bucket start_cacheline_bucket end_cacheline_bucket : Int) :
    Nat → Int → Outcome (Option Int)
  | 0, _ => .timeout
  | fuel + 1, free_bucket =>
    if ¬ inb table free_bucket then .ub else
    if (rd table free_bucket).hash = DT_CACHE_EMPTY_HASH then .ok (some free_bucket) else
    let free_bucket := free_bucket + 1
    let free_bucket :=
      if free_bucket > end_cacheline_bucket then start_cacheline_bucket else free_bucket
    if start_bucket ≠ free_bucket then
      dt_cache_put_cacheline_scan table start_bucket start_cacheline_bucket
        end_cacheline_bucket fuel free_bucket
    else .ok none

/-- The `while (free_max_bucket <= max_bucket)` of `dt_cache_put`. -/
def dt_cache_put_forward_scan (table : List dt_cache_bucket_t) (max_bucket : Int) :
    Nat → Int → Outcome (Option Int)
  | 0, free_max_bucket => if free_max_bucket ≤ max_bucket then .timeout else .ok none
  | fuel + 1, free_max_bucket =>
    if free_max_bucket ≤ max_bucket then
      if ¬ inb table free_max_bucket then .ub else
      if (rd table free_max_bucket).hash = DT_CACHE_EMPTY_HASH then .ok (some free_max_bucket)
      else dt_cache_put_forward_scan table max_bucket fuel (free_max_bucket + 1)
    else .ok none

/-- The `while (free_min_bucket >= min_bucket)` of `dt_cache_put`. -/
def dt_cache_put_backward_scan (table : List dt_cache_bucket_t) (min_bucket : Int) :
    Nat → Int → Outcome (Option Int)
  | 0, free_min_bucket => if free_min_bucket ≥ min_bucket then .timeout else .ok none
  | fuel + 1, free_min_bucket =>
    if free_min_bucket ≥ min_bucket then
      if ¬ inb table free_min_bucket then .ub else
      if (rd table free_min_bucket).hash = DT_CACHE_EMPTY_HASH then .ok (some free_min_bucket)
      else dt_cache_put_backward_scan table min_bucket fuel (free_min_bucket - 1)
    else .ok none

/-- Lines 370-424 of `dt_cache_put`: find a free bucket for a key that is not in its
chain and link it; the result is the new table, `fatal` is the `exit(1)`. -/
def dt_cache_put_place (fuel : Nat) (cache : dt_cache_t) (start_bucket : Int)
    (last_bucket : Option Int) (hash key data : Nat) : Outcome (List dt_cache_bucket_t) :=
  let in_line : Outcome (Option Int) :=
    if cache.is_cacheline_alignment ≠ 0 then
      let start_cacheline_bucket := get_start_cacheline_bucket cache start_bucket
      let end_cacheline_bucket := start_cacheline_bucket + cache.cache_mask
      dt_cache_put_cacheline_scan cache.table start_bucket start_cacheline_bucket
        end_cacheline_bucket fuel start_bucket
    else .ok none
  in_line.bind fun r =>
  match r with
  | some free_bucket =>
    .ok (add_key_to_begining_of_list cache.table start_bucket free_bucket hash key data)
  | none =>
    let max_bucket := start_bucket + (SHRT_MAX - 1)
    let last_table_bucket : Int := cache.bucket_mask
    let max_bucket := if max_bucket > last_table_bucket then last_table_bucket else max_bucket
    (dt_cache_put_forward_scan cache.table max_bucket fuel
      (start_bucket + (cache.cache_mask + 1))).bind fun r =>
    match r with
    | some free_max_bucket =>
      .ok (add_key_to_end_of_list cache.table start_bucket free_max_bucket hash key data
        last_bucket)
    | none =>
      let min_bucket := start_bucket - (SHRT_MAX - 1)
      let min_bucket := if min_bucket < 0 then 0 else min_bucket
      (dt_cache_put_backward_scan cache.table min_bucket fuel
        (start_bucket - (cache.cache_mask + 1))).bind fun r =>
      match r with
      | some free_min_bucket =>
        .ok (add_key_to_end_of_list cache.table start_bucket free_min_bucket hash key data
          last_bucket)
      | none => .fatal

/-- The C function `dt_cache_put(cache, key, data)`: the returned pointer and the cache
afterwards. -/
def dt_cache_put (U : undefined_t) (fuel : Nat) (cache : dt_cache_t) (key data : Nat) :
    Outcome (Nat × dt_cache_t) :=
  let hash := key
  let segment := segment_of U cache hash
  if ¬ segment < cache.segments.length then .ub else
  (dt_cache_lock cache.segments segment fuel).bind fun segments =>
  let start_bucket := home_of cache hash
  if ¬ inb cache.table start_bucket then .ub else
  (dt_cache_put_walk cache.table hash key fuel start_bucket none
    (rd cache.table start_bucket).first_delta).bind fun w =>
  match w with
  | .found rc =>
    (dt_cache_unlock segments segment).bind fun segments =>
    .ok (rc, { cache with segments := segments })
  | .absent last_bucket =>
    (dt_cache_put_place fuel cache start_bucket last_bucket hash key data).bind fun table =>
    (dt_cache_unlock segments segment).bind fun segments =>
    .ok (DT_CACHE_EMPTY_DATA, { cache with segments := segments, table := table })

/-! ## `dt_cache_remove` -/

/-- The statement `while(1);` of `dt_cache_remove`: a loop with an empty body. -/
def dt_cache_remove_while_1 : Nat → Outcome Unit
  | 0 => .timeout
  | fuel + 1 => dt_cache_remove_while_1 fuel

/-- The C function `dt_cache_remove(cache, key)`: the returned pointer and the cache
afterwards. The block
after `while(1);` is what would run once if that loop were ever left. -/
def dt_cache_remove (U : undefined_t) (fuel : Nat) (cache : dt_cache_t) (key : Nat) :
    Outcome (Nat × dt_cache_t) :=
  let hash := key
  let segment := segment_of U cache hash
  if ¬ segment < cache.segments.length then .ub else
  (dt_cache_lock cache.segments segment fuel).bind fun segments =>
  let cache := { cache with segments := segments }
  let start_bucket := home_of cache hash
  if ¬ inb cache.table start_bucket then .ub else
  let next_delta := (rd cache.table start_bucket).first_delta
  (dt_cache_remove_while_1 fuel).bind fun _ =>
  if next_delta = DT_CACHE_NULL_DELTA then
    (dt_cache_unlock cache.segments segment).bind fun segments =>
    .ok (DT_CACHE_EMPTY_DATA, { cache with segments := segments })
  else
    let curr_bucket := start_bucket + next_delta
    if ¬ inb cache.table curr_bucket then .ub else
    if hash = (rd cache.table curr_bucket).hash ∧ key = (rd cache.table curr_bucket).key then
      let rc := (rd cache.table curr_bucket).data
      (remove_key cache segment start_bucket curr_bucket none hash).bind fun cache =>
      (if cache.is_cacheline_alignment ≠ 0 then
          optimize_cacheline_use fuel cache segment curr_bucket
        else .ok cache).bind fun cache =>
      (dt_cache_unlock cache.segments segment).bind fun segments =>
      .ok (rc, { cache with segments := segments })
    else .ok (DT_CACHE_EMPTY_DATA, cache)

/-! ## A reader running next to `remove_key`

Each step of the reader is one read of shared memory by `dt_cache_contains`, in program
order; each step of the writer is one write of `remove_key`, in program order. A schedule
interleaves the two. -/

/-- Where a thread running `dt_cache_contains(cache, key)` stands between two of its reads:
before the read of `segment->timestamp`, of `curr_bucket->first_delta`, of
`curr_bucket->hash`, of `curr_bucket->key`, of `curr_bucket->next_delta`, before the second
read of `segment->timestamp`, or after its `return`. -/
inductive contains_pc where
  | at_start
  | at_head (start_timestamp : Nat)
  | at_hash (start_timestamp : Nat) (curr_bucket : Int)
  | at_key (start_timestamp : Nat) (curr_bucket : Int)
  | at_next (start_timestamp : Nat) (curr_bucket : Int)
  | at_check (start_timestamp : Nat)
  | returned (rc : Int)
  | ub
deriving DecidableEq

/-- One read of `dt_cache_contains(cache, key)` and the control flow up to its next read. -/
def dt_cache_contains_step (U : undefined_t) (cache : dt_cache_t) (key : Nat) :
    contains_pc → contains_pc
  | .at_start =>
    if ¬ segment_of U cache key < cache.segments.length then .ub else
    .at_head (cache.segments.getD (segment_of U cache key) default).timestamp
  | .at_head start_timestamp =>
    if ¬ inb cache.table (home_of cache key) then .ub else
    let next_delta := (rd cache.table (home_of cache key)).first_delta
    if next_delta ≠ DT_CACHE_NULL_DELTA then
      .at_hash start_timestamp (home_of cache key + next_delta)
    else .at_check start_timestamp
  | .at_hash start_timestamp curr_bucket =>
    if ¬ inb cache.table curr_bucket then .ub else
    if key = (rd cache.table curr_bucket).hash then .at_key start_timestamp curr_bucket
    else .at_next start_timestamp curr_bucket
  | .at_key start_timestamp curr_bucket =>
    if key = (rd cache.table curr_bucket).key then .returned 1
    else .at_next start_timestamp curr_bucket
  | .at_next start_timestamp curr_bucket =>
    let next_delta := (rd cache.table curr_bucket).next_delta
    if next_delta ≠ DT_CACHE_NULL_DELTA then
      .at_hash start_timestamp (curr_bucket + next_delta)
    else .at_check start_timestamp
  | .at_check start_timestamp =>
    if start_timestamp ≠ (cache.segments.getD (segment_of U cache key) default).timestamp then
      .at_start
    else .returned 0
  | .returned rc => .returned rc
  | .ub => .ub

/-- The writes of `remove_key(segment, from_bucket, key_bucket, prev_key_bucket, hash)`, in
program order: step 0 clears the hash, 1 the key, 2 the data, 3 rewrites the head offset of
`from_bucket` or the next offset of `prev_key_bucket`, 4 increments the timestamp, 5 clears
the next offset of `key_bucket`. -/
def remove_key_step (cache : dt_cache_t) (segment : Nat) (from_bucket key_bucket : Int)
    (prev_key_bucket : Option Int) : Nat → dt_cache_t
  | 0 => { cache with table := wr_hash cache.table key_bucket DT_CACHE_EMPTY_HASH }
  | 1 => { cache with table := wr_key cache.table key_bucket DT_CACHE_EMPTY_KEY }
  | 2 => { cache with table := wr_data cache.table key_bucket DT_CACHE_EMPTY_DATA }
  | 3 =>
    match prev_key_bucket with
    | none =>
      if (rd cache.table key_bucket).next_delta = DT_CACHE_NULL_DELTA then
        { cache with table := wr_first_delta cache.table from_bucket DT_CACHE_NULL_DELTA }
      else
        { cache with table := (wr_first_delta cache.table from_bucket
            (int16_t ((rd cache.table from_bucket).first_delta
              + (rd cache.table key_bucket).next_delta))) }
    | some prev =>
      if (rd cache.table key_bucket).next_delta = DT_CACHE_NULL_DELTA then
        { cache with table := wr_next_delta cache.table prev DT_CACHE_NULL_DELTA }
      else
        { cache with table := (wr_next_delta cache.table prev
            (int16_t ((rd cache.table prev).next_delta
              + (rd cache.table key_bucket).next_delta))) }
  | 4 =>
    { cache with segments := (cache.segments.set segment
        { cache.segments.getD segment default with
          timestamp := ((cache.segments.getD segment default).timestamp + 1) % 4294967296 }) }
  | 5 => { cache with table := wr_next_delta cache.table key_bucket DT_CACHE_NULL_DELTA }
  | _ => cache

/-- The writer running alone: its writes from step `w` on, `n` of them. -/
def remove_key_steps (segment : Nat) (from_bucket key_bucket : Int)
    (prev_key_bucket : Option Int) : Nat → Nat → dt_cache_t → dt_cache_t
  | 0, _, cache => cache
  | n + 1, w, cache =>
    remove_key_steps segment from_bucket key_bucket prev_key_bucket n (w + 1)
      (remove_key_step cache segment from_bucket key_bucket prev_key_bucket w)

/-- The thread that takes the next step of a schedule. -/
inductive thread_t where
  | reader
  | writer
deriving DecidableEq

/-- A reader of `key` and a writer in `remove_key` sharing the cache, run along a schedule:
the state is the cache, the position of the reader, and the number of writes done. -/
def interleave (U : undefined_t) (key : Nat) (segment : Nat) (from_bucket key_bucket : Int)
    (prev_key_bucket : Option Int) :
    List thread_t → dt_cache_t × contains_pc × Nat → dt_cache_t × contains_pc × Nat
  | [], s => s
  | .reader :: rest, (cache, pc, w) =>
    interleave U key segment from_bucket key_bucket prev_key_bucket rest
      (cache, dt_cache_contains_step U cache key pc, w)
  | .writer :: rest, (cache, pc, w) =>
    interleave U key segment from_bucket key_bucket prev_key_bucket rest
      (remove_key_step cache segment from_bucket key_bucket prev_key_bucket w, pc, w + 1)

/-! ## Chains: the vocabulary of the properties -/

/-- The bucket an offset stored in bucket `p` points to; `none` is `DT_CACHE_NULL_DELTA`. -/
def link (p delta : Int) : Option Int :=
  if delta = DT_CACHE_NULL_DELTA then none else some (p + delta)

/-- The first bucket of the chain of home bucket `h`. -/
def hd (t : List dt_cache_bucket_t) (h : Int) : Option Int := link h (rd t h).first_delta

/-- The bucket after bucket `p` in its chain. -/
def nxt (t : List dt_cache_bucket_t) (p : Int) : Option Int := link p (rd t p).next_delta

/-- The relation `Path t o l o'`: following the links from `o` visits the buckets `l`, all of
them inside
the table, and then stands at `o'`. -/
inductive Path (t : List dt_cache_bucket_t) : Option Int → List Int → Option Int → Prop
  | nil (o : Option Int) : Path t o [] o
  | cons {p : Int} {l : List Int} {o' : Option Int} :
      inb t p → Path t (nxt t p) l o' → Path t (some p) (p :: l) o'

/-- The last bucket visited after walking `l`, starting from `last` (`none` is `NULL`). -/
def last_of (last : Option Int) (l : List Int) : Option Int :=
  l.foldl (fun _ p => some p) last

/-- The buckets visited from `o` until `DT_CACHE_NULL_DELTA`, if that is reached within
`n` steps without leaving the table. -/
def chain_of (t : List dt_cache_bucket_t) : Nat → Option Int → Option (List Int)
  | n, o =>
    match o with
    | none => some []
    | some p =>
      match n with
      | 0 => none
      | n + 1 => if inb t p then (chain_of t n (nxt t p)).map (fun l => p :: l) else none

/-- The chain of home bucket `h` ends at `DT_CACHE_NULL_DELTA` inside the table. -/
def chain_ends (c : dt_cache_t) (h : Nat) : Prop :=
  (chain_of c.table c.table.length (hd c.table h)).isSome = true

/-- The buckets of the chain of home bucket `h`, in the order they are visited. -/
def chain_list (c : dt_cache_t) (h : Nat) : List Int :=
  (chain_of c.table c.table.length (hd c.table h)).getD []

/-- Bucket `p` holds an entry. -/
def occupied (t : List dt_cache_bucket_t) (p : Int) : Prop :=
  (rd t p).hash ≠ DT_CACHE_EMPTY_HASH

/-- Bucket `p` is the one a lookup of (`hash`, `key`) stops at. -/
def holds (t : List dt_cache_bucket_t) (hash key : Nat) (p : Int) : Prop :=
  hash = (rd t p).hash ∧ key = (rd t p).key

instance (t : List dt_cache_bucket_t) (p : Int) : Decidable (occupied t p) := by
  unfold occupied; infer_instance

instance (t : List dt_cache_bucket_t) (hash key : Nat) (p : Int) :
    Decidable (holds t hash key p) := by
  unfold holds; infer_instance

instance (c : dt_cache_t) (h : Nat) : Decidable (chain_ends c h) := by
  unfold chain_ends; infer_instance

/-- Every chain stays in the table, ends at `DT_CACHE_NULL_DELTA`, repeats no bucket and
visits only occupied buckets whose key has that home. -/
def chains_sound (c : dt_cache_t) : Prop :=
  ∀ h : Nat, h < c.table.length →
    chain_ends c h ∧ (chain_list c h).Nodup ∧
    ∀ p ∈ chain_list c h, occupied c.table p ∧ (rd c.table p).key &&& c.bucket_mask = h

/-- Every occupied bucket lies on exactly one chain. -/
def chains_cover (c : dt_cache_t) : Prop :=
  ∀ i : Nat, i < c.table.length → occupied c.table i →
    ∃ h : Nat, h < c.table.length ∧ ((i : Int) ∈ chain_list c h ∧
      ∀ h' : Nat, h' < c.table.length → (i : Int) ∈ chain_list c h' → h' = h)

/-- No two occupied buckets hold the same key. -/
def keys_unique (c : dt_cache_t) : Prop :=
  ∀ i : Nat, i < c.table.length → occupied c.table i →
    ∀ j : Nat, j < c.table.length → occupied c.table j →
      (rd c.table i).key = (rd c.table j).key → i = j

instance (c : dt_cache_t) : Decidable (chains_sound c) := by
  unfold chains_sound; infer_instance

instance (c : dt_cache_t) : Decidable (chains_cover c) := by
  unfold chains_cover; infer_instance

instance (c : dt_cache_t) : Decidable (keys_unique c) := by
  unfold keys_unique; infer_instance

/-- A well-formed table: every chain stays in the table, ends at `DT_CACHE_NULL_DELTA`,
repeats no bucket and visits only occupied buckets whose key has that home; every occupied
bucket lies on exactly one chain; keys are unique. -/
def well_formed (c : dt_cache_t) : Prop :=
  chains_sound c ∧ chains_cover c ∧ keys_unique c

instance (c : dt_cache_t) : Decidable (well_formed c) := by
  unfold well_formed; infer_instance

/-- The number of occupied buckets of a table. -/
def occupied_count (t : List dt_cache_bucket_t) : Nat :=
  t.countP (fun b => decide (b.hash ≠ DT_CACHE_EMPTY_HASH))

/-- The relation `put_run U c0 ops c`: the calls `dt_cache_put(k, v)` for the pairs `(k, v)` of
`ops`,
made in that order on `c0`, all return, and leave the cache `c`. -/
inductive put_run (U : undefined_t) (c0 : dt_cache_t) :
    List (Nat × Nat) → dt_cache_t → Prop
  | nil : put_run U c0 [] c0
  | snoc {ops : List (Nat × Nat)} {c c' : dt_cache_t} {fuel key data r : Nat} :
      put_run U c0 ops c → dt_cache_put U fuel c key data = .ok (r, c') →
      put_run U c0 (ops ++ [(key, data)]) c'

/-- The value given in the first pair of `ops` with key `j`. -/
def first_put (ops : List (Nat × Nat)) (j : Nat) : Option Nat :=
  (ops.find? (fun kv => kv.1 = j)).map (fun kv => kv.2)

/-- The number of distinct keys in `ops`. -/
def distinct_keys (ops : List (Nat × Nat)) : Nat :=
  ((ops.map (fun kv => kv.1)).dedup).length

/-- What a table `t'` looks like after the key `k` with data `v` was linked, in the free
bucket `F`, into the chain `l` of the home bucket `home` of table `t`, giving the chain
`l'`. -/
structure inserted (t t' : List dt_cache_bucket_t) (home F : Int) (k v : Nat)
    (l l' : List Int) : Prop where
  len : t'.length = t.length
  hash_new : (rd t' F).hash = k
  key_new : (rd t' F).key = k
  data_new : (rd t' F).data = v
  hash_old : ∀ q, q ≠ F → (rd t' q).hash = (rd t q).hash
  key_old : ∀ q, q ≠ F → (rd t' q).key = (rd t q).key
  data_old : ∀ q, q ≠ F → (rd t' q).data = (rd t q).data
  hd_old : ∀ h, h ≠ home → hd t' h = hd t h
  nxt_old : ∀ q, q ≠ F → q ∉ l → nxt t' q = nxt t q
  chain : Path t' (hd t' home) l' none
  mem : ∀ p, p ∈ l' ↔ p = F ∨ p ∈ l

/-- The invariant of the states reached from a fresh cache by the puts `ops`, none of them
of the reserved key `DT_CACHE_EMPTY_KEY`: the chains are sound and cover the occupied
buckets, which hold exactly the keys of `ops`, each with the data of its first put. -/
structure reach_inv (c : dt_cache_t) (ops : List (Nat × Nat)) : Prop where
  len : c.table.length ≤ 32767
  mask : c.bucket_mask < c.table.length
  chains : ∀ h : Int, inb c.table h → ∃ l, Path c.table (hd c.table h) l none ∧
    ∀ p ∈ l, occupied c.table p ∧ home_of c (rd c.table p).key = h
  cover : ∀ i : Int, inb c.table i → occupied c.table i →
    ∃ l, Path c.table (hd c.table (home_of c (rd c.table i).key)) l none ∧ i ∈ l
  from_ops : ∀ i : Int, inb c.table i → occupied c.table i →
    (rd c.table i).hash = (rd c.table i).key ∧
    first_put ops (rd c.table i).key = some (rd c.table i).data
  to_table : ∀ kv ∈ ops, ∃ i, inb c.table i ∧ occupied c.table i ∧ (rd c.table i).key = kv.1
  count : occupied_count c.table = distinct_keys ops
  unique : ∀ i j : Int, inb c.table i → inb c.table j → occupied c.table i →
    occupied c.table j → (rd c.table i).key = (rd c.table j).key → i = j

/-- The well-formedness of a table in terms of paths: what `well_formed` says, with bucket
indices as the code has them. -/
structure wf_paths (c : dt_cache_t) : Prop where
  chains : ∀ h : Int, inb c.table h → ∃ l, Path c.table (hd c.table h) l none ∧
    ∀ p ∈ l, occupied c.table p ∧ home_of c (rd c.table p).key = h
  cover : ∀ i : Int, inb c.table i → occupied c.table i →
    inb c.table (home_of c (rd c.table i).key) ∧
    ∃ l, Path c.table (hd c.table (home_of c (rd c.table i).key)) l none ∧ i ∈ l
  unique : ∀ i j : Int, inb c.table i → inb c.table j → occupied c.table i →
    occupied c.table j → (rd c.table i).key = (rd c.table j).key → i = j

/-- The hash, key and data stored in bucket `p`. -/
def entry (t : List dt_cache_bucket_t) (p : Int) : Nat × Nat × Nat :=
  ((rd t p).hash, (rd t p).key, (rd t p).data)

/-- The data of the first entry with the given hash and key: what a chain walk over buckets
holding these entries returns. -/
def find_entry (hash key : Nat) : List (Nat × Nat × Nat) → Option Nat
  | [] => none
  | e :: es => if hash = e.1 ∧ key = e.2.1 then some e.2.2 else find_entry hash key es

/-- What a table `t'` looks like after the bucket `X` was taken out of the chain
`l1 ++ X :: l2` of the home bucket `H` of table `t`. -/
structure removed (t t' : List dt_cache_bucket_t) (H X : Int) (l1 l2 : List Int) : Prop where
  len : t'.length = t.length
  hash_new : (rd t' X).hash = DT_CACHE_EMPTY_HASH
  key_new : (rd t' X).key = DT_CACHE_EMPTY_KEY
  data_new : (rd t' X).data = DT_CACHE_EMPTY_DATA
  hash_old : ∀ q, q ≠ X → (rd t' q).hash = (rd t q).hash
  key_old : ∀ q, q ≠ X → (rd t' q).key = (rd t q).key
  data_old : ∀ q, q ≠ X → (rd t' q).data = (rd t q).data
  hd_old : ∀ h, h ≠ H → hd t' h = hd t h
  nxt_old : ∀ q, q ∉ l1 ++ X :: l2 → nxt t' q = nxt t q
  chain : Path t' (hd t' H) (l1 ++ l2) none

/-- What a table `t'` looks like after the entry of bucket `E` was moved to the free bucket
`F`, in the chain `l1 ++ E :: l2` of the home bucket `H` of table `t`. -/
structure relocated (t t' : List dt_cache_bucket_t) (H E F : Int) (l1 l2 : List Int) :
    Prop where
  len : t'.length = t.length
  entry_new : entry t' F = entry t E
  hash_gone : (rd t' E).hash = DT_CACHE_EMPTY_HASH
  entry_old : ∀ q, q ≠ E → q ≠ F → entry t' q = entry t q
  hd_old : ∀ h, h ≠ H → hd t' h = hd t h
  nxt_old : ∀ q, q ≠ F → q ∉ l1 ++ E :: l2 → nxt t' q = nxt t q
  chain : Path t' (hd t' H) (l1 ++ F :: l2) none

/-- What `optimize_cacheline_use` on the free bucket `F` leaves: the cache as it was, or the
entry of one bucket `E` of one chain moved to `F`. -/
inductive optimized (c : dt_cache_t) (F : Int) (c2 : dt_cache_t) : Prop
  | same : c2 = c → optimized c F c2
  | moved (H E : Int) (l1 l2 : List Int) : inb c.table H →
      Path c.table (hd c.table H) (l1 ++ E :: l2) none →
      relocated c.table c2.table H E F l1 l2 →
      c2.bucket_mask = c.bucket_mask → c2.cache_mask = c.cache_mask →
      c2.segments.length = c.segments.length → c2.segment_mask = c.segment_mask →
      c2.segment_shift = c.segment_shift → optimized c F c2

/-- What the scan of `optimize_cacheline_use` over the home buckets `lo` to `hi` leaves: the
cache as it was, or the entry of one bucket `E` moved to `F`, where `E` is the first bucket of
the chain of a home bucket `H` between `lo` and `hi` that lies below `H` or more than
`cache_mask` above it. -/
inductive optimized_in (c : dt_cache_t) (F lo hi : Int) (c2 : dt_cache_t) : Prop
  | same : c2 = c → optimized_in c F lo hi c2
  | moved (H E : Int) (l1 l2 : List Int) : lo ≤ H → H ≤ hi → inb c.table H →
      Path c.table (hd c.table H) (l1 ++ E :: l2) none →
      (∀ p ∈ l1, ¬ (p - H < 0 ∨ p - H > c.cache_mask)) →
      (E - H < 0 ∨ E - H > c.cache_mask) →
      relocated c.table c2.table H E F l1 l2 →
      c2.bucket_mask = c.bucket_mask → c2.cache_mask = c.cache_mask →
      c2.segments.length = c.segments.length → c2.segment_mask = c.segment_mask →
      c2.segment_shift = c.segment_shift → optimized_in c F lo hi c2

/-- The offset `d` stored in bucket `a` is the index difference from `a` to bucket `b`,
without truncation to 16 bits, and is not `DT_CACHE_NULL_DELTA`. -/
def exact_offset (d a b : Int) : Prop :=
  d = b - a ∧ -32767 ≤ d ∧ d ≤ 32767 ∧ d ≠ DT_CACHE_NULL_DELTA

/-- The cache line of bucket `X`, from `get_start_cacheline_bucket` to that plus
`cache_mask`, lies inside the table. -/
def line_in_table (c : dt_cache_t) (X : Int) : Prop :=
  0 ≤ get_start_cacheline_bucket c X ∧
  get_start_cacheline_bucket c X + max 0 c.cache_mask < c.table.length

instance (c : dt_cache_t) (X : Int) : Decidable (line_in_table c X) := by
  unfold line_in_table; infer_instance

/-! ## Concrete inputs used by the examples -/

/-- The undefined values as an x86-64 processor with `lzcnt` supplies them: 32 leading
zeros in 0, shift counts taken modulo 32. -/
def undefined_x86 : undefined_t :=
  { clz_zero := 32, shift_wide := fun x s => x >>> (s % 32) }

/-- A zeroed `dt_cache_t`, as handed to `dt_cache_init`. -/
def cache_zeroed : dt_cache_t :=
  { segment_shift := 0, segment_mask := 0, bucket_mask := 0, segments := [], table := [],
    lru := 0, mru := 0, cache_mask := 0, is_cacheline_alignment := 0 }

/-- The cache `dt_cache_init(&cache, 2, 2, 64, optimize_cacheline)` builds. -/
def cache_2_2 (optimize_cacheline : Int) : dt_cache_t :=
  { cache_zeroed with
    segment_mask := 1, bucket_mask := 1, cache_mask := 1,
    is_cacheline_alignment := optimize_cacheline,
    segments := List.replicate 2 { timestamp := 0, lock := 0 },
    table := List.replicate 4099 empty_bucket }

/-- The cache `dt_cache_init(&cache, 2, 4, 64, 1)` builds. -/
def cache_2_4 : dt_cache_t :=
  { cache_zeroed with
    segment_shift := 1, segment_mask := 3, bucket_mask := 1, cache_mask := 1,
    is_cacheline_alignment := 1,
    segments := List.replicate 4 { timestamp := 0, lock := 0 },
    table := List.replicate 4099 empty_bucket }

/-- The cache of `dt_cache_init(&cache, 2, 2, 64, 1)` after `dt_cache_put(1, 7)`. -/
def cache_2_2_put_1 : dt_cache_t :=
  { cache_2_2 1 with
    table := wr (cache_2_2 1).table 1
      { empty_bucket with first_delta := 0, hash := 1, key := 1, data := 7 } }

/-- The cache of `dt_cache_init(&cache, 2, 2, 64, 1)` after `dt_cache_put(1, 7)` and
`dt_cache_put(3, 9)`. -/
def cache_2_2_put_1_3 : dt_cache_t :=
  { cache_2_2 1 with
    table := wr (wr (cache_2_2 1).table 1
      { empty_bucket with first_delta := 0, next_delta := -1, hash := 1, key := 1, data := 7 })
      0 { empty_bucket with hash := 3, key := 3, data := 9 } }

/-- The cache of `dt_cache_init(&cache, 2, 2, 64, 1)` after `dt_cache_put(0xFFFFFFFF, 1)`. -/
def cache_2_2_put_reserved : dt_cache_t :=
  { cache_2_2 1 with
    table := wr (cache_2_2 1).table 1 { empty_bucket with first_delta := 0, data := 1 } }

/-- The cache of `dt_cache_init(&cache, 2, 2, 64, 1)` after `dt_cache_put(0xFFFFFFFF, 1)` and
`dt_cache_put(1, 2)`: bucket 1 is its own successor. -/
def cache_2_2_put_reserved_1 : dt_cache_t :=
  { cache_2_2 1 with
    table := wr (cache_2_2 1).table 1
      { empty_bucket with first_delta := 0, next_delta := 0, hash := 1, key := 1, data := 2 } }

/-- The cache `dt_cache_init(&cache, 16, 2, 64, 1)` builds on x86-64. -/
def cache_16_2 : dt_cache_t :=
  { cache_zeroed with
    segment_shift := 4294967293, segment_mask := 1, bucket_mask := 15, cache_mask := 1,
    is_cacheline_alignment := 1,
    segments := List.replicate 2 { timestamp := 0, lock := 0 },
    table := List.replicate 4113 empty_bucket }

/-- The cache of `dt_cache_init(&cache, 16, 2, 64, 1)` after `dt_cache_put(1, 10)`. -/
def cache_16_2_put_1 : dt_cache_t :=
  { cache_16_2 with
    table := wr cache_16_2.table 1
      { empty_bucket with first_delta := 0, hash := 1, key := 1, data := 10 } }

/-- The cache of `dt_cache_init(&cache, 16, 2, 64, 1)` after `dt_cache_put(1, 10)` and
`dt_cache_put(17, 11)`. -/
def cache_16_2_put_1_17 : dt_cache_t :=
  { cache_16_2 with
    table := wr (wr cache_16_2.table 1
      { empty_bucket with first_delta := 0, next_delta := -1, hash := 1, key := 1, data := 10 })
      0 { empty_bucket with hash := 17, key := 17, data := 11 } }

/-- The cache of `dt_cache_init(&cache, 16, 2, 64, 1)` after `dt_cache_put(1, 10)`,
`dt_cache_put(17, 11)` and `dt_cache_put(33, 12)`: the chain of home bucket 1 is 1, 0, 3. -/
def cache_16_2_put_1_17_33 : dt_cache_t :=
  { cache_16_2 with
    table := wr (wr (wr cache_16_2.table 1
      { empty_bucket with first_delta := 0, next_delta := -1, hash := 1, key := 1, data := 10 })
      0 { empty_bucket with next_delta := 3, hash := 17, key := 17, data := 11 })
      3 { empty_bucket with hash := 33, key := 33, data := 12 } }

/-- A well-formed state of the cache of `dt_cache_init(&cache, 2, 2, 64, 1)`: key 0, whose home
is bucket 0, is stored in bucket 4098, the last bucket of the array. -/
def cache_2_2_far_entry : dt_cache_t :=
  { cache_2_2 1 with
    table := wr (wr (cache_2_2 1).table 0 { empty_bucket with first_delta := 4098 })
      4098 { empty_bucket with hash := 0, key := 0, data := 7 } }

/-- The state `remove_key` leaves when key 0 is removed from `cache_2_2_far_entry`. -/
def cache_2_2_far_entry_removed : dt_cache_t :=
  { cache_2_2 1 with
    segments := [{ timestamp := 1, lock := 0 }, { timestamp := 0, lock := 0 }] }

/-- The state after `remove_key` takes key 17 out of `cache_16_2_put_1_17_33`: the chain of
home bucket 1 is 1, 3. -/
def cache_16_2_removed_17 : dt_cache_t :=
  { cache_16_2 with
    segments := [{ timestamp := 1, lock := 0 }, { timestamp := 0, lock := 0 }]
    table := wr (wr cache_16_2.table 1
      { empty_bucket with first_delta := 0, next_delta := 2, hash := 1, key := 1, data := 10 })
      3 { empty_bucket with hash := 33, key := 33, data := 12 } }

/-- The state after `optimize_cacheline_use` on bucket 0 of `cache_16_2_removed_17`: key 33 has
moved from bucket 3 to bucket 0, and the chain of home bucket 1 is 1, 0. -/
def cache_16_2_removed_17_optimized : dt_cache_t :=
  { cache_16_2 with
    segments := [{ timestamp := 2, lock := 0 }, { timestamp := 0, lock := 0 }]
    table := wr (wr cache_16_2.table 1
      { empty_bucket with first_delta := 0, next_delta := -1, hash := 1, key := 1, data := 10 })
      0 { empty_bucket with hash := 33, key := 33, data := 12 } }

/-- The state after `remove_key` takes key 1 out of `cache_16_2_put_1_17`: bucket 1 is empty
and its head offset leads to bucket 0. -/
def cache_16_2_put_1_17_removed_1 : dt_cache_t :=
  { cache_16_2 with
    segments := [{ timestamp := 1, lock := 0 }, { timestamp := 0, lock := 0 }]
    table := wr (wr cache_16_2.table 1 { empty_bucket with first_delta := -1 })
      0 { empty_bucket with hash := 17, key := 17, data := 11 } }

/-- The cache of `dt_cache_init(&cache, 2, 4, 64, 1)` after `dt_cache_put(1, 10)`. -/
def cache_2_4_put_1 : dt_cache_t :=
  { cache_2_4 with
    table := wr cache_2_4.table 1
      { empty_bucket with first_delta := 0, hash := 1, key := 1, data := 10 } }

/-- The cache of `dt_cache_init(&cache, 2, 4, 64, 1)` after `dt_cache_put(1, 10)` and
`dt_cache_put(3, 11)`: the chain of home bucket 1 is 1, 0. -/
def cache_2_4_put_1_3 : dt_cache_t :=
  { cache_2_4 with
    table := wr (wr cache_2_4.table 1
      { empty_bucket with first_delta := 0, next_delta := -1, hash := 1, key := 1, data := 10 })
      0 { empty_bucket with hash := 3, key := 3, data := 11 } }

/-- The state after `remove_key` takes key 1 out of `cache_2_4_put_1_3`, with segment 0, the
segment of key 1. -/
def cache_2_4_removed_1 : dt_cache_t :=
  { cache_2_4 with
    segments := [{ timestamp := 1, lock := 0 }, { timestamp := 0, lock := 0 },
      { timestamp := 0, lock := 0 }, { timestamp := 0, lock := 0 }]
    table := wr (wr cache_2_4.table 1 { empty_bucket with first_delta := -1 })
      0 { empty_bucket with hash := 3, key := 3, data := 11 } }

/-- The state after `optimize_cacheline_use` on bucket 1 of `cache_2_4_removed_1`, with
segment 0: key 3 has moved from bucket 0 to bucket 1. -/
def cache_2_4_removed_1_optimized : dt_cache_t :=
  { cache_2_4 with
    segments := [{ timestamp := 2, lock := 0 }, { timestamp := 0, lock := 0 },
      { timestamp := 0, lock := 0 }, { timestamp := 0, lock := 0 }]
    table := wr cache_2_4.table 1
      { empty_bucket with first_delta := 0, hash := 3, key := 3, data := 11 } }

/-- The cache `dt_cache_init(&cache, 16, 2, 128, 1)` builds: cache lines of four buckets. -/
def cache_16_2_line4 : dt_cache_t :=
  { cache_zeroed with
    segment_shift := 4294967293, segment_mask := 1, bucket_mask := 15, cache_mask := 3,
    is_cacheline_alignment := 1,
    segments := List.replicate 2 { timestamp := 0, lock := 0 },
    table := List.replicate 4113 empty_bucket }

/-- The cache of `dt_cache_init(&cache, 16, 2, 128, 1)` after `dt_cache_put(2, 20)`. -/
def cache_16_2_line4_put_2 : dt_cache_t :=
  { cache_16_2_line4 with
    table := wr cache_16_2_line4.table 2
      { empty_bucket with first_delta := 0, hash := 2, key := 2, data := 20 } }

/-- The cache of `dt_cache_init(&cache, 16, 2, 128, 1)` after `dt_cache_put(2, 20)` and
`dt_cache_put(3, 30)`. -/
def cache_16_2_line4_put_2_3 : dt_cache_t :=
  { cache_16_2_line4 with
    table := wr (wr cache_16_2_line4.table 2
      { empty_bucket with first_delta := 0, hash := 2, key := 2, data := 20 })
      3 { empty_bucket with first_delta := 0, hash := 3, key := 3, data := 30 } }

/-- The cache of `dt_cache_init(&cache, 16, 2, 128, 1)` after `dt_cache_put(2, 20)`,
`dt_cache_put(3, 30)` and `dt_cache_put(18, 40)`: the chain of home bucket 2 is 2, 0. -/
def cache_16_2_line4_put_2_3_18 : dt_cache_t :=
  { cache_16_2_line4 with
    table := wr (wr (wr cache_16_2_line4.table 2
      { empty_bucket with first_delta := 0, next_delta := -2, hash := 2, key := 2, data := 20 })
      3 { empty_bucket with first_delta := 0, hash := 3, key := 3, data := 30 })
      0 { empty_bucket with hash := 18, key := 18, data := 40 } }

/-- The state after `optimize_cacheline_use` on the empty bucket 1 of
`cache_16_2_line4_put_2_3_18`, with segment 0: key 18 has moved from bucket 0 to bucket 1. -/
def cache_16_2_line4_optimized : dt_cache_t :=
  { cache_16_2_line4 with
    segments := [{ timestamp := 1, lock := 0 }, { timestamp := 0, lock := 0 }]
    table := wr (wr (wr cache_16_2_line4.table 2
      { empty_bucket with first_delta := 0, next_delta := -1, hash := 2, key := 2, data := 20 })
      3 { empty_bucket with first_delta := 0, hash := 3, key := 3, data := 30 })
      1 { empty_bucket with hash := 18, key := 18, data := 40 } }

/-- The state of `cache_16_2_put_1_17_removed_1` after `dt_cache_put(33, 12)`: the chain of
home bucket 1 is 1, 0, with key 33 in bucket 1 and key 17 in bucket 0. -/
def cache_16_2_put_1_17_removed_1_put_33 : dt_cache_t :=
  { cache_16_2 with
    segments := [{ timestamp := 1, lock := 0 }, { timestamp := 0, lock := 0 }]
    table := wr (wr cache_16_2.table 1
      { empty_bucket with first_delta := 0, next_delta := -1, hash := 33, key := 33, data := 12 })
      0 { empty_bucket with hash := 17, key := 17, data := 11 } }

end DtCache

namespace DtCache

/-! ## A run of puts that fills a forward range -/

/-- The cache `dt_cache_init(&cache, 65536, 65536, 524288, 0)` builds: as many segments as
home buckets, so that `segment_shift` is 0, cache lines of 16384 buckets, cache-line
placement disabled. -/
def cache_65536_segments : dt_cache_t :=
  { cache_zeroed with
    segment_shift := 0, segment_mask := 65535, bucket_mask := 65535, cache_mask := 16383,
    is_cacheline_alignment := 0,
    segments := List.replicate 65536 { timestamp := 0, lock := 0 },
    table := List.replicate 69633 empty_bucket }

/-- The puts that fill the forward range of home bucket 16386 in a cache of 65536 home
buckets with cache lines of 16384 buckets: the keys
`16386 + i` for `i < j`, each of which is its own home bucket and is stored 16384 buckets
above it. -/
def forward_fill_ops (j : Nat) : List (Nat × Nat) :=
  (List.range j).map (fun i => (16386 + i, 0))

/-- A run of 16386 puts on such a cache: the 16383 keys that fill the buckets
32770..49152, then three more keys of home bucket 16386, which are stored below it, in the
buckets 2, 1 and 0. -/
def overflow_ops : List (Nat × Nat) :=
  ((forward_fill_ops 16383 ++ [(81922, 0)]) ++ [(147458, 0)]) ++ [(212994, 0)]

/-- What such a cache looks like after the puts `forward_fill_ops j`: the homes
`16386 + i` with `i < j` point 16384 buckets up, to the bucket that holds their key, and
the rest of the table is as `dt_cache_init` left it. -/
structure forward_filled (c : dt_cache_t) (j : Nat) : Prop where
  bm : c.bucket_mask = 65535
  cm : c.cache_mask = 16383
  al : c.is_cacheline_alignment = 0
  len : c.table.length = 69633
  segs : c.segments.length = c.segment_mask + 1
  locks : ∀ s, (c.segments.getD s default).lock = 0
  heads : ∀ i : Nat, i < j → (rd c.table (16386 + (i : Int))).first_delta = 16384
  slots : ∀ i : Nat, i < j → (rd c.table (32770 + (i : Int))).hash = 16386 + i ∧
    (rd c.table (32770 + (i : Int))).key = 16386 + i ∧
    (rd c.table (32770 + (i : Int))).next_delta = DT_CACHE_NULL_DELTA
  no_head : ∀ q : Int, 0 ≤ q → q < 69633 → (q < 16386 ∨ 16386 + (j : Int) ≤ q) →
    (rd c.table q).first_delta = DT_CACHE_NULL_DELTA
  empty : ∀ q : Int, 0 ≤ q → q < 69633 → (q < 32770 ∨ 32770 + (j : Int) ≤ q) →
    (rd c.table q).hash = DT_CACHE_EMPTY_HASH ∧
    (rd c.table q).next_delta = DT_CACHE_NULL_DELTA

/-- What stays true of such a cache from the end of `forward_fill_ops 16383` on: home
bucket 16386 points to bucket 32770, which holds key 16386, and the buckets 32770..49152,
the forward range of that home, are all occupied. -/
structure forward_full (c : dt_cache_t) : Prop where
  bm : c.bucket_mask = 65535
  cm : c.cache_mask = 16383
  al : c.is_cacheline_alignment = 0
  len : c.table.length = 69633
  segs : c.segments.length = c.segment_mask + 1
  locks : ∀ s, (c.segments.getD s default).lock = 0
  head : (rd c.table 16386).first_delta = 16384
  first : (rd c.table 32770).hash = 16386
  full : ∀ q : Int, 32770 ≤ q → q ≤ 49152 → (rd c.table q).hash ≠ DT_CACHE_EMPTY_HASH

/-- The links of the home buckets stay among the home buckets, of which there are at most
32768, and the buckets past `bucket_mask` are as `dt_cache_init` left them. -/
structure home_links (c : dt_cache_t) : Prop where
  small : c.bucket_mask ≤ 32767
  mask : c.bucket_mask < c.table.length
  heads : ∀ i x : Int, 0 ≤ i → i ≤ c.bucket_mask → hd c.table i = some x →
    0 ≤ x ∧ x ≤ c.bucket_mask
  nexts : ∀ i x : Int, 0 ≤ i → i ≤ c.bucket_mask → nxt c.table i = some x →
    0 ≤ x ∧ x ≤ c.bucket_mask
  over : ∀ i : Int, inb c.table i → (c.bucket_mask : Int) < i →
    (rd c.table i).hash = DT_CACHE_EMPTY_HASH ∧ (rd c.table i).key = DT_CACHE_EMPTY_KEY ∧
    (rd c.table i).first_delta = DT_CACHE_NULL_DELTA ∧
    (rd c.table i).next_delta = DT_CACHE_NULL_DELTA

/-! ## A run of puts that fills the whole array -/

/-- The cache `dt_cache_init(&cache, 2, 2, 262144, 1)` builds: two home buckets, 4099
buckets in all, cache-line groups of 8192 buckets, cache-line placement enabled. -/
def cache_2_2_line_8192 : dt_cache_t :=
  { cache_zeroed with
    segment_shift := 0, segment_mask := 1, bucket_mask := 1, cache_mask := 8191,
    is_cacheline_alignment := 1,
    segments := List.replicate 2 { timestamp := 0, lock := 0 },
    table := List.replicate 4099 empty_bucket }

/-- The puts of the first `n` even keys `0, 2, 4, ...`, all of home bucket 0. -/
def line_fill_ops (n : Nat) : List (Nat × Nat) :=
  (List.range n).map (fun i => (2 * i, 0))

/-- What `cache_2_2_line_8192` looks like after the puts `line_fill_ops n`: key `2 * i` is
stored in bucket `i` for `i < n`, and the buckets from `n` on are empty. -/
structure line_filled (c : dt_cache_t) (n : Nat) : Prop where
  bm : c.bucket_mask = 1
  cm : c.cache_mask = 8191
  al : c.is_cacheline_alignment = 1
  len : c.table.length = 4099
  segs : c.segments.length = c.segment_mask + 1
  locks : ∀ s, (c.segments.getD s default).lock = 0
  inv : reach_inv c (line_fill_ops n)
  keys : ∀ i : Nat, i < n → (rd c.table (i : Int)).hash = 2 * i
  empty : ∀ q : Int, (n : Int) ≤ q → q < 4099 → (rd c.table q).hash = DT_CACHE_EMPTY_HASH

/-! ## A reader beside `dt_cache_remove` -/

end DtCache


namespace DtCache

/-! ## Reading and writing buckets -/

theorem length_wr (t : List dt_cache_bucket_t) (p : Int) (b : dt_cache_bucket_t) :
    (wr t p b).length = t.length := by
  unfold wr; split <;> simp

theorem inb_wr (t : List dt_cache_bucket_t) (p q : Int) (b : dt_cache_bucket_t) :
    inb (wr t p b) q ↔ inb t q := by
  simp [inb, length_wr]

theorem rd_wr (t : List dt_cache_bucket_t) (p q : Int) (b : dt_cache_bucket_t) :
    rd (wr t p b) q = if q = p ∧ inb t p then b else rd t q := by
  unfold rd wr inb
  by_cases hp : 0 ≤ p
  · by_cases hq : 0 ≤ q
    · by_cases hqp : q = p
      · subst hqp
        by_cases hlt : q < t.length
        · have : q.toNat < t.length := by omega
          simp [hq, hlt, List.getD_eq_getElem?_getD, List.getElem?_set, this]
        · have : t.length ≤ q.toNat := by omega
          simp [hq, hlt, List.getD_eq_getElem?_getD, List.getElem?_set,
            List.getElem?_eq_none this]
      · have : p.toNat ≠ q.toNat := by omega
        simp [hp, hq, hqp, List.getD_eq_getElem?_getD, List.getElem?_set, this]
    · have : q ≠ p := by omega
      simp [hp, hq, this]
  · by_cases hqp : q = p
    · subst hqp; simp [hp]
    · simp [hp, hqp]

theorem int16_t_of_range (x : Int) (h1 : -32768 ≤ x) (h2 : x ≤ 32767) : int16_t x = x := by
  unfold int16_t; omega


/-! ## Field writes: each one changes one field of one bucket -/

@[simp]
theorem length_wr_first_delta (t : List dt_cache_bucket_t) (p : Int) (v : Int) :
    (wr_first_delta t p v).length = t.length := by
  simp [wr_first_delta, length_wr]

@[simp]
theorem inb_wr_first_delta (t : List dt_cache_bucket_t) (p q : Int) (v : Int) :
    inb (wr_first_delta t p v) q ↔ inb t q := by
  simp [inb]

@[simp]
theorem first_delta_wr_first_delta (t : List dt_cache_bucket_t) (p q : Int) (v : Int) :
    (rd (wr_first_delta t p v) q).first_delta = if q = p ∧ inb t p then v else (rd t q).first_delta := by
  simp only [wr_first_delta, rd_wr]; split <;> simp

@[simp]
theorem next_delta_wr_first_delta (t : List dt_cache_bucket_t) (p q : Int) (v : Int) :
    (rd (wr_first_delta t p v) q).next_delta = (rd t q).next_delta := by
  simp only [wr_first_delta, rd_wr]; split
  · rename_i h; simp [h.1]
  · rfl

@[simp]
theorem read_wr_first_delta (t : List dt_cache_bucket_t) (p q : Int) (v : Int) :
    (rd (wr_first_delta t p v) q).read = (rd t q).read := by
  simp only [wr_first_delta, rd_wr]; split
  · rename_i h; simp [h.1]
  · rfl

@[simp]
theorem write_wr_first_delta (t : List dt_cache_bucket_t) (p q : Int) (v : Int) :
    (rd (wr_first_delta t p v) q).write = (rd t q).write := by
  simp only [wr_first_delta, rd_wr]; split
  · rename_i h; simp [h.1]
  · rfl

@[simp]
theorem lru_wr_first_delta (t : List dt_cache_bucket_t) (p q : Int) (v : Int) :
    (rd (wr_first_delta t p v) q).lru = (rd t q).lru := by
  simp only [wr_first_delta, rd_wr]; split
  · rename_i h; simp [h.1]
  · rfl

@[simp]
theorem mru_wr_first_delta (t : List dt_cache_bucket_t) (p q : Int) (v : Int) :
    (rd (wr_first_delta t p v) q).mru = (rd t q).mru := by
  simp only [wr_first_delta, rd_wr]; split
  · rename_i h; simp [h.1]
  · rfl

@[simp]
theorem hash_wr_first_delta (t : List dt_cache_bucket_t) (p q : Int) (v : Int) :
    (rd (wr_first_delta t p v) q).hash = (rd t q).hash := by
  simp only [wr_first_delta, rd_wr]; split
  · rename_i h; simp [h.1]
  · rfl

@[simp]
theorem key_wr_first_delta (t : List dt_cache_bucket_t) (p q : Int) (v : Int) :
    (rd (wr_first_delta t p v) q).key = (rd t q).key := by
  simp only [wr_first_delta, rd_wr]; split
  · rename_i h; simp [h.1]
  · rfl

@[simp]
theorem data_wr_first_delta (t : List dt_cache_bucket_t) (p q : Int) (v : Int) :
    (rd (wr_first_delta t p v) q).data = (rd t q).data := by
  simp only [wr_first_delta, rd_wr]; split
  · rename_i h; simp [h.1]
  · rfl

@[simp]
theorem length_wr_next_delta (t : List dt_cache_bucket_t) (p : Int) (v : Int) :
    (wr_next_delta t p v).length = t.length := by
  simp [wr_next_delta, length_wr]

@[simp]
theorem inb_wr_next_delta (t : List dt_cache_bucket_t) (p q : Int) (v : Int) :
    inb (wr_next_delta t p v) q ↔ inb t q := by
  simp [inb]

@[simp]
theorem first_delta_wr_next_delta (t : List dt_cache_bucket_t) (p q : Int) (v : Int) :
    (rd (wr_next_delta t p v) q).first_delta = (rd t q).first_delta := by
  simp only [wr_next_delta, rd_wr]; split
  · rename_i h; simp [h.1]
  · rfl

@[simp]
theorem next_delta_wr_next_delta (t : List dt_cache_bucket_t) (p q : Int) (v : Int) :
    (rd (wr_next_delta t p v) q).next_delta = if q = p ∧ inb t p then v else (rd t q).next_delta := by
  simp only [wr_next_delta, rd_wr]; split <;> simp

@[simp]
theorem read_wr_next_delta (t : List dt_cache_bucket_t) (p q : Int) (v : Int) :
    (rd (wr_next_delta t p v) q).read = (rd t q).read := by
  simp only [wr_next_delta, rd_wr]; split
  · rename_i h; simp [h.1]
  · rfl

@[simp]
theorem write_wr_next_delta (t : List dt_cache_bucket_t) (p q : Int) (v : Int) :
    (rd (wr_next_delta t p v) q).write = (rd t q).write := by
  simp only [wr_next_delta, rd_wr]; split
  · rename_i h; simp [h.1]
  · rfl

@[simp]
theorem lru_wr_next_delta (t : List dt_cache_bucket_t) (p q : Int) (v : Int) :
    (rd (wr_next_delta t p v) q).lru = (rd t q).lru := by
  simp only [wr_next_delta, rd_wr]; split
  · rename_i h; simp [h.1]
  · rfl

@[simp]
theorem mru_wr_next_delta (t : List dt_cache_bucket_t) (p q : Int) (v : Int) :
    (rd (wr_next_delta t p v) q).mru = (rd t q).mru := by
  simp only [wr_next_delta, rd_wr]; split
  · rename_i h; simp [h.1]
  · rfl

@[simp]
theorem hash_wr_next_delta (t : List dt_cache_bucket_t) (p q : Int) (v : Int) :
    (rd (wr_next_delta t p v) q).hash = (rd t q).hash := by
  simp only [wr_next_delta, rd_wr]; split
  · rename_i h; simp [h.1]
  · rfl

@[simp]
theorem key_wr_next_delta (t : List dt_cache_bucket_t) (p q : Int) (v : Int) :
    (rd (wr_next_delta t p v) q).key = (rd t q).key := by
  simp only [wr_next_delta, rd_wr]; split
  · rename_i h; simp [h.1]
  · rfl

@[simp]
theorem data_wr_next_delta (t : List dt_cache_bucket_t) (p q : Int) (v : Int) :
    (rd (wr_next_delta t p v) q).data = (rd t q).data := by
  simp only [wr_next_delta, rd_wr]; split
  · rename_i h; simp [h.1]
  · rfl

@[simp]
theorem length_wr_hash (t : List dt_cache_bucket_t) (p : Int) (v : Nat) :
    (wr_hash t p v).length = t.length := by
  simp [wr_hash, length_wr]

@[simp]
theorem inb_wr_hash (t : List dt_cache_bucket_t) (p q : Int) (v : Nat) :
    inb (wr_hash t p v) q ↔ inb t q := by
  simp [inb]

@[simp]
theorem first_delta_wr_hash (t : List dt_cache_bucket_t) (p q : Int) (v : Nat) :
    (rd (wr_hash t p v) q).first_delta = (rd t q).first_delta := by
  simp only [wr_hash, rd_wr]; split
  · rename_i h; simp [h.1]
  · rfl

@[simp]
theorem next_delta_wr_hash (t : List dt_cache_bucket_t) (p q : Int) (v : Nat) :
    (rd (wr_hash t p v) q).next_delta = (rd t q).next_delta := by
  simp only [wr_hash, rd_wr]; split
  · rename_i h; simp [h.1]
  · rfl

@[simp]
theorem read_wr_hash (t : List dt_cache_bucket_t) (p q : Int) (v : Nat) :
    (rd (wr_hash t p v) q).read = (rd t q).read := by
  simp only [wr_hash, rd_wr]; split
  · rename_i h; simp [h.1]
  · rfl

@[simp]
theorem write_wr_hash (t : List dt_cache_bucket_t) (p q : Int) (v : Nat) :
    (rd (wr_hash t p v) q).write = (rd t q).write := by
  simp only [wr_hash, rd_wr]; split
  · rename_i h; simp [h.1]
  · rfl

@[simp]
theorem lru_wr_hash (t : List dt_cache_bucket_t) (p q : Int) (v : Nat) :
    (rd (wr_hash t p v) q).lru = (rd t q).lru := by
  simp only [wr_hash, rd_wr]; split
  · rename_i h; simp [h.1]
  · rfl

@[simp]
theorem mru_wr_hash (t : List dt_cache_bucket_t) (p q : Int) (v : Nat) :
    (rd (wr_hash t p v) q).mru = (rd t q).mru := by
  simp only [wr_hash, rd_wr]; split
  · rename_i h; simp [h.1]
  · rfl

@[simp]
theorem hash_wr_hash (t : List dt_cache_bucket_t) (p q : Int) (v : Nat) :
    (rd (wr_hash t p v) q).hash = if q = p ∧ inb t p then v else (rd t q).hash := by
  simp only [wr_hash, rd_wr]; split <;> simp

@[simp]
theorem key_wr_hash (t : List dt_cache_bucket_t) (p q : Int) (v : Nat) :
    (rd (wr_hash t p v) q).key = (rd t q).key := by
  simp only [wr_hash, rd_wr]; split
  · rename_i h; simp [h.1]
  · rfl

@[simp]
theorem data_wr_hash (t : List dt_cache_bucket_t) (p q : Int) (v : Nat) :
    (rd (wr_hash t p v) q).data = (rd t q).data := by
  simp only [wr_hash, rd_wr]; split
  · rename_i h; simp [h.1]
  · rfl

@[simp]
theorem length_wr_key (t : List dt_cache_bucket_t) (p : Int) (v : Nat) :
    (wr_key t p v).length = t.length := by
  simp [wr_key, length_wr]

@[simp]
theorem inb_wr_key (t : List dt_cache_bucket_t) (p q : Int) (v : Nat) :
    inb (wr_key t p v) q ↔ inb t q := by
  simp [inb]

@[simp]
theorem first_delta_wr_key (t : List dt_cache_bucket_t) (p q : Int) (v : Nat) :
    (rd (wr_key t p v) q).first_delta = (rd t q).first_delta := by
  simp only [wr_key, rd_wr]; split
  · rename_i h; simp [h.1]
  · rfl

@[simp]
theorem next_delta_wr_key (t : List dt_cache_bucket_t) (p q : Int) (v : Nat) :
    (rd (wr_key t p v) q).next_delta = (rd t q).next_delta := by
  simp only [wr_key, rd_wr]; split
  · rename_i h; simp [h.1]
  · rfl

@[simp]
theorem read_wr_key (t : List dt_cache_bucket_t) (p q : Int) (v : Nat) :
    (rd (wr_key t p v) q).read = (rd t q).read := by
  simp only [wr_key, rd_wr]; split
  · rename_i h; simp [h.1]
  · rfl

@[simp]
theorem write_wr_key (t : List dt_cache_bucket_t) (p q : Int) (v : Nat) :
    (rd (wr_key t p v) q).write = (rd t q).write := by
  simp only [wr_key, rd_wr]; split
  · rename_i h; simp [h.1]
  · rfl

@[simp]
theorem lru_wr_key (t : List dt_cache_bucket_t) (p q : Int) (v : Nat) :
    (rd (wr_key t p v) q).lru = (rd t q).lru := by
  simp only [wr_key, rd_wr]; split
  · rename_i h; simp [h.1]
  · rfl

@[simp]
theorem mru_wr_key (t : List dt_cache_bucket_t) (p q : Int) (v : Nat) :
    (rd (wr_key t p v) q).mru = (rd t q).mru := by
  simp only [wr_key, rd_wr]; split
  · rename_i h; simp [h.1]
  · rfl

@[simp]
theorem hash_wr_key (t : List dt_cache_bucket_t) (p q : Int) (v : Nat) :
    (rd (wr_key t p v) q).hash = (rd t q).hash := by
  simp only [wr_key, rd_wr]; split
  · rename_i h; simp [h.1]
  · rfl

@[simp]
theorem key_wr_key (t : List dt_cache_bucket_t) (p q : Int) (v : Nat) :
    (rd (wr_key t p v) q).key = if q = p ∧ inb t p then v else (rd t q).key := by
  simp only [wr_key, rd_wr]; split <;> simp

@[simp]
theorem data_wr_key (t : List dt_cache_bucket_t) (p q : Int) (v : Nat) :
    (rd (wr_key t p v) q).data = (rd t q).data := by
  simp only [wr_key, rd_wr]; split
  · rename_i h; simp [h.1]
  · rfl

@[simp]
theorem length_wr_data (t : List dt_cache_bucket_t) (p : Int) (v : Nat) :
    (wr_data t p v).length = t.length := by
  simp [wr_data, length_wr]

@[simp]
theorem inb_wr_data (t : List dt_cache_bucket_t) (p q : Int) (v : Nat) :
    inb (wr_data t p v) q ↔ inb t q := by
  simp [inb]

@[simp]
theorem first_delta_wr_data (t : List dt_cache_bucket_t) (p q : Int) (v : Nat) :
    (rd (wr_data t p v) q).first_delta = (rd t q).first_delta := by
  simp only [wr_data, rd_wr]; split
  · rename_i h; simp [h.1]
  · rfl

@[simp]
theorem next_delta_wr_data (t : List dt_cache_bucket_t) (p q : Int) (v : Nat) :
    (rd (wr_data t p v) q).next_delta = (rd t q).next_delta := by
  simp only [wr_data, rd_wr]; split
  · rename_i h; simp [h.1]
  · rfl

@[simp]
theorem read_wr_data (t : List dt_cache_bucket_t) (p q : Int) (v : Nat) :
    (rd (wr_data t p v) q).read = (rd t q).read := by
  simp only [wr_data, rd_wr]; split
  · rename_i h; simp [h.1]
  · rfl

@[simp]
theorem write_wr_data (t : List dt_cache_bucket_t) (p q : Int) (v : Nat) :
    (rd (wr_data t p v) q).write = (rd t q).write := by
  simp only [wr_data, rd_wr]; split
  · rename_i h; simp [h.1]
  · rfl

@[simp]
theorem lru_wr_data (t : List dt_cache_bucket_t) (p q : Int) (v : Nat) :
    (rd (wr_data t p v) q).lru = (rd t q).lru := by
  simp only [wr_data, rd_wr]; split
  · rename_i h; simp [h.1]
  · rfl

@[simp]
theorem mru_wr_data (t : List dt_cache_bucket_t) (p q : Int) (v : Nat) :
    (rd (wr_data t p v) q).mru = (rd t q).mru := by
  simp only [wr_data, rd_wr]; split
  · rename_i h; simp [h.1]
  · rfl

@[simp]
theorem hash_wr_data (t : List dt_cache_bucket_t) (p q : Int) (v : Nat) :
    (rd (wr_data t p v) q).hash = (rd t q).hash := by
  simp only [wr_data, rd_wr]; split
  · rename_i h; simp [h.1]
  · rfl

@[simp]
theorem key_wr_data (t : List dt_cache_bucket_t) (p q : Int) (v : Nat) :
    (rd (wr_data t p v) q).key = (rd t q).key := by
  simp only [wr_data, rd_wr]; split
  · rename_i h; simp [h.1]
  · rfl

@[simp]
theorem data_wr_data (t : List dt_cache_bucket_t) (p q : Int) (v : Nat) :
    (rd (wr_data t p v) q).data = if q = p ∧ inb t p then v else (rd t q).data := by
  simp only [wr_data, rd_wr]; split <;> simp

end DtCache


namespace DtCache

/-! ## The concrete caches are what `dt_cache_init` builds -/

theorem init_cache_2_2_off :
    dt_cache_init undefined_x86 40 cache_zeroed 2 2 64 0 = .ok (cache_2_2 0) := by decide!

theorem init_cache_2_2_on :
    dt_cache_init undefined_x86 40 cache_zeroed 2 2 64 1 = .ok (cache_2_2 1) := by decide!

theorem init_cache_2_4 :
    dt_cache_init undefined_x86 40 cache_zeroed 2 4 64 1 = .ok cache_2_4 := by decide!

/-! ## `dt_cache_remove` spins -/

theorem dt_cache_remove_while_1_timeout (fuel : Nat) :
    dt_cache_remove_while_1 fuel = .timeout := by
  induction fuel with
  | zero => rfl
  | succ n ih => simpa [dt_cache_remove_while_1] using ih

theorem dt_cache_remove_no_return (U : undefined_t) (fuel : Nat) (cache : dt_cache_t)
    (key : Nat) (r : Nat × dt_cache_t) : dt_cache_remove U fuel cache key ≠ .ok r := by
  unfold dt_cache_remove
  simp only [dt_cache_remove_while_1_timeout]
  split
  · simp
  · cases dt_cache_lock cache.segments (segment_of U cache key) fuel <;>
      simp [Outcome.bind]
    split <;> simp

end DtCache


namespace DtCache

/-! ## Paths -/

theorem link_null (p : Int) : link p DT_CACHE_NULL_DELTA = none := by simp [link]

theorem link_of_ne (p d : Int) (h : d ≠ DT_CACHE_NULL_DELTA) : link p d = some (p + d) := by
  simp [link, h]

theorem Path.inb_of_mem {t : List dt_cache_bucket_t} {o o' : Option Int} {l : List Int}
    (h : Path t o l o') : ∀ p ∈ l, inb t p := by
  induction h with
  | nil => simp
  | cons hp _ ih =>
    intro q hq
    rcases List.mem_cons.1 hq with rfl | hq
    · exact hp
    · exact ih q hq

theorem Path.append {t : List dt_cache_bucket_t} {o o1 o2 : Option Int} {l1 l2 : List Int}
    (h1 : Path t o l1 o1) (h2 : Path t o1 l2 o2) : Path t o (l1 ++ l2) o2 := by
  induction h1 with
  | nil => simpa using h2
  | cons hp _ ih => exact Path.cons hp (ih h2)

theorem Path.split {t : List dt_cache_bucket_t} {o2 : Option Int} {l2 : List Int} :
    ∀ (l1 : List Int) (o : Option Int), Path t o (l1 ++ l2) o2 →
      ∃ o1, Path t o l1 o1 ∧ Path t o1 l2 o2
  | [], o, h => ⟨o, Path.nil o, by simpa using h⟩
  | p :: l1, o, h => by
    cases h with
    | cons hp h' =>
      obtain ⟨o1, ha, hb⟩ := Path.split l1 _ h'
      exact ⟨o1, Path.cons hp ha, hb⟩

theorem Path.of_none {t : List dt_cache_bucket_t} {l : List Int} {o' : Option Int}
    (h : Path t none l o') : l = [] ∧ o' = none := by
  cases h; exact ⟨rfl, rfl⟩

theorem Path.of_some {t : List dt_cache_bucket_t} {p : Int} {l : List Int}
    (h : Path t (some p) l none) : ∃ l', l = p :: l' ∧ inb t p ∧ Path t (nxt t p) l' none := by
  cases h with
  | cons hp h' => exact ⟨_, rfl, hp, h'⟩

theorem Path.functional {t : List dt_cache_bucket_t} {o : Option Int} {l1 : List Int}
    (h1 : Path t o l1 none) : ∀ {l2 : List Int}, Path t o l2 none → l1 = l2 := by
  generalize hn : (none : Option Int) = e at h1
  induction h1 with
  | nil o =>
    intro l2 h2
    subst hn
    exact (Path.of_none h2).1.symm
  | cons hp _ ih =>
    intro l2 h2
    subst hn
    obtain ⟨l', rfl, _, h'⟩ := Path.of_some h2
    rw [ih rfl h']

theorem Path.frame {t t' : List dt_cache_bucket_t} {o o' : Option Int} {l : List Int}
    (h : Path t o l o') (hlen : t'.length = t.length)
    (hn : ∀ p ∈ l, nxt t' p = nxt t p) : Path t' o l o' := by
  induction h with
  | nil o => exact Path.nil o
  | cons hp _ ih =>
    refine Path.cons ?_ ?_
    · simpa [inb, hlen] using hp
    · rw [hn _ (List.mem_cons_self _ _)]
      exact ih fun q hq => hn q (List.mem_cons_of_mem _ hq)

theorem Path.nodup {t : List dt_cache_bucket_t} :
    ∀ (l : List Int) (o : Option Int), Path t o l none → l.Nodup
  | [], _, _ => List.nodup_nil
  | p :: l, o, h => by
    cases h with
    | cons hp h1 =>
      refine List.nodup_cons.2 ⟨?_, Path.nodup l _ h1⟩
      intro hmem
      obtain ⟨l1, l2, rfl⟩ := List.append_of_mem hmem
      obtain ⟨o1, _, hb⟩ := Path.split l1 _ h1
      cases hb with
      | cons _ hb' =>
        have := Path.functional h1 hb'
        have hl := congrArg List.length this
        simp at hl
        omega

/-! ## The computed chain and paths -/

theorem chain_of_eq_some {t : List dt_cache_bucket_t} :
    ∀ (n : Nat) (o : Option Int) (l : List Int),
      chain_of t n o = some l ↔ Path t o l none ∧ l.length ≤ n := by
  intro n
  induction n with
  | zero =>
    intro o l
    cases o with
    | none =>
      simp only [chain_of]
      constructor
      · intro h; cases h; exact ⟨Path.nil _, le_refl _⟩
      · intro h; rw [(Path.of_none h.1).1]
    | some p =>
      simp only [chain_of]
      constructor
      · intro h; cases h
      · intro h
        obtain ⟨l', rfl, _, _⟩ := Path.of_some h.1
        simp at h
  | succ n ih =>
    intro o l
    cases o with
    | none =>
      simp only [chain_of]
      constructor
      · intro h; cases h; exact ⟨Path.nil _, Nat.zero_le _⟩
      · intro h; rw [(Path.of_none h.1).1]
    | some p =>
      simp only [chain_of]
      by_cases hp : inb t p
      · simp only [hp, if_true, Option.map_eq_some']
        constructor
        · rintro ⟨l', h, rfl⟩
          obtain ⟨h1, h2⟩ := (ih _ _).1 h
          exact ⟨Path.cons hp h1, by simpa using h2⟩
        · rintro ⟨h1, h2⟩
          obtain ⟨l', rfl, _, h'⟩ := Path.of_some h1
          exact ⟨l', (ih _ _).2 ⟨h', by simpa using h2⟩, rfl⟩
      · simp only [hp, if_false]
        constructor
        · intro h; cases h
        · intro h
          obtain ⟨l', rfl, hp', _⟩ := Path.of_some h.1
          exact absurd hp' hp

end DtCache


namespace DtCache

theorem Path.length_le {t : List dt_cache_bucket_t} {o : Option Int} {l : List Int}
    (h : Path t o l none) : l.length ≤ t.length := by
  have hnd := Path.nodup l o h
  have hsub : l ⊆ (List.range t.length).map (fun n : Nat => (n : Int)) := by
    intro p hp
    have hb := Path.inb_of_mem h p hp
    refine List.mem_map.2 ⟨p.toNat, List.mem_range.2 ?_, ?_⟩
    · have h1 := hb.1; have h2 := hb.2; omega
    · have h1 := hb.1; omega
  have := (List.subperm_of_subset hnd hsub).length_le
  simpa using this

theorem chain_of_length {t : List dt_cache_bucket_t} (o : Option Int) (l : List Int) :
    chain_of t t.length o = some l ↔ Path t o l none := by
  rw [chain_of_eq_some]
  exact ⟨fun h => h.1, fun h => ⟨h, Path.length_le h⟩⟩

/-! ## The chain walks of `dt_cache_put` and `dt_cache_contains` -/

theorem last_of_nil (last : Option Int) : last_of last [] = last := rfl

theorem last_of_cons (last : Option Int) (p : Int) (l : List Int) :
    last_of last (p :: l) = last_of (some p) l := rfl

theorem last_of_append_singleton (last : Option Int) (l : List Int) (p : Int) :
    last_of last (l ++ [p]) = some p := by
  simp [last_of, List.foldl_append]

theorem last_of_eq_none {last : Option Int} {l : List Int} (h : last_of last l = none) :
    l = [] ∧ last = none := by
  rcases List.eq_nil_or_concat l with rfl | ⟨l', p, rfl⟩
  · exact ⟨rfl, h⟩
  · simp [last_of, List.concat_eq_append, List.foldl_append] at h

theorem last_of_eq_some {last : Option Int} {l : List Int} {q : Int}
    (h : last_of last l = some q) : (l = [] ∧ last = some q) ∨ ∃ l', l = l' ++ [q] := by
  rcases List.eq_nil_or_concat l with rfl | ⟨l', p, rfl⟩
  · exact Or.inl ⟨rfl, h⟩
  · right
    simp [last_of, List.concat_eq_append, List.foldl_append] at h
    exact ⟨l', by rw [h, List.concat_eq_append]⟩

theorem contains_walk_eq (t : List dt_cache_bucket_t) (hash key : Nat) :
    ∀ (fuel : Nat) (cur : Int) (last : Option Int) (nd : Int),
      dt_cache_contains_walk t hash key fuel cur nd =
        (dt_cache_put_walk t hash key fuel cur last nd).bind fun w =>
          match w with
          | .found _ => .ok (1 : Int)
          | .absent _ => .ok (0 : Int) := by
  intro fuel
  induction fuel with
  | zero =>
    intro cur last nd
    simp only [dt_cache_contains_walk, dt_cache_put_walk]
    split <;> simp [Outcome.bind]
  | succ n ih =>
    intro cur last nd
    simp only [dt_cache_contains_walk, dt_cache_put_walk]
    split
    · split
      · simp [Outcome.bind]
      · split
        · simp [Outcome.bind]
        · exact ih _ _ _
    · simp [Outcome.bind]

theorem put_walk_absent_of_path (t : List dt_cache_bucket_t) (hash key : Nat) :
    ∀ (fuel : Nat) (cur : Int) (last : Option Int) (nd : Int) (l : List Int),
      Path t (link cur nd) l none → (∀ p ∈ l, ¬ holds t hash key p) → l.length ≤ fuel →
      dt_cache_put_walk t hash key fuel cur last nd = .ok (.absent (last_of last l)) := by
  intro fuel
  induction fuel with
  | zero =>
    intro cur last nd l hp _ hlen
    have hl : l = [] := by simpa using hlen
    subst hl
    by_cases hnd : nd = DT_CACHE_NULL_DELTA
    · simp [dt_cache_put_walk, hnd, last_of]
    · rw [link_of_ne _ _ hnd] at hp
      cases hp
  | succ n ih =>
    intro cur last nd l hp hno hlen
    by_cases hnd : nd = DT_CACHE_NULL_DELTA
    · subst hnd
      rw [link_null] at hp
      obtain ⟨rfl, -⟩ := Path.of_none hp
      simp [dt_cache_put_walk, last_of]
    · rw [link_of_ne _ _ hnd] at hp
      obtain ⟨l', rfl, hin, hp'⟩ := Path.of_some hp
      have hnh : ¬ holds t hash key (cur + nd) := hno _ (List.mem_cons_self _ _)
      have hnh' : ¬ (hash = (rd t (cur + nd)).hash ∧ key = (rd t (cur + nd)).key) := hnh
      simp only [dt_cache_put_walk, hnd, ne_eq, not_false_eq_true, if_true, hin, not_true_eq_false,
        if_false, hnh']
      rw [last_of_cons]
      exact ih _ _ _ l' hp' (fun q hq => hno q (List.mem_cons_of_mem _ hq))
        (by simpa using hlen)

theorem put_walk_found_of_path (t : List dt_cache_bucket_t) (hash key : Nat) :
    ∀ (fuel : Nat) (cur : Int) (last : Option Int) (nd : Int) (l : List Int) (q : Int),
      Path t (link cur nd) l (some q) → inb t q → (∀ p ∈ l, ¬ holds t hash key p) →
      holds t hash key q → l.length + 1 ≤ fuel →
      dt_cache_put_walk t hash key fuel cur last nd = .ok (.found (rd t q).data) := by
  intro fuel
  induction fuel with
  | zero => intro cur last nd l q _ _ _ _ hlen; omega
  | succ n ih =>
    intro cur last nd l q hp hq hno hh hlen
    by_cases hnd : nd = DT_CACHE_NULL_DELTA
    · subst hnd
      rw [link_null] at hp
      cases hp
    · rw [link_of_ne _ _ hnd] at hp
      cases hp with
      | nil =>
        have hh' : hash = (rd t (cur + nd)).hash ∧ key = (rd t (cur + nd)).key := hh
        simp [dt_cache_put_walk, hnd, hq, hh']
      | cons hin hp' =>
        have hnh : ¬ (hash = (rd t (cur + nd)).hash ∧ key = (rd t (cur + nd)).key) :=
          hno _ (List.mem_cons_self _ _)
        simp only [dt_cache_put_walk, hnd, ne_eq, not_false_eq_true, if_true, hin,
          not_true_eq_false, if_false, hnh]
        exact ih _ _ _ _ q hp' hq (fun p hp => hno p (List.mem_cons_of_mem _ hp)) hh
          (by simpa using hlen)

theorem path_of_put_walk_absent (t : List dt_cache_bucket_t) (hash key : Nat) :
    ∀ (fuel : Nat) (cur : Int) (last : Option Int) (nd : Int) (last' : Option Int),
      dt_cache_put_walk t hash key fuel cur last nd = .ok (.absent last') →
      ∃ l, Path t (link cur nd) l none ∧ (∀ p ∈ l, ¬ holds t hash key p) ∧ l.length ≤ fuel
        ∧ last' = last_of last l := by
  intro fuel
  induction fuel with
  | zero =>
    intro cur last nd last' h
    by_cases hnd : nd = DT_CACHE_NULL_DELTA
    · subst hnd
      simp [dt_cache_put_walk] at h
      exact ⟨[], by rw [link_null]; exact Path.nil _, by simp, by simp, by simp [last_of, h]⟩
    · simp [dt_cache_put_walk, hnd] at h
  | succ n ih =>
    intro cur last nd last' h
    by_cases hnd : nd = DT_CACHE_NULL_DELTA
    · subst hnd
      simp [dt_cache_put_walk] at h
      exact ⟨[], by rw [link_null]; exact Path.nil _, by simp, by simp, by simp [last_of, h]⟩
    · simp only [dt_cache_put_walk, hnd, ne_eq, not_false_eq_true, if_true] at h
      by_cases hin : inb t (cur + nd)
      · simp only [hin, not_true_eq_false, if_false] at h
        by_cases hh : hash = (rd t (cur + nd)).hash ∧ key = (rd t (cur + nd)).key
        · simp [hh] at h
        · simp only [hh, if_false] at h
          obtain ⟨l, hp, hno, hlen, hlast⟩ := ih _ _ _ _ h
          refine ⟨(cur + nd) :: l, ?_, ?_, by simpa using hlen, by rw [last_of_cons]; exact hlast⟩
          · rw [link_of_ne _ _ hnd]; exact Path.cons hin hp
          · intro p hp'
            rcases List.mem_cons.1 hp' with rfl | hp'
            · exact hh
            · exact hno p hp'
      · simp [hin] at h

theorem path_of_put_walk_found (t : List dt_cache_bucket_t) (hash key : Nat) :
    ∀ (fuel : Nat) (cur : Int) (last : Option Int) (nd : Int) (d : Nat),
      dt_cache_put_walk t hash key fuel cur last nd = .ok (.found d) →
      ∃ l q, Path t (link cur nd) l (some q) ∧ inb t q ∧ (∀ p ∈ l, ¬ holds t hash key p)
        ∧ holds t hash key q ∧ d = (rd t q).data ∧ l.length + 1 ≤ fuel := by
  intro fuel
  induction fuel with
  | zero =>
    intro cur last nd d h
    by_cases hnd : nd = DT_CACHE_NULL_DELTA <;> simp [dt_cache_put_walk, hnd] at h
  | succ n ih =>
    intro cur last nd d h
    by_cases hnd : nd = DT_CACHE_NULL_DELTA
    · simp [dt_cache_put_walk, hnd] at h
    · simp only [dt_cache_put_walk, hnd, ne_eq, not_false_eq_true, if_true] at h
      by_cases hin : inb t (cur + nd)
      · simp only [hin, not_true_eq_false, if_false] at h
        by_cases hh : hash = (rd t (cur + nd)).hash ∧ key = (rd t (cur + nd)).key
        · simp only [hh, and_self, if_true, Outcome.ok.injEq, put_walk_t.found.injEq] at h
          refine ⟨[], cur + nd, ?_, hin, by simp, hh, h.symm, by simp⟩
          rw [link_of_ne _ _ hnd]; exact Path.nil _
        · simp only [hh, if_false] at h
          obtain ⟨l, q, hp, hq, hno, hhq, hd, hlen⟩ := ih _ _ _ _ h
          refine ⟨(cur + nd) :: l, q, ?_, hq, ?_, hhq, hd, by simpa using hlen⟩
          · rw [link_of_ne _ _ hnd]; exact Path.cons hin hp
          · intro p hp'
            rcases List.mem_cons.1 hp' with rfl | hp'
            · exact hh
            · exact hno p hp'
      · simp [hin] at h

end DtCache


namespace DtCache

/-! ## Outcomes -/

theorem Outcome.bind_eq_ok {α β : Type} {x : Outcome α} {f : α → Outcome β} {b : β}
    (h : x.bind f = .ok b) : ∃ a, x = .ok a ∧ f a = .ok b := by
  cases x <;> simp [Outcome.bind] at h
  exact ⟨_, rfl, h⟩

theorem Outcome.bind_eq_fatal {α β : Type} {x : Outcome α} {f : α → Outcome β}
    (h : x.bind f = .fatal) : x = .fatal ∨ ∃ a, x = .ok a ∧ f a = .fatal := by
  cases x <;> simp [Outcome.bind] at h
  · exact Or.inr ⟨_, rfl, h⟩
  · exact Or.inl rfl

@[simp] theorem Outcome.bind_ok {α β : Type} (a : α) (f : α → Outcome β) :
    (Outcome.ok a).bind f = f a := rfl

/-! ## Locks -/

theorem dt_cache_lock_eq_ok {segments : List dt_cache_segment_t} {segment : Nat} :
    ∀ {fuel : Nat} {s' : List dt_cache_segment_t},
      dt_cache_lock segments segment fuel = .ok s' →
      (segments.getD segment default).lock = 0 ∧
      s' = segments.set segment { segments.getD segment default with lock := 1 } := by
  intro fuel
  induction fuel with
  | zero => intro s' h; simp [dt_cache_lock] at h
  | succ n ih =>
    intro s' h
    by_cases h0 : (segments.getD segment default).lock = 0
    · simp only [dt_cache_lock, h0, if_true, Outcome.ok.injEq] at h
      exact ⟨h0, h.symm⟩
    · simp only [dt_cache_lock, h0, if_false] at h
      exact ih h

theorem dt_cache_lock_ne_fatal (segments : List dt_cache_segment_t) (segment : Nat) :
    ∀ fuel : Nat, dt_cache_lock segments segment fuel ≠ .fatal := by
  intro fuel
  induction fuel with
  | zero => simp [dt_cache_lock]
  | succ n ih =>
    simp only [dt_cache_lock]
    split
    · simp
    · exact ih

theorem dt_cache_lock_of_free {segments : List dt_cache_segment_t} {segment : Nat}
    (h0 : (segments.getD segment default).lock = 0) (fuel : Nat) :
    dt_cache_lock segments segment (fuel + 1) =
      .ok (segments.set segment { segments.getD segment default with lock := 1 }) := by
  simp only [dt_cache_lock, h0, if_true]

theorem getD_set_self {segments : List dt_cache_segment_t} {segment : Nat}
    (h : segment < segments.length) (x : dt_cache_segment_t) :
    (segments.set segment x).getD segment default = x := by
  simp [List.getD_eq_getElem?_getD, List.getElem?_set, h]

theorem dt_cache_unlock_locked {segments : List dt_cache_segment_t} {segment : Nat}
    (h : segment < segments.length) (x : dt_cache_segment_t) :
    dt_cache_unlock (segments.set segment { x with lock := 1 }) segment =
      .ok (segments.set segment { x with lock := 0 }) := by
  simp only [dt_cache_unlock, getD_set_self h]
  simp

/-! ## The scans of `dt_cache_put` -/

theorem cacheline_scan_found {t : List dt_cache_bucket_t} {start s e : Int} (hse : s ≤ e) :
    ∀ (fuel : Nat) (f F : Int), s ≤ f → f ≤ e →
      dt_cache_put_cacheline_scan t start s e fuel f = .ok (some F) →
      s ≤ F ∧ F ≤ e ∧ inb t F ∧ (rd t F).hash = DT_CACHE_EMPTY_HASH := by
  intro fuel
  induction fuel with
  | zero => intro f F _ _ h; simp [dt_cache_put_cacheline_scan] at h
  | succ n ih =>
    intro f F hsf hfe h
    simp only [dt_cache_put_cacheline_scan] at h
    by_cases hin : inb t f
    · simp only [hin, not_true_eq_false, if_false] at h
      by_cases he : (rd t f).hash = DT_CACHE_EMPTY_HASH
      · simp only [he, if_true, Outcome.ok.injEq, Option.some.injEq] at h
        subst h
        exact ⟨hsf, hfe, hin, he⟩
      · simp only [he, if_false] at h
        by_cases hw : f + 1 > e
        · simp only [hw, if_true] at h
          by_cases hnext : start = s
          · simp [hnext] at h
          · simp only [ne_eq, hnext, not_false_eq_true, if_true] at h
            exact ih _ _ (le_refl _) hse h
        · simp only [hw, if_false] at h
          by_cases hnext : start = f + 1
          · simp [hnext] at h
          · simp only [ne_eq, hnext, not_false_eq_true, if_true] at h
            exact ih _ _ (by omega) (by omega) h
    · simp [hin] at h

/-- The scan of the cache line found nothing: every bucket between the cursor and the end of
the line, and every bucket between the start of the line and the home bucket, is occupied. -/
theorem cacheline_scan_none_low {t : List dt_cache_bucket_t} {start s e : Int}
    (hst : start ≤ e) :
    ∀ (fuel : Nat) (f : Int), s ≤ f → f < start →
      dt_cache_put_cacheline_scan t start s e fuel f = .ok none →
      ∀ i, f ≤ i → i < start → (rd t i).hash ≠ DT_CACHE_EMPTY_HASH := by
  intro fuel
  induction fuel with
  | zero => intro f _ _ h; simp [dt_cache_put_cacheline_scan] at h
  | succ n ih =>
    intro f hsf hfs h i hfi his
    simp only [dt_cache_put_cacheline_scan] at h
    by_cases hin : inb t f
    · simp only [hin, not_true_eq_false, if_false] at h
      by_cases he : (rd t f).hash = DT_CACHE_EMPTY_HASH
      · simp [he] at h
      · simp only [he, if_false] at h
        have hw : ¬ f + 1 > e := by omega
        simp only [hw, if_false] at h
        by_cases hfi' : f = i
        · subst hfi'; exact he
        · by_cases hnext : start = f + 1
          · omega
          · simp only [ne_eq, hnext, not_false_eq_true, if_true] at h
            exact ih _ (by omega) (by omega) h i (by omega) his
    · simp [hin] at h

theorem cacheline_scan_none_high {t : List dt_cache_bucket_t} {start s e : Int}
    (hss : s ≤ start) (hst : start ≤ e) :
    ∀ (fuel : Nat) (f : Int), start ≤ f → f ≤ e →
      dt_cache_put_cacheline_scan t start s e fuel f = .ok none →
      ∀ i, (f ≤ i ∧ i ≤ e) ∨ (s ≤ i ∧ i < start) → (rd t i).hash ≠ DT_CACHE_EMPTY_HASH := by
  intro fuel
  induction fuel with
  | zero => intro f _ _ h; simp [dt_cache_put_cacheline_scan] at h
  | succ n ih =>
    intro f hsf hfe h i hi
    simp only [dt_cache_put_cacheline_scan] at h
    by_cases hin : inb t f
    · simp only [hin, not_true_eq_false, if_false] at h
      by_cases he : (rd t f).hash = DT_CACHE_EMPTY_HASH
      · simp [he] at h
      · simp only [he, if_false] at h
        by_cases hfi' : f = i
        · subst hfi'; exact he
        · by_cases hw : f + 1 > e
          · simp only [hw, if_true] at h
            by_cases hnext : start = s
            · rcases hi with hi | hi <;> omega
            · simp only [ne_eq, hnext, not_false_eq_true, if_true] at h
              have hlow := cacheline_scan_none_low hst n s (le_refl _) (by omega) h
              rcases hi with hi | hi
              · omega
              · exact hlow i hi.1 hi.2
          · simp only [hw, if_false] at h
            have hnext : ¬ start = f + 1 := by omega
            simp only [ne_eq, hnext, not_false_eq_true, if_true] at h
            refine ih _ (by omega) (by omega) h i ?_
            rcases hi with hi | hi
            · left; omega
            · right; exact hi
    · simp [hin] at h

theorem forward_scan_found {t : List dt_cache_bucket_t} {m : Int} :
    ∀ (fuel : Nat) (f F : Int),
      dt_cache_put_forward_scan t m fuel f = .ok (some F) →
      f ≤ F ∧ F ≤ m ∧ inb t F ∧ (rd t F).hash = DT_CACHE_EMPTY_HASH := by
  intro fuel
  induction fuel with
  | zero => intro f F h; simp only [dt_cache_put_forward_scan] at h; split at h <;> simp at h
  | succ n ih =>
    intro f F h
    simp only [dt_cache_put_forward_scan] at h
    by_cases hle : f ≤ m
    · simp only [hle, if_true] at h
      by_cases hin : inb t f
      · simp only [hin, not_true_eq_false, if_false] at h
        by_cases he : (rd t f).hash = DT_CACHE_EMPTY_HASH
        · simp only [he, if_true, Outcome.ok.injEq, Option.some.injEq] at h
          subst h
          exact ⟨le_refl _, hle, hin, he⟩
        · simp only [he, if_false] at h
          obtain ⟨h1, h2, h3, h4⟩ := ih _ _ h
          exact ⟨by omega, h2, h3, h4⟩
      · simp [hin] at h
    · simp [hle] at h

theorem forward_scan_none {t : List dt_cache_bucket_t} {m : Int} :
    ∀ (fuel : Nat) (f : Int),
      dt_cache_put_forward_scan t m fuel f = .ok none →
      ∀ i, f ≤ i → i ≤ m → (rd t i).hash ≠ DT_CACHE_EMPTY_HASH := by
  intro fuel
  induction fuel with
  | zero =>
    intro f h i hfi him
    simp only [dt_cache_put_forward_scan] at h
    split at h
    · simp at h
    · omega
  | succ n ih =>
    intro f h i hfi him
    simp only [dt_cache_put_forward_scan] at h
    by_cases hle : f ≤ m
    · simp only [hle, if_true] at h
      by_cases hin : inb t f
      · simp only [hin, not_true_eq_false, if_false] at h
        by_cases he : (rd t f).hash = DT_CACHE_EMPTY_HASH
        · simp [he] at h
        · simp only [he, if_false] at h
          by_cases hfi' : f = i
          · subst hfi'; exact he
          · exact ih _ h i (by omega) him
      · simp [hin] at h
    · omega

theorem backward_scan_found {t : List dt_cache_bucket_t} {m : Int} :
    ∀ (fuel : Nat) (f F : Int),
      dt_cache_put_backward_scan t m fuel f = .ok (some F) →
      m ≤ F ∧ F ≤ f ∧ inb t F ∧ (rd t F).hash = DT_CACHE_EMPTY_HASH := by
  intro fuel
  induction fuel with
  | zero => intro f F h; simp only [dt_cache_put_backward_scan] at h; split at h <;> simp at h
  | succ n ih =>
    intro f F h
    simp only [dt_cache_put_backward_scan] at h
    by_cases hle : f ≥ m
    · simp only [hle, if_true] at h
      by_cases hin : inb t f
      · simp only [hin, not_true_eq_false, if_false] at h
        by_cases he : (rd t f).hash = DT_CACHE_EMPTY_HASH
        · simp only [he, if_true, Outcome.ok.injEq, Option.some.injEq] at h
          subst h
          exact ⟨hle, le_refl _, hin, he⟩
        · simp only [he, if_false] at h
          obtain ⟨h1, h2, h3, h4⟩ := ih _ _ h
          exact ⟨h1, by omega, h3, h4⟩
      · simp [hin] at h
    · simp [hle] at h

theorem backward_scan_none {t : List dt_cache_bucket_t} {m : Int} :
    ∀ (fuel : Nat) (f : Int),
      dt_cache_put_backward_scan t m fuel f = .ok none →
      ∀ i, m ≤ i → i ≤ f → (rd t i).hash ≠ DT_CACHE_EMPTY_HASH := by
  intro fuel
  induction fuel with
  | zero =>
    intro f h i hmi hif
    simp only [dt_cache_put_backward_scan] at h
    split at h
    · simp at h
    · omega
  | succ n ih =>
    intro f h i hmi hif
    simp only [dt_cache_put_backward_scan] at h
    by_cases hle : f ≥ m
    · simp only [hle, if_true] at h
      by_cases hin : inb t f
      · simp only [hin, not_true_eq_false, if_false] at h
        by_cases he : (rd t f).hash = DT_CACHE_EMPTY_HASH
        · simp [he] at h
        · simp only [he, if_false] at h
          by_cases hfi' : f = i
          · subst hfi'; exact he
          · exact ih _ h i hmi (by omega)
      · simp [hin] at h
    · omega

end DtCache


namespace DtCache

/-! ## Offsets between buckets of a table of at most 32767 buckets are exact -/

theorem link_int16 {t : List dt_cache_bucket_t} (hlen : t.length ≤ 32767) {a b : Int}
    (ha : inb t a) (hb : inb t b) : link b (int16_t (a - b)) = some a := by
  have h1 := ha.1; have h2 := ha.2; have h3 := hb.1; have h4 := hb.2
  have hlen' : (t.length : Int) ≤ 32767 := by exact_mod_cast hlen
  rw [int16_t_of_range _ (by omega) (by omega)]
  rw [link_of_ne _ _ (by simp only [DT_CACHE_NULL_DELTA, SHRT_MIN]; omega)]
  congr 1; omega

theorem link_eq_some {p d q : Int} (h : link p d = some q) :
    d ≠ DT_CACHE_NULL_DELTA ∧ p + d = q := by
  unfold link at h
  split at h
  · cases h
  · rename_i hne; exact ⟨hne, by simpa using h⟩

theorem link_eq_none {p d : Int} (h : link p d = none) : d = DT_CACHE_NULL_DELTA := by
  unfold link at h
  split at h
  · assumption
  · cases h

/-! ## What `dt_cache_put_place` and `dt_cache_put` do when they return -/

theorem cacheline_scan_found_inb {t : List dt_cache_bucket_t} {start s e : Int} :
    ∀ (fuel : Nat) (f F : Int),
      dt_cache_put_cacheline_scan t start s e fuel f = .ok (some F) →
      inb t F ∧ (rd t F).hash = DT_CACHE_EMPTY_HASH := by
  intro fuel
  induction fuel with
  | zero => intro f F h; simp [dt_cache_put_cacheline_scan] at h
  | succ n ih =>
    intro f F h
    simp only [dt_cache_put_cacheline_scan] at h
    by_cases hin : inb t f
    · simp only [hin, not_true_eq_false, if_false] at h
      by_cases he : (rd t f).hash = DT_CACHE_EMPTY_HASH
      · simp only [he, if_true, Outcome.ok.injEq, Option.some.injEq] at h
        subst h
        exact ⟨hin, he⟩
      · simp only [he, if_false] at h
        split at h <;> split at h <;> first | exact ih _ _ h | simp at h
    · simp [hin] at h

/-- The three ways `dt_cache_put_place` returns a table. -/
theorem put_place_eq_ok {fuel : Nat} {c : dt_cache_t} {home : Int} {last : Option Int}
    {hash key data : Nat} {t' : List dt_cache_bucket_t}
    (h : dt_cache_put_place fuel c home last hash key data = .ok t') :
    (c.is_cacheline_alignment ≠ 0 ∧ ∃ F,
      dt_cache_put_cacheline_scan c.table home (get_start_cacheline_bucket c home)
        (get_start_cacheline_bucket c home + c.cache_mask) fuel home = .ok (some F) ∧
      t' = add_key_to_begining_of_list c.table home F hash key data) ∨
    (∃ F, inb c.table F ∧ (rd c.table F).hash = DT_CACHE_EMPTY_HASH ∧
      F ≤ c.bucket_mask ∧ home + (c.cache_mask + 1) ≤ F ∧ F ≤ home + 32766 ∧
      t' = add_key_to_end_of_list c.table home F hash key data last) ∨
    (∃ F, inb c.table F ∧ (rd c.table F).hash = DT_CACHE_EMPTY_HASH ∧
      F ≤ home - (c.cache_mask + 1) ∧ home - 32766 ≤ F ∧
      t' = add_key_to_end_of_list c.table home F hash key data last) := by
  unfold dt_cache_put_place at h
  obtain ⟨r1, h1, h⟩ := Outcome.bind_eq_ok h
  cases r1 with
  | some F =>
    simp only [Outcome.ok.injEq] at h
    left
    by_cases ha : c.is_cacheline_alignment ≠ 0
    · simp only [ha, ne_eq, not_false_eq_true, if_true] at h1
      exact ⟨ha, F, h1, h.symm⟩
    · simp [ha] at h1
  | none =>
    right
    simp only at h
    obtain ⟨r2, h2, h⟩ := Outcome.bind_eq_ok h
    cases r2 with
    | some F =>
      simp only [Outcome.ok.injEq] at h
      left
      obtain ⟨g1, g2, g3, g4⟩ := forward_scan_found _ _ _ h2
      refine ⟨F, g3, g4, ?_, g1, ?_, h.symm⟩
      · split at g2
        · exact g2
        · rename_i hgt; simp only [SHRT_MAX] at hgt g2; omega
      · split at g2
        · rename_i hgt; simp only [SHRT_MAX] at hgt; omega
        · simp only [SHRT_MAX] at g2; omega
    | none =>
      right
      simp only at h
      obtain ⟨r3, h3, h⟩ := Outcome.bind_eq_ok h
      cases r3 with
      | some F =>
        simp only [Outcome.ok.injEq] at h
        obtain ⟨g1, g2, g3, g4⟩ := backward_scan_found _ _ _ h3
        refine ⟨F, g3, g4, g2, ?_, h.symm⟩
        split at g1
        · rename_i hlt; simp only [SHRT_MAX] at hlt; omega
        · simp only [SHRT_MAX] at g1; omega
      | none => simp at h

/-- The two ways `dt_cache_put` returns. -/
theorem dt_cache_put_eq_ok {U : undefined_t} {fuel : Nat} {c c' : dt_cache_t} {k v r : Nat}
    (h : dt_cache_put U fuel c k v = .ok (r, c')) :
    segment_of U c k < c.segments.length ∧ inb c.table (home_of c k) ∧
    (c.segments.getD (segment_of U c k) default).lock = 0 ∧
    ∃ t', c' = { c with
        segments := c.segments.set (segment_of U c k)
          { c.segments.getD (segment_of U c k) default with lock := 0 },
        table := t' } ∧
      ((∃ d, dt_cache_put_walk c.table k k fuel (home_of c k) none
            (rd c.table (home_of c k)).first_delta = .ok (.found d) ∧ r = d ∧ t' = c.table) ∨
       (∃ last, dt_cache_put_walk c.table k k fuel (home_of c k) none
            (rd c.table (home_of c k)).first_delta = .ok (.absent last) ∧
          r = DT_CACHE_EMPTY_DATA ∧
          dt_cache_put_place fuel c (home_of c k) last k k v = .ok t')) := by
  unfold dt_cache_put at h
  by_cases hseg : segment_of U c k < c.segments.length
  · simp only [hseg, not_true_eq_false, if_false] at h
    obtain ⟨s1, hs1, h⟩ := Outcome.bind_eq_ok h
    obtain ⟨hlock, rfl⟩ := dt_cache_lock_eq_ok hs1
    by_cases hin : inb c.table (home_of c k)
    · simp only [hin, not_true_eq_false, if_false] at h
      obtain ⟨w, hw, h⟩ := Outcome.bind_eq_ok h
      refine ⟨hseg, hin, hlock, ?_⟩
      cases w with
      | found d =>
        simp only [dt_cache_unlock_locked hseg, Outcome.bind_ok, Outcome.ok.injEq,
          Prod.mk.injEq] at h
        exact ⟨c.table, h.2.symm, Or.inl ⟨d, hw, h.1.symm, rfl⟩⟩
      | absent last =>
        simp only at h
        obtain ⟨t', ht', h⟩ := Outcome.bind_eq_ok h
        simp only [dt_cache_unlock_locked hseg, Outcome.bind_ok, Outcome.ok.injEq,
          Prod.mk.injEq] at h
        exact ⟨t', h.2.symm, Or.inr ⟨last, hw, h.1.symm, ht'⟩⟩
    · simp [hin] at h
  · simp [hseg] at h

end DtCache


namespace DtCache

/-! ## The table after `add_key_to_end_of_list` -/

section add_end
variable {t : List dt_cache_bucket_t} {home F : Int} {hash key data : Nat}

@[simp]
theorem length_add_end (last : Option Int) :
    (add_key_to_end_of_list t home F hash key data last).length = t.length := by
  unfold add_key_to_end_of_list; cases last <;> simp

theorem hash_add_end (hF : inb t F) (last : Option Int) (q : Int) :
    (rd (add_key_to_end_of_list t home F hash key data last) q).hash =
      if q = F then hash else (rd t q).hash := by
  unfold add_key_to_end_of_list; cases last <;> simp [hF]

theorem key_add_end (hF : inb t F) (last : Option Int) (q : Int) :
    (rd (add_key_to_end_of_list t home F hash key data last) q).key =
      if q = F then key else (rd t q).key := by
  unfold add_key_to_end_of_list; cases last <;> simp [hF]

theorem data_add_end (hF : inb t F) (last : Option Int) (q : Int) :
    (rd (add_key_to_end_of_list t home F hash key data last) q).data =
      if q = F then data else (rd t q).data := by
  unfold add_key_to_end_of_list; cases last <;> simp [hF]

theorem first_delta_add_end_some (L q : Int) :
    (rd (add_key_to_end_of_list t home F hash key data (some L)) q).first_delta =
      (rd t q).first_delta := by
  unfold add_key_to_end_of_list; simp

theorem first_delta_add_end_none (hH : inb t home) (q : Int) :
    (rd (add_key_to_end_of_list t home F hash key data none) q).first_delta =
      if q = home then int16_t (F - home) else (rd t q).first_delta := by
  unfold add_key_to_end_of_list; simp [hH]

theorem next_delta_add_end_some (hF : inb t F) {L : Int} (hL : inb t L) (q : Int) :
    (rd (add_key_to_end_of_list t home F hash key data (some L)) q).next_delta =
      if q = L then int16_t (F - L) else if q = F then DT_CACHE_NULL_DELTA
      else (rd t q).next_delta := by
  unfold add_key_to_end_of_list; simp [hF, hL]

theorem next_delta_add_end_none (hF : inb t F) (q : Int) :
    (rd (add_key_to_end_of_list t home F hash key data none) q).next_delta =
      if q = F then DT_CACHE_NULL_DELTA else (rd t q).next_delta := by
  unfold add_key_to_end_of_list; simp [hF]

theorem hd_add_end_some (L q : Int) :
    hd (add_key_to_end_of_list t home F hash key data (some L)) q = hd t q := by
  simp [hd, first_delta_add_end_some]

theorem hd_add_end_none (hlen : t.length ≤ 32767) (hF : inb t F) (hH : inb t home) (q : Int) :
    hd (add_key_to_end_of_list t home F hash key data none) q =
      if q = home then some F else hd t q := by
  simp only [hd, first_delta_add_end_none hH]
  split
  · rename_i h; subst h; exact link_int16 hlen hF hH
  · rfl

theorem nxt_add_end_some (hlen : t.length ≤ 32767) (hF : inb t F) {L : Int} (hL : inb t L)
    (q : Int) :
    nxt (add_key_to_end_of_list t home F hash key data (some L)) q =
      if q = L then some F else if q = F then none else nxt t q := by
  simp only [nxt, next_delta_add_end_some hF hL]
  split
  · rename_i h; subst h; exact link_int16 hlen hF hL
  · split
    · exact link_null _
    · rfl

theorem nxt_add_end_none (hF : inb t F) (q : Int) :
    nxt (add_key_to_end_of_list t home F hash key data none) q =
      if q = F then none else nxt t q := by
  simp only [nxt, next_delta_add_end_none hF]
  split
  · exact link_null _
  · rfl

end add_end

/-! ## The table after `add_key_to_begining_of_list` -/

section add_begin
variable {t : List dt_cache_bucket_t} {home F : Int} {hash key data : Nat}

theorem add_begin_eq :
    add_key_to_begining_of_list t home F hash key data =
      if (rd t home).first_delta = 0 then
        wr_next_delta
          (wr_next_delta (wr_hash (wr_key (wr_data t F data) F key) F hash) F
            (if (rd t home).next_delta = DT_CACHE_NULL_DELTA then DT_CACHE_NULL_DELTA
              else int16_t (home + (rd t home).next_delta - F)))
          home (int16_t (F - home))
      else
        wr_first_delta
          (wr_next_delta (wr_hash (wr_key (wr_data t F data) F key) F hash) F
            (if (rd t home).first_delta = DT_CACHE_NULL_DELTA then DT_CACHE_NULL_DELTA
              else int16_t (home + (rd t home).first_delta - F)))
          home (int16_t (F - home)) := by
  unfold add_key_to_begining_of_list
  simp only [first_delta_wr_hash, first_delta_wr_key, first_delta_wr_data, next_delta_wr_hash,
    next_delta_wr_key, next_delta_wr_data]
  split <;> split <;> rfl

@[simp]
theorem length_add_begin :
    (add_key_to_begining_of_list t home F hash key data).length = t.length := by
  rw [add_begin_eq]; split <;> simp

theorem hash_add_begin (hF : inb t F) (q : Int) :
    (rd (add_key_to_begining_of_list t home F hash key data) q).hash =
      if q = F then hash else (rd t q).hash := by
  rw [add_begin_eq]; split <;> simp [hF]

theorem key_add_begin (hF : inb t F) (q : Int) :
    (rd (add_key_to_begining_of_list t home F hash key data) q).key =
      if q = F then key else (rd t q).key := by
  rw [add_begin_eq]; split <;> simp [hF]

theorem data_add_begin (hF : inb t F) (q : Int) :
    (rd (add_key_to_begining_of_list t home F hash key data) q).data =
      if q = F then data else (rd t q).data := by
  rw [add_begin_eq]; split <;> simp [hF]

theorem first_delta_add_begin_zero (h0 : (rd t home).first_delta = 0) (q : Int) :
    (rd (add_key_to_begining_of_list t home F hash key data) q).first_delta =
      (rd t q).first_delta := by
  rw [add_begin_eq]; simp [h0]

theorem first_delta_add_begin_ne (h0 : (rd t home).first_delta ≠ 0) (hH : inb t home)
    (q : Int) :
    (rd (add_key_to_begining_of_list t home F hash key data) q).first_delta =
      if q = home then int16_t (F - home) else (rd t q).first_delta := by
  rw [add_begin_eq]; simp [h0, hH]

theorem next_delta_add_begin_zero (h0 : (rd t home).first_delta = 0) (hF : inb t F)
    (hH : inb t home) (q : Int) :
    (rd (add_key_to_begining_of_list t home F hash key data) q).next_delta =
      if q = home then int16_t (F - home)
      else if q = F then
        (if (rd t home).next_delta = DT_CACHE_NULL_DELTA then DT_CACHE_NULL_DELTA
          else int16_t (home + (rd t home).next_delta - F))
      else (rd t q).next_delta := by
  rw [add_begin_eq]; simp [h0, hF, hH]

theorem next_delta_add_begin_ne (h0 : (rd t home).first_delta ≠ 0) (hF : inb t F) (q : Int) :
    (rd (add_key_to_begining_of_list t home F hash key data) q).next_delta =
      if q = F then
        (if (rd t home).first_delta = DT_CACHE_NULL_DELTA then DT_CACHE_NULL_DELTA
          else int16_t (home + (rd t home).first_delta - F))
      else (rd t q).next_delta := by
  rw [add_begin_eq]; simp [h0, hF]

theorem hd_add_begin_zero (h0 : (rd t home).first_delta = 0) (q : Int) :
    hd (add_key_to_begining_of_list t home F hash key data) q = hd t q := by
  simp [hd, first_delta_add_begin_zero h0]

theorem hd_add_begin_ne (hlen : t.length ≤ 32767) (h0 : (rd t home).first_delta ≠ 0)
    (hF : inb t F) (hH : inb t home) (q : Int) :
    hd (add_key_to_begining_of_list t home F hash key data) q =
      if q = home then some F else hd t q := by
  simp only [hd, first_delta_add_begin_ne h0 hH]
  split
  · rename_i h; subst h; exact link_int16 hlen hF hH
  · rfl

/-- The successor after a head insertion next to an occupied home bucket; `hn` says the old
successor of the home bucket, if any, is inside the table. -/
theorem nxt_add_begin_zero (hlen : t.length ≤ 32767) (h0 : (rd t home).first_delta = 0)
    (hF : inb t F) (hH : inb t home) (hn : ∀ x, nxt t home = some x → inb t x) (q : Int) :
    nxt (add_key_to_begining_of_list t home F hash key data) q =
      if q = home then some F else if q = F then nxt t home else nxt t q := by
  simp only [nxt, next_delta_add_begin_zero h0 hF hH]
  split
  · rename_i h; subst h; exact link_int16 hlen hF hH
  · split
    · rename_i h; subst h
      split
      · rename_i hnull; simp [hnull, link_null]
      · rename_i hnn
        have hx := hn _ (link_of_ne _ _ hnn)
        rw [link_of_ne _ _ hnn]
        exact link_int16 hlen hx hF
    · rfl

/-- The successor after a head insertion; `hn` says the old head of the chain, if any, is
inside the table. -/
theorem nxt_add_begin_ne (hlen : t.length ≤ 32767) (h0 : (rd t home).first_delta ≠ 0)
    (hF : inb t F) (hn : ∀ x, hd t home = some x → inb t x) (q : Int) :
    nxt (add_key_to_begining_of_list t home F hash key data) q =
      if q = F then hd t home else nxt t q := by
  simp only [nxt, next_delta_add_begin_ne h0 hF]
  split
  · rename_i h; subst h
    split
    · rename_i hnull; simp [hd, hnull, link_null]
    · rename_i hnn
      have hx := hn _ (by simp only [hd]; exact link_of_ne _ _ hnn)
      simp only [hd]
      rw [link_of_ne _ _ hnn]
      exact link_int16 hlen hx hF
  · rfl

end add_begin

end DtCache


namespace DtCache

theorem Path.head_eq {t : List dt_cache_bucket_t} {o o' : Option Int} {p : Int} {l : List Int}
    (h : Path t o (p :: l) o') : o = some p := by
  cases h; rfl

theorem Path.snoc {t : List dt_cache_bucket_t} {o : Option Int} {l : List Int} {p : Int}
    (h : Path t o l (some p)) (hp : inb t p) : Path t o (l ++ [p]) (nxt t p) :=
  Path.append h (Path.cons hp (Path.nil _))

theorem Path.of_nil {t : List dt_cache_bucket_t} {o o' : Option Int} {l : List Int}
    (h : Path t o l o') (hl : l = []) : o' = o := by
  cases h with
  | nil => rfl
  | cons => simp at hl

theorem Path.before_last {t : List dt_cache_bucket_t} {o : Option Int} {l : List Int} {p : Int}
    {o' : Option Int} (h : Path t o (l ++ [p]) o') : Path t o l (some p) ∧ o' = nxt t p := by
  obtain ⟨o1, h1, h2⟩ := Path.split l o h
  cases h2 with
  | cons _ h3 => exact ⟨h1, Path.of_nil h3 rfl⟩

theorem holds_congr {t t' : List dt_cache_bucket_t} {hash key : Nat} {p : Int}
    (h1 : (rd t' p).hash = (rd t p).hash) (h2 : (rd t' p).key = (rd t p).key) :
    holds t' hash key p ↔ holds t hash key p := by
  simp [holds, h1, h2]

/-- After a tail insertion of `F` behind `L`, the walk from the head reaches `F` through
buckets of the old chain other than `F`. -/
theorem path_to_new_tail {t t' : List dt_cache_bucket_t} {o : Option Int} {l0 : List Int}
    {L F : Int} (hp : Path t o (l0 ++ [L]) none) (hlen : t'.length = t.length)
    (hn : ∀ q, nxt t' q = if q = L then some F else if q = F then none else nxt t q) :
    ∃ l1, Path t' o l1 (some F) ∧ (∀ p ∈ l1, p ∈ l0 ++ [L] ∧ p ≠ F)
      ∧ l1.length ≤ (l0 ++ [L]).length := by
  have hnd := Path.nodup _ _ hp
  have hL : L ∉ l0 := by
    intro hmem
    have := List.nodup_append.1 hnd
    exact this.2.2 hmem (List.mem_singleton_self L)
  have hnd0 : l0.Nodup := (List.nodup_append.1 hnd).1
  obtain ⟨hp0, -⟩ := Path.before_last hp
  have hinL : inb t L := Path.inb_of_mem hp L (by simp)
  by_cases hFL : F = L
  · subst hFL
    refine ⟨l0, Path.frame hp0 hlen ?_, ?_, by simp⟩
    · intro p hpm
      have : p ≠ F := fun h => hL (h ▸ hpm)
      rw [hn]; simp [this]
    · intro p hpm
      exact ⟨by simp [hpm], fun h => hL (h ▸ hpm)⟩
  · by_cases hF0 : F ∈ l0
    · obtain ⟨l1, l2, rfl⟩ := List.append_of_mem hF0
      have hF1 : F ∉ l1 := by
        intro hmem
        have := List.nodup_append.1 hnd0
        exact this.2.2 hmem (List.mem_cons_self _ _)
      obtain ⟨o1, h1, h2⟩ := Path.split l1 o hp0
      have ho1 := Path.head_eq h2
      subst ho1
      refine ⟨l1, Path.frame h1 hlen ?_, ?_, by simp⟩
      · intro p hpm
        have h1' : p ≠ F := fun h => hF1 (h ▸ hpm)
        have h2' : p ≠ L := fun h => hL (h ▸ (by simp [hpm]))
        rw [hn]; simp [h1', h2']
      · intro p hpm
        exact ⟨by simp [hpm], fun h => hF1 (h ▸ hpm)⟩
    · have h0' : Path t' o l0 (some L) := by
        refine Path.frame hp0 hlen ?_
        intro p hpm
        have h1' : p ≠ F := fun h => hF0 (h ▸ hpm)
        have h2' : p ≠ L := fun h => hL (h ▸ hpm)
        rw [hn]; simp [h1', h2']
      have hinL' : inb t' L := by simpa [inb, hlen] using hinL
      have := Path.snoc h0' hinL'
      rw [hn] at this
      simp only [if_true] at this
      refine ⟨l0 ++ [L], this, ?_, le_refl _⟩
      intro p hpm
      refine ⟨hpm, ?_⟩
      rcases List.mem_append.1 hpm with h | h
      · exact fun e => hF0 (e ▸ h)
      · simp at h; subst h; exact fun e => hFL e.symm

/-- The walk of `dt_cache_put` right after a key was placed finds that key, with the data
given. -/
theorem put_walk_after_place {fuel : Nat} {c : dt_cache_t} {home : Int} {last : Option Int}
    {hash key data : Nat} {t' : List dt_cache_bucket_t}
    (hlen : c.table.length ≤ 32767) (hH : inb c.table home)
    (hw : dt_cache_put_walk c.table hash key fuel home none (rd c.table home).first_delta
      = .ok (.absent last))
    (hp : dt_cache_put_place fuel c home last hash key data = .ok t') :
    t'.length = c.table.length ∧
    ∀ m, fuel + 1 ≤ m → ∀ last0,
      dt_cache_put_walk t' hash key m home last0 (rd t' home).first_delta
        = .ok (.found data) := by
  obtain ⟨l, hpath, hno, hll, hlast⟩ := path_of_put_walk_absent _ _ _ _ _ _ _ _ hw
  -- it suffices to give a path in the new table from the head to a bucket holding the key
  suffices hs : t'.length = c.table.length ∧ ∃ l1 F, Path t' (hd t' home) l1 (some F) ∧
      inb t' F ∧ (∀ p ∈ l1, ¬ holds t' hash key p) ∧ holds t' hash key F ∧
      (rd t' F).data = data ∧ l1.length ≤ fuel by
    obtain ⟨hl, l1, F, h1, h2, h3, h4, h5, h6⟩ := hs
    refine ⟨hl, fun m hm last0 => ?_⟩
    rw [put_walk_found_of_path t' hash key m home last0 _ l1 F h1 h2 h3 h4 (by omega), h5]
  rcases put_place_eq_ok hp with ⟨-, F, hscan, rfl⟩ | ⟨F, hF, -, -, -, -, rfl⟩ |
      ⟨F, hF, -, -, -, rfl⟩
  · -- head insertion
    obtain ⟨hF, -⟩ := cacheline_scan_found_inb _ _ _ hscan
    have hF' : inb (add_key_to_begining_of_list c.table home F hash key data) F := by
      simpa [inb] using hF
    have hholds : holds (add_key_to_begining_of_list c.table home F hash key data) hash key F := by
      simp [holds, hash_add_begin hF, key_add_begin hF]
    have hdata : (rd (add_key_to_begining_of_list c.table home F hash key data) F).data
        = data := by simp [data_add_begin hF]
    refine ⟨length_add_begin, ?_⟩
    by_cases h0 : (rd c.table home).first_delta = 0
    · have hhd : hd c.table home = some home := by
        simp [hd, h0, link, DT_CACHE_NULL_DELTA, SHRT_MIN]
      rw [show link home (rd c.table home).first_delta = hd c.table home from rfl, hhd] at hpath
      obtain ⟨l', rfl, -, hp'⟩ := Path.of_some hpath
      by_cases hFh : F = home
      · subst hFh
        refine ⟨[], F, ?_, hF', by simp, hholds, hdata, by simp⟩
        rw [hd_add_begin_zero h0, hhd]; exact Path.nil _
      · have hn : ∀ x, nxt c.table home = some x → inb c.table x := by
          intro x hx
          rw [hx] at hp'
          cases hp' with
          | cons hin _ => exact hin
        refine ⟨[home], F, ?_, hF', ?_, hholds, hdata, by simp at hll ⊢; omega⟩
        · rw [hd_add_begin_zero h0, hhd]
          have := Path.cons (t := add_key_to_begining_of_list c.table home F hash key data)
            (p := home) (by simpa [inb] using hH) (Path.nil _)
          rw [nxt_add_begin_zero hlen h0 hF hH hn] at this
          simpa using this
        · intro p hpm
          simp only [List.mem_singleton] at hpm
          subst hpm
          have hne : ¬ p = F := fun e => hFh e.symm
          rw [holds_congr (t := c.table) (by simp [hash_add_begin hF, hne])
            (by simp [key_add_begin hF, hne])]
          exact hno p (List.mem_cons_self _ _)
    · refine ⟨[], F, ?_, hF', by simp, hholds, hdata, by simp⟩
      rw [hd_add_begin_ne hlen h0 hF hH]; simp; exact Path.nil _
  all_goals
    have hF' : inb (add_key_to_end_of_list c.table home F hash key data last) F := by
      simpa [inb] using hF
    have hholds : holds (add_key_to_end_of_list c.table home F hash key data last) hash key F := by
      simp [holds, hash_add_end hF, key_add_end hF]
    have hdata : (rd (add_key_to_end_of_list c.table home F hash key data last) F).data
        = data := by simp [data_add_end hF]
    refine ⟨length_add_end _, ?_⟩
    cases last with
    | none =>
      refine ⟨[], F, ?_, hF', by simp, hholds, hdata, by simp⟩
      rw [hd_add_end_none hlen hF hH]; simp; exact Path.nil _
    | some L =>
      rcases last_of_eq_some hlast.symm with ⟨-, h⟩ | ⟨l0, rfl⟩
      · cases h
      · have hL : inb c.table L := Path.inb_of_mem hpath L (by simp)
        have hnx := @nxt_add_end_some c.table home F hash key data hlen hF L hL
        obtain ⟨l1, h1, h2, h3⟩ := path_to_new_tail hpath (length_add_end _) hnx
        refine ⟨l1, F, ?_, hF', ?_, hholds, hdata, le_trans h3 hll⟩
        · rw [hd_add_end_some]; exact h1
        · intro p hpm
          obtain ⟨hin, hne⟩ := h2 p hpm
          rw [holds_congr (t := c.table) (by simp [hash_add_end hF, hne])
            (by simp [key_add_end hF, hne])]
          exact hno p hin

end DtCache


namespace DtCache

/-! ## Fuel: more of it never changes a result -/

theorem put_walk_mono {t : List dt_cache_bucket_t} {hash key : Nat} {fuel m : Nat} {cur : Int}
    {last : Option Int} {nd : Int} {w : put_walk_t}
    (h : dt_cache_put_walk t hash key fuel cur last nd = .ok w) (hm : fuel ≤ m) :
    dt_cache_put_walk t hash key m cur last nd = .ok w := by
  cases w with
  | found d =>
    obtain ⟨l, q, h1, h2, h3, h4, h5, h6⟩ := path_of_put_walk_found _ _ _ _ _ _ _ _ h
    rw [h5]
    exact put_walk_found_of_path _ _ _ _ _ _ _ _ _ h1 h2 h3 h4 (by omega)
  | absent last' =>
    obtain ⟨l, h1, h2, h3, h4⟩ := path_of_put_walk_absent _ _ _ _ _ _ _ _ h
    rw [h4]
    exact put_walk_absent_of_path _ _ _ _ _ _ _ _ h1 h2 (by omega)

/-! ## `dt_cache_contains` in terms of the chain walk -/

theorem contains_retry_eq {c : dt_cache_t} {key segment : Nat} (walk_fuel fuel : Nat)
    (hseg : segment < c.segments.length) (hH : inb c.table (home_of c key)) :
    dt_cache_contains_retry c key segment walk_fuel (fuel + 1) =
      (dt_cache_put_walk c.table key key walk_fuel (home_of c key) none
        (rd c.table (home_of c key)).first_delta).bind fun w =>
          match w with
          | .found _ => .ok (1 : Int)
          | .absent _ => .ok (0 : Int) := by
  simp only [dt_cache_contains_retry, hseg, hH, not_true_eq_false, if_false, ne_eq, if_true]
  rw [contains_walk_eq _ _ _ _ _ none]
  cases dt_cache_put_walk c.table key key walk_fuel (home_of c key) none
      (rd c.table (home_of c key)).first_delta with
  | ok w => cases w <;> simp [Outcome.bind]
  | fatal => rfl
  | ub => rfl
  | timeout => rfl

theorem contains_of_walk_found {U : undefined_t} {c : dt_cache_t} {key : Nat} {m : Nat} {d : Nat}
    (hseg : segment_of U c key < c.segments.length) (hH : inb c.table (home_of c key))
    (hm : 1 ≤ m)
    (hw : dt_cache_put_walk c.table key key m (home_of c key) none
      (rd c.table (home_of c key)).first_delta = .ok (.found d)) :
    dt_cache_contains U m c key = .ok 1 := by
  obtain ⟨n, rfl⟩ : ∃ n, m = n + 1 := ⟨m - 1, by omega⟩
  simp only [dt_cache_contains]
  rw [contains_retry_eq _ _ hseg hH, hw]
  rfl

theorem contains_of_walk_absent {U : undefined_t} {c : dt_cache_t} {key : Nat} {m : Nat}
    {last : Option Int}
    (hseg : segment_of U c key < c.segments.length) (hH : inb c.table (home_of c key))
    (hm : 1 ≤ m)
    (hw : dt_cache_put_walk c.table key key m (home_of c key) none
      (rd c.table (home_of c key)).first_delta = .ok (.absent last)) :
    dt_cache_contains U m c key = .ok 0 := by
  obtain ⟨n, rfl⟩ : ∃ n, m = n + 1 := ⟨m - 1, by omega⟩
  simp only [dt_cache_contains]
  rw [contains_retry_eq _ _ hseg hH, hw]
  rfl

/-- A returning `dt_cache_contains` is a returning chain walk. -/
theorem walk_of_contains {U : undefined_t} {c : dt_cache_t} {key : Nat} {m : Nat} {r : Int}
    (h : dt_cache_contains U m c key = .ok r) :
    segment_of U c key < c.segments.length ∧ inb c.table (home_of c key) ∧ 1 ≤ m ∧
    ((r = 1 ∧ ∃ d, dt_cache_put_walk c.table key key m (home_of c key) none
        (rd c.table (home_of c key)).first_delta = .ok (.found d)) ∨
     (r = 0 ∧ ∃ last, dt_cache_put_walk c.table key key m (home_of c key) none
        (rd c.table (home_of c key)).first_delta = .ok (.absent last))) := by
  cases m with
  | zero => simp [dt_cache_contains, dt_cache_contains_retry] at h
  | succ n =>
    simp only [dt_cache_contains] at h
    by_cases hseg : segment_of U c key < c.segments.length
    · by_cases hH : inb c.table (home_of c key)
      · rw [contains_retry_eq _ _ hseg hH] at h
        obtain ⟨w, hw, h⟩ := Outcome.bind_eq_ok h
        refine ⟨hseg, hH, by omega, ?_⟩
        cases w with
        | found d => simp at h; exact Or.inl ⟨h.symm, d, hw⟩
        | absent last => simp at h; exact Or.inr ⟨h.symm, last, hw⟩
      · simp [dt_cache_contains_retry, hseg, hH] at h
    · simp [dt_cache_contains_retry, hseg] at h

/-! ## What a returning `dt_cache_put` keeps -/

theorem put_place_length {fuel : Nat} {c : dt_cache_t} {home : Int} {last : Option Int}
    {hash key data : Nat} {t' : List dt_cache_bucket_t}
    (hp : dt_cache_put_place fuel c home last hash key data = .ok t') :
    t'.length = c.table.length := by
  rcases put_place_eq_ok hp with ⟨-, F, -, rfl⟩ | ⟨F, -, -, -, -, -, rfl⟩ | ⟨F, -, -, -, -, rfl⟩
  · exact length_add_begin
  · exact length_add_end _
  · exact length_add_end _

theorem dt_cache_put_frame {U : undefined_t} {fuel : Nat} {c c' : dt_cache_t} {k v r : Nat}
    (h : dt_cache_put U fuel c k v = .ok (r, c')) :
    c'.table.length = c.table.length ∧ c'.segments.length = c.segments.length ∧
    c'.bucket_mask = c.bucket_mask ∧ c'.segment_mask = c.segment_mask ∧
    c'.segment_shift = c.segment_shift ∧ c'.cache_mask = c.cache_mask ∧
    c'.is_cacheline_alignment = c.is_cacheline_alignment ∧
    (c'.segments.getD (segment_of U c k) default).lock = 0 := by
  obtain ⟨hseg, -, -, t', rfl, hcase⟩ := dt_cache_put_eq_ok h
  refine ⟨?_, by simp, rfl, rfl, rfl, rfl, rfl, ?_⟩
  · rcases hcase with ⟨d, -, -, rfl⟩ | ⟨last, -, -, hp⟩
    · rfl
    · exact put_place_length hp
  · simp only [getD_set_self hseg]

theorem put_run_frame {U : undefined_t} {c0 c : dt_cache_t} {ops : List (Nat × Nat)}
    (h : put_run U c0 ops c) :
    c.table.length = c0.table.length ∧ c.segments.length = c0.segments.length ∧
    c.bucket_mask = c0.bucket_mask ∧ c.segment_mask = c0.segment_mask ∧
    c.segment_shift = c0.segment_shift ∧ c.cache_mask = c0.cache_mask ∧
    c.is_cacheline_alignment = c0.is_cacheline_alignment := by
  induction h with
  | nil => simp
  | snoc _ hput ih =>
    obtain ⟨h1, h2, h3, h4, h5, h6, h7, -⟩ := dt_cache_put_frame hput
    obtain ⟨g1, g2, g3, g4, g5, g6, g7⟩ := ih
    exact ⟨h1.trans g1, h2.trans g2, h3.trans g3, h4.trans g4, h5.trans g5, h6.trans g6,
      h7.trans g7⟩

theorem segment_of_congr {U : undefined_t} {c c' : dt_cache_t}
    (h1 : c'.segment_mask = c.segment_mask) (h2 : c'.segment_shift = c.segment_shift)
    (k : Nat) : segment_of U c' k = segment_of U c k := by
  simp [segment_of, h1, h2]

theorem home_of_congr {c c' : dt_cache_t} (h : c'.bucket_mask = c.bucket_mask) (k : Nat) :
    home_of c' k = home_of c k := by
  simp [home_of, h]

/-! ## A key that was put is found -/

theorem put_then_contains {U : undefined_t} {fuel : Nat} {c c' : dt_cache_t} {k v r : Nat}
    (hlen : c.table.length ≤ 32767) (h : dt_cache_put U fuel c k v = .ok (r, c')) :
    ∀ m, fuel + 1 ≤ m → dt_cache_contains U m c' k = .ok 1 := by
  intro m hm
  obtain ⟨hseg, hH, -, t', rfl, hcase⟩ := dt_cache_put_eq_ok h
  rcases hcase with ⟨d, hw, -, rfl⟩ | ⟨last, hw, -, hp⟩
  · exact contains_of_walk_found (d := d) (by simpa [segment_of] using hseg) hH (by omega)
      (put_walk_mono hw (by omega))
  · obtain ⟨hl, hfound⟩ := put_walk_after_place hlen hH hw hp
    have hH' : inb t' (home_of c k) := by simpa [inb, hl] using hH
    exact contains_of_walk_found (d := v) (by simpa [segment_of] using hseg) hH' (by omega)
      (hfound m hm none)

end DtCache


namespace DtCache

/-! ## A second put of a key returns the stored data and changes nothing -/

theorem set_unlock_self {segments : List dt_cache_segment_t} {segment : Nat}
    (h0 : (segments.getD segment default).lock = 0) :
    segments.set segment { segments.getD segment default with lock := 0 } = segments := by
  apply List.ext_getElem
  · simp
  · intro i h1 h2
    rw [List.getElem_set]
    split
    · rename_i hi
      subst hi
      have : segments.getD segment default = segments[segment] := by
        simp [List.getD_eq_getElem?_getD, List.getElem?_eq_getElem h2]
      rw [this] at h0 ⊢
      cases hs : segments[segment] with
      | mk ts lk =>
        rw [hs] at h0
        simp at h0
        simp [h0]
    · rfl

theorem put_of_walk_found {U : undefined_t} {c : dt_cache_t} {k v d m : Nat}
    (hseg : segment_of U c k < c.segments.length) (hH : inb c.table (home_of c k))
    (hlock : (c.segments.getD (segment_of U c k) default).lock = 0) (hm : 1 ≤ m)
    (hw : dt_cache_put_walk c.table k k m (home_of c k) none
      (rd c.table (home_of c k)).first_delta = .ok (.found d)) :
    dt_cache_put U m c k v = .ok (d, c) := by
  obtain ⟨n, rfl⟩ : ∃ n, m = n + 1 := ⟨m - 1, by omega⟩
  unfold dt_cache_put
  simp only [hseg, not_true_eq_false, if_false, dt_cache_lock_of_free hlock, Outcome.bind_ok, hH,
    hw, dt_cache_unlock_locked hseg, set_unlock_self hlock]

theorem put_walk_result_unique {t : List dt_cache_bucket_t} {hash key : Nat} {f1 f2 : Nat}
    {cur : Int} {last : Option Int} {nd : Int} {w1 w2 : put_walk_t}
    (h1 : dt_cache_put_walk t hash key f1 cur last nd = .ok w1)
    (h2 : dt_cache_put_walk t hash key f2 cur last nd = .ok w2) : w1 = w2 := by
  have a := put_walk_mono h1 (Nat.le_max_left f1 f2)
  have b := put_walk_mono h2 (Nat.le_max_right f1 f2)
  rw [a] at b
  simpa using b

theorem put_twice {U : undefined_t} {f0 fuel : Nat} {c c1 : dt_cache_t} {k v1 r : Nat}
    (hlen : c.table.length ≤ 32767)
    (habs : dt_cache_contains U f0 c k = .ok 0)
    (h : dt_cache_put U fuel c k v1 = .ok (r, c1)) :
    r = DT_CACHE_EMPTY_DATA ∧
    ∀ m, fuel + 1 ≤ m → ∀ v2, dt_cache_put U m c1 k v2 = .ok (v1, c1) := by
  obtain ⟨-, -, hlock1⟩ : _ ∧ _ ∧ (c1.segments.getD (segment_of U c k) default).lock = 0 := by
    obtain ⟨a, b, -, -, -, -, -, e⟩ := dt_cache_put_frame h
    exact ⟨a, b, e⟩
  obtain ⟨hseg, hH, -, t', rfl, hcase⟩ := dt_cache_put_eq_ok h
  obtain ⟨-, -, -, hc⟩ := walk_of_contains habs
  rcases hc with ⟨h01, -⟩ | ⟨-, last0, hw0⟩
  · omega
  rcases hcase with ⟨d, hw, -, -⟩ | ⟨last, hw, hr, hp⟩
  · have := put_walk_result_unique hw hw0
    cases this
  · refine ⟨hr, fun m hm v2 => ?_⟩
    obtain ⟨hl, hfound⟩ := put_walk_after_place hlen hH hw hp
    have hH' : inb t' (home_of c k) := by simpa [inb, hl] using hH
    exact put_of_walk_found (by simpa [segment_of] using hseg) hH' hlock1 (by omega)
      (hfound m hm none)

/-! ## The shape of a cache built by `dt_cache_init` -/

theorem nearest_power_of_two_loop_lt {value : Nat} :
    ∀ (fuel rc r : Nat), rc < 4294967296 →
      nearest_power_of_two_loop value fuel rc = .ok r → r < 4294967296 := by
  intro fuel
  induction fuel with
  | zero =>
    intro rc r hrc h
    simp only [nearest_power_of_two_loop] at h
    split at h
    · cases h
    · simp at h; omega
  | succ n ih =>
    intro rc r hrc h
    simp only [nearest_power_of_two_loop] at h
    split at h
    · exact ih _ _ (Nat.mod_lt _ (by norm_num)) h
    · simp at h; omega

theorem nearest_power_of_two_lt {fuel value r : Nat}
    (h : nearest_power_of_two fuel value = .ok r) : r < 4294967296 :=
  nearest_power_of_two_loop_lt fuel 1 r (by norm_num) h

/-- The fields of a cache built by `dt_cache_init`, in terms of its masks. -/
theorem dt_cache_init_shape {U : undefined_t} {fuel : Nat} {cache c0 : dt_cache_t}
    {capacity num_threads cache_line_size optimize_cacheline : Int}
    (h : dt_cache_init U fuel cache capacity num_threads cache_line_size optimize_cacheline
      = .ok c0) :
    c0.table.length ≤ c0.bucket_mask + 1 + DT_CACHE_INSERT_RANGE + 1 ∧
    (c0.bucket_mask < 2147483647 → c0.table =
      List.replicate (c0.bucket_mask + 1 + DT_CACHE_INSERT_RANGE + 1) empty_bucket) ∧
    c0.segments = List.replicate (c0.segment_mask + 1) { timestamp := 0, lock := 0 } ∧
    c0.is_cacheline_alignment = optimize_cacheline := by
  unfold dt_cache_init at h
  obtain ⟨adj_nt, -, h⟩ := Outcome.bind_eq_ok h
  obtain ⟨p, -, h⟩ := Outcome.bind_eq_ok h
  obtain ⟨sh, -, h⟩ := Outcome.bind_eq_ok h
  obtain ⟨adj, hadj, h⟩ := Outcome.bind_eq_ok h
  have hlt := nearest_power_of_two_lt hadj
  simp only at h
  split at h
  · cases h
  · split at h
    · cases h
    · simp only [Outcome.ok.injEq] at h
      subst h
      have hbm : uint32_t ((adj : Int) - 1) + 1 + DT_CACHE_INSERT_RANGE + 1
          = adj + DT_CACHE_INSERT_RANGE + 1 ∨ adj = 0 := by
        rcases Nat.eq_zero_or_pos adj with h0 | h0
        · exact Or.inr h0
        · left
          have : uint32_t ((adj : Int) - 1) = adj - 1 := by
            simp only [uint32_t]; omega
          rw [this]; omega
      refine ⟨?_, ?_, ?_, ?_⟩
      · simp only [List.length_replicate]
        rcases hbm with hbm | hbm
        · rw [hbm]; exact Nat.mod_le _ _
        · subst hbm
          simp only [DT_CACHE_INSERT_RANGE]
          omega
      · intro hb
        simp only at hb ⊢
        rcases hbm with hbm | hbm
        · rw [hbm]
          have hb' : adj ≤ 2147483647 := by
            have : uint32_t ((adj : Int) - 1) = adj - 1 := by
              simp only [uint32_t]; omega
            rw [this] at hb; omega
          rw [Nat.mod_eq_of_lt (by simp only [DT_CACHE_INSERT_RANGE]; omega)]
        · subst hbm
          simp [uint32_t] at hb
      · rfl
      · rfl

end DtCache


namespace DtCache

/-! ## The fatal path of `dt_cache_put` -/

theorem put_walk_ne_fatal (t : List dt_cache_bucket_t) (hash key : Nat) :
    ∀ (fuel : Nat) (cur : Int) (last : Option Int) (nd : Int),
      dt_cache_put_walk t hash key fuel cur last nd ≠ .fatal := by
  intro fuel
  induction fuel with
  | zero => intro cur last nd; simp only [dt_cache_put_walk]; split <;> simp
  | succ n ih =>
    intro cur last nd
    simp only [dt_cache_put_walk]
    split
    · split
      · simp
      · split
        · simp
        · exact ih _ _ _
    · simp

theorem cacheline_scan_ne_fatal (t : List dt_cache_bucket_t) (start s e : Int) :
    ∀ (fuel : Nat) (f : Int), dt_cache_put_cacheline_scan t start s e fuel f ≠ .fatal := by
  intro fuel
  induction fuel with
  | zero => intro f; simp [dt_cache_put_cacheline_scan]
  | succ n ih =>
    intro f
    simp only [dt_cache_put_cacheline_scan]
    split
    · simp
    · split
      · simp
      · split <;> split <;> first | exact ih _ | simp

theorem forward_scan_ne_fatal (t : List dt_cache_bucket_t) (m : Int) :
    ∀ (fuel : Nat) (f : Int), dt_cache_put_forward_scan t m fuel f ≠ .fatal := by
  intro fuel
  induction fuel with
  | zero => intro f; simp only [dt_cache_put_forward_scan]; split <;> simp
  | succ n ih =>
    intro f
    simp only [dt_cache_put_forward_scan]
    split
    · split
      · simp
      · split
        · simp
        · exact ih _
    · simp

theorem backward_scan_ne_fatal (t : List dt_cache_bucket_t) (m : Int) :
    ∀ (fuel : Nat) (f : Int), dt_cache_put_backward_scan t m fuel f ≠ .fatal := by
  intro fuel
  induction fuel with
  | zero => intro f; simp only [dt_cache_put_backward_scan]; split <;> simp
  | succ n ih =>
    intro f
    simp only [dt_cache_put_backward_scan]
    split
    · split
      · simp
      · split
        · simp
        · exact ih _
    · simp

/-- The start of the cache line of a bucket is at most `cache_mask` buckets before it. -/
theorem start_cacheline_le {c : dt_cache_t} {p : Int} (hp : 0 ≤ p) (hc : 0 ≤ c.cache_mask) :
    get_start_cacheline_bucket c p ≤ p ∧ p ≤ get_start_cacheline_bucket c p + c.cache_mask := by
  obtain ⟨a, rfl⟩ := Int.eq_ofNat_of_zero_le hp
  obtain ⟨b, hb⟩ := Int.eq_ofNat_of_zero_le hc
  simp only [get_start_cacheline_bucket, hb]
  have h1 : Int.land (a : Int) (b : Int) = ((a &&& b : Nat) : Int) := rfl
  rw [h1]
  have h2 : a &&& b ≤ b := Nat.and_le_right
  have h3 : a &&& b ≤ a := Nat.and_le_left
  omega

/-- The placement step of `dt_cache_put` gives up only after finding every bucket it looks
at occupied. -/
theorem put_place_eq_fatal {fuel : Nat} {c : dt_cache_t} {home : Int} {last : Option Int}
    {hash key data : Nat}
    (h : dt_cache_put_place fuel c home last hash key data = .fatal) :
    (c.is_cacheline_alignment ≠ 0 → 0 ≤ home → 0 ≤ c.cache_mask →
      ∀ i, get_start_cacheline_bucket c home ≤ i →
        i ≤ get_start_cacheline_bucket c home + c.cache_mask → occupied c.table i) ∧
    (∀ i, home + (c.cache_mask + 1) ≤ i → i ≤ home + 32766 → i ≤ c.bucket_mask →
      occupied c.table i) ∧
    (∀ i, home - 32766 ≤ i → 0 ≤ i → i ≤ home - (c.cache_mask + 1) → occupied c.table i) := by
  unfold dt_cache_put_place at h
  rcases Outcome.bind_eq_fatal h with h1 | ⟨r1, h1, h⟩
  · split at h1
    · exact absurd h1 (cacheline_scan_ne_fatal _ _ _ _ _ _)
    · cases h1
  cases r1 with
  | some F => simp at h
  | none =>
    simp only at h
    rcases Outcome.bind_eq_fatal h with h2 | ⟨r2, h2, h⟩
    · exact absurd h2 (forward_scan_ne_fatal _ _ _ _)
    cases r2 with
    | some F => simp at h
    | none =>
      simp only at h
      rcases Outcome.bind_eq_fatal h with h3 | ⟨r3, h3, h⟩
      · exact absurd h3 (backward_scan_ne_fatal _ _ _ _)
      cases r3 with
      | some F => simp at h
      | none =>
      refine ⟨?_, ?_, ?_⟩
      · intro ha hhome hc i hi1 hi2
        simp only [ha, ne_eq, not_false_eq_true, if_true] at h1
        obtain ⟨g1, g2⟩ := start_cacheline_le (c := c) hhome hc
        apply cacheline_scan_none_high g1 g2 _ _ (le_refl _) g2 h1 i
        by_cases hlt : i < home
        · exact Or.inr ⟨hi1, hlt⟩
        · exact Or.inl ⟨by omega, hi2⟩
      · intro i hi1 hi2 hi3
        apply forward_scan_none _ _ h2 i hi1
        split
        · exact hi3
        · simp only [SHRT_MAX]; omega
      · intro i hi1 hi2 hi3
        apply backward_scan_none _ _ h3 i _ hi3
        split
        · exact hi2
        · simp only [SHRT_MAX]; omega

theorem dt_cache_put_eq_fatal {U : undefined_t} {fuel : Nat} {c : dt_cache_t} {k v : Nat}
    (h : dt_cache_put U fuel c k v = .fatal) :
    ∃ last, dt_cache_put_walk c.table k k fuel (home_of c k) none
        (rd c.table (home_of c k)).first_delta = .ok (.absent last) ∧
      dt_cache_put_place fuel c (home_of c k) last k k v = .fatal := by
  unfold dt_cache_put at h
  by_cases hseg : segment_of U c k < c.segments.length
  · simp only [hseg, not_true_eq_false, if_false] at h
    rcases Outcome.bind_eq_fatal h with h1 | ⟨s1, hs1, h⟩
    · exact absurd h1 (dt_cache_lock_ne_fatal _ _ _)
    obtain ⟨-, rfl⟩ := dt_cache_lock_eq_ok hs1
    by_cases hin : inb c.table (home_of c k)
    · simp only [hin, not_true_eq_false, if_false] at h
      rcases Outcome.bind_eq_fatal h with h2 | ⟨w, hw, h⟩
      · exact absurd h2 (put_walk_ne_fatal _ _ _ _ _ _ _)
      cases w with
      | found d => simp [dt_cache_unlock_locked hseg] at h
      | absent last =>
        simp only at h
        rcases Outcome.bind_eq_fatal h with h3 | ⟨t', -, h⟩
        · exact ⟨last, hw, h3⟩
        · simp [dt_cache_unlock_locked hseg] at h
    · simp [hin] at h
  · simp [hseg] at h

/-! ## What `dt_cache_size` counts -/

theorem rd_eq_getElem {t : List dt_cache_bucket_t} {k : Nat} (h : k < t.length) :
    rd t (k : Int) = t[k] := by
  simp [rd, List.getD_eq_getElem?_getD, List.getElem?_eq_getElem h]

theorem dt_cache_size_loop_eq (t : List dt_cache_bucket_t) :
    ∀ (n k cnt : Nat), k + n ≤ t.length → k + n ≤ 2147483648 → cnt + n < 4294967296 →
      dt_cache_size_loop t n (k : Int) cnt =
        .ok (cnt + occupied_count ((t.drop k).take n)) := by
  intro n
  induction n with
  | zero => intro k cnt _ _ _; simp [dt_cache_size_loop, occupied_count]
  | succ n ih =>
    intro k cnt h1 h2 h3
    have hk : k < t.length := by omega
    have hin : inb t (k : Int) := ⟨by omega, by exact_mod_cast hk⟩
    have hk2 : ¬ (2147483647 : Int) < (k : Int) := by omega
    simp only [dt_cache_size_loop, hk2, if_false, hin, not_true_eq_false]
    have hcast : ((k : Int) + 1) = ((k + 1 : Nat) : Int) := by push_cast; rfl
    rw [hcast, ih (k + 1) _ (by omega) (by omega) (by split <;> omega)]
    rw [List.drop_eq_getElem_cons hk, List.take_succ_cons]
    simp only [occupied_count, List.countP_cons, rd_eq_getElem hk]
    by_cases ho : t[k].hash = DT_CACHE_EMPTY_HASH
    · simp [ho]
    · simp only [ne_eq, ho, not_false_eq_true, if_true, decide_True]
      rw [Nat.mod_eq_of_lt (by omega)]
      congr 1; omega

/-- The function `dt_cache_size` counts the occupied buckets among the first
`bucket_mask + DT_CACHE_INSERT_RANGE` of the table. -/
theorem dt_cache_size_eq {c : dt_cache_t}
    (hlen : c.bucket_mask + DT_CACHE_INSERT_RANGE ≤ c.table.length)
    (hbm : c.bucket_mask + DT_CACHE_INSERT_RANGE ≤ 2147483648) :
    dt_cache_size c =
      .ok (occupied_count (c.table.take (c.bucket_mask + DT_CACHE_INSERT_RANGE))) := by
  unfold dt_cache_size
  have hn : (c.bucket_mask + DT_CACHE_INSERT_RANGE) % 4294967296
      = c.bucket_mask + DT_CACHE_INSERT_RANGE := Nat.mod_eq_of_lt (by omega)
  simp only [hn]
  have := dt_cache_size_loop_eq c.table (c.bucket_mask + DT_CACHE_INSERT_RANGE) 0 0
    (by omega) (by omega) (by omega)
  simpa using this

/-! ## `dt_cache_remove` does not return -/

theorem dt_cache_lock_ok_or_timeout (segments : List dt_cache_segment_t) (segment : Nat) :
    ∀ fuel : Nat, dt_cache_lock segments segment fuel = .timeout ∨
      ∃ s, dt_cache_lock segments segment fuel = .ok s := by
  intro fuel
  induction fuel with
  | zero => exact Or.inl rfl
  | succ n ih =>
    simp only [dt_cache_lock]
    split
    · exact Or.inr ⟨_, rfl⟩
    · exact ih

theorem dt_cache_remove_timeout {U : undefined_t} {c : dt_cache_t} {key : Nat}
    (hseg : segment_of U c key < c.segments.length) (hH : inb c.table (home_of c key))
    (fuel : Nat) : dt_cache_remove U fuel c key = .timeout := by
  unfold dt_cache_remove
  simp only [hseg, not_true_eq_false, if_false, dt_cache_remove_while_1_timeout]
  rcases dt_cache_lock_ok_or_timeout c.segments (segment_of U c key) fuel with h | ⟨s, h⟩
  · rw [h]; rfl
  · rw [h]
    have hH' : inb c.table (home_of { c with segments := s } key) := hH
    simp only [Outcome.bind_ok, hH', not_true_eq_false, if_false]
    rfl

end DtCache


namespace DtCache

/-! ## The three insertions of `dt_cache_put` extend the chain of the home bucket -/

theorem Path.head_inb {t : List dt_cache_bucket_t} {o : Option Int} {l : List Int}
    (h : Path t o l none) : ∀ x, o = some x → inb t x := by
  intro x hx
  subst hx
  obtain ⟨l', -, hin, -⟩ := Path.of_some h
  exact hin

theorem inb_of_length_eq {t t' : List dt_cache_bucket_t} (h : t'.length = t.length) {p : Int}
    (hp : inb t p) : inb t' p := by
  simpa [inb, h] using hp

theorem inserted_add_begin {t : List dt_cache_bucket_t} {home F : Int} {k v : Nat}
    {l : List Int} (hlen : t.length ≤ 32767) (hH : inb t home) (hF : inb t F)
    (hp : Path t (hd t home) l none) (hFl : F ∉ l) :
    ∃ l', inserted t (add_key_to_begining_of_list t home F k k v) home F k v l l' := by
  have hF' : inb (add_key_to_begining_of_list t home F k k v) F :=
    inb_of_length_eq length_add_begin hF
  have hH' : inb (add_key_to_begining_of_list t home F k k v) home :=
    inb_of_length_eq length_add_begin hH
  by_cases h0 : (rd t home).first_delta = 0
  · -- the home bucket holds the first entry: the new bucket comes second
    have hhd : hd t home = some home := by
      simp [hd, h0, link, DT_CACHE_NULL_DELTA, SHRT_MIN]
    rw [hhd] at hp
    obtain ⟨l'', rfl, -, hp'⟩ := Path.of_some hp
    have hFh : F ≠ home := fun e => hFl (e ▸ List.mem_cons_self _ _)
    have hnd := Path.nodup _ _ hp
    have hn := Path.head_inb hp'
    have hnx := @nxt_add_begin_zero t home F k k v hlen h0 hF hH hn
    refine ⟨home :: F :: l'', ?_⟩
    refine
      { len := length_add_begin
        hash_new := by simp [hash_add_begin hF]
        key_new := by simp [key_add_begin hF]
        data_new := by simp [data_add_begin hF]
        hash_old := fun q hq => by simp [hash_add_begin hF, hq]
        key_old := fun q hq => by simp [key_add_begin hF, hq]
        data_old := fun q hq => by simp [data_add_begin hF, hq]
        hd_old := fun h _ => hd_add_begin_zero h0 h
        nxt_old := ?_
        chain := ?_
        mem := ?_ }
    · intro q hq hql
      have hqh : q ≠ home := fun e => hql (e ▸ List.mem_cons_self _ _)
      rw [hnx]; simp [hq, hqh]
    · rw [hd_add_begin_zero h0, hhd]
      refine Path.cons hH' ?_
      rw [hnx]; simp only [if_true]
      refine Path.cons hF' ?_
      rw [hnx]; simp only [hFh, if_false, if_true]
      refine Path.frame hp' length_add_begin ?_
      intro q hq
      have hq1 : q ≠ home := fun e => (List.nodup_cons.1 hnd).1 (e ▸ hq)
      have hq2 : q ≠ F := fun e => hFl (e ▸ List.mem_cons_of_mem _ hq)
      rw [hnx]; simp [hq1, hq2]
    · intro p; simp only [List.mem_cons]; tauto
  · -- the new bucket becomes the head of the chain
    have hn := Path.head_inb hp
    have hnx := @nxt_add_begin_ne t home F k k v hlen h0 hF hn
    refine ⟨F :: l, ?_⟩
    refine
      { len := length_add_begin
        hash_new := by simp [hash_add_begin hF]
        key_new := by simp [key_add_begin hF]
        data_new := by simp [data_add_begin hF]
        hash_old := fun q hq => by simp [hash_add_begin hF, hq]
        key_old := fun q hq => by simp [key_add_begin hF, hq]
        data_old := fun q hq => by simp [data_add_begin hF, hq]
        hd_old := fun h hh => by rw [hd_add_begin_ne hlen h0 hF hH]; simp [hh]
        nxt_old := fun q hq _ => by rw [hnx]; simp [hq]
        chain := ?_
        mem := fun p => by simp only [List.mem_cons] }
    rw [hd_add_begin_ne hlen h0 hF hH]; simp only [if_true]
    refine Path.cons hF' ?_
    rw [hnx]; simp only [if_true]
    refine Path.frame hp length_add_begin ?_
    intro q hq
    have hq2 : q ≠ F := fun e => hFl (e ▸ hq)
    rw [hnx]; simp [hq2]

theorem inserted_add_end {t : List dt_cache_bucket_t} {home F : Int} {k v : Nat}
    {l : List Int} (hlen : t.length ≤ 32767) (hH : inb t home) (hF : inb t F)
    (hp : Path t (hd t home) l none) (hFl : F ∉ l) :
    ∃ l', inserted t (add_key_to_end_of_list t home F k k v (last_of none l)) home F k v l l' := by
  have hF' : ∀ last, inb (add_key_to_end_of_list t home F k k v last) F :=
    fun last => inb_of_length_eq (length_add_end last) hF
  rcases List.eq_nil_or_concat l with rfl | ⟨l0, L, rfl⟩
  · -- empty chain: the new bucket becomes the head
    simp only [last_of_nil]
    have hnx := @nxt_add_end_none t home F k k v hF
    refine ⟨[F], ?_⟩
    refine
      { len := length_add_end _
        hash_new := by simp [hash_add_end hF]
        key_new := by simp [key_add_end hF]
        data_new := by simp [data_add_end hF]
        hash_old := fun q hq => by simp [hash_add_end hF, hq]
        key_old := fun q hq => by simp [key_add_end hF, hq]
        data_old := fun q hq => by simp [data_add_end hF, hq]
        hd_old := fun h hh => by rw [hd_add_end_none hlen hF hH]; simp [hh]
        nxt_old := fun q hq _ => by rw [hnx]; simp [hq]
        chain := ?_
        mem := fun p => by simp }
    rw [hd_add_end_none hlen hF hH]; simp only [if_true]
    have := Path.cons (hF' none) (Path.nil _)
    rw [hnx] at this
    simpa using this
  · -- the new bucket goes behind the last bucket of the chain
    rw [List.concat_eq_append] at hp hFl ⊢
    rw [last_of_append_singleton]
    have hL : inb t L := Path.inb_of_mem hp L (by simp)
    have hnx := @nxt_add_end_some t home F k k v hlen hF L hL
    have hnd := Path.nodup _ _ hp
    have hLl0 : L ∉ l0 := fun hmem =>
      (List.nodup_append.1 hnd).2.2 hmem (List.mem_singleton_self L)
    have hFL : F ≠ L := fun e => hFl (by simp [e])
    obtain ⟨hp0, -⟩ := Path.before_last hp
    refine ⟨(l0 ++ [L]) ++ [F], ?_⟩
    refine
      { len := length_add_end _
        hash_new := by simp [hash_add_end hF]
        key_new := by simp [key_add_end hF]
        data_new := by simp [data_add_end hF]
        hash_old := fun q hq => by simp [hash_add_end hF, hq]
        key_old := fun q hq => by simp [key_add_end hF, hq]
        data_old := fun q hq => by simp [data_add_end hF, hq]
        hd_old := fun h _ => hd_add_end_some _ _
        nxt_old := ?_
        chain := ?_
        mem := ?_ }
    · intro q hq hql
      have hqL : q ≠ L := fun e => hql (by simp [e])
      rw [hnx]; simp [hq, hqL]
    · rw [hd_add_end_some]
      have h0' : Path (add_key_to_end_of_list t home F k k v (some L)) (hd t home) l0
          (some L) := by
        refine Path.frame hp0 (length_add_end _) ?_
        intro q hq
        have hq1 : q ≠ L := fun e => hLl0 (e ▸ hq)
        have hq2 : q ≠ F := fun e => hFl (by simp [← e, hq])
        rw [hnx]; simp [hq1, hq2]
      have h1 := Path.snoc h0' (inb_of_length_eq (length_add_end _) hL)
      rw [hnx] at h1
      simp only [if_true] at h1
      have h2 := Path.snoc h1 (hF' _)
      rw [hnx] at h2
      simpa [hFL] using h2
    · intro p
      simp only [List.mem_append, List.mem_singleton]
      tauto

end DtCache


namespace DtCache

/-! ## The record of puts -/

theorem first_put_eq_none_iff {ops : List (Nat × Nat)} {j : Nat} :
    first_put ops j = none ↔ ∀ kv ∈ ops, kv.1 ≠ j := by
  simp [first_put, List.find?_eq_none]

theorem first_put_eq_some {ops : List (Nat × Nat)} {j d : Nat} (h : first_put ops j = some d) :
    (j, d) ∈ ops := by
  simp only [first_put, Option.map_eq_some'] at h
  obtain ⟨kv, hkv, rfl⟩ := h
  have h1 := List.find?_some hkv
  have h2 := List.mem_of_find?_eq_some hkv
  simp only [decide_eq_true_eq] at h1
  subst h1
  exact h2

theorem first_put_append_of_some {ops : List (Nat × Nat)} {j d : Nat}
    (h : first_put ops j = some d) (x : List (Nat × Nat)) : first_put (ops ++ x) j = some d := by
  simp only [first_put, Option.map_eq_some'] at h ⊢
  obtain ⟨kv, hkv, rfl⟩ := h
  exact ⟨kv, by simp [List.find?_append, hkv], rfl⟩

theorem first_put_append_of_none {ops : List (Nat × Nat)} {j : Nat}
    (h : first_put ops j = none) (v : Nat) : first_put (ops ++ [(j, v)]) j = some v := by
  simp only [first_put, Option.map_eq_none'] at h
  simp [first_put, List.find?_append, h]

theorem first_put_isSome_of_mem {ops : List (Nat × Nat)} {kv : Nat × Nat} (h : kv ∈ ops) :
    ∃ d, first_put ops kv.1 = some d := by
  cases hf : first_put ops kv.1 with
  | none => exact absurd rfl (first_put_eq_none_iff.1 hf kv h)
  | some d => exact ⟨d, rfl⟩

theorem distinct_keys_eq_card (ops : List (Nat × Nat)) :
    distinct_keys ops = (ops.map (fun kv => kv.1)).toFinset.card := by
  simp [distinct_keys, List.card_toFinset]

theorem distinct_keys_append_new {ops : List (Nat × Nat)} {k : Nat} (v : Nat)
    (h : ∀ kv ∈ ops, kv.1 ≠ k) : distinct_keys (ops ++ [(k, v)]) = distinct_keys ops + 1 := by
  rw [distinct_keys_eq_card, distinct_keys_eq_card]
  simp only [List.map_append, List.map_cons, List.map_nil, List.toFinset_append,
    List.toFinset_cons, List.toFinset_nil, insert_emptyc_eq]
  rw [Finset.union_comm, ← Finset.insert_eq, Finset.card_insert_of_not_mem]
  intro hmem
  simp only [List.mem_toFinset, List.mem_map] at hmem
  obtain ⟨kv, hkv, he⟩ := hmem
  exact h kv hkv he

theorem distinct_keys_append_old {ops : List (Nat × Nat)} {k : Nat} (v : Nat)
    (h : ∃ kv ∈ ops, kv.1 = k) : distinct_keys (ops ++ [(k, v)]) = distinct_keys ops := by
  rw [distinct_keys_eq_card, distinct_keys_eq_card]
  simp only [List.map_append, List.map_cons, List.map_nil, List.toFinset_append,
    List.toFinset_cons, List.toFinset_nil, insert_emptyc_eq]
  rw [Finset.union_comm, ← Finset.insert_eq, Finset.insert_eq_of_mem]
  simp only [List.mem_toFinset, List.mem_map]
  exact h

/-! ## Counting occupied buckets -/

theorem countP_eq_of_pointwise {α : Type} (p : α → Bool) :
    ∀ (l l' : List α), l'.length = l.length →
      (∀ i, ∀ (h1 : i < l.length) (h2 : i < l'.length), p l'[i] = p l[i]) →
      l'.countP p = l.countP p := by
  intro l
  induction l with
  | nil => intro l' hlen _; simp at hlen; simp [hlen]
  | cons a l ih =>
    intro l' hlen hsame
    cases l' with
    | nil => simp at hlen
    | cons a' l' =>
      simp only [List.length_cons, add_left_inj] at hlen
      have h0 := hsame 0 (by simp) (by simp)
      simp only [List.getElem_cons_zero] at h0
      have := ih l' hlen (fun i h1 h2 => by
        have := hsame (i + 1) (by simp; omega) (by simp; omega)
        simpa using this)
      simp [List.countP_cons, h0, this]

theorem countP_succ_of_flip {α : Type} (p : α → Bool) :
    ∀ (l l' : List α) (n : Nat), l'.length = l.length → (hn : n < l.length) →
      (∀ i, i ≠ n → ∀ (h1 : i < l.length) (h2 : i < l'.length), p l'[i] = p l[i]) →
      (∀ (h1 : n < l.length) (h2 : n < l'.length), p l[n] = false ∧ p l'[n] = true) →
      l'.countP p = l.countP p + 1 := by
  intro l
  induction l with
  | nil => intro l' n _ hn; simp at hn
  | cons a l ih =>
    intro l' n hlen hn hsame hflip
    cases l' with
    | nil => simp at hlen
    | cons a' l' =>
      simp only [List.length_cons, add_left_inj] at hlen
      cases n with
      | zero =>
        have hf := hflip (by simp) (by simp)
        simp only [List.getElem_cons_zero] at hf
        have hrest : l'.countP p = l.countP p :=
          countP_eq_of_pointwise p l l' hlen (fun i h1 h2 => by
            have := hsame (i + 1) (by omega) (by simp; omega) (by simp; omega)
            simpa using this)
        simp [List.countP_cons, hf.1, hf.2, hrest]
      | succ n =>
        have h0 := hsame 0 (by omega) (by simp) (by simp)
        simp only [List.getElem_cons_zero] at h0
        have := ih l' n hlen (by simpa using hn)
          (fun i hi h1 h2 => by
            have := hsame (i + 1) (by omega) (by simp; omega) (by simp; omega)
            simpa using this)
          (fun h1 h2 => by
            have := hflip (by simp; omega) (by simp; omega)
            simpa using this)
        simp [List.countP_cons, h0, this]
        omega

theorem occupied_count_inserted {t t' : List dt_cache_bucket_t} {F : Int} {k : Nat}
    (hlen : t'.length = t.length) (hF : inb t F) (hFe : ¬ occupied t F)
    (hk : k ≠ DT_CACHE_EMPTY_HASH) (hnew : (rd t' F).hash = k)
    (hold : ∀ q, q ≠ F → (rd t' q).hash = (rd t q).hash) :
    occupied_count t' = occupied_count t + 1 := by
  obtain ⟨n, rfl⟩ := Int.eq_ofNat_of_zero_le hF.1
  have hn : n < t.length := by have := hF.2; omega
  unfold occupied_count
  apply countP_succ_of_flip _ t t' n hlen hn
  · intro i hi h1 h2
    have := hold (i : Int) (by omega)
    rw [rd_eq_getElem h1, rd_eq_getElem h2] at this
    simp [this]
  · intro h1 h2
    rw [rd_eq_getElem h2] at hnew
    simp only [occupied, rd_eq_getElem h1, ne_eq, not_not] at hFe
    simp [hnew, hFe, hk]

theorem occupied_count_take {t : List dt_cache_bucket_t} {n : Nat}
    (h : ∀ i : Nat, n ≤ i → i < t.length → ¬ occupied t i) :
    occupied_count (t.take n) = occupied_count t := by
  unfold occupied_count
  conv_rhs => rw [← List.take_append_drop n t]
  rw [List.countP_append]
  have : List.countP (fun b => decide (b.hash ≠ DT_CACHE_EMPTY_HASH)) (t.drop n) = 0 := by
    rw [List.countP_eq_zero]
    intro b hb
    obtain ⟨i, hi, rfl⟩ := List.getElem_of_mem hb
    simp only [List.length_drop] at hi
    have := h (n + i) (by omega) (by omega)
    simp only [occupied, rd_eq_getElem (show n + i < t.length by omega), ne_eq, not_not] at this
    simp [List.getElem_drop, this]
  omega

end DtCache


namespace DtCache

/-! ## The invariant of the reached states -/

theorem home_of_le (c : dt_cache_t) (k : Nat) : home_of c k ≤ c.bucket_mask := by
  simp only [home_of]
  exact_mod_cast Nat.and_le_right

theorem home_of_nonneg (c : dt_cache_t) (k : Nat) : 0 ≤ home_of c k := by
  simp [home_of]

theorem reach_inv.home_inb {c : dt_cache_t} {ops : List (Nat × Nat)} (hinv : reach_inv c ops)
    (k : Nat) : inb c.table (home_of c k) := by
  refine ⟨home_of_nonneg c k, ?_⟩
  have h1 := home_of_le c k
  have h2 := hinv.mask
  omega

theorem reach_inv.chain_members {c : dt_cache_t} {ops : List (Nat × Nat)}
    (hinv : reach_inv c ops) {h : Int} (hh : inb c.table h) {l : List Int}
    (hp : Path c.table (hd c.table h) l none) :
    ∀ p ∈ l, occupied c.table p ∧ home_of c (rd c.table p).key = h := by
  obtain ⟨l', hp', hm⟩ := hinv.chains h hh
  rw [Path.functional hp hp']
  exact hm

theorem reach_inv.mem_chain {c : dt_cache_t} {ops : List (Nat × Nat)}
    (hinv : reach_inv c ops) {i : Int} (hi : inb c.table i) (ho : occupied c.table i)
    {l : List Int} (hp : Path c.table (hd c.table (home_of c (rd c.table i).key)) l none) :
    i ∈ l := by
  obtain ⟨l', hp', hm⟩ := hinv.cover i hi ho
  rw [Path.functional hp hp']
  exact hm

/-- The invariant only reads the table and the bucket mask. -/
theorem reach_inv.congr {c c' : dt_cache_t} {ops : List (Nat × Nat)} (hinv : reach_inv c ops)
    (ht : c'.table = c.table) (hb : c'.bucket_mask = c.bucket_mask) : reach_inv c' ops := by
  have hh : ∀ x, home_of c' x = home_of c x := home_of_congr hb
  refine
    { len := by rw [ht]; exact hinv.len
      mask := by rw [ht, hb]; exact hinv.mask
      chains := ?_
      cover := ?_
      from_ops := by rw [ht]; exact hinv.from_ops
      to_table := by rw [ht]; exact hinv.to_table
      count := by rw [ht]; exact hinv.count
      unique := by rw [ht]; exact hinv.unique }
  · intro h hin
    rw [ht] at hin ⊢
    obtain ⟨l, hp, hm⟩ := hinv.chains h hin
    exact ⟨l, hp, fun p hpm => by rw [hh]; exact hm p hpm⟩
  · intro i hin ho
    rw [ht] at hin ho ⊢
    rw [hh]
    exact hinv.cover i hin ho

/-- A put of a key that is already there only lengthens the record. -/
theorem reach_inv.append_old {c : dt_cache_t} {ops : List (Nat × Nat)} (hinv : reach_inv c ops)
    {k : Nat} (v : Nat) {q : Int} (hq : inb c.table q) (ho : occupied c.table q)
    (hkey : (rd c.table q).key = k) : reach_inv c (ops ++ [(k, v)]) := by
  have hin : ∃ kv ∈ ops, kv.1 = k := by
    obtain ⟨-, hf⟩ := hinv.from_ops q hq ho
    rw [hkey] at hf
    exact ⟨_, first_put_eq_some hf, rfl⟩
  refine
    { len := hinv.len
      mask := hinv.mask
      chains := hinv.chains
      cover := hinv.cover
      from_ops := ?_
      to_table := ?_
      count := by rw [distinct_keys_append_old v hin]; exact hinv.count
      unique := hinv.unique }
  · intro i hi hoi
    obtain ⟨h1, h2⟩ := hinv.from_ops i hi hoi
    exact ⟨h1, first_put_append_of_some h2 _⟩
  · intro kv hkv
    rcases List.mem_append.1 hkv with h | h
    · exact hinv.to_table kv h
    · simp only [List.mem_singleton] at h
      subst h
      exact ⟨q, hq, ho, hkey⟩

/-- A put of a new key, linked as `inserted` says, keeps the invariant. -/
theorem reach_inv.insert {c : dt_cache_t} {ops : List (Nat × Nat)}
    {s : List dt_cache_segment_t} {t' : List dt_cache_bucket_t} {F : Int} {k v : Nat}
    {l l' : List Int} (hinv : reach_inv c ops)
    (hF : inb c.table F) (hFe : ¬ occupied c.table F) (hk : k ≠ DT_CACHE_EMPTY_KEY)
    (hl : Path c.table (hd c.table (home_of c k)) l none)
    (hno : ∀ p ∈ l, ¬ holds c.table k k p)
    (hins : inserted c.table t' (home_of c k) F k v l l') :
    reach_inv { c with segments := s, table := t' } (ops ++ [(k, v)]) := by
  have hHin : inb c.table (home_of c k) := hinv.home_inb k
  have hmem_l := hinv.chain_members hHin hl
  have hfresh : ∀ kv ∈ ops, kv.1 ≠ k := by
    intro kv hkv e
    obtain ⟨i, hi, hocc, hkey⟩ := hinv.to_table kv hkv
    obtain ⟨hhk, -⟩ := hinv.from_ops i hi hocc
    have himem := hinv.mem_chain hi hocc (l := l) (by rw [hkey, e]; exact hl)
    exact hno i himem ⟨by rw [hhk, hkey, e], by rw [hkey, e]⟩
  have hoccF : occupied t' F := by
    simp only [occupied, hins.hash_new]; exact hk
  have hocc_old : ∀ q, q ≠ F → (occupied t' q ↔ occupied c.table q) := by
    intro q hq; simp only [occupied, hins.hash_old q hq]
  have hinb : ∀ q, inb t' q ↔ inb c.table q := by
    intro q; simp [inb, hins.len]
  have htransfer : ∀ (h : Int) (lh : List Int), inb c.table h → h ≠ home_of c k →
      Path c.table (hd c.table h) lh none → Path t' (hd t' h) lh none := by
    intro h lh hh hne hp
    rw [hins.hd_old h hne]
    refine Path.frame hp hins.len ?_
    intro q hq
    have hq' := hinv.chain_members hh hp q hq
    exact hins.nxt_old q (fun e => hFe (e ▸ hq'.1))
      (fun hql => hne ((hq'.2).symm.trans (hmem_l q hql).2))
  refine
    { len := by simp only [hins.len]; exact hinv.len
      mask := by simp only [hins.len]; exact hinv.mask
      chains := ?_
      cover := ?_
      from_ops := ?_
      to_table := ?_
      count := ?_
      unique := ?_ }
  · -- every chain is sound
    intro h hh
    simp only at hh ⊢
    rw [hinb] at hh
    by_cases hhome : h = home_of c k
    · subst hhome
      refine ⟨l', hins.chain, ?_⟩
      intro p hp
      rcases (hins.mem p).1 hp with rfl | hpl
      · exact ⟨hoccF, by simp [home_of, hins.key_new]⟩
      · have hpF : p ≠ F := fun e => hFe (e ▸ (hmem_l p hpl).1)
        refine ⟨(hocc_old p hpF).2 (hmem_l p hpl).1, ?_⟩
        have := (hmem_l p hpl).2
        simpa [home_of, hins.key_old p hpF] using this
    · obtain ⟨lh, hp, hm⟩ := hinv.chains h hh
      refine ⟨lh, htransfer h lh hh hhome hp, ?_⟩
      intro p hpm
      have hpF : p ≠ F := fun e => hFe (e ▸ (hm p hpm).1)
      refine ⟨(hocc_old p hpF).2 (hm p hpm).1, ?_⟩
      have := (hm p hpm).2
      simpa [home_of, hins.key_old p hpF] using this
  · -- every occupied bucket is on its chain
    intro i hi ho
    simp only at hi ho ⊢
    rw [hinb] at hi
    by_cases hiF : i = F
    · subst hiF
      refine ⟨l', ?_, (hins.mem i).2 (Or.inl rfl)⟩
      have : home_of { c with segments := s, table := t' } (rd t' i).key = home_of c k := by
        simp [home_of, hins.key_new]
      rw [this]; exact hins.chain
    · have ho' := (hocc_old i hiF).1 ho
      have hkey : home_of { c with segments := s, table := t' } (rd t' i).key
          = home_of c (rd c.table i).key := by
        simp [home_of, hins.key_old i hiF]
      rw [hkey]
      obtain ⟨li, hp, him⟩ := hinv.cover i hi ho'
      by_cases hhome : home_of c (rd c.table i).key = home_of c k
      · rw [hhome] at hp ⊢
        have := Path.functional hp hl
        subst this
        exact ⟨l', hins.chain, (hins.mem i).2 (Or.inr him)⟩
      · exact ⟨li, htransfer _ li (hinv.home_inb _) hhome hp, him⟩
  · -- every entry comes from the record
    intro i hi ho
    simp only at hi ho ⊢
    rw [hinb] at hi
    by_cases hiF : i = F
    · subst hiF
      rw [hins.hash_new, hins.key_new, hins.data_new]
      exact ⟨rfl, first_put_append_of_none (first_put_eq_none_iff.2 hfresh) v⟩
    · have ho' := (hocc_old i hiF).1 ho
      obtain ⟨h1, h2⟩ := hinv.from_ops i hi ho'
      rw [hins.hash_old i hiF, hins.key_old i hiF, hins.data_old i hiF]
      exact ⟨h1, first_put_append_of_some h2 _⟩
  · -- every key of the record has a bucket
    intro kv hkv
    simp only
    rcases List.mem_append.1 hkv with h | h
    · obtain ⟨i, hi, ho, hkey⟩ := hinv.to_table kv h
      have hiF : i ≠ F := fun e => hFe (e ▸ ho)
      exact ⟨i, (hinb i).2 hi, (hocc_old i hiF).2 ho, by rw [hins.key_old i hiF]; exact hkey⟩
    · simp only [List.mem_singleton] at h
      subst h
      exact ⟨F, (hinb F).2 hF, hoccF, hins.key_new⟩
  · simp only
    rw [occupied_count_inserted hins.len hF hFe hk hins.hash_new hins.hash_old,
      distinct_keys_append_new v hfresh, hinv.count]
  · -- keys stay unique: no old bucket holds the new key
    have hnot : ∀ i, inb c.table i → occupied c.table i → (rd c.table i).key ≠ k := by
      intro i hi ho hkey
      obtain ⟨hhk, -⟩ := hinv.from_ops i hi ho
      have himem := hinv.mem_chain hi ho (l := l) (by rw [hkey]; exact hl)
      exact hno i himem ⟨by rw [hhk, hkey], hkey.symm⟩
    intro i j hi hj hoi hoj hkey
    simp only at hi hj hoi hoj hkey
    rw [hinb] at hi hj
    by_cases hiF : i = F
    · by_cases hjF : j = F
      · rw [hiF, hjF]
      · exfalso
        rw [hiF, hins.key_new, hins.key_old j hjF] at hkey
        exact hnot j hj ((hocc_old j hjF).1 hoj) hkey.symm
    · by_cases hjF : j = F
      · exfalso
        rw [hjF, hins.key_new, hins.key_old i hiF] at hkey
        exact hnot i hi ((hocc_old i hiF).1 hoi) hkey
      · rw [hins.key_old i hiF, hins.key_old j hjF] at hkey
        exact hinv.unique i j hi hj ((hocc_old i hiF).1 hoi) ((hocc_old j hjF).1 hoj) hkey

end DtCache


namespace DtCache

/-! ## Every state reached by puts satisfies the invariant -/

theorem occupied_of_holds {t : List dt_cache_bucket_t} {k : Nat} {q : Int}
    (hk : k ≠ DT_CACHE_EMPTY_KEY) (h : holds t k k q) : occupied t q := by
  simp only [occupied, ← h.1]
  exact hk

/-- What a put of a new key does to the table: it fills a free bucket `F`. -/
theorem put_place_inserted {fuel : Nat} {c : dt_cache_t} {ops : List (Nat × Nat)}
    {k v : Nat} {l : List Int} {t' : List dt_cache_bucket_t} (hinv : reach_inv c ops)
    (hl : Path c.table (hd c.table (home_of c k)) l none)
    (hp : dt_cache_put_place fuel c (home_of c k) (last_of none l) k k v = .ok t') :
    ∃ F l', inb c.table F ∧ ¬ occupied c.table F ∧
      inserted c.table t' (home_of c k) F k v l l' ∧
      ((c.is_cacheline_alignment ≠ 0 ∧
        dt_cache_put_cacheline_scan c.table (home_of c k)
          (get_start_cacheline_bucket c (home_of c k))
          (get_start_cacheline_bucket c (home_of c k) + c.cache_mask) fuel (home_of c k)
          = .ok (some F)) ∨
       (F ≤ c.bucket_mask ∧ home_of c k + (c.cache_mask + 1) ≤ F) ∨
       F ≤ home_of c k - (c.cache_mask + 1)) := by
  have hH := hinv.home_inb k
  have hmem := hinv.chain_members hH hl
  rcases put_place_eq_ok hp with ⟨ha, F, hscan, rfl⟩ | ⟨F, hF, hFe, h1, h2, -, rfl⟩ |
      ⟨F, hF, hFe, h1, -, rfl⟩
  · obtain ⟨hF, hFe⟩ := cacheline_scan_found_inb _ _ _ hscan
    have hFo : ¬ occupied c.table F := by simp [occupied, hFe]
    have hFl : F ∉ l := fun hm => hFo (hmem F hm).1
    obtain ⟨l', hins⟩ := inserted_add_begin (k := k) (v := v) hinv.len hH hF hl hFl
    exact ⟨F, l', hF, hFo, hins, Or.inl ⟨ha, hscan⟩⟩
  · have hFo : ¬ occupied c.table F := by simp [occupied, hFe]
    have hFl : F ∉ l := fun hm => hFo (hmem F hm).1
    obtain ⟨l', hins⟩ := inserted_add_end (k := k) (v := v) hinv.len hH hF hl hFl
    exact ⟨F, l', hF, hFo, hins, Or.inr (Or.inl ⟨h1, h2⟩)⟩
  · have hFo : ¬ occupied c.table F := by simp [occupied, hFe]
    have hFl : F ∉ l := fun hm => hFo (hmem F hm).1
    obtain ⟨l', hins⟩ := inserted_add_end (k := k) (v := v) hinv.len hH hF hl hFl
    exact ⟨F, l', hF, hFo, hins, Or.inr (Or.inr h1)⟩

theorem reach_inv_put {U : undefined_t} {fuel : Nat} {c c' : dt_cache_t} {k v r : Nat}
    {ops : List (Nat × Nat)} (hinv : reach_inv c ops) (hk : k ≠ DT_CACHE_EMPTY_KEY)
    (hput : dt_cache_put U fuel c k v = .ok (r, c')) : reach_inv c' (ops ++ [(k, v)]) := by
  obtain ⟨-, -, -, t', rfl, hcase⟩ := dt_cache_put_eq_ok hput
  rcases hcase with ⟨d, hw, -, rfl⟩ | ⟨last, hw, -, hp⟩
  · obtain ⟨l, q, -, hq, -, hh, -, -⟩ := path_of_put_walk_found _ _ _ _ _ _ _ _ hw
    exact (hinv.append_old v hq (occupied_of_holds hk hh) hh.2.symm).congr rfl rfl
  · obtain ⟨l, hl, hno, -, hlast⟩ := path_of_put_walk_absent _ _ _ _ _ _ _ _ hw
    subst hlast
    obtain ⟨F, l', hF, hFo, hins, -⟩ := put_place_inserted hinv hl hp
    exact hinv.insert hF hFo hk hl hno hins

theorem rd_replicate {n : Nat} {b : dt_cache_bucket_t} {p : Int}
    (hp : inb (List.replicate n b) p) : rd (List.replicate n b) p = b := by
  obtain ⟨i, rfl⟩ := Int.eq_ofNat_of_zero_le hp.1
  have hi : i < (List.replicate n b).length := by have := hp.2; omega
  rw [rd_eq_getElem hi]
  simp

theorem reach_inv_fresh {c : dt_cache_t} {n : Nat} (ht : c.table = List.replicate n empty_bucket)
    (hn : n ≤ 32767) (hm : c.bucket_mask < n) : reach_inv c [] := by
  have hrd : ∀ p, inb c.table p → rd c.table p = empty_bucket := by
    intro p hp; rw [ht] at hp ⊢; exact rd_replicate hp
  have hno : ∀ p, inb c.table p → ¬ occupied c.table p := by
    intro p hp; simp [occupied, hrd p hp, empty_bucket]
  refine
    { len := by simp [ht, hn]
      mask := by simp [ht, hm]
      chains := ?_
      cover := fun i hi ho => absurd ho (hno i hi)
      from_ops := fun i hi ho => absurd ho (hno i hi)
      to_table := fun kv hkv => by simp at hkv
      count := ?_
      unique := fun i _ hi _ ho => absurd ho (hno i hi) }
  · intro h hh
    refine ⟨[], ?_, by simp⟩
    have : hd c.table h = none := by simp [hd, hrd h hh, empty_bucket, link_null]
    rw [this]; exact Path.nil _
  · simp [ht, occupied_count, List.countP_replicate, empty_bucket, distinct_keys]

theorem reach_inv_init {U : undefined_t} {fuel : Nat} {cache c0 : dt_cache_t}
    {capacity num_threads cache_line_size optimize_cacheline : Int}
    (h : dt_cache_init U fuel cache capacity num_threads cache_line_size optimize_cacheline
      = .ok c0) (hcap : c0.bucket_mask + 1 ≤ 16384) : reach_inv c0 [] := by
  obtain ⟨-, ht, -, -⟩ := dt_cache_init_shape h
  exact reach_inv_fresh (ht (by omega)) (by simp only [DT_CACHE_INSERT_RANGE]; omega)
    (by omega)

theorem reach_inv_put_run {U : undefined_t} {c0 c : dt_cache_t} {ops : List (Nat × Nat)}
    (hrun : put_run U c0 ops c) (h0 : reach_inv c0 [])
    (hkeys : ∀ kv ∈ ops, kv.1 ≠ DT_CACHE_EMPTY_KEY) : reach_inv c ops := by
  induction hrun with
  | nil => exact h0
  | snoc _ hput ih =>
    exact reach_inv_put (ih fun kv hkv => hkeys kv (List.mem_append_left _ hkv))
      (hkeys _ (List.mem_append_right _ (List.mem_singleton_self _))) hput

/-! ## Locks and segments of the reached states -/

theorem dt_cache_put_locks {U : undefined_t} {fuel : Nat} {c c' : dt_cache_t} {k v r : Nat}
    (hput : dt_cache_put U fuel c k v = .ok (r, c'))
    (h0 : ∀ s, (c.segments.getD s default).lock = 0) :
    ∀ s, (c'.segments.getD s default).lock = 0 := by
  obtain ⟨hseg, -, -, t', rfl, -⟩ := dt_cache_put_eq_ok hput
  intro s
  by_cases hs : segment_of U c k = s
  · subst hs
    simp only [getD_set_self hseg]
  · have := h0 s
    simpa [List.getD_eq_getElem?_getD, List.getElem?_set, hs] using this

theorem put_run_locks {U : undefined_t} {c0 c : dt_cache_t} {ops : List (Nat × Nat)}
    (hrun : put_run U c0 ops c) (h0 : ∀ s, (c0.segments.getD s default).lock = 0) :
    ∀ s, (c.segments.getD s default).lock = 0 := by
  induction hrun with
  | nil => exact h0
  | snoc _ hput ih => exact dt_cache_put_locks hput ih

theorem segment_of_lt {U : undefined_t} {c : dt_cache_t} (k : Nat)
    (h : c.segments.length = c.segment_mask + 1) : segment_of U c k < c.segments.length := by
  rw [h]
  simp only [segment_of]
  exact Nat.lt_succ_of_le Nat.and_le_right

/-- The facts about locks and segments that `dt_cache_put` and `dt_cache_contains` need, in
every state reached from a cache built by `dt_cache_init`. -/
theorem segments_ready {U : undefined_t} {fuel : Nat} {cache c0 c : dt_cache_t}
    {capacity num_threads cache_line_size optimize_cacheline : Int}
    {ops : List (Nat × Nat)}
    (h : dt_cache_init U fuel cache capacity num_threads cache_line_size optimize_cacheline
      = .ok c0) (hrun : put_run U c0 ops c) (k : Nat) :
    segment_of U c k < c.segments.length ∧
    (c.segments.getD (segment_of U c k) default).lock = 0 := by
  obtain ⟨-, -, hs, -⟩ := dt_cache_init_shape h
  obtain ⟨-, h2, -, h4, -⟩ := put_run_frame hrun
  refine ⟨segment_of_lt k ?_, put_run_locks hrun ?_ _⟩
  · rw [h2, h4, hs]; simp
  · intro s
    rw [hs]
    simp only [List.getD_eq_getElem?_getD, List.getElem?_replicate]
    split <;> simp
    rfl

end DtCache


namespace DtCache

/-! ## Lookups in the reached states -/

theorem exists_first_holder {P : Int → Prop} :
    ∀ (l : List Int), (∃ i ∈ l, P i) →
      ∃ l1 p l2, l = l1 ++ p :: l2 ∧ P p ∧ ∀ q ∈ l1, ¬ P q
  | [], h => by simp at h
  | a :: l, h => by
    by_cases ha : P a
    · exact ⟨[], a, l, rfl, ha, by simp⟩
    · have h' : ∃ i ∈ l, P i := by
        obtain ⟨i, hi, hp⟩ := h
        rcases List.mem_cons.1 hi with rfl | hi
        · exact absurd hp ha
        · exact ⟨i, hi, hp⟩
      obtain ⟨l1, p, l2, rfl, hp, hno⟩ := exists_first_holder l h'
      refine ⟨a :: l1, p, l2, rfl, hp, ?_⟩
      intro q hq
      rcases List.mem_cons.1 hq with rfl | hq
      · exact ha
      · exact hno q hq

/-- The walk of a key that was put ends at a bucket holding the data of its first put. -/
theorem walk_of_put_key {c : dt_cache_t} {ops : List (Nat × Nat)} (hinv : reach_inv c ops)
    {kv : Nat × Nat} (hkv : kv ∈ ops) :
    ∃ d, first_put ops kv.1 = some d ∧ ∀ m, c.table.length + 1 ≤ m → ∀ last,
      dt_cache_put_walk c.table kv.1 kv.1 m (home_of c kv.1) last
        (rd c.table (home_of c kv.1)).first_delta = .ok (.found d) := by
  obtain ⟨d, hd'⟩ := first_put_isSome_of_mem hkv
  refine ⟨d, hd', ?_⟩
  obtain ⟨i, hi, ho, hkey⟩ := hinv.to_table kv hkv
  obtain ⟨hhk, -⟩ := hinv.from_ops i hi ho
  obtain ⟨l, hl, hm⟩ := hinv.chains _ (hinv.home_inb kv.1)
  have hil : i ∈ l := hinv.mem_chain hi ho (by rw [hkey]; exact hl)
  have hhold : holds c.table kv.1 kv.1 i := ⟨by rw [hhk, hkey], hkey.symm⟩
  obtain ⟨l1, p, l2, rfl, hp, hno⟩ := exists_first_holder l ⟨i, hil, hhold⟩
  obtain ⟨o1, h1, h2⟩ := Path.split l1 _ hl
  have ho1 := Path.head_eq h2
  subst ho1
  have hpin : inb c.table p := Path.inb_of_mem hl p (by simp)
  have hpo := (hm p (by simp)).1
  obtain ⟨-, hfp⟩ := hinv.from_ops p hpin hpo
  rw [← hp.2, hd'] at hfp
  have hlen := Path.length_le hl
  intro m hm' last
  have := put_walk_found_of_path c.table kv.1 kv.1 m (home_of c kv.1) last _ l1 p h1 hpin hno
    hp (by simp at hlen; omega)
  rw [this]
  simp only [Option.some.injEq] at hfp
  rw [hfp]

/-- The walk of a key that was never put runs to the end of its chain. -/
theorem walk_of_other_key {c : dt_cache_t} {ops : List (Nat × Nat)} (hinv : reach_inv c ops)
    {k : Nat} (hk : ∀ kv ∈ ops, kv.1 ≠ k) :
    ∃ last, ∀ m, c.table.length ≤ m →
      dt_cache_put_walk c.table k k m (home_of c k) none
        (rd c.table (home_of c k)).first_delta = .ok (.absent last) := by
  obtain ⟨l, hl, hm⟩ := hinv.chains _ (hinv.home_inb k)
  refine ⟨last_of none l, fun m hm' => ?_⟩
  refine put_walk_absent_of_path c.table k k m (home_of c k) none _ l hl ?_
    (le_trans (Path.length_le hl) hm')
  intro p hp hh
  have hpin : inb c.table p := Path.inb_of_mem hl p hp
  obtain ⟨-, hfp⟩ := hinv.from_ops p hpin (hm p hp).1
  rw [← hh.2] at hfp
  exact hk _ (first_put_eq_some hfp) rfl

end DtCache


namespace DtCache

/-! ## The rounded capacity is a power of two -/

theorem nearest_power_of_two_loop_pow {value : Nat} :
    ∀ (fuel rc r : Nat), ((∃ i, i ≤ 31 ∧ rc = 2 ^ i) ∨ (rc = 0 ∧ 0 < value)) →
      nearest_power_of_two_loop value fuel rc = .ok r → ∃ i, i ≤ 31 ∧ r = 2 ^ i := by
  intro fuel
  induction fuel with
  | zero =>
    intro rc r hrc h
    simp only [nearest_power_of_two_loop] at h
    split at h
    · cases h
    · rename_i hlt
      simp only [Outcome.ok.injEq] at h
      subst h
      rcases hrc with hrc | ⟨h0, hv⟩
      · exact hrc
      · omega
  | succ n ih =>
    intro rc r hrc h
    simp only [nearest_power_of_two_loop] at h
    split at h
    · rename_i hlt
      refine ih _ _ ?_ h
      rcases hrc with ⟨i, hi, rfl⟩ | ⟨h0, hv⟩
      · by_cases hi' : i = 31
        · subst hi'
          right
          exact ⟨by norm_num [Nat.shiftLeft_eq], by omega⟩
        · left
          refine ⟨i + 1, by omega, ?_⟩
          rw [Nat.shiftLeft_eq, pow_one, ← pow_succ]
          apply Nat.mod_eq_of_lt
          calc 2 ^ (i + 1) ≤ 2 ^ 31 := Nat.pow_le_pow_right (by norm_num) (by omega)
            _ < 4294967296 := by norm_num
      · right
        subst h0
        exact ⟨by simp, hv⟩
    · rename_i hlt
      simp only [Outcome.ok.injEq] at h
      subst h
      rcases hrc with hrc | ⟨h0, hv⟩
      · exact hrc
      · omega

theorem dt_cache_init_bucket_mask {U : undefined_t} {fuel : Nat} {cache c0 : dt_cache_t}
    {capacity num_threads cache_line_size optimize_cacheline : Int}
    (h : dt_cache_init U fuel cache capacity num_threads cache_line_size optimize_cacheline
      = .ok c0) : ∃ b, b ≤ 31 ∧ c0.bucket_mask + 1 = 2 ^ b := by
  unfold dt_cache_init at h
  obtain ⟨adj_nt, -, h⟩ := Outcome.bind_eq_ok h
  obtain ⟨p, -, h⟩ := Outcome.bind_eq_ok h
  obtain ⟨sh, -, h⟩ := Outcome.bind_eq_ok h
  obtain ⟨adj, hadj, h⟩ := Outcome.bind_eq_ok h
  obtain ⟨b, hb, rfl⟩ := nearest_power_of_two_loop_pow _ 1 _ (Or.inl ⟨0, by omega, rfl⟩) hadj
  simp only at h
  split at h
  · cases h
  · split at h
    · cases h
    · simp only [Outcome.ok.injEq] at h
      subst h
      refine ⟨b, hb, ?_⟩
      simp only [uint32_t]
      have h1 : 1 ≤ 2 ^ b := Nat.one_le_two_pow
      have h2 : 2 ^ b ≤ 2 ^ 31 := Nat.pow_le_pow_right (by norm_num) hb
      have h3 : (2 : Nat) ^ 31 = 2147483648 := by norm_num
      have : ((((2 ^ b : Nat) : Int) - 1) % 4294967296).toNat = 2 ^ b - 1 := by omega
      rw [this]
      omega

/-! ## Entries stay in the home range when the cache line fits the table -/

/-- The cache line of a home bucket ends inside the home range. -/
theorem cacheline_end_le {c : dt_cache_t} {j b : Nat} (k : Nat)
    (hc : c.cache_mask + 1 = 2 ^ j) (hb : c.bucket_mask + 1 = 2 ^ b)
    (hle : c.cache_mask + 1 ≤ (c.bucket_mask : Int) + 1) :
    get_start_cacheline_bucket c (home_of c k) + c.cache_mask ≤ c.bucket_mask := by
  have hjb : j ≤ b := by
    have h1 : (2 : Int) ^ j ≤ 2 ^ b := by
      rw [← hc]
      have : ((c.bucket_mask : Int) + 1) = ((2 ^ b : Nat) : Int) := by rw [← hb]; push_cast; rfl
      rw [this] at hle
      exact_mod_cast hle
    have h2 : (2 : Nat) ^ j ≤ 2 ^ b := by exact_mod_cast h1
    exact (Nat.pow_le_pow_iff_right (by norm_num)).1 h2
  have hcm : c.cache_mask = ((2 ^ j - 1 : Nat) : Int) := by
    have : 1 ≤ 2 ^ j := Nat.one_le_two_pow
    have h2 : c.cache_mask = 2 ^ j - 1 := by omega
    rw [h2]; push_cast [this]; rfl
  simp only [get_start_cacheline_bucket, home_of, hcm]
  have hland : Int.land ((k &&& c.bucket_mask : Nat) : Int) ((2 ^ j - 1 : Nat) : Int)
      = (((k &&& c.bucket_mask) &&& (2 ^ j - 1) : Nat) : Int) := rfl
  rw [hland, Nat.and_pow_two_sub_one_eq_mod]
  generalize hh : k &&& c.bucket_mask = h
  have hhle : h ≤ c.bucket_mask := by rw [← hh]; exact Nat.and_le_right
  have hlt : h < 2 ^ b := by omega
  obtain ⟨d, rfl⟩ : ∃ d, b = j + d := ⟨b - j, by omega⟩
  have hdiv : h / 2 ^ j < 2 ^ d := by
    rw [pow_add] at hlt
    exact Nat.div_lt_of_lt_mul hlt
  have hmod := Nat.div_add_mod h (2 ^ j)
  have hmul : 2 ^ j * (h / 2 ^ j + 1) ≤ 2 ^ j * 2 ^ d := Nat.mul_le_mul_left _ hdiv
  rw [← pow_add] at hmul
  have hpos : 1 ≤ 2 ^ j := Nat.one_le_two_pow
  have hmodle : h % 2 ^ j ≤ h := Nat.mod_le _ _
  have key : h - h % 2 ^ j + 2 ^ j ≤ c.bucket_mask + 1 := by
    rw [hb]
    have : h - h % 2 ^ j = 2 ^ j * (h / 2 ^ j) := by omega
    rw [this]
    calc 2 ^ j * (h / 2 ^ j) + 2 ^ j = 2 ^ j * (h / 2 ^ j + 1) := by ring
      _ ≤ 2 ^ (j + d) := hmul
  omega

theorem put_in_home_range {U : undefined_t} {fuel : Nat} {c c' : dt_cache_t} {k v r : Nat}
    {ops : List (Nat × Nat)} {j b : Nat} (hinv : reach_inv c ops)
    (hc : c.cache_mask + 1 = 2 ^ j) (hb : c.bucket_mask + 1 = 2 ^ b)
    (hle : c.cache_mask + 1 ≤ (c.bucket_mask : Int) + 1)
    (hr : ∀ i, inb c.table i → occupied c.table i → i ≤ c.bucket_mask)
    (hput : dt_cache_put U fuel c k v = .ok (r, c')) :
    ∀ i, inb c'.table i → occupied c'.table i → i ≤ c'.bucket_mask := by
  obtain ⟨-, -, -, t', rfl, hcase⟩ := dt_cache_put_eq_ok hput
  rcases hcase with ⟨d, hw, -, rfl⟩ | ⟨last, hw, -, hp⟩
  · exact hr
  · obtain ⟨l, hl, hno, -, hlast⟩ := path_of_put_walk_absent _ _ _ _ _ _ _ _ hw
    subst hlast
    obtain ⟨F, l', hF, hFo, hins, hwhere⟩ := put_place_inserted hinv hl hp
    have hcm : 0 ≤ c.cache_mask := by
      have : (1 : Int) ≤ 2 ^ j := by exact_mod_cast Nat.one_le_two_pow
      omega
    have hFle : F ≤ c.bucket_mask := by
      rcases hwhere with ⟨-, hscan⟩ | ⟨h1, -⟩ | h1
      · obtain ⟨g1, g2⟩ := start_cacheline_le (c := c) (home_of_nonneg c k) hcm
        obtain ⟨-, g3, -, -⟩ := cacheline_scan_found (le_trans g1 g2) _ _ _ g1 g2 hscan
        exact le_trans g3 (cacheline_end_le k hc hb hle)
      · exact h1
      · have := home_of_le c k
        omega
    intro i hi ho
    simp only at hi ho ⊢
    by_cases hiF : i = F
    · rw [hiF]; exact hFle
    · refine hr i ?_ ?_
      · simpa [inb, hins.len] using hi
      · simpa [occupied, hins.hash_old i hiF] using ho

theorem put_run_in_home_range {U : undefined_t} {c0 c : dt_cache_t} {ops : List (Nat × Nat)}
    {j b : Nat} (hrun : put_run U c0 ops c) (h0 : reach_inv c0 [])
    (hkeys : ∀ kv ∈ ops, kv.1 ≠ DT_CACHE_EMPTY_KEY)
    (hc : c0.cache_mask + 1 = 2 ^ j) (hb : c0.bucket_mask + 1 = 2 ^ b)
    (hle : c0.cache_mask + 1 ≤ (c0.bucket_mask : Int) + 1)
    (hr : ∀ i, inb c0.table i → occupied c0.table i → i ≤ c0.bucket_mask) :
    ∀ i, inb c.table i → occupied c.table i → i ≤ c.bucket_mask := by
  induction hrun with
  | nil => exact hr
  | snoc hrun' hput ih =>
    have hkeys' := fun kv hkv => hkeys kv (List.mem_append_left _ hkv)
    obtain ⟨-, -, g3, -, -, g6, -⟩ := put_run_frame hrun'
    exact put_in_home_range (reach_inv_put_run hrun' h0 hkeys') (by rw [g6]; exact hc)
      (by rw [g3]; exact hb) (by rw [g3, g6]; exact hle) (ih hkeys') hput

end DtCache


namespace DtCache

/-! ## A chain that loops is walked for ever -/

theorem contains_walk_self_loop {t : List dt_cache_bucket_t} {hash key : Nat} {p : Int}
    (hp : inb t p) (hn : (rd t p).next_delta = 0) (hh : ¬ holds t hash key p) :
    ∀ fuel, dt_cache_contains_walk t hash key fuel p 0 = .timeout := by
  intro fuel
  have hh' : ¬ (hash = (rd t p).hash ∧ key = (rd t p).key) := hh
  induction fuel with
  | zero => simp [dt_cache_contains_walk, DT_CACHE_NULL_DELTA, SHRT_MIN]
  | succ n ih =>
    simp only [dt_cache_contains_walk, add_zero, hp, hh', hn, not_true_eq_false, if_false]
    simpa [DT_CACHE_NULL_DELTA, SHRT_MIN] using ih

theorem contains_self_loop {U : undefined_t} {c : dt_cache_t} {key : Nat}
    (hseg : segment_of U c key < c.segments.length) (hH : inb c.table (home_of c key))
    (h0 : (rd c.table (home_of c key)).first_delta = 0)
    (hn : (rd c.table (home_of c key)).next_delta = 0)
    (hh : ¬ holds c.table key key (home_of c key)) :
    ∀ fuel, dt_cache_contains U fuel c key = .timeout := by
  intro fuel
  cases fuel with
  | zero => rfl
  | succ n =>
    simp only [dt_cache_contains, dt_cache_contains_retry, hseg, hH, not_true_eq_false,
      if_false, h0, contains_walk_self_loop hH hn hh]
    rfl

end DtCache


namespace DtCache

/-! ## Well-formed tables, by paths -/

theorem chain_list_of_path {c : dt_cache_t} {h : Nat} {l : List Int}
    (hp : Path c.table (hd c.table h) l none) : chain_ends c h ∧ chain_list c h = l := by
  have := (chain_of_length (t := c.table) _ l).2 hp
  simp [chain_ends, chain_list, this]

theorem path_of_chain_ends {c : dt_cache_t} {h : Nat} (he : chain_ends c h) :
    Path c.table (hd c.table h) (chain_list c h) none := by
  simp only [chain_ends, Option.isSome_iff_exists] at he
  obtain ⟨l, hl⟩ := he
  have hp := (chain_of_length (t := c.table) _ l).1 hl
  rw [(chain_list_of_path hp).2]
  exact hp

theorem inb_natCast {t : List dt_cache_bucket_t} {n : Nat} : inb t (n : Int) ↔ n < t.length := by
  simp [inb]

theorem home_of_eq_natCast {c : dt_cache_t} {key h : Nat} :
    home_of c key = (h : Int) ↔ key &&& c.bucket_mask = h := by
  simp only [home_of]
  exact Int.ofNat_inj

theorem well_formed_of_wf_paths {c : dt_cache_t} (h : wf_paths c) : well_formed c := by
  refine ⟨?_, ?_, ?_⟩
  · intro n hn
    obtain ⟨l, hp, hm⟩ := h.chains n (inb_natCast.2 hn)
    obtain ⟨he, hl⟩ := chain_list_of_path hp
    refine ⟨he, by rw [hl]; exact Path.nodup _ _ hp, ?_⟩
    rw [hl]
    intro p hpm
    exact ⟨(hm p hpm).1, home_of_eq_natCast.1 (hm p hpm).2⟩
  · intro i hi ho
    obtain ⟨hhome, l, hp, him⟩ := h.cover i (inb_natCast.2 hi) ho
    have hhome' : home_of c (rd c.table i).key
        = (((rd c.table i).key &&& c.bucket_mask : Nat) : Int) := rfl
    rw [hhome'] at hhome hp
    refine ⟨(rd c.table i).key &&& c.bucket_mask, inb_natCast.1 hhome, ?_, ?_⟩
    · rw [(chain_list_of_path hp).2]; exact him
    · intro n hn hin
      obtain ⟨l', hp', hm'⟩ := h.chains n (inb_natCast.2 hn)
      rw [(chain_list_of_path hp').2] at hin
      exact (home_of_eq_natCast.1 (hm' i hin).2).symm
  · intro i hi hoi j hj hoj hkey
    have := h.unique i j (inb_natCast.2 hi) (inb_natCast.2 hj) hoi hoj hkey
    exact_mod_cast this

theorem wf_paths_of_well_formed {c : dt_cache_t} (h : well_formed c) : wf_paths c := by
  obtain ⟨hs, hc, hu⟩ := h
  have hchains : ∀ n : Nat, n < c.table.length →
      Path c.table (hd c.table n) (chain_list c n) none ∧
      ∀ p ∈ chain_list c n, occupied c.table p ∧ home_of c (rd c.table p).key = n := by
    intro n hn
    obtain ⟨he, -, hm⟩ := hs n hn
    exact ⟨path_of_chain_ends he, fun p hp => ⟨(hm p hp).1, home_of_eq_natCast.2 (hm p hp).2⟩⟩
  refine ⟨?_, ?_, ?_⟩
  · intro x hx
    obtain ⟨n, rfl⟩ := Int.eq_ofNat_of_zero_le hx.1
    exact ⟨_, hchains n (inb_natCast.1 hx)⟩
  · intro x hx ho
    obtain ⟨n, rfl⟩ := Int.eq_ofNat_of_zero_le hx.1
    obtain ⟨m, hm, him, -⟩ := hc n (inb_natCast.1 hx) ho
    obtain ⟨hp, hmem⟩ := hchains m hm
    have := (hmem _ him).2
    rw [this]
    exact ⟨inb_natCast.2 hm, _, hp, him⟩
  · intro x y hx hy hox hoy hkey
    obtain ⟨n, rfl⟩ := Int.eq_ofNat_of_zero_le hx.1
    obtain ⟨m, rfl⟩ := Int.eq_ofNat_of_zero_le hy.1
    have := hu n (inb_natCast.1 hx) hox m (inb_natCast.1 hy) hoy hkey
    rw [this]

theorem reach_inv.wf {c : dt_cache_t} {ops : List (Nat × Nat)} (hinv : reach_inv c ops) :
    wf_paths c :=
  { chains := hinv.chains
    cover := fun i hi ho => ⟨hinv.home_inb _, hinv.cover i hi ho⟩
    unique := hinv.unique }

theorem wf_paths.members {c : dt_cache_t} (hwf : wf_paths c) {h : Int}
    (hh : inb c.table h) {l : List Int} (hp : Path c.table (hd c.table h) l none) :
    ∀ p ∈ l, occupied c.table p ∧ home_of c (rd c.table p).key = h := by
  obtain ⟨l', hp', hm⟩ := hwf.chains h hh
  rw [Path.functional hp hp']
  exact hm

theorem wf_paths.covered {c : dt_cache_t} (hwf : wf_paths c) {i : Int}
    (hi : inb c.table i) (ho : occupied c.table i) {l : List Int}
    (hp : Path c.table (hd c.table (home_of c (rd c.table i).key)) l none) : i ∈ l := by
  obtain ⟨-, l', hp', hm⟩ := hwf.cover i hi ho
  rw [Path.functional hp hp']
  exact hm

end DtCache


namespace DtCache

/-! ## A chain walk returns the first matching entry of the chain -/

theorem put_walk_eq_find (t : List dt_cache_bucket_t) (hash key : Nat) :
    ∀ (l : List Int) (fuel : Nat) (cur : Int) (last : Option Int) (nd : Int),
      Path t (link cur nd) l none → l.length ≤ fuel →
      dt_cache_put_walk t hash key fuel cur last nd =
        .ok (match find_entry hash key (l.map (entry t)) with
          | some d => .found d
          | none => .absent (last_of last l)) := by
  intro l
  induction l with
  | nil =>
    intro fuel cur last nd hp _
    have hnd : nd = DT_CACHE_NULL_DELTA := by
      by_cases hnd : nd = DT_CACHE_NULL_DELTA
      · exact hnd
      · rw [link_of_ne _ _ hnd] at hp; cases hp
    subst hnd
    cases fuel <;> simp [dt_cache_put_walk, find_entry, last_of]
  | cons p l ih =>
    intro fuel cur last nd hp hlen
    have hhead := Path.head_eq hp
    obtain ⟨hnd, hcur⟩ := link_eq_some hhead
    rw [hhead] at hp
    obtain ⟨l', hl', hin, hp'⟩ := Path.of_some hp
    cases hl'
    obtain ⟨n, rfl⟩ : ∃ n, fuel = n + 1 := ⟨fuel - 1, by simp at hlen; omega⟩
    simp only [dt_cache_put_walk, hnd, ne_eq, not_false_eq_true, if_true, hcur, hin,
      not_true_eq_false, if_false, List.map_cons, find_entry, entry]
    by_cases hh : hash = (rd t p).hash ∧ key = (rd t p).key
    · simp [hh]
    · simp only [hh, if_false]
      rw [ih n p (some p) _ hp' (by simpa using hlen), last_of_cons]

theorem find_entry_append_cons_of_not {hash key : Nat} {e : Nat × Nat × Nat}
    (he : ¬ (hash = e.1 ∧ key = e.2.1)) :
    ∀ (A B : List (Nat × Nat × Nat)),
      find_entry hash key (A ++ e :: B) = find_entry hash key (A ++ B)
  | [], B => by simp [find_entry, he]
  | a :: A, B => by
    simp only [List.cons_append, find_entry]
    split
    · rfl
    · exact find_entry_append_cons_of_not he A B

theorem find_entry_eq_none {hash key : Nat} :
    ∀ (es : List (Nat × Nat × Nat)), (∀ e ∈ es, ¬ (hash = e.1 ∧ key = e.2.1)) →
      find_entry hash key es = none
  | [], _ => rfl
  | e :: es, h => by
    simp only [find_entry, h e (List.mem_cons_self _ _), if_false]
    exact find_entry_eq_none es fun e' he' => h e' (List.mem_cons_of_mem _ he')

/-- The result of a chain walk, from the entries of the chain, for every fuel above the
number of buckets. -/
theorem put_walk_of_chain {t : List dt_cache_bucket_t} {hash key : Nat} {home : Int}
    {l : List Int} (hp : Path t (hd t home) l none) {m : Nat} (hm : t.length ≤ m)
    (last : Option Int) :
    dt_cache_put_walk t hash key m home last (rd t home).first_delta =
      .ok (match find_entry hash key (l.map (entry t)) with
        | some d => .found d
        | none => .absent (last_of last l)) :=
  put_walk_eq_find t hash key l m home last _ hp (le_trans (Path.length_le hp) hm)

end DtCache


namespace DtCache

/-! ## `remove_key` takes a bucket out of its chain -/

/-- The table `remove_key` leaves. -/
theorem remove_key_eq {c : dt_cache_t} {g : Nat} {H X : Int} {v : Option Int}
    {w : Nat} (hX : inb c.table X) (hH : inb c.table H)
    (hP : ∀ P, v = some P → inb c.table P) (hs : g < c.segments.length) :
    ∃ s, remove_key c g H X v w = .ok { c with
      segments := s
      table := wr_next_delta
        (match v with
          | none =>
            wr_first_delta
              (wr_data (wr_key (wr_hash c.table X DT_CACHE_EMPTY_HASH) X DT_CACHE_EMPTY_KEY) X
                DT_CACHE_EMPTY_DATA) H
              (if (rd c.table X).next_delta = DT_CACHE_NULL_DELTA then DT_CACHE_NULL_DELTA
                else int16_t ((rd c.table H).first_delta + (rd c.table X).next_delta))
          | some P =>
            wr_next_delta
              (wr_data (wr_key (wr_hash c.table X DT_CACHE_EMPTY_HASH) X DT_CACHE_EMPTY_KEY) X
                DT_CACHE_EMPTY_DATA) P
              (if (rd c.table X).next_delta = DT_CACHE_NULL_DELTA then DT_CACHE_NULL_DELTA
                else int16_t ((rd c.table P).next_delta + (rd c.table X).next_delta)))
        X DT_CACHE_NULL_DELTA } ∧ s.length = c.segments.length := by
  unfold remove_key
  simp only [hX, not_true_eq_false, if_false]
  cases v with
  | none =>
    simp only [inb_wr_data, inb_wr_key, inb_wr_hash, hH, not_true_eq_false, if_false,
      next_delta_wr_data, next_delta_wr_key, next_delta_wr_hash, first_delta_wr_data,
      first_delta_wr_key, first_delta_wr_hash]
    split <;> simp [Outcome.bind, hs]
  | some P =>
    have hP' := hP P rfl
    simp only [inb_wr_data, inb_wr_key, inb_wr_hash, hP', not_true_eq_false, if_false,
      next_delta_wr_data, next_delta_wr_key, next_delta_wr_hash]
    split <;> simp [Outcome.bind, hs]

theorem link_add_int16 {t : List dt_cache_bucket_t} (hlen : t.length ≤ 32767) {a b n : Int}
    {d1 d2 : Int} (ha : inb t a) (hn : inb t n) (h1 : link a d1 = some b)
    (h2 : link b d2 = some n) : link a (int16_t (d1 + d2)) = some n := by
  obtain ⟨-, e1⟩ := link_eq_some h1
  obtain ⟨-, e2⟩ := link_eq_some h2
  have : d1 + d2 = n - a := by omega
  rw [this]
  exact link_int16 hlen hn ha

theorem removed_of_remove_key {c : dt_cache_t} {g : Nat} {H X : Int}
    {l1 l2 : List Int} {w : Nat} (hlen : c.table.length ≤ 32767) (hH : inb c.table H)
    (hp : Path c.table (hd c.table H) (l1 ++ X :: l2) none)
    (hs : g < c.segments.length) :
    ∃ c', remove_key c g H X (last_of none l1) w = .ok c' ∧
      removed c.table c'.table H X l1 l2 ∧ c'.bucket_mask = c.bucket_mask ∧
      c'.cache_mask = c.cache_mask ∧ c'.segments.length = c.segments.length ∧
      c'.segment_mask = c.segment_mask ∧ c'.segment_shift = c.segment_shift := by
  have hX : inb c.table X := Path.inb_of_mem hp X (by simp)
  have hnd := Path.nodup _ _ hp
  obtain ⟨o1, hp1, hp2⟩ := Path.split l1 _ hp
  have ho1 := Path.head_eq hp2
  subst ho1
  obtain ⟨l2', hl2', -, hp2'⟩ := Path.of_some hp2
  cases hl2'
  have hXl2 : X ∉ l2 := by
    have := (List.nodup_append.1 hnd).2.1
    exact (List.nodup_cons.1 this).1
  have hXl1 : X ∉ l1 := fun hm =>
    (List.nodup_append.1 hnd).2.2 hm (List.mem_cons_self _ _)
  have hhead2 := Path.head_inb hp2'
  rcases List.eq_nil_or_concat l1 with rfl | ⟨l0, P, rfl⟩
  · -- `X` is the first bucket of the chain
    simp only [last_of_nil]
    obtain ⟨s, hrk, hsl⟩ := remove_key_eq (c := c) (g := g) (H := H) (X := X)
      (v := none) (w := w) hX hH (by simp) hs
    refine ⟨_, hrk, ?_, rfl, rfl, hsl, rfl, rfl⟩
    simp only [List.nil_append] at hp hp1 ⊢
    have hhd : hd c.table H = some X := (Path.of_nil hp1 rfl).symm
    have hnx : ∀ q, nxt (wr_next_delta (wr_first_delta (wr_data (wr_key
        (wr_hash c.table X DT_CACHE_EMPTY_HASH) X DT_CACHE_EMPTY_KEY) X DT_CACHE_EMPTY_DATA) H
        (if (rd c.table X).next_delta = DT_CACHE_NULL_DELTA then DT_CACHE_NULL_DELTA
          else int16_t ((rd c.table H).first_delta + (rd c.table X).next_delta)))
        X DT_CACHE_NULL_DELTA) q = if q = X then none else nxt c.table q := by
      intro q
      simp only [nxt, next_delta_wr_next_delta, next_delta_wr_first_delta, next_delta_wr_data,
        next_delta_wr_key, next_delta_wr_hash, inb_wr_first_delta, inb_wr_data, inb_wr_key,
        inb_wr_hash, hX, and_true]
      split
      · exact link_null _
      · rfl
    have hhd' : ∀ h, hd (wr_next_delta (wr_first_delta (wr_data (wr_key
        (wr_hash c.table X DT_CACHE_EMPTY_HASH) X DT_CACHE_EMPTY_KEY) X DT_CACHE_EMPTY_DATA) H
        (if (rd c.table X).next_delta = DT_CACHE_NULL_DELTA then DT_CACHE_NULL_DELTA
          else int16_t ((rd c.table H).first_delta + (rd c.table X).next_delta)))
        X DT_CACHE_NULL_DELTA) h = if h = H then nxt c.table X else hd c.table h := by
      intro h
      simp only [hd, first_delta_wr_next_delta, first_delta_wr_first_delta, inb_wr_data,
        inb_wr_key, inb_wr_hash, hH, and_true, first_delta_wr_data, first_delta_wr_key,
        first_delta_wr_hash]
      split
      · rename_i hh; subst hh
        split
        · rename_i hnull; simp [nxt, hnull, link_null]
        · rename_i hnn
          have hn2 : nxt c.table X = some (X + (rd c.table X).next_delta) := link_of_ne _ _ hnn
          rw [hn2]
          exact link_add_int16 hlen hH (hhead2 _ hn2) hhd hn2
      · rfl
    refine
      { len := by simp
        hash_new := by simp [hX]
        key_new := by simp [hX]
        data_new := by simp [hX]
        hash_old := fun q hq => by simp [hq]
        key_old := fun q hq => by simp [hq]
        data_old := fun q hq => by simp [hq]
        hd_old := fun h hh => by rw [hhd']; simp [hh]
        nxt_old := fun q hq => by
          rw [hnx]
          have : q ≠ X := fun e => hq (by simp [e])
          simp [this]
        chain := ?_ }
    rw [hhd']; simp only [if_true]
    refine Path.frame hp2' (by simp) ?_
    intro q hq
    have : q ≠ X := fun e => hXl2 (e ▸ hq)
    rw [hnx]; simp [this]
  · -- `X` comes after `P`
    rw [List.concat_eq_append] at hp hp1 hnd hXl1 ⊢
    rw [last_of_append_singleton]
    have hPin : inb c.table P := Path.inb_of_mem hp1 P (by simp)
    obtain ⟨s, hrk, hsl⟩ := remove_key_eq (c := c) (g := g) (H := H) (X := X)
      (v := some P) (w := w) hX hH (by intro P' h; cases h; exact hPin) hs
    refine ⟨_, hrk, ?_, rfl, rfl, hsl, rfl, rfl⟩
    obtain ⟨hp0, hPX⟩ := Path.before_last hp1
    have hPX' : nxt c.table P = some X := hPX.symm
    have hPneX : P ≠ X := fun e => hXl1 (by simp [← e])
    have hnd1 : (l0 ++ [P]).Nodup := (List.nodup_append.1 hnd).1
    have hPl0 : P ∉ l0 := fun hm =>
      (List.nodup_append.1 hnd1).2.2 hm (List.mem_singleton_self P)
    have hPl2 : P ∉ l2 := fun hm =>
      (List.nodup_append.1 hnd).2.2 (by simp) (List.mem_cons_of_mem _ hm)
    have hnx : ∀ q, nxt (wr_next_delta (wr_next_delta (wr_data (wr_key
        (wr_hash c.table X DT_CACHE_EMPTY_HASH) X DT_CACHE_EMPTY_KEY) X DT_CACHE_EMPTY_DATA) P
        (if (rd c.table X).next_delta = DT_CACHE_NULL_DELTA then DT_CACHE_NULL_DELTA
          else int16_t ((rd c.table P).next_delta + (rd c.table X).next_delta)))
        X DT_CACHE_NULL_DELTA) q =
          if q = X then none else if q = P then nxt c.table X else nxt c.table q := by
      intro q
      simp only [nxt, next_delta_wr_next_delta, next_delta_wr_data,
        next_delta_wr_key, next_delta_wr_hash, inb_wr_next_delta, inb_wr_data, inb_wr_key,
        inb_wr_hash, hX, hPin, and_true]
      split
      · exact link_null _
      · split
        · rename_i hq; subst hq
          split
          · rename_i hnull; simp [hnull, link_null]
          · rename_i hnn
            have hn2 : nxt c.table X = some (X + (rd c.table X).next_delta) :=
              link_of_ne _ _ hnn
            have := link_add_int16 hlen hPin (hhead2 _ hn2) hPX' hn2
            rw [this]
            exact hn2.symm
        · rfl
    refine
      { len := by simp
        hash_new := by simp [hX]
        key_new := by simp [hX]
        data_new := by simp [hX]
        hash_old := fun q hq => by simp [hq]
        key_old := fun q hq => by simp [hq]
        data_old := fun q hq => by simp [hq]
        hd_old := fun h _ => by simp [hd]
        nxt_old := fun q hq => by
          rw [hnx]
          have h1 : q ≠ X := fun e => hq (by simp [e])
          have h2 : q ≠ P := fun e => hq (by simp [e])
          simp [h1, h2]
        chain := ?_ }
    have hhd : hd (wr_next_delta (wr_next_delta (wr_data (wr_key
        (wr_hash c.table X DT_CACHE_EMPTY_HASH) X DT_CACHE_EMPTY_KEY) X DT_CACHE_EMPTY_DATA) P
        (if (rd c.table X).next_delta = DT_CACHE_NULL_DELTA then DT_CACHE_NULL_DELTA
          else int16_t ((rd c.table P).next_delta + (rd c.table X).next_delta)))
        X DT_CACHE_NULL_DELTA) H = hd c.table H := by simp [hd]
    rw [hhd]
    have h0' : Path (wr_next_delta (wr_next_delta (wr_data (wr_key
        (wr_hash c.table X DT_CACHE_EMPTY_HASH) X DT_CACHE_EMPTY_KEY) X DT_CACHE_EMPTY_DATA) P
        (if (rd c.table X).next_delta = DT_CACHE_NULL_DELTA then DT_CACHE_NULL_DELTA
          else int16_t ((rd c.table P).next_delta + (rd c.table X).next_delta)))
        X DT_CACHE_NULL_DELTA) (hd c.table H) l0 (some P) := by
      refine Path.frame hp0 (by simp) ?_
      intro q hq
      have h1 : q ≠ X := fun e => hXl1 (by simp [← e, hq])
      have h2 : q ≠ P := fun e => hPl0 (e ▸ hq)
      rw [hnx]; simp [h1, h2]
    have h1 := Path.snoc h0' (by simpa [inb] using hPin)
    rw [hnx] at h1
    simp only [hPneX, if_false, if_true] at h1
    refine Path.append h1 (Path.frame hp2' (by simp) ?_)
    intro q hq
    have h1 : q ≠ X := fun e => hXl2 (e ▸ hq)
    have h2 : q ≠ P := fun e => hPl2 (e ▸ hq)
    rw [hnx]; simp [h1, h2]

end DtCache


namespace DtCache

/-! ## `optimize_relocate` moves one entry to the free bucket -/

theorem optimize_relocate_spec {c : dt_cache_t} {g : Nat} {H E F : Int}
    {v : Option Int} (hlen : c.table.length ≤ 32767) (hF : inb c.table F)
    (hE : inb c.table E) (hH : inb c.table H) (hEF : E ≠ F)
    (hL : ∀ L, v = some L → inb c.table L ∧ L ≠ F ∧ L ≠ E)
    (hN : ∀ N, nxt c.table E = some N → inb c.table N)
    (hs : g < c.segments.length) :
    ∃ c', optimize_relocate c g F H E v = .ok c' ∧
      c'.table.length = c.table.length ∧ c'.bucket_mask = c.bucket_mask ∧
      c'.cache_mask = c.cache_mask ∧ c'.segments.length = c.segments.length ∧
      c'.segment_mask = c.segment_mask ∧ c'.segment_shift = c.segment_shift ∧
      (∀ q, nxt c'.table q = if q = E then none else if q = F then nxt c.table E
        else if some q = v then some F else nxt c.table q) ∧
      (∀ h, hd c'.table h = if h = H ∧ v = none then some F else hd c.table h) ∧
      (∀ q, entry c'.table q = if q = E
        then (DT_CACHE_EMPTY_HASH, DT_CACHE_EMPTY_KEY, DT_CACHE_EMPTY_DATA)
        else if q = F then entry c.table E else entry c.table q) := by
  have hFE : F ≠ E := fun e => hEF e.symm
  have hnF : link F (if (rd c.table E).next_delta = DT_CACHE_NULL_DELTA
      then DT_CACHE_NULL_DELTA
      else int16_t (E + (rd c.table E).next_delta - F)) = nxt c.table E := by
    split
    · rename_i hnull; simp [nxt, hnull, link_null]
    · rename_i hnn
      have hn2 : nxt c.table E = some (E + (rd c.table E).next_delta) := link_of_ne _ _ hnn
      rw [hn2]
      exact link_int16 hlen (hN _ hn2) hF
  have hk1 : ∀ d, (rd (wr_data c.table F d) E).key = (rd c.table E).key := by simp
  have hk2 : ∀ d k, (rd (wr_key (wr_data c.table F d) F k) E).hash = (rd c.table E).hash := by
    simp
  have hk3 : ∀ d k h, (rd (wr_hash (wr_key (wr_data c.table F d) F k) F h) E).next_delta
      = (rd c.table E).next_delta := by simp
  unfold optimize_relocate
  simp only [hF, hs, not_true_eq_false, if_false, hk1, hk2, hk3]
  by_cases hnull : (rd c.table E).next_delta = DT_CACHE_NULL_DELTA
  · simp only [hnull, if_true] at hnF ⊢
    cases v with
    | none =>
      refine ⟨_, rfl, by simp, rfl, rfl, by simp, rfl, rfl, ?_, ?_, ?_⟩
      · intro q
        by_cases hqE : q = E
        · subst hqE; simp [nxt, hE, link_null]
        · by_cases hqF : q = F
          · subst hqF; rw [← hnF]; simp [nxt, hF, hqE]
          · simp [nxt, hqE, hqF]
      · intro h
        by_cases hh : h = H
        · subst hh; rw [← link_int16 hlen hF hH]; simp [hd, hH]
        · simp [hd, hh]
      · intro q
        by_cases hqE : q = E
        · subst hqE; simp [entry, hE]
        · by_cases hqF : q = F
          · subst hqF; simp [entry, hF, hqE]
          · simp [entry, hqE, hqF]
    | some L =>
      obtain ⟨hLin, hLF, hLE⟩ := hL L rfl
      refine ⟨_, rfl, by simp, rfl, rfl, by simp, rfl, rfl, ?_, ?_, ?_⟩
      · intro q
        by_cases hqE : q = E
        · subst hqE; simp [nxt, hE, link_null]
        · by_cases hqF : q = F
          · subst hqF
            have hqL : q ≠ L := fun e => hLF e.symm
            rw [← hnF]; simp [nxt, hF, hqE, hqL]
          · by_cases hqL : q = L
            · subst hqL; rw [← link_int16 hlen hF hLin]; simp [nxt, hLin, hqE, hqF]
            · simp [nxt, hqE, hqF, hqL]
      · intro h; simp [hd]
      · intro q
        by_cases hqE : q = E
        · subst hqE; simp [entry, hE]
        · by_cases hqF : q = F
          · subst hqF; simp [entry, hF, hqE]
          · simp [entry, hqE, hqF]
  · simp only [hnull, if_false] at hnF ⊢
    cases v with
    | none =>
      refine ⟨_, rfl, by simp, rfl, rfl, by simp, rfl, rfl, ?_, ?_, ?_⟩
      · intro q
        by_cases hqE : q = E
        · subst hqE; simp [nxt, hE, link_null]
        · by_cases hqF : q = F
          · subst hqF; rw [← hnF]; simp [nxt, hF, hqE]
          · simp [nxt, hqE, hqF]
      · intro h
        by_cases hh : h = H
        · subst hh; rw [← link_int16 hlen hF hH]; simp [hd, hH]
        · simp [hd, hh]
      · intro q
        by_cases hqE : q = E
        · subst hqE; simp [entry, hE]
        · by_cases hqF : q = F
          · subst hqF; simp [entry, hF, hqE]
          · simp [entry, hqE, hqF]
    | some L =>
      obtain ⟨hLin, hLF, hLE⟩ := hL L rfl
      refine ⟨_, rfl, by simp, rfl, rfl, by simp, rfl, rfl, ?_, ?_, ?_⟩
      · intro q
        by_cases hqE : q = E
        · subst hqE; simp [nxt, hE, link_null]
        · by_cases hqF : q = F
          · subst hqF
            have hqL : q ≠ L := fun e => hLF e.symm
            rw [← hnF]; simp [nxt, hF, hqE, hqL]
          · by_cases hqL : q = L
            · subst hqL; rw [← link_int16 hlen hF hLin]; simp [nxt, hLin, hqE, hqF]
            · simp [nxt, hqE, hqF, hqL]
      · intro h; simp [hd]
      · intro q
        by_cases hqE : q = E
        · subst hqE; simp [entry, hE]
        · by_cases hqF : q = F
          · subst hqF; simp [entry, hF, hqE]
          · simp [entry, hqE, hqF]

end DtCache


namespace DtCache

theorem relocated_of_relocate {c : dt_cache_t} {g : Nat} {H E F : Int}
    {l1 l2 : List Int} (hlen : c.table.length ≤ 32767) (hH : inb c.table H)
    (hF : inb c.table F) (hFl : F ∉ l1 ++ E :: l2)
    (hp : Path c.table (hd c.table H) (l1 ++ E :: l2) none)
    (hs : g < c.segments.length) :
    ∃ c', optimize_relocate c g F H E (last_of none l1) = .ok c' ∧
      relocated c.table c'.table H E F l1 l2 ∧ c'.bucket_mask = c.bucket_mask ∧
      c'.cache_mask = c.cache_mask ∧ c'.segments.length = c.segments.length ∧
      c'.segment_mask = c.segment_mask ∧ c'.segment_shift = c.segment_shift := by
  have hE : inb c.table E := Path.inb_of_mem hp E (by simp)
  have hEF : E ≠ F := fun e => hFl (by simp [e])
  have hnd := Path.nodup _ _ hp
  obtain ⟨o1, hp1, hp2⟩ := Path.split l1 _ hp
  have ho1 := Path.head_eq hp2
  subst ho1
  obtain ⟨l2', hl2', -, hp2'⟩ := Path.of_some hp2
  cases hl2'
  have hEl2 : E ∉ l2 := (List.nodup_cons.1 (List.nodup_append.1 hnd).2.1).1
  have hEl1 : E ∉ l1 := fun hm =>
    (List.nodup_append.1 hnd).2.2 hm (List.mem_cons_self _ _)
  have hFl1 : F ∉ l1 := fun hm => hFl (by simp [hm])
  have hFl2 : F ∉ l2 := fun hm => hFl (by simp [hm])
  have hhead2 := Path.head_inb hp2'
  have hLs : ∀ L, last_of none l1 = some L → inb c.table L ∧ L ≠ F ∧ L ≠ E := by
    intro L hL
    have hLm : L ∈ l1 := by
      rcases List.eq_nil_or_concat l1 with rfl | ⟨l0, P, rfl⟩
      · simp [last_of_nil] at hL
      · rw [List.concat_eq_append, last_of_append_singleton] at hL
        cases hL; simp
    exact ⟨Path.inb_of_mem hp1 L hLm, fun e => hFl1 (e ▸ hLm), fun e => hEl1 (e ▸ hLm)⟩
  obtain ⟨c', hrel, hlen', hbm, hcm, hsl, hsm, hss, hnx, hhd, hen⟩ :=
    optimize_relocate_spec (c := c) (g := g) (H := H) (E := E) (F := F)
      (v := last_of none l1) hlen hF hE hH hEF hLs hhead2 hs
  refine ⟨c', hrel, ?_, hbm, hcm, hsl, hsm, hss⟩
  have hF' : inb c'.table F := inb_of_length_eq hlen' hF
  have htail : Path c'.table (some F) (F :: l2) none := by
    refine Path.cons hF' ?_
    have : nxt c'.table F = nxt c.table E := by rw [hnx]; simp [hEF.symm]
    rw [this]
    refine Path.frame hp2' hlen' ?_
    intro q hq
    have h1 : q ≠ E := fun e => hEl2 (e ▸ hq)
    have h2 : q ≠ F := fun e => hFl2 (e ▸ hq)
    have h3 : ¬ some q = last_of none l1 := fun e =>
      have hm : q ∈ l1 := by
        rcases List.eq_nil_or_concat l1 with rfl | ⟨l0, P, rfl⟩
        · simp [last_of_nil] at e
        · rw [List.concat_eq_append, last_of_append_singleton] at e
          cases e; simp
      (List.nodup_append.1 hnd).2.2 hm (List.mem_cons_of_mem _ hq)
    rw [hnx]; simp [h1, h2, h3]
  refine
    { len := hlen'
      entry_new := by rw [hen]; simp [hEF.symm]
      hash_gone := by have := hen E; simp [entry] at this; exact this.1
      entry_old := fun q h1 h2 => by rw [hen]; simp [h1, h2]
      hd_old := fun h hh => by rw [hhd]; simp [hh]
      nxt_old := fun q hqF hq => by
        have h1 : q ≠ E := fun e => hq (by simp [e])
        have h3 : ¬ some q = last_of none l1 := fun e => by
          rcases List.eq_nil_or_concat l1 with rfl | ⟨l0, P, rfl⟩
          · simp [last_of_nil] at e
          · rw [List.concat_eq_append, last_of_append_singleton] at e
            cases e; exact hq (by simp)
        rw [hnx]; simp [h1, hqF, h3]
      chain := ?_ }
  rcases List.eq_nil_or_concat l1 with rfl | ⟨l0, P, rfl⟩
  · simp only [List.nil_append]
    have : hd c'.table H = some F := by rw [hhd]; simp [last_of_nil]
    rw [this]; exact htail
  · rw [List.concat_eq_append] at hp1 hnd hEl1 hFl1 hnx hhd ⊢
    obtain ⟨hp0, -⟩ := Path.before_last hp1
    have hPin : inb c.table P := Path.inb_of_mem hp1 P (by simp)
    have hPE : P ≠ E := fun e => hEl1 (by simp [← e])
    have hPF : P ≠ F := fun e => hFl1 (by simp [← e])
    have hnd1 : (l0 ++ [P]).Nodup := (List.nodup_append.1 hnd).1
    have hPl0 : P ∉ l0 := fun hm =>
      (List.nodup_append.1 hnd1).2.2 hm (List.mem_singleton_self P)
    have hh : hd c'.table H = hd c.table H := by
      rw [hhd, last_of_append_singleton]; simp
    rw [hh]
    have h0' : Path c'.table (hd c.table H) l0 (some P) := by
      refine Path.frame hp0 hlen' ?_
      intro q hq
      have h1 : q ≠ E := fun e => hEl1 (by simp [← e, hq])
      have h2 : q ≠ F := fun e => hFl1 (by simp [← e, hq])
      have h3 : q ≠ P := fun e => hPl0 (e ▸ hq)
      rw [hnx, last_of_append_singleton]; simp [h1, h2, h3]
    have h1 := Path.snoc h0' (inb_of_length_eq hlen' hPin)
    have : nxt c'.table P = some F := by
      rw [hnx, last_of_append_singleton]; simp [hPE, hPF]
    rw [this] at h1
    exact Path.append h1 htail

/-- The inner walk of `optimize_cacheline_use` over the chain of `H`: it relocates the first
member whose offset from `H` is negative or above `cache_mask`, or breaks when there is
none. -/
theorem optimize_walk_spec {c : dt_cache_t} {g : Nat} {F H : Int} :
    ∀ (rs : List Int) (r : Int) (pre : List Int),
      Path c.table (some r) (r :: rs) none →
      ((∀ p ∈ r :: rs, ¬ (p - H < 0 ∨ p - H > c.cache_mask)) ∧
        ∀ fuel, rs.length < fuel →
          optimize_cacheline_walk c g F H fuel (last_of none pre) (r - H) r
            = .ok none) ∨
      ∃ l1 E l2, r :: rs = l1 ++ E :: l2 ∧ (∀ p ∈ l1, ¬ (p - H < 0 ∨ p - H > c.cache_mask)) ∧
        (E - H < 0 ∨ E - H > c.cache_mask) ∧
        ∀ fuel, rs.length < fuel →
          optimize_cacheline_walk c g F H fuel (last_of none pre) (r - H) r =
            (optimize_relocate c g F H E (last_of none (pre ++ l1))).bind
              fun c' => .ok (some c') := by
  intro rs
  induction rs with
  | nil =>
    intro r pre hp
    obtain ⟨l', hl', hin, hp'⟩ := Path.of_some hp
    cases hl'
    have hnone : nxt c.table r = none := Path.of_nil hp' rfl |>.symm
    have hnd : (rd c.table r).next_delta = DT_CACHE_NULL_DELTA := by
      by_contra hne
      rw [nxt, link_of_ne _ _ hne] at hnone
      cases hnone
    by_cases hout : r - H < 0 ∨ r - H > c.cache_mask
    · right
      refine ⟨[], r, [], rfl, by simp, hout, ?_⟩
      intro fuel hf
      obtain ⟨f, rfl⟩ : ∃ f, fuel = f + 1 := ⟨fuel - 1, by simp at hf; omega⟩
      simp only [optimize_cacheline_walk, hin, not_true_eq_false, if_false, hout, if_true,
        List.append_nil]
    · left
      refine ⟨by simpa using hout, ?_⟩
      intro fuel hf
      obtain ⟨f, rfl⟩ : ∃ f, fuel = f + 1 := ⟨fuel - 1, by simp at hf; omega⟩
      simp only [optimize_cacheline_walk, hin, not_true_eq_false, if_false, hout, hnd, if_true]
  | cons r' rs ih =>
    intro r pre hp
    obtain ⟨l', hl', hin, hp'⟩ := Path.of_some hp
    cases hl'
    have hnx : nxt c.table r = some r' := Path.head_eq hp'
    have hnd : (rd c.table r).next_delta ≠ DT_CACHE_NULL_DELTA := by
      intro he
      rw [nxt, he, link_null] at hnx
      cases hnx
    have hr' : r + (rd c.table r).next_delta = r' := by
      rw [nxt, link_of_ne _ _ hnd] at hnx
      exact Option.some.inj hnx
    rw [hnx] at hp'
    by_cases hout : r - H < 0 ∨ r - H > c.cache_mask
    · right
      refine ⟨[], r, r' :: rs, rfl, by simp, hout, ?_⟩
      intro fuel hf
      obtain ⟨f, rfl⟩ : ∃ f, fuel = f + 1 := ⟨fuel - 1, by simp at hf; omega⟩
      simp only [optimize_cacheline_walk, hin, not_true_eq_false, if_false, hout, if_true,
        List.append_nil]
    · have hstep : ∀ f, optimize_cacheline_walk c g F H (f + 1) (last_of none pre)
            (r - H) r
          = optimize_cacheline_walk c g F H f (last_of none (pre ++ [r])) (r' - H) r' := by
        intro f
        rw [last_of_append_singleton]
        simp only [optimize_cacheline_walk, hin, not_true_eq_false, if_false, hout, hnd]
        rw [hr']
        congr 1
        omega
      rcases ih r' (pre ++ [r]) hp' with ⟨hall, hw⟩ | ⟨l1, E, l2, hl, hall, hE, hw⟩
      · left
        refine ⟨?_, ?_⟩
        · intro p hpm
          rcases List.mem_cons.1 hpm with rfl | hpm
          · exact hout
          · exact hall p hpm
        · intro fuel hf
          obtain ⟨f, rfl⟩ : ∃ f, fuel = f + 1 := ⟨fuel - 1, by simp at hf; omega⟩
          rw [hstep, hw f (by simp at hf; omega)]
      · right
        refine ⟨r :: l1, E, l2, by rw [hl]; rfl, ?_, hE, ?_⟩
        · intro p hpm
          rcases List.mem_cons.1 hpm with rfl | hpm
          · exact hout
          · exact hall p hpm
        · intro fuel hf
          obtain ⟨f, rfl⟩ : ∃ f, fuel = f + 1 := ⟨fuel - 1, by simp at hf; omega⟩
          rw [hstep, hw f (by simp at hf; omega)]
          simp

end DtCache


namespace DtCache

/-! ## The scan of `optimize_cacheline_use` -/

theorem optimized_in.mono {c c2 : dt_cache_t} {F lo hi lo' hi' : Int} (hlo : lo' ≤ lo)
    (hhi : hi ≤ hi') (h : optimized_in c F lo hi c2) : optimized_in c F lo' hi' c2 := by
  cases h with
  | same e => exact .same e
  | moved H E l1 l2 a1 a2 a3 a4 a5 a6 a7 a8 a9 a10 a11 a12 =>
    exact .moved H E l1 l2 (le_trans hlo a1) (le_trans a2 hhi) a3 a4 a5 a6 a7 a8 a9 a10 a11 a12

theorem optimized_in.optimized {c c2 : dt_cache_t} {F lo hi : Int}
    (h : optimized_in c F lo hi c2) : optimized c F c2 := by
  cases h with
  | same e => exact .same e
  | moved H E l1 l2 a1 a2 a3 a4 a5 a6 a7 a8 a9 a10 a11 a12 =>
    exact .moved H E l1 l2 a3 a4 a7 a8 a9 a10 a11 a12

theorem optimize_loop_spec {c : dt_cache_t} {g : Nat} {F e : Int}
    (hlen : c.table.length ≤ 32767) (hF : inb c.table F) (hs : g < c.segments.length)
    (hch : ∀ h, inb c.table h → ∃ l, Path c.table (hd c.table h) l none ∧ F ∉ l) :
    ∀ (k : Nat) (opt : Int), inb c.table opt → (∀ o, opt ≤ o → o ≤ e → inb c.table o) →
      e - opt ≤ k →
      ∃ c2, optimized_in c F opt (max opt e) c2 ∧ ∀ fuel, k + c.table.length + 2 ≤ fuel →
        optimize_cacheline_loop c g F e fuel opt = .ok c2 := by
  intro k
  induction k with
  | zero =>
    intro opt hin hrange hk
    have hnext : ¬ opt + 1 ≤ e := by omega
    obtain ⟨l, hp, hFl⟩ := hch opt hin
    by_cases hfd : (rd c.table opt).first_delta = DT_CACHE_NULL_DELTA
    · refine ⟨c, .same rfl, ?_⟩
      intro fuel hf
      obtain ⟨f, rfl⟩ : ∃ f, fuel = f + 1 := ⟨fuel - 1, by omega⟩
      simp [optimize_cacheline_loop, hin, hfd, Outcome.bind, hnext]
    · have hhd : hd c.table opt = some (opt + (rd c.table opt).first_delta) :=
        link_of_ne _ _ hfd
      rw [hhd] at hp
      obtain ⟨rs, rfl, -, -⟩ := Path.of_some hp
      have hll := Path.length_le hp
      have hcd : (rd c.table opt).first_delta = opt + (rd c.table opt).first_delta - opt := by
        omega
      rcases optimize_walk_spec (g := g) (F := F) (H := opt) rs _ [] hp with
        ⟨-, hw⟩ | ⟨l1, E, l2, hl, hall, hE, hw⟩
      · refine ⟨c, .same rfl, ?_⟩
        intro fuel hf
        obtain ⟨f, rfl⟩ : ∃ f, fuel = f + 1 := ⟨fuel - 1, by omega⟩
        have := hw f (by simp at hll; omega)
        rw [last_of_nil, ← hcd] at this
        simp [optimize_cacheline_loop, hin, hfd, this, Outcome.bind, hnext]
      · rw [hl] at hp hFl
        rw [← hhd] at hp
        obtain ⟨c', hrel, hrl, h1, h2, h3, h4, h5⟩ :=
          relocated_of_relocate (g := g) hlen hin hF hFl hp hs
        refine ⟨c', .moved opt E l1 l2 (le_refl _) (le_max_left _ _) hin hp hall hE hrl h1 h2 h3 h4 h5, ?_⟩
        intro fuel hf
        obtain ⟨f, rfl⟩ : ∃ f, fuel = f + 1 := ⟨fuel - 1, by omega⟩
        have := hw f (by simp at hll; omega)
        rw [last_of_nil, ← hcd, List.nil_append, hrel] at this
        simp [optimize_cacheline_loop, hin, hfd, this, Outcome.bind]
  | succ k ih =>
    intro opt hin hrange hk
    obtain ⟨l, hp, hFl⟩ := hch opt hin
    have hrest : ∃ c2, optimized_in c F opt (max opt e) c2 ∧
        ∀ f, k + c.table.length + 2 ≤ f →
        (if opt + 1 ≤ e then optimize_cacheline_loop c g F e f (opt + 1)
          else .ok c) = .ok c2 := by
      by_cases hnext : opt + 1 ≤ e
      · obtain ⟨c2, ho, hc2⟩ := ih (opt + 1) (hrange _ (by omega) hnext)
          (fun o h1 h2 => hrange o (by omega) h2) (by omega)
        refine ⟨c2, ho.mono (by omega) ?_, fun f hf => by
          simp only [hnext, if_true]; exact hc2 f hf⟩
        rw [max_eq_right (by omega), max_eq_right (by omega)]
      · exact ⟨c, .same rfl, fun f _ => by simp only [hnext, if_false]⟩
    by_cases hfd : (rd c.table opt).first_delta = DT_CACHE_NULL_DELTA
    · obtain ⟨c2, ho, hc2⟩ := hrest
      refine ⟨c2, ho, ?_⟩
      intro fuel hf
      obtain ⟨f, rfl⟩ : ∃ f, fuel = f + 1 := ⟨fuel - 1, by omega⟩
      have := hc2 f (by omega)
      simp only [optimize_cacheline_loop, hin, not_true_eq_false, if_false, ne_eq, hfd,
        Outcome.bind]
      exact this
    · have hhd : hd c.table opt = some (opt + (rd c.table opt).first_delta) :=
        link_of_ne _ _ hfd
      rw [hhd] at hp
      obtain ⟨rs, rfl, -, -⟩ := Path.of_some hp
      have hll := Path.length_le hp
      have hcd : (rd c.table opt).first_delta = opt + (rd c.table opt).first_delta - opt := by
        omega
      rcases optimize_walk_spec (g := g) (F := F) (H := opt) rs _ [] hp with
        ⟨-, hw⟩ | ⟨l1, E, l2, hl, hall, hE, hw⟩
      · obtain ⟨c2, ho, hc2⟩ := hrest
        refine ⟨c2, ho, ?_⟩
        intro fuel hf
        obtain ⟨f, rfl⟩ : ∃ f, fuel = f + 1 := ⟨fuel - 1, by omega⟩
        have := hw f (by simp at hll; omega)
        rw [last_of_nil, ← hcd] at this
        have h2 := hc2 f (by omega)
        simp only [optimize_cacheline_loop, hin, not_true_eq_false, if_false, ne_eq, hfd,
          if_true, this, Outcome.bind]
        exact h2
      · rw [hl] at hp hFl
        rw [← hhd] at hp
        obtain ⟨c', hrel, hrl, h1, h2, h3, h4, h5⟩ :=
          relocated_of_relocate (g := g) hlen hin hF hFl hp hs
        refine ⟨c', .moved opt E l1 l2 (le_refl _) (le_max_left _ _) hin hp hall hE hrl h1 h2 h3 h4 h5, ?_⟩
        intro fuel hf
        obtain ⟨f, rfl⟩ : ∃ f, fuel = f + 1 := ⟨fuel - 1, by omega⟩
        have := hw f (by simp at hll; omega)
        rw [last_of_nil, ← hcd, List.nil_append, hrel] at this
        simp [optimize_cacheline_loop, hin, hfd, this, Outcome.bind]

theorem optimize_cacheline_use_spec {c : dt_cache_t} {g : Nat} {F : Int}
    (hlen : c.table.length ≤ 32767) (hF : inb c.table F) (hs : g < c.segments.length)
    (hch : ∀ h, inb c.table h → ∃ l, Path c.table (hd c.table h) l none ∧ F ∉ l)
    (hline : line_in_table c F) :
    ∃ c2, optimized_in c F (get_start_cacheline_bucket c F)
        (get_start_cacheline_bucket c F + max 0 c.cache_mask) c2 ∧
      ∀ fuel, c.cache_mask.toNat + c.table.length + 2 ≤ fuel →
        optimize_cacheline_use fuel c g F = .ok c2 := by
  obtain ⟨h0, h1⟩ := hline
  have hstart : inb c.table (get_start_cacheline_bucket c F) :=
    ⟨h0, by have := le_max_left 0 c.cache_mask; omega⟩
  obtain ⟨c2, ho, hc2⟩ := optimize_loop_spec (g := g)
    (e := get_start_cacheline_bucket c F + c.cache_mask) hlen hF hs hch c.cache_mask.toNat
    (get_start_cacheline_bucket c F) hstart
    (fun o ho1 ho2 => ⟨by omega, by have := le_max_right 0 c.cache_mask; omega⟩)
    (by have := Int.self_le_toNat c.cache_mask; omega)
  refine ⟨c2, ho.mono (le_refl _) ?_, fun fuel hf => hc2 fuel hf⟩
  rcases le_total 0 c.cache_mask with h | h
  · rw [max_eq_right h, max_eq_right (by omega)]
  · rw [max_eq_left h, max_eq_left (by omega)]; omega

end DtCache


namespace DtCache

/-! ## Well-formedness and lookups after `remove_key` -/

theorem removed.entry_old {t t' : List dt_cache_bucket_t} {H X : Int} {l1 l2 : List Int}
    (hr : removed t t' H X l1 l2) {q : Int} (hq : q ≠ X) : entry t' q = entry t q := by
  simp [entry, hr.hash_old q hq, hr.key_old q hq, hr.data_old q hq]

theorem removed.not_occupied {t t' : List dt_cache_bucket_t} {H X : Int} {l1 l2 : List Int}
    (hr : removed t t' H X l1 l2) : ¬ occupied t' X := by
  simp [occupied, hr.hash_new]

theorem occupied_of_entry {t t' : List dt_cache_bucket_t} {p q : Int}
    (h : entry t' p = entry t q) : occupied t' p ↔ occupied t q := by
  simp only [entry, Prod.mk.injEq] at h
  simp [occupied, h.1]

theorem key_of_entry {t t' : List dt_cache_bucket_t} {p q : Int}
    (h : entry t' p = entry t q) : (rd t' p).key = (rd t q).key := by
  simp only [entry, Prod.mk.injEq] at h
  exact h.2.1

/-- The chains after `remove_key`: every chain visits the buckets it visited, without `X`,
and a walk for a key other than the removed one finds what it found. -/
theorem removed_chains {c c1 : dt_cache_t} (hwf : wf_paths c) {H X : Int} {l1 l2 : List Int}
    (hH : inb c.table H) (hp : Path c.table (hd c.table H) (l1 ++ X :: l2) none)
    (hr : removed c.table c1.table H X l1 l2) :
    ∀ h, inb c.table h → ∀ l, Path c.table (hd c.table h) l none →
      ∃ l', Path c1.table (hd c1.table h) l' none ∧ (∀ p, p ∈ l' ↔ p ∈ l ∧ p ≠ X) ∧
        (∀ j, j ≠ (rd c.table X).key →
          find_entry j j (l'.map (entry c1.table)) = find_entry j j (l.map (entry c.table))) ∧
        find_entry (rd c.table X).key (rd c.table X).key (l'.map (entry c1.table)) = none := by
  have hXm : X ∈ l1 ++ X :: l2 := by simp
  have hXin : inb c.table X := Path.inb_of_mem hp X hXm
  have hXo := hwf.members hH hp X hXm
  have hnd := Path.nodup _ _ hp
  have hXl2 : X ∉ l2 := (List.nodup_cons.1 (List.nodup_append.1 hnd).2.1).1
  have hXl1 : X ∉ l1 := fun hm =>
    (List.nodup_append.1 hnd).2.2 hm (List.mem_cons_self _ _)
  intro h hh l hl
  have hmem := hwf.members hh hl
  have hnone : ∀ l' : List Int, (∀ p, p ∈ l' ↔ p ∈ l ∧ p ≠ X) →
      find_entry (rd c.table X).key (rd c.table X).key (l'.map (entry c1.table)) = none := by
    intro l' hl'
    refine find_entry_eq_none _ ?_
    intro e he
    obtain ⟨p, hpm, rfl⟩ := List.mem_map.1 he
    obtain ⟨hpl, hpX⟩ := (hl' p).1 hpm
    rw [hr.entry_old hpX]
    intro hk
    have := hwf.unique p X (Path.inb_of_mem hl p hpl) hXin (hmem p hpl).1 hXo.1 hk.2.symm
    exact hpX this
  by_cases hhH : h = H
  · subst hhH
    have hl' := Path.functional hl hp
    subst hl'
    have hiff : ∀ p, p ∈ l1 ++ l2 ↔ p ∈ l1 ++ X :: l2 ∧ p ≠ X := by
      intro p
      simp only [List.mem_append, List.mem_cons]
      constructor
      · rintro (h1 | h2)
        · exact ⟨Or.inl h1, fun e => hXl1 (e ▸ h1)⟩
        · exact ⟨Or.inr (Or.inr h2), fun e => hXl2 (e ▸ h2)⟩
      · rintro ⟨h1 | h1 | h1, h2⟩
        · exact Or.inl h1
        · exact absurd h1 h2
        · exact Or.inr h1
    refine ⟨l1 ++ l2, hr.chain, hiff, ?_, hnone _ hiff⟩
    intro j hj
    have hmap : (l1 ++ l2).map (entry c1.table) = l1.map (entry c.table)
        ++ l2.map (entry c.table) := by
      rw [List.map_append]
      congr 1
      · exact List.map_congr_left fun q hq => hr.entry_old fun e => hXl1 (e ▸ hq)
      · exact List.map_congr_left fun q hq => hr.entry_old fun e => hXl2 (e ▸ hq)
    rw [hmap, List.map_append, List.map_cons]
    refine (find_entry_append_cons_of_not ?_ _ _).symm
    intro hk
    exact hj hk.2
  · have hXl : X ∉ l := fun hm => hhH ((hmem X hm).2.symm.trans hXo.2)
    have hdis : ∀ q ∈ l, q ∉ l1 ++ X :: l2 := fun q hq hq' =>
      hhH ((hmem q hq).2.symm.trans (hwf.members hH hp q hq').2)
    have hiff : ∀ p, p ∈ l ↔ p ∈ l ∧ p ≠ X := fun p =>
      ⟨fun hm => ⟨hm, fun e => hXl (e ▸ hm)⟩, fun hm => hm.1⟩
    refine ⟨l, ?_, hiff, ?_, hnone _ hiff⟩
    · rw [hr.hd_old h hhH]
      exact Path.frame hl hr.len fun q hq => hr.nxt_old q (hdis q hq)
    · intro j _
      congr 1
      exact List.map_congr_left fun q hq => hr.entry_old fun e => hXl (e ▸ hq)

theorem wf_paths_removed {c c1 : dt_cache_t} (hwf : wf_paths c)
    (hbm : c1.bucket_mask = c.bucket_mask) {H X : Int} {l1 l2 : List Int}
    (hH : inb c.table H) (hp : Path c.table (hd c.table H) (l1 ++ X :: l2) none)
    (hr : removed c.table c1.table H X l1 l2) : wf_paths c1 := by
  have hch := removed_chains hwf hH hp hr
  have hinb : ∀ {p}, inb c1.table p → inb c.table p := fun hp => by
    simpa [inb, hr.len] using hp
  have hocc : ∀ {p}, occupied c1.table p → p ≠ X ∧ occupied c.table p := by
    intro p ho
    have hpX : p ≠ X := fun e => hr.not_occupied (e ▸ ho)
    exact ⟨hpX, (occupied_of_entry (hr.entry_old hpX)).1 ho⟩
  refine ⟨?_, ?_, ?_⟩
  · intro h hh
    obtain ⟨l, hl, hm⟩ := hwf.chains h (hinb hh)
    obtain ⟨l', hl', hiff, -, -⟩ := hch h (hinb hh) l hl
    refine ⟨l', hl', ?_⟩
    intro p hpm
    obtain ⟨hpl, hpX⟩ := (hiff p).1 hpm
    refine ⟨(occupied_of_entry (hr.entry_old hpX)).2 (hm p hpl).1, ?_⟩
    rw [home_of_congr hbm, key_of_entry (hr.entry_old hpX)]
    exact (hm p hpl).2
  · intro i hi ho
    obtain ⟨hiX, ho'⟩ := hocc ho
    obtain ⟨hhome, l, hl, him⟩ := hwf.cover i (hinb hi) ho'
    rw [home_of_congr hbm, key_of_entry (hr.entry_old hiX)]
    obtain ⟨l', hl', hiff, -, -⟩ := hch _ hhome l hl
    exact ⟨inb_of_length_eq hr.len hhome, l', hl', (hiff i).2 ⟨him, hiX⟩⟩
  · intro i j hi hj hoi hoj hk
    obtain ⟨hiX, hoi'⟩ := hocc hoi
    obtain ⟨hjX, hoj'⟩ := hocc hoj
    rw [key_of_entry (hr.entry_old hiX), key_of_entry (hr.entry_old hjX)] at hk
    exact hwf.unique i j (hinb hi) (hinb hj) hoi' hoj' hk

end DtCache


namespace DtCache

/-! ## Well-formedness and lookups after a relocation -/

theorem relocated.vacated {t t' : List dt_cache_bucket_t} {H E F : Int}
    {l1 l2 : List Int} (hr : relocated t t' H E F l1 l2) : ¬ occupied t' E := by
  simp [occupied, hr.hash_gone]

/-- The chains after a relocation: every chain holds the entries it held, in the same order,
with `F` in the place of `E`. -/
theorem relocated_chains {c c2 : dt_cache_t} (hwf : wf_paths c) {H E F : Int}
    {l1 l2 : List Int} (hFo : ¬ occupied c.table F) (hH : inb c.table H)
    (hp : Path c.table (hd c.table H) (l1 ++ E :: l2) none)
    (hr : relocated c.table c2.table H E F l1 l2) :
    ∀ h, inb c.table h → ∀ l, Path c.table (hd c.table h) l none →
      ∃ l', Path c2.table (hd c2.table h) l' none ∧
        l'.map (entry c2.table) = l.map (entry c.table) ∧
        ∀ p, p ∈ l' ↔ (p ∈ l ∧ p ≠ E) ∨ (p = F ∧ E ∈ l) := by
  have hEm : E ∈ l1 ++ E :: l2 := by simp
  have hEo := hwf.members hH hp E hEm
  have hnd := Path.nodup _ _ hp
  have hEl2 : E ∉ l2 := (List.nodup_cons.1 (List.nodup_append.1 hnd).2.1).1
  have hEl1 : E ∉ l1 := fun hm =>
    (List.nodup_append.1 hnd).2.2 hm (List.mem_cons_self _ _)
  intro h hh l hl
  have hmem := hwf.members hh hl
  have hFl : F ∉ l := fun hm => hFo (hmem F hm).1
  by_cases hhH : h = H
  · subst hhH
    have hl' := Path.functional hl hp
    subst hl'
    have hFl1 : F ∉ l1 := fun hm => hFl (by simp [hm])
    have hFl2 : F ∉ l2 := fun hm => hFl (by simp [hm])
    refine ⟨l1 ++ F :: l2, hr.chain, ?_, ?_⟩
    · rw [List.map_append, List.map_append, List.map_cons, List.map_cons, hr.entry_new]
      congr 1
      · exact List.map_congr_left fun q hq =>
          hr.entry_old q (fun e => hEl1 (e ▸ hq)) (fun e => hFl1 (e ▸ hq))
      · congr 1
        exact List.map_congr_left fun q hq =>
          hr.entry_old q (fun e => hEl2 (e ▸ hq)) (fun e => hFl2 (e ▸ hq))
    · intro p
      simp only [List.mem_append, List.mem_cons]
      constructor
      · rintro (h1 | h1 | h1)
        · exact Or.inl ⟨Or.inl h1, fun e => hEl1 (e ▸ h1)⟩
        · exact Or.inr ⟨h1, by simp⟩
        · exact Or.inl ⟨Or.inr (Or.inr h1), fun e => hEl2 (e ▸ h1)⟩
      · rintro (⟨h1 | h1 | h1, h2⟩ | ⟨h1, -⟩)
        · exact Or.inl h1
        · exact absurd h1 h2
        · exact Or.inr (Or.inr h1)
        · exact Or.inr (Or.inl h1)
  · have hEl : E ∉ l := fun hm => hhH ((hmem E hm).2.symm.trans hEo.2)
    have hdis : ∀ q ∈ l, q ∉ l1 ++ E :: l2 := fun q hq hq' =>
      hhH ((hmem q hq).2.symm.trans (hwf.members hH hp q hq').2)
    refine ⟨l, ?_, ?_, ?_⟩
    · rw [hr.hd_old h hhH]
      exact Path.frame hl hr.len fun q hq =>
        hr.nxt_old q (fun e => hFl (e ▸ hq)) (hdis q hq)
    · exact List.map_congr_left fun q hq =>
        hr.entry_old q (fun e => hEl (e ▸ hq)) (fun e => hFl (e ▸ hq))
    · intro p
      constructor
      · exact fun hm => Or.inl ⟨hm, fun e => hEl (e ▸ hm)⟩
      · rintro (⟨h1, -⟩ | ⟨-, h1⟩)
        · exact h1
        · exact absurd h1 hEl

theorem wf_paths_relocated {c c2 : dt_cache_t} (hwf : wf_paths c)
    (hbm : c2.bucket_mask = c.bucket_mask) {H E F : Int} {l1 l2 : List Int}
    (hF : inb c.table F) (hFo : ¬ occupied c.table F) (hH : inb c.table H)
    (hp : Path c.table (hd c.table H) (l1 ++ E :: l2) none)
    (hr : relocated c.table c2.table H E F l1 l2) : wf_paths c2 := by
  have hch := relocated_chains hwf hFo hH hp hr
  have hEm : E ∈ l1 ++ E :: l2 := by simp
  have hEin : inb c.table E := Path.inb_of_mem hp E hEm
  have hEo := hwf.members hH hp E hEm
  have hinb : ∀ {p}, inb c2.table p → inb c.table p := fun hp => by
    simpa [inb, hr.len] using hp
  -- every occupied bucket comes from an occupied bucket with the same entry
  have hsrc : ∀ {p}, inb c2.table p → occupied c2.table p →
      p ≠ E ∧ ∃ q, inb c.table q ∧ occupied c.table q ∧ entry c2.table p = entry c.table q ∧
        (q = p ∨ (p = F ∧ q = E)) := by
    intro p hpin ho
    have hpE : p ≠ E := fun e => hr.vacated (e ▸ ho)
    refine ⟨hpE, ?_⟩
    by_cases hpF : p = F
    · subst hpF
      exact ⟨E, hEin, hEo.1, hr.entry_new, Or.inr ⟨rfl, rfl⟩⟩
    · have he := hr.entry_old p hpE hpF
      exact ⟨p, hinb hpin, (occupied_of_entry he).1 ho, he, Or.inl rfl⟩
  refine ⟨?_, ?_, ?_⟩
  · intro h hh
    obtain ⟨l, hl, hm⟩ := hwf.chains h (hinb hh)
    obtain ⟨l', hl', -, hiff⟩ := hch h (hinb hh) l hl
    refine ⟨l', hl', ?_⟩
    intro p hpm
    rcases (hiff p).1 hpm with ⟨hpl, hpE⟩ | ⟨rfl, hEl⟩
    · have hpF : p ≠ F := fun e => hFo (e ▸ (hm p hpl).1)
      have he := hr.entry_old p hpE hpF
      refine ⟨(occupied_of_entry he).2 (hm p hpl).1, ?_⟩
      rw [home_of_congr hbm, key_of_entry he]
      exact (hm p hpl).2
    · refine ⟨(occupied_of_entry hr.entry_new).2 (hm E hEl).1, ?_⟩
      rw [home_of_congr hbm, key_of_entry hr.entry_new]
      exact (hm E hEl).2
  · intro i hi ho
    obtain ⟨hiE, q, hqin, hqo, he, hq⟩ := hsrc hi ho
    obtain ⟨hhome, l, hl, hqm⟩ := hwf.cover q hqin hqo
    rw [home_of_congr hbm, key_of_entry he]
    obtain ⟨l', hl', -, hiff⟩ := hch _ hhome l hl
    refine ⟨inb_of_length_eq hr.len hhome, l', hl', (hiff i).2 ?_⟩
    rcases hq with rfl | ⟨rfl, rfl⟩
    · exact Or.inl ⟨hqm, hiE⟩
    · exact Or.inr ⟨rfl, hqm⟩
  · intro i j hi hj hoi hoj hk
    obtain ⟨hiE, q, hqin, hqo, he, hq⟩ := hsrc hi hoi
    obtain ⟨hjE, q', hqin', hqo', he', hq'⟩ := hsrc hj hoj
    rw [key_of_entry he, key_of_entry he'] at hk
    have := hwf.unique q q' hqin hqin' hqo hqo' hk
    rcases hq with rfl | ⟨rfl, rfl⟩ <;> rcases hq' with rfl | ⟨rfl, rfl⟩
    · exact this
    · exact absurd this hiE
    · exact absurd this.symm hjE
    · rfl

end DtCache


namespace DtCache

/-! ## The removal step: `remove_key`, then `optimize_cacheline_use` on the freed bucket -/

theorem find_entry_of_mem {t : List dt_cache_bucket_t} {hash key : Nat} {p : Int} :
    ∀ (l : List Int), p ∈ l → holds t hash key p → (∀ q ∈ l, holds t hash key q → q = p) →
      find_entry hash key (l.map (entry t)) = some (rd t p).data
  | [], h, _, _ => by simp at h
  | q :: l, hm, hh, hu => by
    simp only [List.map_cons, find_entry, entry]
    by_cases hq : hash = (rd t q).hash ∧ key = (rd t q).key
    · have := hu q (List.mem_cons_self _ _) hq
      subst this
      simp [hq]
    · simp only [hq, if_false]
      have hne : p ≠ q := fun e => hq (e ▸ hh)
      have hm' : p ∈ l := by
        rcases List.mem_cons.1 hm with h | h
        · exact absurd h hne
        · exact h
      exact find_entry_of_mem l hm' hh fun q' hq' => hu q' (List.mem_cons_of_mem _ hq')

theorem mem_of_find_entry {t : List dt_cache_bucket_t} {hash key d : Nat} :
    ∀ (l : List Int), find_entry hash key (l.map (entry t)) = some d →
      ∃ p ∈ l, holds t hash key p ∧ (rd t p).data = d
  | [], h => by simp [find_entry] at h
  | q :: l, h => by
    simp only [List.map_cons, find_entry, entry] at h
    by_cases hq : hash = (rd t q).hash ∧ key = (rd t q).key
    · simp only [hq, and_self, if_true, Option.some.injEq] at h
      exact ⟨q, List.mem_cons_self _ _, hq, h⟩
    · simp only [hq, if_false] at h
      obtain ⟨p, hp, hh⟩ := mem_of_find_entry l h
      exact ⟨p, List.mem_cons_of_mem _ hp, hh⟩

/-- The removal step on a well-formed table, when the cache line of `X` lies in the table:
both functions return, the table is well formed again, no chain holds the key of `X` any
more, and every chain holds the other entries it held, in the order they were in. -/
theorem remove_step_spec {c : dt_cache_t} {g : Nat} {H X : Int} {l1 l2 : List Int} (w : Nat)
    (hwf : wf_paths c) (hlen : c.table.length ≤ 32767) (hH : inb c.table H)
    (hp : Path c.table (hd c.table H) (l1 ++ X :: l2) none) (hs : g < c.segments.length)
    (hline : line_in_table c X) :
    ∃ c1 c2, remove_key c g H X (last_of none l1) w = .ok c1 ∧
      removed c.table c1.table H X l1 l2 ∧ optimized c1 X c2 ∧
      (∀ fuel, c.cache_mask.toNat + c.table.length + 2 ≤ fuel →
        optimize_cacheline_use fuel c1 g X = .ok c2) ∧
      wf_paths c2 ∧ c2.table.length = c.table.length ∧ c2.bucket_mask = c.bucket_mask ∧
      c2.segments.length = c.segments.length ∧ c2.segment_mask = c.segment_mask ∧
      c2.segment_shift = c.segment_shift ∧
      ∀ h, inb c.table h → ∀ l, Path c.table (hd c.table h) l none →
        ∃ l', Path c2.table (hd c2.table h) l' none ∧
          (∀ j, j ≠ (rd c.table X).key →
            find_entry j j (l'.map (entry c2.table)) = find_entry j j (l.map (entry c.table))) ∧
          find_entry (rd c.table X).key (rd c.table X).key (l'.map (entry c2.table)) = none := by
  obtain ⟨c1, hrk, hr, hbm, hcm, hsl, hsm, hss⟩ :=
    removed_of_remove_key (g := g) (w := w) hlen hH hp hs
  have hwf1 := wf_paths_removed hwf hbm hH hp hr
  have hch1 := removed_chains hwf hH hp hr
  have hXin : inb c.table X := Path.inb_of_mem hp X (by simp)
  have hXin1 : inb c1.table X := inb_of_length_eq hr.len hXin
  have hXo1 := hr.not_occupied
  have hline1 : line_in_table c1 X := by
    simpa [line_in_table, get_start_cacheline_bucket, hcm, hr.len] using hline
  obtain ⟨c2, hopt', hc2⟩ := optimize_cacheline_use_spec (g := g) (by rw [hr.len]; exact hlen)
    hXin1 (by rw [hsl]; exact hs)
    (fun h hh => by
      obtain ⟨l, hl, hm⟩ := hwf1.chains h hh
      exact ⟨l, hl, fun hX => hXo1 (hm X hX).1⟩) hline1
  have hopt := hopt'.optimized
  refine ⟨c1, c2, hrk, hr, hopt, ?_, ?_⟩
  · intro fuel hf
    exact hc2 fuel (by rw [hcm, hr.len]; exact hf)
  cases hopt with
  | same he =>
    subst he
    refine ⟨hwf1, hr.len, hbm, hsl, hsm, hss, ?_⟩
    intro h hh l hl
    obtain ⟨l', hl', -, hj, hk⟩ := hch1 h hh l hl
    exact ⟨l', hl', hj, hk⟩
  | moved H2 E m1 m2 hH2 hp2 hr2 h1 h2 h3 h4 h5 =>
    have hch2 := relocated_chains hwf1 hXo1 hH2 hp2 hr2
    refine ⟨wf_paths_relocated hwf1 h1 hXin1 hXo1 hH2 hp2 hr2, by rw [hr2.len, hr.len],
      by rw [h1, hbm], by rw [h3, hsl], by rw [h4, hsm], by rw [h5, hss], ?_⟩
    intro h hh l hl
    obtain ⟨l', hl', -, hj, hk⟩ := hch1 h hh l hl
    obtain ⟨l'', hl'', hmap, -⟩ := hch2 h (inb_of_length_eq hr.len hh) l' hl'
    refine ⟨l'', hl'', ?_, ?_⟩
    · intro j hjk
      rw [hmap]
      exact hj j hjk
    · rw [hmap]
      exact hk

end DtCache


namespace DtCache

/-! ## A table with one entry, and a scan that leaves the table -/

theorem wf_paths_single {c : dt_cache_t} {H p : Int} (hH : inb c.table H)
    (hp : inb c.table p) (hhd : hd c.table H = some p) (hnx : nxt c.table p = none)
    (hother : ∀ h, inb c.table h → h ≠ H → hd c.table h = none)
    (hocc : ∀ q, inb c.table q → q ≠ p → ¬ occupied c.table q)
    (hpo : occupied c.table p) (hhome : home_of c (rd c.table p).key = H) : wf_paths c := by
  have hpath : Path c.table (hd c.table H) [p] none := by
    rw [hhd]
    refine Path.cons hp ?_
    rw [hnx]
    exact Path.nil _
  refine ⟨?_, ?_, ?_⟩
  · intro h hh
    by_cases hhH : h = H
    · subst hhH
      refine ⟨[p], hpath, ?_⟩
      intro q hq
      rw [List.mem_singleton] at hq
      subst hq
      exact ⟨hpo, hhome⟩
    · refine ⟨[], ?_, by simp⟩
      rw [hother h hh hhH]
      exact Path.nil _
  · intro i hi ho
    have hip : i = p := by
      by_contra hne
      exact hocc i hi hne ho
    subst hip
    rw [hhome]
    exact ⟨hH, [i], hpath, by simp⟩
  · intro i j hi hj hoi hoj _
    have hip : i = p := by
      by_contra hne
      exact hocc i hi hne hoi
    have hjp : j = p := by
      by_contra hne
      exact hocc j hj hne hoj
    rw [hip, hjp]

/-- When the free bucket starts its cache line, heads no chain, and the next bucket of the
line is past the end of the table, `optimize_cacheline_use` reads outside the table. -/
theorem optimize_reads_past_table {c : dt_cache_t} {g : Nat} {F : Int}
    (hstart : get_start_cacheline_bucket c F = F) (hF : inb c.table F)
    (hfd : (rd c.table F).first_delta = DT_CACHE_NULL_DELTA) (hmask : 1 ≤ c.cache_mask)
    (hout : ¬ inb c.table (F + 1)) :
    (∀ fuel, 2 ≤ fuel → optimize_cacheline_use fuel c g F = .ub) ∧
    ∀ fuel c2, optimize_cacheline_use fuel c g F ≠ .ok c2 := by
  have hnext : F + 1 ≤ F + c.cache_mask := by omega
  have h2 : ∀ f, optimize_cacheline_use (f + 2) c g F = .ub := by
    intro f
    simp only [optimize_cacheline_use, hstart, optimize_cacheline_loop, hF, not_true_eq_false,
      if_false, ne_eq, hfd, Outcome.bind, hnext, if_true, hout, not_false_eq_true]
  refine ⟨?_, ?_⟩
  · intro fuel hf
    obtain ⟨f, rfl⟩ : ∃ f, fuel = f + 2 := ⟨fuel - 2, by omega⟩
    exact h2 f
  · intro fuel c2 h
    match fuel, h with
    | 0, h => simp [optimize_cacheline_use, optimize_cacheline_loop] at h
    | 1, h =>
      simp [optimize_cacheline_use, hstart, optimize_cacheline_loop, hF, hfd, Outcome.bind,
        hnext] at h
    | f + 2, h => rw [h2 f] at h; cases h

theorem rd_wr_wr_replicate {n : Nat} {e b0 b1 : dt_cache_bucket_t} {p0 p1 q : Int}
    (h0 : inb (List.replicate n e) p0) (h1 : inb (List.replicate n e) p1)
    (hq : inb (List.replicate n e) q) :
    rd (wr (wr (List.replicate n e) p0 b0) p1 b1) q =
      if q = p1 then b1 else if q = p0 then b0 else e := by
  simp only [rd_wr, inb_wr, h0, h1, and_true, rd_replicate hq]

theorem inb_far_entry (q : Int) :
    inb cache_2_2_far_entry.table q ↔ inb (List.replicate 4099 empty_bucket) q := by
  have hlen : cache_2_2_far_entry.table.length = (List.replicate 4099 empty_bucket).length := by
    show (wr (wr (List.replicate 4099 empty_bucket) 0 _) 4098 _).length = _
    rw [length_wr, length_wr]
  simp only [inb, hlen]

theorem inb_replicate {n : Nat} {e : dt_cache_bucket_t} {q : Int} :
    inb (List.replicate n e) q ↔ 0 ≤ q ∧ q < n := by
  simp only [inb, List.length_replicate]

theorem rd_far_entry (q : Int) (hq : inb cache_2_2_far_entry.table q) :
    rd cache_2_2_far_entry.table q =
      if q = 4098 then { empty_bucket with hash := 0, key := 0, data := 7 }
      else if q = 0 then { empty_bucket with first_delta := 4098 } else empty_bucket := by
  have h0 : inb (List.replicate 4099 empty_bucket) 0 := inb_replicate.2 (by decide)
  have h1 : inb (List.replicate 4099 empty_bucket) 4098 := inb_replicate.2 (by decide)
  exact rd_wr_wr_replicate h0 h1 ((inb_far_entry q).1 hq)

theorem wf_paths_far_entry : wf_paths cache_2_2_far_entry := by
  have h0 : inb cache_2_2_far_entry.table 0 :=
    (inb_far_entry 0).2 (inb_replicate.2 (by decide))
  have hp : inb cache_2_2_far_entry.table 4098 :=
    (inb_far_entry 4098).2 (inb_replicate.2 (by decide))
  refine wf_paths_single h0 hp ?_ ?_ ?_ ?_ ?_ ?_
  · rw [hd, rd_far_entry 0 h0]; decide
  · rw [nxt, rd_far_entry 4098 hp]; decide
  · intro h hh hne
    rw [hd, rd_far_entry h hh]
    simp only [hne, if_false]
    split <;> exact link_null _
  · intro q hq hne
    rw [occupied, rd_far_entry q hq]
    simp only [hne, if_false]
    split <;> simp [empty_bucket]
  · rw [occupied, rd_far_entry 4098 hp]; decide
  · rw [rd_far_entry 4098 hp]; decide

end DtCache


namespace DtCache

/-! ## `nearest_power_of_two` returns the least power of two that is large enough -/

theorem nearest_power_of_two_loop_spec {value : Nat} (hv : value ≤ 2147483648) :
    ∀ (fuel i : Nat), i ≤ 31 → 31 ≤ fuel + i → (∀ j, j < i → 2 ^ j < value) →
      ∃ b, i ≤ b ∧ b ≤ 31 ∧ nearest_power_of_two_loop value fuel (2 ^ i) = .ok (2 ^ b) ∧
        value ≤ 2 ^ b ∧ ∀ j, j < b → 2 ^ j < value := by
  intro fuel
  induction fuel with
  | zero =>
    intro i hi hf hlow
    have hi31 : i = 31 := by omega
    subst hi31
    refine ⟨31, le_refl _, le_refl _, ?_, by norm_num; exact hv, hlow⟩
    have : ¬ (2 ^ 31 < value) := by norm_num; exact hv
    simp only [nearest_power_of_two_loop, this, if_false]
  | succ n ih =>
    intro i hi hf hlow
    by_cases hlt : 2 ^ i < value
    · have hi31 : i ≠ 31 := by
        intro h; subst h
        have : (2 : Nat) ^ 31 = 2147483648 := by norm_num
        omega
      have hstep : (2 ^ i <<< 1) % 4294967296 = 2 ^ (i + 1) := by
        rw [Nat.shiftLeft_eq, pow_one, ← pow_succ]
        apply Nat.mod_eq_of_lt
        calc 2 ^ (i + 1) ≤ 2 ^ 31 := Nat.pow_le_pow_right (by norm_num) (by omega)
          _ < 4294967296 := by norm_num
      obtain ⟨b, hb1, hb2, hb3, hb4, hb5⟩ := ih (i + 1) (by omega) (by omega) (by
        intro j hj
        by_cases hji : j = i
        · subst hji; exact hlt
        · exact hlow j (by omega))
      refine ⟨b, by omega, hb2, ?_, hb4, hb5⟩
      simp only [nearest_power_of_two_loop, hlt, if_true, hstep]
      exact hb3
    · refine ⟨i, le_refl _, hi, ?_, by omega, hlow⟩
      simp only [nearest_power_of_two_loop, hlt, if_false]

/-- For a value up to `2^31` and fuel of at least 31, `nearest_power_of_two` returns the least
power of two that is not below the value. -/
theorem nearest_power_of_two_spec {fuel value : Nat} (hv : value ≤ 2147483648)
    (hf : 31 ≤ fuel) :
    ∃ b, b ≤ 31 ∧ nearest_power_of_two fuel value = .ok (2 ^ b) ∧ value ≤ 2 ^ b ∧
      ∀ i, value ≤ 2 ^ i → b ≤ i := by
  obtain ⟨b, -, hb, hr, hle, hlow⟩ :=
    nearest_power_of_two_loop_spec hv fuel 0 (by omega) (by omega) (by intro j hj; omega)
  refine ⟨b, hb, hr, hle, ?_⟩
  intro i hi
  by_contra hlt
  have := hlow i (by omega)
  omega

theorem nearest_power_of_two_loop_ge {value : Nat} :
    ∀ (fuel rc r : Nat), nearest_power_of_two_loop value fuel rc = .ok r → value ≤ r := by
  intro fuel
  induction fuel with
  | zero =>
    intro rc r h
    simp only [nearest_power_of_two_loop] at h
    split at h
    · cases h
    · simp only [Outcome.ok.injEq] at h; omega
  | succ n ih =>
    intro rc r h
    simp only [nearest_power_of_two_loop] at h
    split at h
    · exact ih _ _ h
    · simp only [Outcome.ok.injEq] at h; omega

theorem calc_div_shift_zero (fuel : Nat) : calc_div_shift fuel 0 = .ok 0 := by
  cases fuel <;> simp [calc_div_shift, calc_div_shift_loop]

theorem uint32_t_of_range {x : Int} (h0 : 0 ≤ x) (h1 : x < 4294967296) :
    uint32_t x = x.toNat := by
  simp only [uint32_t]
  rw [Int.emod_eq_of_lt h0 h1]

/-- The cache `dt_cache_init` builds for a capacity and a thread count between 1 and
`2^30`. -/
theorem dt_cache_init_eq {U : undefined_t} {fuel : Nat} {cache : dt_cache_t}
    {capacity num_threads cache_line_size optimize_cacheline : Int}
    (hcap : 1 ≤ capacity) (hcap' : capacity ≤ 1073741824)
    (hnt : 1 ≤ num_threads) (hnt' : num_threads ≤ 1073741824) (hfuel : 31 ≤ fuel) :
    ∃ c0 b s, dt_cache_init U fuel cache capacity num_threads cache_line_size
        optimize_cacheline = .ok c0 ∧
      b ≤ 30 ∧ c0.bucket_mask + 1 = 2 ^ b ∧ capacity ≤ 2 ^ b ∧
      (∀ i : Nat, capacity ≤ 2 ^ i → b ≤ i) ∧
      s ≤ 30 ∧ c0.segment_mask + 1 = 2 ^ s ∧ num_threads ≤ 2 ^ s ∧
      (∀ i : Nat, num_threads ≤ 2 ^ i → s ≤ i) ∧
      c0.table = List.replicate (c0.bucket_mask + 1 + DT_CACHE_INSERT_RANGE + 1) empty_bucket ∧
      c0.segments = List.replicate (c0.segment_mask + 1) { timestamp := 0, lock := 0 } := by
  have h30 : (2 : Nat) ^ 30 = 1073741824 := by norm_num
  have hunt : uint32_t num_threads = num_threads.toNat :=
    uint32_t_of_range (by omega) (by omega)
  have hucap : uint32_t capacity = capacity.toNat := uint32_t_of_range (by omega) (by omega)
  obtain ⟨s, -, hs, hsle, hsmin⟩ :=
    @nearest_power_of_two_spec fuel num_threads.toNat (by omega) hfuel
  obtain ⟨b, -, hb, hble, hbmin⟩ :=
    @nearest_power_of_two_spec fuel capacity.toNat (by omega) hfuel
  have hs30 : s ≤ 30 := hsmin 30 (by omega)
  have hb30 : b ≤ 30 := hbmin 30 (by omega)
  have hps : 2 ^ s ≤ 2 ^ 30 := Nat.pow_le_pow_right (by norm_num) hs30
  have hpb : 2 ^ b ≤ 2 ^ 30 := Nat.pow_le_pow_right (by norm_num) hb30
  have hs1 : 1 ≤ 2 ^ s := Nat.one_le_two_pow
  have hb1 : 1 ≤ 2 ^ b := Nat.one_le_two_pow
  have hdiv : num_threads.toNat / 2 ^ s ≤ 1 := by
    have : num_threads.toNat / 2 ^ s ≤ 2 ^ s / 2 ^ s := Nat.div_le_div_right hsle
    rwa [Nat.div_self (by omega)] at this
  obtain ⟨p, -, hp, hple, hpmin⟩ := @nearest_power_of_two_spec fuel
    (num_threads.toNat / 2 ^ s) (by omega) hfuel
  have hp0 : p = 0 := by
    have := hpmin 0 (by simpa using hdiv)
    omega
  subst hp0
  have hsm : uint32_t (((2 ^ s : Nat) : Int) - 1) = 2 ^ s - 1 := by
    rw [uint32_t_of_range (by omega) (by omega)]
    omega
  have hbm : uint32_t (((2 ^ b : Nat) : Int) - 1) = 2 ^ b - 1 := by
    rw [uint32_t_of_range (by omega) (by omega)]
    omega
  have hone : uint32_t (((2 ^ 0 : Nat) : Int) - 1) = 0 := by simp [uint32_t]
  have hnb : (2 ^ b + DT_CACHE_INSERT_RANGE + 1) % 4294967296
      = 2 ^ b - 1 + 1 + DT_CACHE_INSERT_RANGE + 1 := by
    simp only [DT_CACHE_INSERT_RANGE]
    rw [Nat.mod_eq_of_lt (by omega)]
    omega
  have hg1 : ¬ 2147483647 ≤ 2 ^ s - 1 := by omega
  have hg2 : ¬ 2147483647 < 2 ^ b - 1 + 1 + DT_CACHE_INSERT_RANGE + 1 := by
    simp only [DT_CACHE_INSERT_RANGE]; omega
  have hinit : dt_cache_init U fuel cache capacity num_threads cache_line_size
      optimize_cacheline = .ok { cache with
        cache_mask := int32_t ((((cache_line_size % 18446744073709551616)
          / (sizeof_dt_cache_bucket_t : Int) - 1) % 18446744073709551616))
        is_cacheline_alignment := optimize_cacheline
        segment_mask := 2 ^ s - 1
        bucket_mask := 2 ^ b - 1
        segment_shift := uint32_t (builtin_clz U (2 ^ b - 1) - builtin_clz U (2 ^ s - 1))
        segments := List.replicate (2 ^ s - 1 + 1) { timestamp := 0, lock := 0 }
        table := List.replicate (2 ^ b - 1 + 1 + DT_CACHE_INSERT_RANGE + 1) empty_bucket } := by
    simp only [dt_cache_init, hunt, hucap, hs, Outcome.bind, hp, hone, calc_div_shift_zero, hb,
      hsm, hbm, hnb, hg1, hg2, if_false]
  refine ⟨_, b, s, hinit, hb30, ?_, ?_, ?_, hs30, ?_, ?_, ?_, ?_, ?_⟩
  · show 2 ^ b - 1 + 1 = 2 ^ b
    omega
  · have : (capacity.toNat : Int) = capacity := Int.toNat_of_nonneg (by omega)
    rw [← this]; exact_mod_cast hble
  · intro i hi
    refine hbmin i ?_
    have : (capacity.toNat : Int) = capacity := Int.toNat_of_nonneg (by omega)
    rw [← this] at hi; exact_mod_cast hi
  · show 2 ^ s - 1 + 1 = 2 ^ s
    omega
  · have : (num_threads.toNat : Int) = num_threads := Int.toNat_of_nonneg (by omega)
    rw [← this]; exact_mod_cast hsle
  · intro i hi
    refine hsmin i ?_
    have : (num_threads.toNat : Int) = num_threads := Int.toNat_of_nonneg (by omega)
    rw [← this] at hi; exact_mod_cast hi
  · rfl
  · rfl

end DtCache


namespace DtCache

/-! ## What `remove_key` writes -/

/-- The segments and the fields of the cache after `remove_key`. -/
theorem remove_key_frame {c c1 : dt_cache_t} {g : Nat} {H X : Int} {v : Option Int} {w : Nat}
    (h : remove_key c g H X v w = .ok c1) :
    g < c.segments.length ∧
    c1.segments = c.segments.set g { c.segments.getD g default with
      timestamp := ((c.segments.getD g default).timestamp + 1) % 4294967296 } ∧
    c1.bucket_mask = c.bucket_mask ∧ c1.segment_mask = c.segment_mask ∧
    c1.segment_shift = c.segment_shift ∧ c1.cache_mask = c.cache_mask ∧
    c1.is_cacheline_alignment = c.is_cacheline_alignment ∧ c1.lru = c.lru ∧
    c1.mru = c.mru := by
  unfold remove_key at h
  split at h
  · cases h
  · obtain ⟨t, -, h⟩ := Outcome.bind_eq_ok h
    split at h
    · cases h
    · rename_i hg
      simp only [Outcome.ok.injEq] at h
      subst h
      exact ⟨not_not.1 hg, rfl, rfl, rfl, rfl, rfl, rfl, rfl, rfl⟩

/-- The bucket fields after `remove_key`: the bucket `X` is emptied, one offset is written
(the head offset of `H` when there is no predecessor, the next offset of the predecessor
otherwise), and every other field of every bucket is as before. -/
theorem remove_key_fields {c : dt_cache_t} {g : Nat} {H X : Int} {v : Option Int}
    {w : Nat} (hX : inb c.table X) (hH : inb c.table H)
    (hP : ∀ P, v = some P → inb c.table P ∧ P ≠ X) (hs : g < c.segments.length) :
    ∃ c1, remove_key c g H X v w = .ok c1 ∧ c1.table.length = c.table.length ∧
      (rd c1.table X).hash = DT_CACHE_EMPTY_HASH ∧ (rd c1.table X).key = DT_CACHE_EMPTY_KEY ∧
      (rd c1.table X).data = DT_CACHE_EMPTY_DATA ∧
      (rd c1.table X).next_delta = DT_CACHE_NULL_DELTA ∧
      (∀ q, q ≠ X → (rd c1.table q).hash = (rd c.table q).hash ∧
        (rd c1.table q).key = (rd c.table q).key ∧
        (rd c1.table q).data = (rd c.table q).data) ∧
      (∀ q, (rd c1.table q).read = (rd c.table q).read ∧
        (rd c1.table q).write = (rd c.table q).write ∧
        (rd c1.table q).lru = (rd c.table q).lru ∧ (rd c1.table q).mru = (rd c.table q).mru) ∧
      (∀ q, (q ≠ H ∨ v ≠ none) → (rd c1.table q).first_delta = (rd c.table q).first_delta) ∧
      (∀ q, q ≠ X → some q ≠ v → (rd c1.table q).next_delta = (rd c.table q).next_delta) := by
  obtain ⟨s, hrk, -⟩ := remove_key_eq (c := c) (g := g) (H := H) (X := X) (v := v) (w := w)
    hX hH (fun P hv => (hP P hv).1) hs
  refine ⟨_, hrk, ?_⟩
  cases v with
  | none =>
    refine ⟨by simp, by simp [hX], by simp [hX], by simp [hX], by simp [hX], ?_, ?_, ?_, ?_⟩
    · intro q hq; simp [hq]
    · intro q; simp
    · intro q hq
      have hq' : q ≠ H := by
        rcases hq with h | h
        · exact h
        · exact absurd rfl h
      simp [hq']
    · intro q hq _; simp [hq]
  | some P =>
    obtain ⟨hPin, hPX⟩ := hP P rfl
    refine ⟨by simp, by simp [hX], by simp [hX], by simp [hX], by simp [hX], ?_, ?_, ?_, ?_⟩
    · intro q hq; simp [hq]
    · intro q; simp
    · intro q _; simp
    · intro q hq hqP
      have hqP' : q ≠ P := fun e => hqP (by rw [e])
      simp [hq, hqP']

end DtCache


namespace DtCache

/-! ## The cache-line scan of `dt_cache_put` ends, and head placement -/

theorem cacheline_scan_total_low {t : List dt_cache_bucket_t} {start s e : Int}
    (hst : start ≤ e) (hall : ∀ i, s ≤ i → i ≤ e → inb t i) :
    ∀ (n : Nat) (f : Int), s ≤ f → f < start → start - f ≤ n →
      ∃ r, ∀ fuel, n ≤ fuel → dt_cache_put_cacheline_scan t start s e fuel f = .ok r := by
  intro n
  induction n with
  | zero => intro f _ h1 h2; omega
  | succ n ih =>
    intro f hsf hfs hm
    have hin : inb t f := hall f hsf (by omega)
    by_cases he : (rd t f).hash = DT_CACHE_EMPTY_HASH
    · refine ⟨some f, fun fuel hf => ?_⟩
      obtain ⟨m, rfl⟩ : ∃ m, fuel = m + 1 := ⟨fuel - 1, by omega⟩
      simp only [dt_cache_put_cacheline_scan, hin, not_true_eq_false, if_false, he, if_true]
    · have hw : ¬ f + 1 > e := by omega
      by_cases hnext : start = f + 1
      · refine ⟨none, fun fuel hf => ?_⟩
        obtain ⟨m, rfl⟩ : ∃ m, fuel = m + 1 := ⟨fuel - 1, by omega⟩
        simp only [dt_cache_put_cacheline_scan, hin, not_true_eq_false, if_false, he, hw, ne_eq,
          hnext]
      · obtain ⟨r, hr⟩ := ih (f + 1) (by omega) (by omega) (by omega)
        refine ⟨r, fun fuel hf => ?_⟩
        obtain ⟨m, rfl⟩ : ∃ m, fuel = m + 1 := ⟨fuel - 1, by omega⟩
        simp only [dt_cache_put_cacheline_scan, hin, not_true_eq_false, if_false, he, hw, ne_eq,
          hnext, not_false_eq_true, if_true]
        exact hr m (by omega)

theorem cacheline_scan_total_high {t : List dt_cache_bucket_t} {start s e : Int}
    (hss : s ≤ start) (hst : start ≤ e) (hall : ∀ i, s ≤ i → i ≤ e → inb t i) :
    ∀ (n : Nat) (f : Int), start ≤ f → f ≤ e → e - f ≤ n →
      ∃ r, ∀ fuel, n + (start - s).toNat + 1 ≤ fuel →
        dt_cache_put_cacheline_scan t start s e fuel f = .ok r := by
  intro n
  induction n with
  | zero =>
    intro f hsf hfe hm
    have hin : inb t f := hall f (by omega) hfe
    have hw : f + 1 > e := by omega
    by_cases he : (rd t f).hash = DT_CACHE_EMPTY_HASH
    · refine ⟨some f, fun fuel hf => ?_⟩
      obtain ⟨m, rfl⟩ : ∃ m, fuel = m + 1 := ⟨fuel - 1, by omega⟩
      simp only [dt_cache_put_cacheline_scan, hin, not_true_eq_false, if_false, he, if_true]
    · by_cases hnext : start = s
      · refine ⟨none, fun fuel hf => ?_⟩
        obtain ⟨m, rfl⟩ : ∃ m, fuel = m + 1 := ⟨fuel - 1, by omega⟩
        simp only [dt_cache_put_cacheline_scan, hin, not_true_eq_false, if_false, he, hw,
          if_true, ne_eq, hnext]
      · obtain ⟨r, hr⟩ := cacheline_scan_total_low hst hall (start - s).toNat s (le_refl _)
          (by omega) (by omega)
        refine ⟨r, fun fuel hf => ?_⟩
        obtain ⟨m, rfl⟩ : ∃ m, fuel = m + 1 := ⟨fuel - 1, by omega⟩
        simp only [dt_cache_put_cacheline_scan, hin, not_true_eq_false, if_false, he, hw,
          if_true, ne_eq, hnext, not_false_eq_true]
        exact hr m (by omega)
  | succ n ih =>
    intro f hsf hfe hm
    have hin : inb t f := hall f (by omega) hfe
    by_cases he : (rd t f).hash = DT_CACHE_EMPTY_HASH
    · refine ⟨some f, fun fuel hf => ?_⟩
      obtain ⟨m, rfl⟩ : ∃ m, fuel = m + 1 := ⟨fuel - 1, by omega⟩
      simp only [dt_cache_put_cacheline_scan, hin, not_true_eq_false, if_false, he, if_true]
    · by_cases hw : f + 1 > e
      · by_cases hnext : start = s
        · refine ⟨none, fun fuel hf => ?_⟩
          obtain ⟨m, rfl⟩ : ∃ m, fuel = m + 1 := ⟨fuel - 1, by omega⟩
          simp only [dt_cache_put_cacheline_scan, hin, not_true_eq_false, if_false, he, hw,
            if_true, ne_eq, hnext]
        · obtain ⟨r, hr⟩ := cacheline_scan_total_low hst hall (start - s).toNat s (le_refl _)
            (by omega) (by omega)
          refine ⟨r, fun fuel hf => ?_⟩
          obtain ⟨m, rfl⟩ : ∃ m, fuel = m + 1 := ⟨fuel - 1, by omega⟩
          simp only [dt_cache_put_cacheline_scan, hin, not_true_eq_false, if_false, he, hw,
            if_true, ne_eq, hnext, not_false_eq_true]
          exact hr m (by omega)
      · have hnext : ¬ start = f + 1 := by omega
        obtain ⟨r, hr⟩ := ih (f + 1) (by omega) (by omega) (by omega)
        refine ⟨r, fun fuel hf => ?_⟩
        obtain ⟨m, rfl⟩ : ∃ m, fuel = m + 1 := ⟨fuel - 1, by omega⟩
        simp only [dt_cache_put_cacheline_scan, hin, not_true_eq_false, if_false, he, hw, ne_eq,
          hnext, not_false_eq_true, if_true]
        exact hr m (by omega)

/-- When the cache line of the home bucket lies in the table and holds an empty bucket, the
cache-line scan returns an empty bucket of the line, the same for every fuel above the size
of the line. -/
theorem cacheline_scan_finds {t : List dt_cache_bucket_t} {start s e : Int}
    (hss : s ≤ start) (hst : start ≤ e) (hall : ∀ i, s ≤ i → i ≤ e → inb t i)
    (hempty : ∃ i, s ≤ i ∧ i ≤ e ∧ (rd t i).hash = DT_CACHE_EMPTY_HASH) :
    ∃ F, s ≤ F ∧ F ≤ e ∧ inb t F ∧ (rd t F).hash = DT_CACHE_EMPTY_HASH ∧
      ∀ fuel, (e - s).toNat + 1 ≤ fuel →
        dt_cache_put_cacheline_scan t start s e fuel start = .ok (some F) := by
  obtain ⟨r, hr⟩ := cacheline_scan_total_high hss hst hall (e - start).toNat start (le_refl _)
    hst (by omega)
  have hfuel : (e - start).toNat + (start - s).toNat + 1 = (e - s).toNat + 1 := by omega
  rw [hfuel] at hr
  cases r with
  | none =>
    exfalso
    obtain ⟨i, h1, h2, h3⟩ := hempty
    have := cacheline_scan_none_high hss hst _ start (le_refl _) hst (hr _ (le_refl _)) i
      (by omega)
    exact this h3
  | some F =>
    obtain ⟨h1, h2, h3, h4⟩ := cacheline_scan_found (le_trans hss hst) _ start F hss hst
      (hr _ (le_refl _))
    exact ⟨F, h1, h2, h3, h4, hr⟩

/-- The chain of the home bucket after `add_key_to_begining_of_list`: the new bucket comes
first, unless the home bucket is itself the first bucket of its chain (head offset 0); then
the new bucket comes second. -/
theorem add_begin_chain {t : List dt_cache_bucket_t} {home F : Int} {k v : Nat}
    {l : List Int} (hlen : t.length ≤ 32767) (hH : inb t home) (hF : inb t F)
    (hp : Path t (hd t home) l none) (hFl : F ∉ l) :
    Path (add_key_to_begining_of_list t home F k k v)
      (hd (add_key_to_begining_of_list t home F k k v) home)
      (if (rd t home).first_delta = 0 then home :: F :: l.tail else F :: l) none := by
  have hlen2 : (add_key_to_begining_of_list t home F k k v).length = t.length :=
    length_add_begin
  have hF2 := inb_of_length_eq hlen2 hF
  have hH2 := inb_of_length_eq hlen2 hH
  by_cases h0 : (rd t home).first_delta = 0
  · simp only [h0, if_true]
    have hhd : hd t home = some home := by
      simp [hd, h0, link, DT_CACHE_NULL_DELTA, SHRT_MIN]
    rw [hhd] at hp
    obtain ⟨rest, rfl, -, hrest⟩ := Path.of_some hp
    have hnd := Path.nodup _ _ hp
    have hn := Path.head_inb hrest
    have hFH : F ≠ home := fun e => hFl (by simp [e])
    rw [hd_add_begin_zero h0, hhd]
    refine Path.cons hH2 ?_
    rw [nxt_add_begin_zero hlen h0 hF hH hn]
    simp only [if_true, List.tail_cons]
    refine Path.cons hF2 ?_
    rw [nxt_add_begin_zero hlen h0 hF hH hn]
    simp only [hFH, if_false, if_true]
    refine Path.frame hrest hlen2 ?_
    intro q hq
    have h1 : q ≠ home := fun e => (List.nodup_cons.1 hnd).1 (e ▸ hq)
    have h2 : q ≠ F := fun e => hFl (by simp [← e, hq])
    rw [nxt_add_begin_zero hlen h0 hF hH hn]
    simp [h1, h2]
  · simp only [h0, if_false]
    have hn := Path.head_inb hp
    rw [hd_add_begin_ne hlen h0 hF hH]
    simp only [if_true]
    refine Path.cons hF2 ?_
    rw [nxt_add_begin_ne hlen h0 hF hn]
    simp only [if_true]
    refine Path.frame hp hlen2 ?_
    intro q hq
    have h2 : q ≠ F := fun e => hFl (e ▸ hq)
    rw [nxt_add_begin_ne hlen h0 hF hn]
    simp [h2]

/-- Head placement by `dt_cache_put`: for a key that is not in its home chain, with
cache-line placement enabled and an empty bucket in the cache line of the home bucket, the put
returns and links an empty bucket of the line with `add_key_to_begining_of_list`. -/
theorem put_head_placement {U : undefined_t} {c : dt_cache_t} {k v : Nat} {l : List Int}
    (hlen : c.table.length ≤ 32767) (halign : c.is_cacheline_alignment ≠ 0)
    (hseg : segment_of U c k < c.segments.length)
    (hlock : (c.segments.getD (segment_of U c k) default).lock = 0)
    (hH : inb c.table (home_of c k))
    (hp : Path c.table (hd c.table (home_of c k)) l none)
    (hocc : ∀ p ∈ l, occupied c.table p)
    (habsent : ∀ p ∈ l, ¬ holds c.table k k p)
    (hline : line_in_table c (home_of c k))
    (hempty : ∃ i, get_start_cacheline_bucket c (home_of c k) ≤ i ∧
      i ≤ get_start_cacheline_bucket c (home_of c k) + c.cache_mask ∧
      (rd c.table i).hash = DT_CACHE_EMPTY_HASH) :
    ∃ F, get_start_cacheline_bucket c (home_of c k) ≤ F ∧
      F ≤ get_start_cacheline_bucket c (home_of c k) + c.cache_mask ∧
      inb c.table F ∧ (rd c.table F).hash = DT_CACHE_EMPTY_HASH ∧
      (∀ m, c.table.length + 1 ≤ m → dt_cache_put U m c k v = .ok (DT_CACHE_EMPTY_DATA,
        { c with table := add_key_to_begining_of_list c.table (home_of c k) F k k v })) ∧
      Path (add_key_to_begining_of_list c.table (home_of c k) F k k v)
        (hd (add_key_to_begining_of_list c.table (home_of c k) F k k v) (home_of c k))
        (if (rd c.table (home_of c k)).first_delta = 0 then home_of c k :: F :: l.tail
          else F :: l) none := by
  obtain ⟨i, hi1, hi2, hi3⟩ := hempty
  have hmask : 0 ≤ c.cache_mask := by omega
  obtain ⟨hl0, hl1⟩ := hline
  rw [max_eq_right hmask] at hl1
  obtain ⟨hss, hst⟩ := @start_cacheline_le c (home_of c k) hH.1 hmask
  obtain ⟨F, hF1, hF2, hFin, hFe, hscan⟩ := @cacheline_scan_finds c.table _ _ _ hss hst
    (fun j hj1 hj2 => ⟨by omega, by omega⟩) ⟨i, hi1, hi2, hi3⟩
  have hFl : F ∉ l := fun hm => hocc F hm hFe
  refine ⟨F, hF1, hF2, hFin, hFe, ?_, add_begin_chain hlen hH hFin hp hFl⟩
  intro m hm
  obtain ⟨n, rfl⟩ : ∃ n, m = n + 1 := ⟨m - 1, by omega⟩
  have hw := @put_walk_of_chain c.table k k (home_of c k) l hp (n + 1) (by omega) none
  have hfind : find_entry k k (l.map (entry c.table)) = none := by
    refine find_entry_eq_none _ ?_
    intro e he
    obtain ⟨p, hpm, rfl⟩ := List.mem_map.1 he
    exact habsent p hpm
  rw [hfind] at hw
  have hsc := hscan (n + 1) (by omega)
  unfold dt_cache_put
  simp only [hseg, not_true_eq_false, if_false, dt_cache_lock_of_free hlock, Outcome.bind_ok,
    hH, hw, dt_cache_put_place, halign, ne_eq, not_false_eq_true, if_true, hsc,
    dt_cache_unlock_locked hseg, set_unlock_self hlock]

end DtCache


namespace DtCache

/-! ## The offsets written in a table of at most 32767 buckets are exact -/

theorem exact_of_link {t : List dt_cache_bucket_t} (hlen : t.length ≤ 32767) {a b d : Int}
    (ha : inb t a) (hb : inb t b) (h : link a d = some b) : exact_offset d a b := by
  obtain ⟨hne, he⟩ := link_eq_some h
  have h1 := ha.1; have h2 := ha.2; have h3 := hb.1; have h4 := hb.2
  have hl : (t.length : Int) ≤ 32767 := by exact_mod_cast hlen
  exact ⟨by omega, by omega, by omega, hne⟩

/-- The link `remove_key` writes: the head offset of `H`, or the next offset of the
predecessor `P`, leads to the successor of `X`. -/
theorem remove_key_link {c : dt_cache_t} {g : Nat} {H X : Int} {v : Option Int} {w : Nat}
    (hlen : c.table.length ≤ 32767) (hX : inb c.table X) (hH : inb c.table H)
    (hP : ∀ P, v = some P → inb c.table P ∧ P ≠ X ∧ nxt c.table P = some X)
    (hhd : v = none → hd c.table H = some X)
    (hN : ∀ N, nxt c.table X = some N → inb c.table N) (hs : g < c.segments.length) :
    ∃ c1, remove_key c g H X v w = .ok c1 ∧ c1.table.length = c.table.length ∧
      (v = none → hd c1.table H = nxt c.table X) ∧
      (∀ P, v = some P → nxt c1.table P = nxt c.table X) := by
  cases v with
  | none =>
    obtain ⟨s, hrk, -⟩ := @remove_key_eq c g H X none w hX hH (fun P hv => by cases hv) hs
    refine ⟨_, hrk, ?_, ?_, ?_⟩
    · simp
    swap
    · intro P hP2; cases hP2
    intro _
    have hhd2 := hhd rfl
    simp only [hd, first_delta_wr_next_delta, first_delta_wr_first_delta, inb_wr_data,
      inb_wr_key, inb_wr_hash, hH, and_true, if_true]
    split
    · rename_i hnull; simp [nxt, hnull, link_null]
    · rename_i hnn
      have hn2 : nxt c.table X = some (X + (rd c.table X).next_delta) := link_of_ne _ _ hnn
      rw [hn2]
      exact link_add_int16 hlen hH (hN _ hn2) hhd2 hn2
  | some P =>
    obtain ⟨hPin, hPX, hPn⟩ := hP P rfl
    obtain ⟨s, hrk, -⟩ := @remove_key_eq c g H X (some P) w hX hH
      (fun Q hv => by cases hv; exact hPin) hs
    refine ⟨_, hrk, ?_, ?_, ?_⟩
    · simp
    · intro h; cases h
    intro Q hQ
    cases hQ
    simp only [nxt, next_delta_wr_next_delta, inb_wr_next_delta, inb_wr_data, inb_wr_key,
      inb_wr_hash, hX, hPin, and_true, hPX, if_false, if_true]
    split
    · rename_i hnull; simp [hnull, link_null]
    · rename_i hnn
      have hn2 : nxt c.table X = some (X + (rd c.table X).next_delta) := link_of_ne _ _ hnn
      have := link_add_int16 hlen hPin (hN _ hn2) hPn hn2
      rw [this]
      exact hn2.symm

/-- A put that takes the first bucket of the forward scan: cache-line placement disabled, the
key not in its home chain, and the bucket `cache_mask + 1` above the home bucket empty. -/
theorem put_forward_first {U : undefined_t} {c : dt_cache_t} {k v : Nat} {l : List Int}
    (halign : c.is_cacheline_alignment = 0)
    (hseg : segment_of U c k < c.segments.length)
    (hlock : (c.segments.getD (segment_of U c k) default).lock = 0)
    (hH : inb c.table (home_of c k))
    (hp : Path c.table (hd c.table (home_of c k)) l none)
    (habsent : ∀ p ∈ l, ¬ holds c.table k k p)
    (hF : inb c.table (home_of c k + (c.cache_mask + 1)))
    (hFe : (rd c.table (home_of c k + (c.cache_mask + 1))).hash = DT_CACHE_EMPTY_HASH)
    (hm1 : c.cache_mask + 1 ≤ 32766)
    (hm2 : home_of c k + (c.cache_mask + 1) ≤ c.bucket_mask) :
    ∀ m, c.table.length + 1 ≤ m → dt_cache_put U m c k v = .ok (DT_CACHE_EMPTY_DATA,
      { c with table := (add_key_to_end_of_list c.table (home_of c k)
          (home_of c k + (c.cache_mask + 1)) k k v (last_of none l)) }) := by
  intro m hm
  obtain ⟨n, rfl⟩ : ∃ n, m = n + 1 := ⟨m - 1, by omega⟩
  have hw := @put_walk_of_chain c.table k k (home_of c k) l hp (n + 1) (by omega) none
  have hfind : find_entry k k (l.map (entry c.table)) = none := by
    refine find_entry_eq_none _ ?_
    intro e he
    obtain ⟨p, hpm, rfl⟩ := List.mem_map.1 he
    exact habsent p hpm
  rw [hfind] at hw
  have hfs : ∀ M : Int, home_of c k + (c.cache_mask + 1) ≤ M →
      dt_cache_put_forward_scan c.table M (n + 1) (home_of c k + (c.cache_mask + 1))
        = .ok (some (home_of c k + (c.cache_mask + 1))) := by
    intro M hM
    simp only [dt_cache_put_forward_scan, hM, if_true, hF, not_true_eq_false, if_false, hFe]
  have hmax : home_of c k + (c.cache_mask + 1) ≤
      (if home_of c k + (SHRT_MAX - 1) > (c.bucket_mask : Int) then (c.bucket_mask : Int)
        else home_of c k + (SHRT_MAX - 1)) := by
    simp only [SHRT_MAX]
    split <;> omega
  unfold dt_cache_put
  simp only [hseg, not_true_eq_false, if_false, dt_cache_lock_of_free hlock, Outcome.bind_ok,
    hH, hw, dt_cache_put_place, halign, ne_eq, not_true_eq_false, if_false, hfs _ hmax,
    dt_cache_unlock_locked hseg, set_unlock_self hlock]

end DtCache


namespace DtCache

/-! ## The stepwise reader and writer agree with `dt_cache_contains` and `remove_key` -/

/-- The six writes of `remove_key`, run one after the other, give what `remove_key`
returns. -/
theorem remove_key_steps_eq {c c1 : dt_cache_t} {g : Nat} {H X : Int} {v : Option Int}
    {w : Nat} (h : remove_key c g H X v w = .ok c1) :
    remove_key_steps g H X v 6 0 c = c1 := by
  unfold remove_key at h
  split at h
  · cases h
  · obtain ⟨t, ht, h⟩ := Outcome.bind_eq_ok h
    split at h
    · cases h
    · simp only [Outcome.ok.injEq] at h
      subst h
      cases v with
      | none =>
        simp only at ht
        split at ht
        · cases ht
        · split at ht
          · rename_i hnull
            simp only [Outcome.ok.injEq] at ht
            subst ht
            simp only [remove_key_steps, remove_key_step, hnull, if_true]
          · rename_i hnull
            simp only [Outcome.ok.injEq] at ht
            subst ht
            simp only [remove_key_steps, remove_key_step, hnull, if_false]
      | some P =>
        simp only at ht
        split at ht
        · cases ht
        · split at ht
          · rename_i hnull
            simp only [Outcome.ok.injEq] at ht
            subst ht
            simp only [remove_key_steps, remove_key_step, hnull, if_true]
          · rename_i hnull
            simp only [Outcome.ok.injEq] at ht
            subst ht
            simp only [remove_key_steps, remove_key_step, hnull, if_false]

end DtCache

namespace DtCache

/-! ## Puts that go past a full forward range -/

theorem forward_scan_full {t : List dt_cache_bucket_t} {M : Int} :
    ∀ (fuel : Nat) (f : Int),
      (∀ q, f ≤ q → q ≤ M → inb t q ∧ (rd t q).hash ≠ DT_CACHE_EMPTY_HASH) →
      (M + 1 - f).toNat ≤ fuel →
      dt_cache_put_forward_scan t M fuel f = .ok none
  | 0, f, _, hf => by
    have : ¬ f ≤ M := by omega
    simp only [dt_cache_put_forward_scan, this, if_false]
  | fuel + 1, f, h, hf => by
    by_cases hle : f ≤ M
    · obtain ⟨h1, h2⟩ := h f le_rfl hle
      simp only [dt_cache_put_forward_scan, hle, if_true, h1, not_true_eq_false, if_false, h2]
      exact forward_scan_full fuel (f + 1) (fun q hq1 hq2 => h q (by omega) hq2) (by omega)
    · simp only [dt_cache_put_forward_scan, hle, if_false]

theorem backward_scan_finds {t : List dt_cache_bucket_t} {m F : Int} (hF : inb t F)
    (hFe : (rd t F).hash = DT_CACHE_EMPTY_HASH) (hm : m ≤ F) :
    ∀ (fuel : Nat) (f : Int), F ≤ f →
      (∀ q, F < q → q ≤ f → inb t q ∧ (rd t q).hash ≠ DT_CACHE_EMPTY_HASH) →
      (f - F).toNat + 1 ≤ fuel →
      dt_cache_put_backward_scan t m fuel f = .ok (some F)
  | 0, f, _, _, hf => by omega
  | fuel + 1, f, hle, h, hf => by
    have hge : f ≥ m := by omega
    by_cases heq : f = F
    · subst heq
      simp only [dt_cache_put_backward_scan, hge, if_true, hF, not_true_eq_false, if_false, hFe]
    · obtain ⟨h1, h2⟩ := h f (by omega) le_rfl
      simp only [dt_cache_put_backward_scan, hge, if_true, h1, not_true_eq_false, if_false, h2]
      exact backward_scan_finds hF hFe hm fuel (f - 1) (by omega)
        (fun q hq1 hq2 => h q hq1 (by omega)) (by omega)

/-- A put that finds its forward range full and takes the first empty bucket of the
backward scan: cache-line placement disabled, the key not in its home chain. -/
theorem put_backward {U : undefined_t} {c : dt_cache_t} {k v : Nat} {l : List Int} {F : Int}
    (halign : c.is_cacheline_alignment = 0) (hcm : 0 ≤ c.cache_mask)
    (hseg : segment_of U c k < c.segments.length)
    (hlock : (c.segments.getD (segment_of U c k) default).lock = 0)
    (hH : inb c.table (home_of c k))
    (hp : Path c.table (hd c.table (home_of c k)) l none)
    (habsent : ∀ p ∈ l, ¬ holds c.table k k p)
    (hfull : ∀ q, home_of c k + (c.cache_mask + 1) ≤ q → q ≤ home_of c k + 32766 →
      q ≤ c.bucket_mask → inb c.table q ∧ (rd c.table q).hash ≠ DT_CACHE_EMPTY_HASH)
    (hF : inb c.table F) (hFe : (rd c.table F).hash = DT_CACHE_EMPTY_HASH)
    (hF1 : home_of c k - 32766 ≤ F) (hF2 : F ≤ home_of c k - (c.cache_mask + 1))
    (hback : ∀ q, F < q → q ≤ home_of c k - (c.cache_mask + 1) →
      inb c.table q ∧ (rd c.table q).hash ≠ DT_CACHE_EMPTY_HASH) :
    ∀ m, c.table.length + 32768 ≤ m → dt_cache_put U m c k v = .ok (DT_CACHE_EMPTY_DATA,
      { c with table := (add_key_to_end_of_list c.table (home_of c k) F k k v
          (last_of none l)) }) := by
  intro m hm
  obtain ⟨n, rfl⟩ : ∃ n, m = n + 1 := ⟨m - 1, by omega⟩
  have hw := @put_walk_of_chain c.table k k (home_of c k) l hp (n + 1) (by omega) none
  have hfind : find_entry k k (l.map (entry c.table)) = none := by
    refine find_entry_eq_none _ ?_
    intro e he
    obtain ⟨p, hpm, rfl⟩ := List.mem_map.1 he
    exact habsent p hpm
  rw [hfind] at hw
  have hfs : dt_cache_put_forward_scan c.table
      (if home_of c k + (SHRT_MAX - 1) > (c.bucket_mask : Int) then (c.bucket_mask : Int)
        else home_of c k + (SHRT_MAX - 1)) (n + 1) (home_of c k + (c.cache_mask + 1))
      = .ok none := by
    refine forward_scan_full _ _ ?_ ?_
    · intro q hq1 hq2
      refine hfull q hq1 ?_ ?_ <;> simp only [SHRT_MAX] at hq2 <;> split at hq2 <;> omega
    · simp only [SHRT_MAX]
      split <;> omega
  have hbs : dt_cache_put_backward_scan c.table
      (if home_of c k - (SHRT_MAX - 1) < 0 then 0 else home_of c k - (SHRT_MAX - 1)) (n + 1)
      (home_of c k - (c.cache_mask + 1)) = .ok (some F) := by
    refine backward_scan_finds hF hFe ?_ _ _ hF2 hback (by omega)
    simp only [SHRT_MAX]
    have := hF.1
    split <;> omega
  unfold dt_cache_put
  simp only [hseg, not_true_eq_false, if_false, dt_cache_lock_of_free hlock, Outcome.bind_ok,
    hH, hw, dt_cache_put_place, halign, ne_eq, not_true_eq_false, if_false, hfs, hbs,
    dt_cache_unlock_locked hseg, set_unlock_self hlock]

end DtCache

namespace DtCache

/-! ## Filling the forward range of home bucket 16386 -/

theorem home_of_small {c : dt_cache_t} (hbm : c.bucket_mask = 65535) {k : Nat}
    (hk : k < 65536) : home_of c k = (k : Int) := by
  have h : (65535 : Nat) = 2 ^ 16 - 1 := by norm_num
  rw [home_of, hbm, h, Nat.and_pow_two_sub_one_eq_mod, Nat.mod_eq_of_lt (by norm_num; exact hk)]

theorem forward_filled_fresh {c : dt_cache_t}
    (ht : c.table = List.replicate 69633 empty_bucket) (hbm : c.bucket_mask = 65535)
    (hcm : c.cache_mask = 16383) (hal : c.is_cacheline_alignment = 0)
    (hsegs : c.segments.length = c.segment_mask + 1)
    (hlocks : ∀ s, (c.segments.getD s default).lock = 0) : forward_filled c 0 := by
  have hrd : ∀ q : Int, 0 ≤ q → q < 69633 → rd c.table q = empty_bucket := by
    intro q h1 h2
    rw [ht]
    exact rd_replicate (inb_replicate.2 ⟨h1, by exact_mod_cast h2⟩)
  refine
    { bm := hbm, cm := hcm, al := hal
      len := by rw [ht, List.length_replicate]
      segs := hsegs
      locks := hlocks
      heads := fun i hi => absurd hi (Nat.not_lt_zero i)
      slots := fun i hi => absurd hi (Nat.not_lt_zero i)
      no_head := ?_
      empty := ?_ }
  · intro q h1 h2 _
    rw [hrd _ h1 h2]
    rfl
  · intro q h1 h2 _
    rw [hrd _ h1 h2]
    exact ⟨rfl, rfl⟩

theorem forward_filled_segments : forward_filled cache_65536_segments 0 := by
  refine forward_filled_fresh rfl rfl rfl rfl ?_ ?_
  · show (List.replicate 65536 _).length = 65535 + 1
    rw [List.length_replicate]
  · intro s
    show ((List.replicate 65536 (_ : dt_cache_segment_t)).getD s default).lock = 0
    rw [List.getD_eq_getElem?_getD, List.getElem?_replicate]
    split <;> rfl

theorem forward_filled_put {U : undefined_t} {c : dt_cache_t} {j : Nat}
    (h : forward_filled c j) (hj : j ≤ 16382) (m : Nat) (hm : 69634 ≤ m) :
    ∃ c', dt_cache_put U m c (16386 + j) 0 = .ok (DT_CACHE_EMPTY_DATA, c') ∧
      forward_filled c' (j + 1) := by
  have hhome : home_of c (16386 + j) = 16386 + (j : Int) := by
    rw [home_of_small h.bm (by omega)]; push_cast; rfl
  have hFeq : home_of c (16386 + j) + (c.cache_mask + 1) = 32770 + (j : Int) := by
    rw [hhome, h.cm]; omega
  have hH : inb c.table (16386 + (j : Int)) := ⟨by omega, by rw [h.len]; omega⟩
  have hF : inb c.table (32770 + (j : Int)) := ⟨by omega, by rw [h.len]; omega⟩
  have hhd : hd c.table (16386 + (j : Int)) = none := by
    rw [hd, h.no_head _ (by omega) (by omega) (Or.inr le_rfl), link_null]
  have hput := @put_forward_first U c (16386 + j) 0 [] h.al (segment_of_lt _ h.segs)
    (h.locks _) (by rw [hhome]; exact hH) (by rw [hhome, hhd]; exact Path.nil _)
    (by simp) (by rw [hFeq]; exact hF)
    (by rw [hFeq]; exact (h.empty _ (by omega) (by omega) (Or.inr le_rfl)).1)
    (by rw [h.cm]; omega)
    (by rw [hFeq, h.bm]; push_cast; omega) m (by rw [h.len]; omega)
  rw [hFeq, hhome, last_of_nil] at hput
  refine ⟨_, hput, ?_⟩
  refine
    { bm := h.bm, cm := h.cm, al := h.al
      len := by simp only [length_add_end]; exact h.len
      segs := h.segs
      locks := h.locks
      heads := ?_
      slots := ?_
      no_head := ?_
      empty := ?_ }
  · intro i hi
    simp only [first_delta_add_end_none hH]
    by_cases hij : i = j
    · subst hij
      rw [if_pos rfl]
      have : 32770 + (i : Int) - (16386 + (i : Int)) = 16384 := by omega
      rw [this]; rfl
    · rw [if_neg (by omega)]
      exact h.heads i (by omega)
  · intro i hi
    simp only [hash_add_end hF, key_add_end hF, next_delta_add_end_none hF]
    by_cases hij : i = j
    · subst hij
      rw [if_pos rfl, if_pos rfl, if_pos rfl]
      exact ⟨rfl, rfl, rfl⟩
    · rw [if_neg (by omega), if_neg (by omega), if_neg (by omega)]
      exact h.slots i (by omega)
  · intro q h1 h2 h3
    simp only [first_delta_add_end_none hH]
    rw [if_neg (by omega)]
    exact h.no_head q h1 h2 (by omega)
  · intro q h1 h2 h3
    simp only [hash_add_end hF, next_delta_add_end_none hF]
    rw [if_neg (by omega), if_neg (by omega)]
    exact h.empty q h1 h2 (by omega)

theorem forward_fill_run (U : undefined_t) {c0 : dt_cache_t} (h0 : forward_filled c0 0) :
    ∀ j, j ≤ 16383 → ∃ c, put_run U c0 (forward_fill_ops j) c ∧ forward_filled c j
  | 0, _ => ⟨_, put_run.nil, h0⟩
  | j + 1, hj => by
    obtain ⟨c, hrun, hc⟩ := forward_fill_run U h0 j (by omega)
    obtain ⟨c', hput, hc'⟩ := forward_filled_put (U := U) hc (by omega) 69634 le_rfl
    refine ⟨c', ?_, hc'⟩
    have hops : forward_fill_ops (j + 1) = forward_fill_ops j ++ [(16386 + j, 0)] := by
      simp [forward_fill_ops, List.range_succ]
    rw [hops]
    exact put_run.snoc hrun hput

end DtCache

namespace DtCache

/-! ## Three puts below a full forward range -/

theorem forward_full_of_filled {c : dt_cache_t} (h : forward_filled c 16383) :
    forward_full c := by
  refine
    { bm := h.bm, cm := h.cm, al := h.al, len := h.len, segs := h.segs, locks := h.locks
      head := by simpa using h.heads 0 (by norm_num)
      first := by simpa using (h.slots 0 (by norm_num)).1
      full := ?_ }
  intro q h1 h2
  obtain ⟨i, hi⟩ : ∃ i : Nat, q = 32770 + (i : Int) := ⟨(q - 32770).toNat, by omega⟩
  subst hi
  rw [(h.slots i (by omega)).1]
  simp only [DT_CACHE_EMPTY_HASH]
  omega

theorem forward_full_add_end {c : dt_cache_t} (h : forward_full c) {F L : Int} {k v : Nat}
    (hF : inb c.table F) (hF2 : F ≤ 2) :
    forward_full
      { c with table := add_key_to_end_of_list c.table 16386 F k k v (some L) } := by
  refine
    { bm := h.bm, cm := h.cm, al := h.al
      len := by simp only [length_add_end]; exact h.len
      segs := h.segs, locks := h.locks
      head := by simp only [first_delta_add_end_some]; exact h.head
      first := by simp only [hash_add_end hF]; rw [if_neg (by omega)]; exact h.first
      full := ?_ }
  intro q h1 h2
  simp only [hash_add_end hF]
  rw [if_neg (by omega)]
  exact h.full q h1 h2

theorem put_below {U : undefined_t} {c : dt_cache_t} {k v : Nat} {l : List Int} {F : Int}
    (h : forward_full c) (hk : home_of c k = 16386)
    (hp : Path c.table (some 32770) l none)
    (habsent : ∀ p ∈ l, (rd c.table p).hash ≠ k)
    (hF0 : 0 ≤ F) (hF2 : F ≤ 2) (hFe : (rd c.table F).hash = DT_CACHE_EMPTY_HASH)
    (hback : ∀ q, F < q → q ≤ 2 → (rd c.table q).hash ≠ DT_CACHE_EMPTY_HASH) :
    dt_cache_put U 102401 c k v = .ok (DT_CACHE_EMPTY_DATA,
      { c with table := add_key_to_end_of_list c.table 16386 F k k v (last_of none l) }) := by
  have hhd : hd c.table 16386 = some 32770 := by
    rw [hd, h.head, link_of_ne _ _ (by decide)]; rfl
  have hput := @put_backward U c k v l F h.al (by rw [h.cm]; decide) (segment_of_lt _ h.segs)
    (h.locks _) (by rw [hk]; exact ⟨by decide, by rw [h.len]; decide⟩)
    (by rw [hk, hhd]; exact hp) (fun p hpm hh => habsent p hpm hh.1.symm)
    (by
      rw [hk, h.cm]
      intro q h1 h2 _
      exact ⟨⟨by omega, by rw [h.len]; omega⟩, h.full q (by omega) (by omega)⟩)
    ⟨hF0, by rw [h.len]; omega⟩ hFe (by rw [hk]; omega) (by rw [hk, h.cm]; omega)
    (by
      rw [hk, h.cm]
      intro q h1 h2
      exact ⟨⟨by omega, by rw [h.len]; omega⟩, hback q h1 (by omega)⟩)
    102401 (by rw [h.len])
  rw [hk] at hput
  exact hput

end DtCache

namespace DtCache

/-! ## The run `overflow_ops` -/

theorem overflow_steps (U : undefined_t) {c00 : dt_cache_t} (h0 : forward_filled c00 0) :
    ∃ c0 c2 c3 c4, put_run U c00 (forward_fill_ops 16383) c0 ∧ forward_filled c0 16383 ∧
      dt_cache_put U 102401 c0 81922 0 = .ok (DT_CACHE_EMPTY_DATA, c2) ∧
      dt_cache_put U 102401 c2 147458 0 = .ok (DT_CACHE_EMPTY_DATA, c3) ∧
      dt_cache_put U 102401 c3 212994 0 = .ok (DT_CACHE_EMPTY_DATA, c4) ∧
      forward_full c2 ∧ holds c2.table 81922 81922 2 ∧
      (rd c2.table 32770).next_delta = -32768 ∧
      holds c3.table 147458 147458 1 ∧ (rd c3.table 32770).next_delta = 32767 ∧
      c4.bucket_mask = 65535 ∧ c4.table.length = 69633 ∧
      (rd c4.table 65537).hash = DT_CACHE_EMPTY_HASH ∧
      (rd c4.table 65537).next_delta = -1 := by
  obtain ⟨c0, hrun, hc0⟩ := forward_fill_run U h0 16383 le_rfl
  have hf0 := forward_full_of_filled hc0
  have hin : ∀ q : Int, 0 ≤ q → q < 69633 → inb c0.table q := fun q h1 h2 =>
    ⟨h1, by rw [hc0.len]; omega⟩
  have hnull : int16_t (2 - 32770) = DT_CACHE_NULL_DELTA := by decide
  have hwrap : int16_t (1 - 32770) = 32767 := by decide
  have hk2 : home_of c0 81922 = 16386 := by rw [home_of, hc0.bm]; rfl
  have hk3 : home_of c0 147458 = 16386 := by rw [home_of, hc0.bm]; rfl
  have hk4 : home_of c0 212994 = 16386 := by rw [home_of, hc0.bm]; rfl
  have he : ∀ k : Nat, k < 4294967295 → k ≠ DT_CACHE_EMPTY_HASH := by
    intro k hk; simp only [DT_CACHE_EMPTY_HASH]; omega
  -- the put of key 81922
  have hp0 : Path c0.table (some 32770) [32770] none := by
    refine Path.cons (hin _ (by decide) (by decide)) ?_
    have : nxt c0.table 32770 = none := by
      have := (hc0.slots 0 (by norm_num)).2.2
      simp only [Nat.cast_zero, add_zero] at this
      rw [nxt, this, link_null]
    rw [this]; exact Path.nil _
  have hput2 := @put_below U c0 81922 0 [32770] 2 hf0 hk2 hp0
    (by
      intro p hp
      obtain rfl : p = 32770 := by simpa using hp
      rw [hf0.first]; decide)
    (by decide) le_rfl (hc0.empty 2 (by decide) (by decide) (Or.inl (by decide))).1
    (fun q h1 h2 => by omega)
  have hF2 := hin 2 (by decide) (by decide)
  have hL := hin 32770 (by decide) (by decide)
  have hf2 := @forward_full_add_end c0 hf0 2 32770 81922 0 hF2 le_rfl
  simp only [last_of, List.foldl] at hput2
  generalize hc2 : ({ c0 with
    table := (add_key_to_end_of_list c0.table 16386 2 81922 81922 0 (some 32770)) } :
      dt_cache_t) = c2
    at hput2 hf2
  have hkey2 : (rd c2.table 2).key = 81922 := by
    rw [← hc2]
    exact (@key_add_end c0.table 16386 2 81922 81922 0 hF2 (some 32770) 2).trans (if_pos rfl)
  have hh2 : ∀ q, (rd c2.table q).hash = if q = 2 then 81922 else (rd c0.table q).hash := by
    intro q; rw [← hc2]; exact @hash_add_end c0.table 16386 2 81922 81922 0 hF2 (some 32770) q
  have hn2 : ∀ q, (rd c2.table q).next_delta =
      if q = 32770 then int16_t (2 - 32770) else if q = 2 then DT_CACHE_NULL_DELTA
      else (rd c0.table q).next_delta := by
    intro q; rw [← hc2]
    exact @next_delta_add_end_some c0.table 16386 2 81922 81922 0 hF2 32770 hL q
  have hin2 : ∀ q : Int, 0 ≤ q → q < 69633 → inb c2.table q := fun q h1 h2 =>
    ⟨h1, by rw [hf2.len]; omega⟩
  -- the put of key 147458
  have hp2 : Path c2.table (some 32770) [32770] none := by
    refine Path.cons (hin2 _ (by decide) (by decide)) ?_
    have : nxt c2.table 32770 = none := by
      rw [nxt, hn2, if_pos rfl, hnull, link_null]
    rw [this]; exact Path.nil _
  have hput3 := @put_below U c2 147458 0 [32770] 1 hf2
    (by rw [← hc2]; exact hk3) hp2
    (by
      intro p hp
      obtain rfl : p = 32770 := by simpa using hp
      rw [hf2.first]; decide)
    (by decide) (by decide)
    (by
      rw [hh2, if_neg (by decide)]
      exact (hc0.empty 1 (by decide) (by decide) (Or.inl (by decide))).1)
    (fun q h1 h2 => by
      obtain rfl : q = 2 := by omega
      rw [hh2, if_pos rfl]; exact he _ (by decide))
  have hF1 := hin2 1 (by decide) (by decide)
  have hL2 := hin2 32770 (by decide) (by decide)
  have hf3 := @forward_full_add_end c2 hf2 1 32770 147458 0 hF1 (by decide)
  simp only [last_of, List.foldl] at hput3
  generalize hc3 : ({ c2 with
    table := (add_key_to_end_of_list c2.table 16386 1 147458 147458 0 (some 32770)) } :
      dt_cache_t) = c3
    at hput3 hf3
  have hkey3 : (rd c3.table 1).key = 147458 := by
    rw [← hc3]
    exact (@key_add_end c2.table 16386 1 147458 147458 0 hF1 (some 32770) 1).trans (if_pos rfl)
  have hh3 : ∀ q, (rd c3.table q).hash = if q = 1 then 147458 else (rd c2.table q).hash := by
    intro q; rw [← hc3]
    exact @hash_add_end c2.table 16386 1 147458 147458 0 hF1 (some 32770) q
  have hn3 : ∀ q, (rd c3.table q).next_delta =
      if q = 32770 then int16_t (1 - 32770) else if q = 1 then DT_CACHE_NULL_DELTA
      else (rd c2.table q).next_delta := by
    intro q; rw [← hc3]
    exact @next_delta_add_end_some c2.table 16386 1 147458 147458 0 hF1 32770 hL2 q
  have hin3 : ∀ q : Int, 0 ≤ q → q < 69633 → inb c3.table q := fun q h1 h2 =>
    ⟨h1, by rw [hf3.len]; omega⟩
  have hover := hc0.empty 65537 (by decide) (by decide) (Or.inr (by decide))
  have ho3 : (rd c3.table 65537).hash = DT_CACHE_EMPTY_HASH := by
    rw [hh3, if_neg (by decide), hh2, if_neg (by decide)]; exact hover.1
  -- the put of key 212994
  have hp3 : Path c3.table (some 32770) [32770, 65537] none := by
    refine Path.cons (hin3 _ (by decide) (by decide)) ?_
    have h1 : nxt c3.table 32770 = some 65537 := by
      rw [nxt, hn3, if_pos rfl, hwrap, link_of_ne _ _ (by decide)]; rfl
    rw [h1]
    refine Path.cons (hin3 _ (by decide) (by decide)) ?_
    have h2 : nxt c3.table 65537 = none := by
      rw [nxt, hn3, if_neg (by decide), if_neg (by decide), hn2, if_neg (by decide),
        if_neg (by decide), hover.2, link_null]
    rw [h2]; exact Path.nil _
  have hput4 := @put_below U c3 212994 0 [32770, 65537] 0 hf3
    (by rw [← hc3, ← hc2]; exact hk4) hp3
    (by
      intro p hp
      simp only [List.mem_cons, List.mem_singleton, List.not_mem_nil, or_false] at hp
      rcases hp with rfl | rfl
      · rw [hf3.first]; decide
      · rw [ho3]; decide)
    le_rfl (by decide)
    (by
      rw [hh3, if_neg (by decide), hh2, if_neg (by decide)]
      exact (hc0.empty 0 le_rfl (by decide) (Or.inl (by decide))).1)
    (fun q h1 h2 => by
      rw [hh3]
      by_cases hq : q = 1
      · rw [if_pos hq]; exact he _ (by decide)
      · obtain rfl : q = 2 := by omega
        rw [if_neg (by decide), hh2, if_pos rfl]; exact he _ (by decide))
  have hF0 := hin3 0 le_rfl (by decide)
  have hL3 := hin3 65537 (by decide) (by decide)
  simp only [last_of, List.foldl] at hput4
  refine ⟨c0, c2, c3, _, hrun, hc0, hput2, hput3, hput4, hf2,
    ⟨by rw [hh2, if_pos rfl], hkey2.symm⟩, by rw [hn2, if_pos rfl]; decide,
    ⟨by rw [hh3, if_pos rfl], hkey3.symm⟩, by rw [hn3, if_pos rfl, hwrap], hf3.bm,
    by simp only [length_add_end]; exact hf3.len, ?_, ?_⟩
  · show (rd (add_key_to_end_of_list c3.table 16386 0 212994 212994 0 (some 65537))
      65537).hash = _
    rw [hash_add_end hF0, if_neg (by decide)]; exact ho3
  · show (rd (add_key_to_end_of_list c3.table 16386 0 212994 212994 0 (some 65537))
      65537).next_delta = _
    rw [next_delta_add_end_some hF0 hL3, if_pos rfl]; decide

theorem overflow_run (U : undefined_t) {c00 : dt_cache_t} (h0 : forward_filled c00 0) :
    ∃ c, put_run U c00 overflow_ops c ∧ c.bucket_mask = 65535 ∧
      c.table.length = 69633 ∧ (rd c.table 65537).hash = DT_CACHE_EMPTY_HASH ∧
      (rd c.table 65537).next_delta = -1 := by
  obtain ⟨c0, c2, c3, c4, hrun, -, h2, h3, h4, -, -, -, -, -, g1, g2, g3, g4⟩ :=
    overflow_steps U h0
  exact ⟨c4, put_run.snoc (put_run.snoc (put_run.snoc hrun h2) h3) h4, g1, g2, g3, g4⟩

theorem dt_cache_init_65536_segments (U : undefined_t) :
    dt_cache_init U 40 cache_zeroed 65536 65536 524288 0 = .ok cache_65536_segments := by
  have h1 : nearest_power_of_two 40 (uint32_t 65536) = .ok 65536 := by decide
  have h2 : nearest_power_of_two 40 (uint32_t 65536 / 65536) = .ok 1 := by decide
  have h3 : calc_div_shift 40 (uint32_t (((1 : Nat) : Int) - 1)) = .ok 0 := by decide
  have h6 : uint32_t (((65536 : Nat) : Int) - 1) = 65535 := by decide
  have h7 : uint32_t (builtin_clz U 65535 - builtin_clz U 65535) = 0 := by
    rw [sub_self]; rfl
  have h8 : int32_t ((((524288 : Int) % 18446744073709551616)
      / (sizeof_dt_cache_bucket_t : Int) - 1) % 18446744073709551616) = 16383 := by decide
  have h9 : (65536 + DT_CACHE_INSERT_RANGE + 1) % 4294967296 = 69633 := by decide
  simp only [dt_cache_init, h1, h2, h3, h6, h7, h8, h9, Outcome.bind_ok]
  rfl

end DtCache

namespace DtCache

/-! ## The links of the home buckets, for every key -/

theorem put_walk_last_home {c : dt_cache_t} (h : home_links c) (hash key : Nat) :
    ∀ (fuel : Nat) (cur : Int) (last : Option Int) (nd : Int) (last' : Option Int),
      (∀ x, link cur nd = some x → 0 ≤ x ∧ x ≤ c.bucket_mask) →
      (∀ L, last = some L → 0 ≤ L ∧ L ≤ c.bucket_mask) →
      dt_cache_put_walk c.table hash key fuel cur last nd = .ok (.absent last') →
      ∀ L, last' = some L → 0 ≤ L ∧ L ≤ c.bucket_mask
  | 0, cur, last, nd, last', _, hlast, hw => by
    simp only [dt_cache_put_walk] at hw
    split at hw
    · cases hw
    · cases hw; exact hlast
  | fuel + 1, cur, last, nd, last', hl, hlast, hw => by
    rw [dt_cache_put_walk] at hw
    by_cases hnd : nd ≠ DT_CACHE_NULL_DELTA
    · rw [if_pos hnd] at hw
      by_cases hin : inb c.table (cur + nd)
      · rw [if_neg (not_not.2 hin)] at hw
        split at hw
        · cases hw
        · have hr := hl _ (link_of_ne cur nd hnd)
          exact put_walk_last_home h hash key fuel _ _ _ last'
            (fun x hx => h.nexts _ x hr.1 hr.2 hx)
            (fun L hL => by cases hL; exact hr) hw
      · rw [if_pos hin] at hw
        cases hw
    · rw [if_neg hnd] at hw
      cases hw; exact hlast

theorem link_int16_range {M a b : Int} (hM : M ≤ 32767) (ha0 : 0 ≤ a) (ha1 : a ≤ M)
    (hb0 : 0 ≤ b) (hb1 : b ≤ M) : link b (int16_t (a - b)) = some a := by
  rw [int16_t_of_range _ (by omega) (by omega)]
  rw [link_of_ne _ _ (by simp only [DT_CACHE_NULL_DELTA, SHRT_MIN]; omega)]
  congr 1; omega

theorem home_links_add_end_none {c c' : dt_cache_t} (h : home_links c) {home F : Int}
    {k v : Nat} (hH0 : 0 ≤ home) (hH1 : home ≤ c.bucket_mask) (hF0 : 0 ≤ F)
    (hF1 : F ≤ c.bucket_mask) (hbm : c'.bucket_mask = c.bucket_mask)
    (ht : c'.table = add_key_to_end_of_list c.table home F k k v none) : home_links c' := by
  have hm := h.mask
  have hs : (c.bucket_mask : Int) ≤ 32767 := by exact_mod_cast h.small
  have hF : inb c.table F := ⟨hF0, by omega⟩
  have hH : inb c.table home := ⟨hH0, by omega⟩
  refine
    { small := by rw [hbm]; exact h.small
      mask := by rw [ht, length_add_end, hbm]; exact h.mask
      heads := ?_, nexts := ?_, over := ?_ }
  · intro i x hi0 hi1 hx
    rw [hbm] at hi1 ⊢
    rw [ht, hd, first_delta_add_end_none hH] at hx
    split at hx
    · rename_i hi; subst hi
      rw [link_int16_range hs hF0 hF1 hH0 hH1] at hx
      cases hx; exact ⟨hF0, hF1⟩
    · exact h.heads i x hi0 hi1 hx
  · intro i x hi0 hi1 hx
    rw [hbm] at hi1 ⊢
    rw [ht, nxt_add_end_none hF] at hx
    split at hx
    · cases hx
    · exact h.nexts i x hi0 hi1 hx
  · intro i hi hgt
    rw [hbm] at hgt
    rw [ht] at hi ⊢
    have hi' : inb c.table i := by simpa [inb] using hi
    rw [hash_add_end hF, key_add_end hF, first_delta_add_end_none hH, next_delta_add_end_none hF,
      if_neg (by omega), if_neg (by omega), if_neg (by omega), if_neg (by omega)]
    exact h.over i hi' hgt

theorem home_links_add_end_some {c c' : dt_cache_t} (h : home_links c) {home F L : Int}
    {k v : Nat} (hF0 : 0 ≤ F) (hF1 : F ≤ c.bucket_mask) (hL0 : 0 ≤ L)
    (hL1 : L ≤ c.bucket_mask) (hbm : c'.bucket_mask = c.bucket_mask)
    (ht : c'.table = add_key_to_end_of_list c.table home F k k v (some L)) :
    home_links c' := by
  have hm := h.mask
  have hs : (c.bucket_mask : Int) ≤ 32767 := by exact_mod_cast h.small
  have hF : inb c.table F := ⟨hF0, by omega⟩
  have hL : inb c.table L := ⟨hL0, by omega⟩
  refine
    { small := by rw [hbm]; exact h.small
      mask := by rw [ht, length_add_end, hbm]; exact h.mask
      heads := ?_, nexts := ?_, over := ?_ }
  · intro i x hi0 hi1 hx
    rw [hbm] at hi1 ⊢
    rw [ht, hd_add_end_some] at hx
    exact h.heads i x hi0 hi1 hx
  · intro i x hi0 hi1 hx
    rw [hbm] at hi1 ⊢
    rw [ht, nxt, next_delta_add_end_some hF hL] at hx
    split at hx
    · rename_i hi; subst hi
      rw [link_int16_range hs hF0 hF1 hL0 hL1] at hx
      cases hx; exact ⟨hF0, hF1⟩
    · split at hx
      · rw [link_null] at hx; cases hx
      · exact h.nexts i x hi0 hi1 hx
  · intro i hi hgt
    rw [hbm] at hgt
    rw [ht] at hi ⊢
    have hi' : inb c.table i := by simpa [inb] using hi
    rw [hash_add_end hF, key_add_end hF, first_delta_add_end_some,
      next_delta_add_end_some hF hL, if_neg (by omega), if_neg (by omega), if_neg (by omega),
      if_neg (by omega)]
    exact h.over i hi' hgt

theorem home_links_add_begin {c c' : dt_cache_t} (h : home_links c) {home F : Int}
    {k v : Nat} (hH0 : 0 ≤ home) (hH1 : home ≤ c.bucket_mask) (hF0 : 0 ≤ F)
    (hF1 : F ≤ c.bucket_mask) (hbm : c'.bucket_mask = c.bucket_mask)
    (ht : c'.table = add_key_to_begining_of_list c.table home F k k v) : home_links c' := by
  have hm := h.mask
  have hs : (c.bucket_mask : Int) ≤ 32767 := by exact_mod_cast h.small
  have hF : inb c.table F := ⟨hF0, by omega⟩
  have hH : inb c.table home := ⟨hH0, by omega⟩
  by_cases h0 : (rd c.table home).first_delta = 0
  · refine
      { small := by rw [hbm]; exact h.small
        mask := by rw [ht, length_add_begin, hbm]; exact h.mask
        heads := ?_, nexts := ?_, over := ?_ }
    · intro i x hi0 hi1 hx
      rw [hbm] at hi1 ⊢
      rw [ht, hd_add_begin_zero h0] at hx
      exact h.heads i x hi0 hi1 hx
    · intro i x hi0 hi1 hx
      rw [hbm] at hi1 ⊢
      rw [ht, nxt, next_delta_add_begin_zero h0 hF hH] at hx
      split at hx
      · rename_i hi; subst hi
        rw [link_int16_range hs hF0 hF1 hH0 hH1] at hx
        cases hx; exact ⟨hF0, hF1⟩
      · split at hx
        · rename_i hi; subst hi
          split at hx
          · rw [link_null] at hx; cases hx
          · rename_i hnn
            obtain ⟨y0, y1⟩ := h.nexts home _ hH0 hH1 (link_of_ne _ _ hnn)
            rw [link_int16_range hs y0 y1 hF0 hF1] at hx
            cases hx; exact ⟨y0, y1⟩
        · exact h.nexts i x hi0 hi1 hx
    · intro i hi hgt
      rw [hbm] at hgt
      rw [ht] at hi ⊢
      have hi' : inb c.table i := by simpa [inb] using hi
      rw [hash_add_begin hF, key_add_begin hF, first_delta_add_begin_zero h0,
        next_delta_add_begin_zero h0 hF hH, if_neg (by omega), if_neg (by omega),
        if_neg (by omega), if_neg (by omega)]
      exact h.over i hi' hgt
  · refine
      { small := by rw [hbm]; exact h.small
        mask := by rw [ht, length_add_begin, hbm]; exact h.mask
        heads := ?_, nexts := ?_, over := ?_ }
    · intro i x hi0 hi1 hx
      rw [hbm] at hi1 ⊢
      rw [ht, hd, first_delta_add_begin_ne h0 hH] at hx
      split at hx
      · rename_i hi; subst hi
        rw [link_int16_range hs hF0 hF1 hH0 hH1] at hx
        cases hx; exact ⟨hF0, hF1⟩
      · exact h.heads i x hi0 hi1 hx
    · intro i x hi0 hi1 hx
      rw [hbm] at hi1 ⊢
      rw [ht, nxt, next_delta_add_begin_ne h0 hF] at hx
      split at hx
      · rename_i hi; subst hi
        split at hx
        · rw [link_null] at hx; cases hx
        · rename_i hnn
          obtain ⟨y0, y1⟩ := h.heads home _ hH0 hH1 (link_of_ne _ _ hnn)
          rw [link_int16_range hs y0 y1 hF0 hF1] at hx
          cases hx; exact ⟨y0, y1⟩
      · exact h.nexts i x hi0 hi1 hx
    · intro i hi hgt
      rw [hbm] at hgt
      rw [ht] at hi ⊢
      have hi' : inb c.table i := by simpa [inb] using hi
      rw [hash_add_begin hF, key_add_begin hF, first_delta_add_begin_ne h0 hH,
        next_delta_add_begin_ne h0 hF, if_neg (by omega), if_neg (by omega),
        if_neg (by omega), if_neg (by omega)]
      exact h.over i hi' hgt

theorem home_links_put {U : undefined_t} {fuel : Nat} {c c' : dt_cache_t} {k v r : Nat}
    {j b : Nat} (h : home_links c)
    (hc : c.cache_mask + 1 = 2 ^ j) (hb : c.bucket_mask + 1 = 2 ^ b)
    (hle : c.cache_mask + 1 ≤ (c.bucket_mask : Int) + 1)
    (hput : dt_cache_put U fuel c k v = .ok (r, c')) : home_links c' := by
  obtain ⟨-, hH, -, t', rfl, hcase⟩ := dt_cache_put_eq_ok hput
  rcases hcase with ⟨d, hw, -, rfl⟩ | ⟨last, hw, -, hp⟩
  · exact ⟨h.small, h.mask, h.heads, h.nexts, h.over⟩
  · have hlast := put_walk_last_home h k k fuel _ none _ last
      (fun x hx => h.heads _ x (home_of_nonneg c k) (home_of_le c k) hx)
      (fun L hL => by cases hL) hw
    have hH0 := home_of_nonneg c k
    have hH1 := home_of_le c k
    have hcm : 0 ≤ c.cache_mask := by
      have : (1 : Int) ≤ 2 ^ j := by exact_mod_cast Nat.one_le_two_pow
      omega
    rcases put_place_eq_ok hp with ⟨-, F, hscan, rfl⟩ | ⟨F, hF, -, hF1, -, -, rfl⟩ |
      ⟨F, hF, -, hF1, -, rfl⟩
    · obtain ⟨g1, g2⟩ := start_cacheline_le (c := c) hH0 hcm
      obtain ⟨g3, g4, g5, -⟩ := cacheline_scan_found (le_trans g1 g2) _ _ _ g1 g2 hscan
      exact home_links_add_begin h hH0 hH1 g5.1 (le_trans g4 (cacheline_end_le k hc hb hle))
        rfl rfl
    · cases last with
      | none => exact home_links_add_end_none h hH0 hH1 hF.1 hF1 rfl rfl
      | some L =>
        obtain ⟨hL0, hL1⟩ := hlast L rfl
        exact @home_links_add_end_some c _ h (home_of c k) F L k v hF.1 hF1 hL0 hL1 rfl rfl
    · have hF1' : F ≤ c.bucket_mask := by omega
      cases last with
      | none => exact home_links_add_end_none h hH0 hH1 hF.1 hF1' rfl rfl
      | some L =>
        obtain ⟨hL0, hL1⟩ := hlast L rfl
        exact @home_links_add_end_some c _ h (home_of c k) F L k v hF.1 hF1' hL0 hL1 rfl rfl

theorem home_links_put_run {U : undefined_t} {c0 c : dt_cache_t} {ops : List (Nat × Nat)}
    {j b : Nat} (hrun : put_run U c0 ops c) (h0 : home_links c0)
    (hc : c0.cache_mask + 1 = 2 ^ j) (hb : c0.bucket_mask + 1 = 2 ^ b)
    (hle : c0.cache_mask + 1 ≤ (c0.bucket_mask : Int) + 1) : home_links c := by
  induction hrun with
  | nil => exact h0
  | snoc hrun' hput ih =>
    obtain ⟨-, -, g3, -, -, g6, -⟩ := put_run_frame hrun'
    exact home_links_put ih (by rw [g6]; exact hc) (by rw [g3]; exact hb)
      (by rw [g3, g6]; exact hle) hput

theorem home_links_fresh {c : dt_cache_t} {n : Nat}
    (ht : c.table = List.replicate n empty_bucket) (hn : c.bucket_mask ≤ 32767)
    (hm : c.bucket_mask < n) : home_links c := by
  have hrd : ∀ p, inb c.table p → rd c.table p = empty_bucket := by
    intro p hp; rw [ht] at hp ⊢; exact rd_replicate hp
  have hin : ∀ i : Int, 0 ≤ i → i ≤ c.bucket_mask → inb c.table i := by
    intro i h1 h2
    refine ⟨h1, ?_⟩
    rw [ht, List.length_replicate]
    omega
  refine
    { small := hn
      mask := by simp [ht, hm]
      heads := ?_, nexts := ?_, over := ?_ }
  · intro i x hi0 hi1 hx
    rw [hd, hrd i (hin i hi0 hi1)] at hx
    cases hx
  · intro i x hi0 hi1 hx
    rw [nxt, hrd i (hin i hi0 hi1)] at hx
    cases hx
  · intro i hi _
    rw [hrd i hi]
    exact ⟨rfl, rfl, rfl, rfl⟩

theorem home_links_init {U : undefined_t} {fuel : Nat} {cache c0 : dt_cache_t}
    {capacity num_threads cache_line_size optimize_cacheline : Int}
    (h : dt_cache_init U fuel cache capacity num_threads cache_line_size optimize_cacheline
      = .ok c0) (hcap : c0.bucket_mask + 1 ≤ 32768) : home_links c0 := by
  obtain ⟨-, ht, -, -⟩ := dt_cache_init_shape h
  exact home_links_fresh (ht (by omega)) (by omega) (by omega)

end DtCache

namespace DtCache

/-! ## The filled forward range is a well-formed state -/

theorem forward_filled.path_of_home {c : dt_cache_t} {j : Nat} (h : forward_filled c j)
    {i : Nat} (hi : i < j) (hj : j ≤ 16383) :
    Path c.table (hd c.table (16386 + (i : Int))) [32770 + (i : Int)] none := by
  have hhd : hd c.table (16386 + (i : Int)) = some (32770 + (i : Int)) := by
    rw [hd, h.heads i hi, link_of_ne _ _ (by decide)]
    congr 1; omega
  rw [hhd]
  refine Path.cons ⟨by omega, by rw [h.len]; omega⟩ ?_
  rw [nxt, (h.slots i hi).2.2, link_null]
  exact Path.nil _

theorem forward_filled.occupied_iff {c : dt_cache_t} {j : Nat} (h : forward_filled c j)
    {q : Int} (hq : inb c.table q) :
    occupied c.table q ↔ ∃ i : Nat, i < j ∧ q = 32770 + (i : Int) := by
  have hq2 : q < 69633 := by have := hq.2; rw [h.len] at this; omega
  constructor
  · intro ho
    by_contra hne
    refine ho (h.empty q hq.1 hq2 ?_).1
    by_contra hcon
    refine hne ⟨(q - 32770).toNat, by omega, by omega⟩
  · rintro ⟨i, hi, rfl⟩
    rw [occupied, (h.slots i hi).1]
    simp only [DT_CACHE_EMPTY_HASH]
    omega

theorem forward_filled.well_linked {c : dt_cache_t} {j : Nat} (h : forward_filled c j)
    (hj : j ≤ 16383) : wf_paths c := by
  have hhome : ∀ i : Nat, i < j → home_of c (rd c.table (32770 + (i : Int))).key
      = 16386 + (i : Int) := by
    intro i hi
    rw [(h.slots i hi).2.1, home_of_small h.bm (by omega)]
    push_cast; rfl
  refine ⟨?_, ?_, ?_⟩
  · intro q hq
    have hq2 : q < 69633 := by have := hq.2; rw [h.len] at this; omega
    by_cases hc : 16386 ≤ q ∧ q < 16386 + (j : Int)
    · obtain ⟨i, hi, rfl⟩ : ∃ i : Nat, i < j ∧ q = 16386 + (i : Int) :=
        ⟨(q - 16386).toNat, by omega, by omega⟩
      refine ⟨_, h.path_of_home hi hj, ?_⟩
      intro p hp
      rw [List.mem_singleton] at hp
      subst hp
      exact ⟨(h.occupied_iff ⟨by omega, by rw [h.len]; omega⟩).2 ⟨i, hi, rfl⟩, hhome i hi⟩
    · refine ⟨[], ?_, by simp⟩
      rw [hd, h.no_head q hq.1 hq2 (by omega), link_null]
      exact Path.nil _
  · intro q hq ho
    obtain ⟨i, hi, rfl⟩ := (h.occupied_iff hq).1 ho
    rw [hhome i hi]
    exact ⟨⟨by omega, by rw [h.len]; omega⟩, _, h.path_of_home hi hj, List.mem_singleton_self _⟩
  · intro p q hp hq hpo hqo hk
    obtain ⟨i, hi, rfl⟩ := (h.occupied_iff hp).1 hpo
    obtain ⟨i', hi', rfl⟩ := (h.occupied_iff hq).1 hqo
    rw [(h.slots i hi).2.1, (h.slots i' hi').2.1] at hk
    omega

/-- In the filled state every chain member lies 16384 buckets above its home bucket. -/
theorem forward_filled.chain_near {c : dt_cache_t} {j : Nat} (h : forward_filled c j)
    (hj : j ≤ 16383) (H : Nat) (hH : H < c.table.length) :
    ∀ p ∈ chain_list c H, p = (H : Int) + 16384 := by
  rw [h.len] at hH
  by_cases hc : 16386 ≤ H ∧ H < 16386 + j
  · obtain ⟨i, hi, rfl⟩ : ∃ i : Nat, i < j ∧ H = 16386 + i := ⟨H - 16386, by omega, by omega⟩
    have hp := h.path_of_home hi hj
    have hcl : chain_list c (16386 + i) = [32770 + (i : Int)] :=
      (@chain_list_of_path c (16386 + i) _ (by push_cast; exact hp)).2
    rw [hcl]
    intro p hp
    rw [List.mem_singleton] at hp
    subst hp
    push_cast; omega
  · have hp : Path c.table (hd c.table (H : Int)) [] none := by
      rw [hd, h.no_head H (by omega) (by omega) (by omega), link_null]
      exact Path.nil _
    rw [(chain_list_of_path hp).2]
    intro p hp
    cases hp

/-- After the put that stored `DT_CACHE_NULL_DELTA` as the offset to bucket 2, the key of that
put is not found. -/
theorem contains_after_no_link {U : undefined_t} {c : dt_cache_t} (hf : forward_full c)
    (hnd : (rd c.table 32770).next_delta = -32768) :
    dt_cache_contains U 102401 c 81922 = .ok 0 := by
  have hk : home_of c 81922 = 16386 := by rw [home_of, hf.bm]; rfl
  have hH : inb c.table (home_of c 81922) := by
    rw [hk]; exact ⟨by decide, by rw [hf.len]; decide⟩
  have hp : Path c.table (hd c.table (home_of c 81922)) [32770] none := by
    have hhd : hd c.table 16386 = some 32770 := by
      rw [hd, hf.head, link_of_ne _ _ (by decide)]; rfl
    rw [hk, hhd]
    refine Path.cons ⟨by decide, by rw [hf.len]; decide⟩ ?_
    have hnx : nxt c.table 32770 = none := by rw [nxt, hnd]; rfl
    rw [hnx]
    exact Path.nil _
  have hw := @put_walk_of_chain c.table 81922 81922 (home_of c 81922) [32770] hp 102401
    (by rw [hf.len]; decide) none
  have hfind : find_entry 81922 81922 ([32770].map (entry c.table)) = none := by
    refine find_entry_eq_none _ ?_
    intro e he
    obtain ⟨p, hpm, rfl⟩ := List.mem_map.1 he
    rw [List.mem_singleton] at hpm
    subst hpm
    simp only [entry, hf.first]
    exact fun hh => absurd hh.1 (by decide)
  rw [hfind] at hw
  exact contains_of_walk_absent (segment_of_lt _ hf.segs) hH (by decide) hw

end DtCache

namespace DtCache

/-! ## Filling the whole array through the cache-line scan -/

theorem cacheline_scan_up {t : List dt_cache_bucket_t} {start s e F : Int}
    (hF : inb t F) (hFe : (rd t F).hash = DT_CACHE_EMPTY_HASH) (hFle : F ≤ e) :
    ∀ (fuel : Nat) (f : Int), start ≤ f → f ≤ F →
      (∀ q, f ≤ q → q < F → inb t q ∧ (rd t q).hash ≠ DT_CACHE_EMPTY_HASH) →
      (F - f).toNat + 1 ≤ fuel →
      dt_cache_put_cacheline_scan t start s e fuel f = .ok (some F)
  | 0, f, _, _, _, hf => by omega
  | fuel + 1, f, hsf, hfF, h, hf => by
    by_cases heq : f = F
    · subst heq
      simp only [dt_cache_put_cacheline_scan, hF, not_true_eq_false, if_false, hFe, if_true]
    · obtain ⟨h1, h2⟩ := h f le_rfl (by omega)
      have h3 : ¬ f + 1 > e := by omega
      have h4 : start ≠ f + 1 := by omega
      simp only [dt_cache_put_cacheline_scan, h1, not_true_eq_false, if_false, h2, h3, h4,
        ne_eq, not_false_eq_true, if_true]
      exact cacheline_scan_up hF hFe hFle fuel (f + 1) (by omega) (by omega)
        (fun q hq1 hq2 => h q (by omega) hq2) (by omega)

/-- A put that takes the first empty bucket of the cache-line scan, which lies at or above
the home bucket: cache-line placement enabled, the key not in its home chain. -/
theorem put_line_up {U : undefined_t} {c : dt_cache_t} {k v : Nat} {l : List Int} {F : Int}
    (halign : c.is_cacheline_alignment ≠ 0)
    (hseg : segment_of U c k < c.segments.length)
    (hlock : (c.segments.getD (segment_of U c k) default).lock = 0)
    (hH : inb c.table (home_of c k))
    (hp : Path c.table (hd c.table (home_of c k)) l none)
    (habsent : ∀ p ∈ l, ¬ holds c.table k k p)
    (hF : inb c.table F) (hFe : (rd c.table F).hash = DT_CACHE_EMPTY_HASH)
    (hF1 : home_of c k ≤ F)
    (hF2 : F ≤ get_start_cacheline_bucket c (home_of c k) + c.cache_mask)
    (hocc : ∀ q, home_of c k ≤ q → q < F →
      inb c.table q ∧ (rd c.table q).hash ≠ DT_CACHE_EMPTY_HASH) :
    ∀ m, c.table.length + 1 ≤ m → dt_cache_put U m c k v = .ok (DT_CACHE_EMPTY_DATA,
      { c with table := add_key_to_begining_of_list c.table (home_of c k) F k k v }) := by
  intro m hm
  obtain ⟨n, rfl⟩ : ∃ n, m = n + 1 := ⟨m - 1, by omega⟩
  have hw := @put_walk_of_chain c.table k k (home_of c k) l hp (n + 1) (by omega) none
  have hfind : find_entry k k (l.map (entry c.table)) = none := by
    refine find_entry_eq_none _ ?_
    intro e he
    obtain ⟨p, hpm, rfl⟩ := List.mem_map.1 he
    exact habsent p hpm
  rw [hfind] at hw
  have hsc := @cacheline_scan_up c.table (home_of c k)
    (get_start_cacheline_bucket c (home_of c k))
    (get_start_cacheline_bucket c (home_of c k) + c.cache_mask) F hF hFe hF2 (n + 1)
    (home_of c k) le_rfl hF1 hocc (by have := hF.2; have := hH.1; omega)
  unfold dt_cache_put
  simp only [hseg, not_true_eq_false, if_false, dt_cache_lock_of_free hlock, Outcome.bind_ok,
    hH, hw, dt_cache_put_place, halign, ne_eq, not_false_eq_true, if_true, hsc,
    dt_cache_unlock_locked hseg, set_unlock_self hlock]

theorem line_filled_fresh : line_filled cache_2_2_line_8192 0 := by
  have ht : cache_2_2_line_8192.table = List.replicate 4099 empty_bucket := rfl
  refine
    { bm := rfl, cm := rfl, al := rfl
      len := by rw [ht, List.length_replicate]
      segs := rfl
      locks := ?_
      inv := reach_inv_fresh ht (by decide) (by decide)
      keys := fun i hi => absurd hi (Nat.not_lt_zero i)
      empty := ?_ }
  · intro s
    have hs : cache_2_2_line_8192.segments = List.replicate 2 { timestamp := 0, lock := 0 } :=
      rfl
    rw [hs]
    rcases s with _ | _ | s <;> rfl
  · intro q h1 h2
    rw [ht, rd_replicate (inb_replicate.2 ⟨by omega, by omega⟩)]
    rfl

theorem line_filled_put {U : undefined_t} {c : dt_cache_t} {n : Nat}
    (h : line_filled c n) (hn : n ≤ 4098) (m : Nat) (hm : 4100 ≤ m) :
    ∃ c', dt_cache_put U m c (2 * n) 0 = .ok (DT_CACHE_EMPTY_DATA, c') ∧
      line_filled c' (n + 1) := by
  have hhome : home_of c (2 * n) = 0 := by
    rw [home_of, h.bm, Nat.and_one_is_mod, Nat.mul_mod_right]; rfl
  have hgs : get_start_cacheline_bucket c 0 + c.cache_mask = 8191 := by
    rw [get_start_cacheline_bucket, h.cm]; rfl
  have hH : inb c.table 0 := ⟨le_rfl, by rw [h.len]; decide⟩
  have hF : inb c.table (n : Int) := ⟨by omega, by rw [h.len]; omega⟩
  have hne : ∀ i : Nat, i < n → (rd c.table (i : Int)).hash ≠ DT_CACHE_EMPTY_HASH := by
    intro i hi
    rw [h.keys i hi]
    simp only [DT_CACHE_EMPTY_HASH]
    omega
  obtain ⟨l, hl, hmem⟩ := h.inv.chains 0 hH
  have hput := @put_line_up U c (2 * n) 0 l n (by rw [h.al]; decide)
    (segment_of_lt _ h.segs) (h.locks _) (by rw [hhome]; exact hH)
    (by rw [hhome]; exact hl)
    (by
      intro p hp hh
      have hpi := Path.inb_of_mem hl p hp
      have hpo := (hmem p hp).1
      have hpn : p < n := by
        by_contra hcon
        exact hpo (h.empty p (by omega) (by have := hpi.2; rw [h.len] at this; omega))
      obtain ⟨i, rfl⟩ := Int.eq_ofNat_of_zero_le hpi.1
      have hk := hh.1
      rw [h.keys i (by omega)] at hk
      omega)
    hF (h.empty n le_rfl (by omega)) (by rw [hhome]; omega) (by rw [hhome, hgs]; omega)
    (by
      rw [hhome]
      intro q h1 h2
      obtain ⟨i, rfl⟩ := Int.eq_ofNat_of_zero_le h1
      exact ⟨⟨h1, by rw [h.len]; omega⟩, hne i (by omega)⟩)
    m (by rw [h.len]; omega)
  rw [hhome] at hput
  refine ⟨_, hput, ?_⟩
  have hops : line_fill_ops (n + 1) = line_fill_ops n ++ [(2 * n, 0)] := by
    simp [line_fill_ops, List.range_succ]
  refine
    { bm := h.bm, cm := h.cm, al := h.al
      len := by simp only [length_add_begin]; exact h.len
      segs := h.segs
      locks := h.locks
      inv := by
        rw [hops]
        exact reach_inv_put h.inv (by simp only [DT_CACHE_EMPTY_KEY]; omega) hput
      keys := ?_
      empty := ?_ }
  · intro i hi
    simp only [hash_add_begin hF]
    by_cases hin : i = n
    · subst hin; rw [if_pos rfl]
    · rw [if_neg (by omega)]
      exact h.keys i (by omega)
  · intro q h1 h2
    simp only [hash_add_begin hF]
    rw [if_neg (by omega)]
    exact h.empty q (by omega) h2

theorem line_fill_run (U : undefined_t) :
    ∀ n, n ≤ 4099 → ∃ c, put_run U cache_2_2_line_8192 (line_fill_ops n) c ∧ line_filled c n
  | 0, _ => ⟨_, put_run.nil, line_filled_fresh⟩
  | n + 1, hn => by
    obtain ⟨c, hrun, hc⟩ := line_fill_run U n (by omega)
    obtain ⟨c', hput, hc'⟩ := line_filled_put (U := U) hc (by omega) 4100 le_rfl
    refine ⟨c', ?_, hc'⟩
    have hops : line_fill_ops (n + 1) = line_fill_ops n ++ [(2 * n, 0)] := by
      simp [line_fill_ops, List.range_succ]
    rw [hops]
    exact put_run.snoc hrun hput

/-- With all 4099 buckets occupied, `dt_cache_size` counts 4097 of them. -/
theorem line_filled_size {c : dt_cache_t} (h : line_filled c 4099) :
    (∀ i, inb c.table i → occupied c.table i) ∧ occupied_count c.table = 4099 ∧
      dt_cache_size c = .ok 4097 := by
  have hocc : ∀ i, inb c.table i → occupied c.table i := by
    intro i hi
    obtain ⟨k, rfl⟩ := Int.eq_ofNat_of_zero_le hi.1
    have hk : k < 4099 := by have := hi.2; rw [h.len] at this; omega
    rw [occupied, h.keys k hk]
    simp only [DT_CACHE_EMPTY_HASH]
    omega
  have hall : ∀ b ∈ c.table, decide (b.hash ≠ DT_CACHE_EMPTY_HASH) = true := by
    intro b hb
    obtain ⟨k, hk, rfl⟩ := List.getElem_of_mem hb
    have := hocc k ⟨by omega, by exact_mod_cast hk⟩
    rw [occupied, rd_eq_getElem hk] at this
    exact decide_eq_true this
  refine ⟨hocc, ?_, ?_⟩
  · rw [occupied_count, List.countP_eq_length.2 hall, h.len]
  · rw [dt_cache_size_eq (by rw [h.bm, h.len]; decide) (by rw [h.bm]; decide), occupied_count,
      List.countP_eq_length.2 (fun b hb => hall b (List.mem_of_mem_take hb)),
      List.length_take, h.bm, h.len]
    rfl

theorem dt_cache_init_2_2_line_8192 (U : undefined_t) :
    dt_cache_init U 40 cache_zeroed 2 2 262144 1 = .ok cache_2_2_line_8192 := by
  have h1 : nearest_power_of_two 40 (uint32_t 2) = .ok 2 := by decide
  have h2 : nearest_power_of_two 40 (uint32_t 2 / 2) = .ok 1 := by decide
  have h3 : calc_div_shift 40 (uint32_t (((1 : Nat) : Int) - 1)) = .ok 0 := by decide
  have h6 : uint32_t (((2 : Nat) : Int) - 1) = 1 := by decide
  have h7 : uint32_t (builtin_clz U 1 - builtin_clz U 1) = 0 := by
    rw [sub_self]; rfl
  have h8 : int32_t ((((262144 : Int) % 18446744073709551616)
      / (sizeof_dt_cache_bucket_t : Int) - 1) % 18446744073709551616) = 8191 := by decide
  have h9 : (2 + DT_CACHE_INSERT_RANGE + 1) % 4294967296 = 4099 := by decide
  simp only [dt_cache_init, h1, h2, h3, h6, h7, h8, h9, Outcome.bind_ok]
  rfl

end DtCache

namespace DtCache

/-! ## A reader beside `dt_cache_remove` -/

end DtCache

namespace DtCache

/-! ## What holds in small tables, and `remove_key` beside a reader -/

/-- Stored offsets are exact in an array of at most 32767 buckets. For every table state of
such a cache, each offset that links two buckets of the array, written by
`add_key_to_end_of_list` and `add_key_to_begining_of_list` (the writers of `dt_cache_put`),
by `remove_key` and by the relocation of `optimize_cacheline_use`, equals the index
difference between the bucket it is stored in and the bucket it leads to, lies in
-32767..32767 and is not `DT_CACHE_NULL_DELTA`. -/
theorem offsets_exact_small_table (c : dt_cache_t) (hlen : c.table.length ≤ 32767) :
    (∀ H F k v, inb c.table H → inb c.table F →
      exact_offset (rd (add_key_to_end_of_list c.table H F k k v none) H).first_delta H F) ∧
    (∀ H F L k v, inb c.table F → inb c.table L →
      exact_offset (rd (add_key_to_end_of_list c.table H F k k v (some L)) L).next_delta L F) ∧
    (∀ H F k v, inb c.table H → inb c.table F → (rd c.table H).first_delta ≠ 0 →
      (∀ x, hd c.table H = some x → inb c.table x) →
      exact_offset (rd (add_key_to_begining_of_list c.table H F k k v) H).first_delta H F ∧
      ∀ x, hd c.table H = some x →
        exact_offset (rd (add_key_to_begining_of_list c.table H F k k v) F).next_delta F x) ∧
    (∀ H F k v, inb c.table H → inb c.table F → (rd c.table H).first_delta = 0 →
      (∀ x, nxt c.table H = some x → inb c.table x) →
      exact_offset (rd (add_key_to_begining_of_list c.table H F k k v) H).next_delta H F ∧
      (F ≠ H → ∀ x, nxt c.table H = some x →
        exact_offset (rd (add_key_to_begining_of_list c.table H F k k v) F).next_delta F x)) ∧
    (∀ g H X N w, g < c.segments.length → inb c.table H → inb c.table X →
      hd c.table H = some X → nxt c.table X = some N → inb c.table N →
      ∃ c1, remove_key c g H X none w = .ok c1 ∧
        exact_offset (rd c1.table H).first_delta H N) ∧
    (∀ g H X P N w, g < c.segments.length → inb c.table H → inb c.table X → inb c.table P →
      P ≠ X → nxt c.table P = some X → nxt c.table X = some N → inb c.table N →
      ∃ c1, remove_key c g H X (some P) w = .ok c1 ∧
        exact_offset (rd c1.table P).next_delta P N) ∧
    (∀ g H E F v, g < c.segments.length → inb c.table H → inb c.table E → inb c.table F →
      E ≠ F → (∀ L, v = some L → inb c.table L ∧ L ≠ F ∧ L ≠ E) →
      (∀ N, nxt c.table E = some N → inb c.table N) →
      ∃ c2, optimize_relocate c g F H E v = .ok c2 ∧
        (∀ N, nxt c.table E = some N → exact_offset (rd c2.table F).next_delta F N) ∧
        (v = none → exact_offset (rd c2.table H).first_delta H F) ∧
        (∀ L, v = some L → exact_offset (rd c2.table L).next_delta L F)) := by
  refine ⟨?_, ?_, ?_, ?_, ?_, ?_, ?_⟩
  · intro H F k v hH hF
    have h := @hd_add_end_none c.table H F k k v hlen hF hH H
    simp only [if_true] at h
    exact exact_of_link hlen hH hF h
  · intro H F L k v hF hL
    have h := @nxt_add_end_some c.table H F k k v hlen hF L hL L
    simp only [if_true] at h
    exact exact_of_link hlen hL hF h
  · intro H F k v hH hF h0 hn
    refine ⟨?_, ?_⟩
    · have h := @hd_add_begin_ne c.table H F k k v hlen h0 hF hH H
      simp only [if_true] at h
      exact exact_of_link hlen hH hF h
    · intro x hx
      have h := @nxt_add_begin_ne c.table H F k k v hlen h0 hF hn F
      simp only [if_true] at h
      rw [hx] at h
      exact exact_of_link hlen hF (hn x hx) h
  · intro H F k v hH hF h0 hn
    refine ⟨?_, ?_⟩
    · have h := @nxt_add_begin_zero c.table H F k k v hlen h0 hF hH hn H
      simp only [if_true] at h
      exact exact_of_link hlen hH hF h
    · intro hFH x hx
      have h := @nxt_add_begin_zero c.table H F k k v hlen h0 hF hH hn F
      simp only [hFH, if_false, if_true] at h
      rw [hx] at h
      exact exact_of_link hlen hF (hn x hx) h
  · intro g H X N w hg hH hX hhd hnx hN
    obtain ⟨c1, hrk, hl1, h1, -⟩ := @remove_key_link c g H X none w hlen hX hH
      (fun P hP => by cases hP) (fun _ => hhd)
      (fun N2 hN2 => by rw [hnx] at hN2; cases hN2; exact hN) hg
    refine ⟨c1, hrk, ?_⟩
    have h := h1 rfl
    rw [hnx] at h
    exact exact_of_link (by rw [hl1]; exact hlen) (inb_of_length_eq hl1 hH)
      (inb_of_length_eq hl1 hN) h
  · intro g H X P N w hg hH hX hP hPX hnP hnx hN
    obtain ⟨c1, hrk, hl1, -, h2⟩ := @remove_key_link c g H X (some P) w hlen hX hH
      (fun Q hQ => by cases hQ; exact ⟨hP, hPX, hnP⟩) (fun h => by cases h)
      (fun N2 hN2 => by rw [hnx] at hN2; cases hN2; exact hN) hg
    refine ⟨c1, hrk, ?_⟩
    have h := h2 P rfl
    rw [hnx] at h
    exact exact_of_link (by rw [hl1]; exact hlen) (inb_of_length_eq hl1 hP)
      (inb_of_length_eq hl1 hN) h
  · intro g H E F v hg hH hE hF hEF hL hN
    obtain ⟨c2, hrel, hl2, -, -, -, -, -, hnx, hhd, -⟩ :=
      @optimize_relocate_spec c g H E F v hlen hF hE hH hEF hL hN hg
    have hlen2 : c2.table.length ≤ 32767 := by rw [hl2]; exact hlen
    refine ⟨c2, hrel, ?_, ?_, ?_⟩
    · intro N hNx
      have h := hnx F
      simp only [hEF.symm, if_false, if_true] at h
      rw [hNx] at h
      exact exact_of_link hlen2 (inb_of_length_eq hl2 hF) (inb_of_length_eq hl2 (hN N hNx)) h
    · intro hv
      have h := hhd H
      simp only [hv, and_self, if_true] at h
      exact exact_of_link hlen2 (inb_of_length_eq hl2 hH) (inb_of_length_eq hl2 hF) h
    · intro L hv
      obtain ⟨hLin, hLF, hLE⟩ := hL L hv
      have h := hnx L
      simp only [hLE, hLF, hv, if_false, if_true] at h
      exact exact_of_link hlen2 (inb_of_length_eq hl2 hLin) (inb_of_length_eq hl2 hF) h

/-- An instance of `offsets_exact_small_table`: in `cache_16_2_put_1_17_33` the chain of home bucket 1 is 1, 0, 3;
`remove_key` on bucket 0 with predecessor 1 writes the next offset 2 into bucket 1, the index
difference to bucket 3. -/
theorem offsets_exact_small_table_example :
    remove_key cache_16_2_put_1_17_33 0 1 0 (some 1) 17 = .ok cache_16_2_removed_17
    ∧ (rd cache_16_2_removed_17.table 1).next_delta = 2
    ∧ exact_offset (rd cache_16_2_removed_17.table 1).next_delta 1 3 := by
  have hrk : remove_key cache_16_2_put_1_17_33 0 1 0 (some 1) 17
      = .ok cache_16_2_removed_17 := by decide!
  obtain ⟨c1, h1, h2⟩ := (offsets_exact_small_table cache_16_2_put_1_17_33 (by decide!)).2.2.2.2.2.1
    0 1 0 1 3 17 (by decide) (by decide!) (by decide!) (by decide!) (by decide) (by decide!)
    (by decide!) (by decide!)
  have e : c1 = cache_16_2_removed_17 := Outcome.ok.inj (h1.symm.trans hrk)
  subst e
  exact ⟨hrk, by decide!, h2⟩

/-- The buckets past `bucket_mask` stay empty in a small cache: on a cache built by `dt_cache_init` with rounded capacity at most 32768
and a power-of-two cache-line group no larger than the capacity, in every state reached from
the fresh cache by returning `dt_cache_put` calls, whatever their keys, every bucket with index
greater than `bucket_mask` is still empty: its hash and key are `0xFFFFFFFF` and its head and
next offsets are `DT_CACHE_NULL_DELTA`. -/
theorem overflow_buckets_stay_empty (U : undefined_t) (fuel0 : Nat) (cache c0 : dt_cache_t)
    (capacity num_threads cache_line_size optimize_cacheline : Int)
    (hinit : dt_cache_init U fuel0 cache capacity num_threads cache_line_size
      optimize_cacheline = .ok c0)
    (hcap : c0.bucket_mask + 1 ≤ 32768)
    (hline : ∃ j : Nat, c0.cache_mask + 1 = 2 ^ j ∧ c0.cache_mask + 1 ≤ c0.bucket_mask + 1)
    (ops : List (Nat × Nat)) (c : dt_cache_t) (hrun : put_run U c0 ops c)
    (i : Int) (hi : inb c.table i) (hgt : (c.bucket_mask : Int) < i) :
    (rd c.table i).hash = DT_CACHE_EMPTY_HASH ∧ (rd c.table i).key = DT_CACHE_EMPTY_KEY ∧
      (rd c.table i).first_delta = DT_CACHE_NULL_DELTA ∧
      (rd c.table i).next_delta = DT_CACHE_NULL_DELTA := by
  obtain ⟨j, hj, hle⟩ := hline
  obtain ⟨b, -, hb⟩ := dt_cache_init_bucket_mask hinit
  exact (home_links_put_run hrun (home_links_init hinit hcap) hj hb hle).over i hi hgt

/-- An instance of `overflow_buckets_stay_empty`: capacity 16, after the puts of the colliding keys 1, 17 and 33
bucket 16, the first one past `bucket_mask = 15`, is as `dt_cache_init` left it. -/
theorem overflow_buckets_stay_empty_example :
    dt_cache_init undefined_x86 40 cache_zeroed 16 2 64 1 = .ok cache_16_2
    ∧ put_run undefined_x86 cache_16_2
        ((([] ++ [(1, 10)]) ++ [(17, 11)]) ++ [(33, 12)]) cache_16_2_put_1_17_33
    ∧ (rd cache_16_2_put_1_17_33.table 16).hash = DT_CACHE_EMPTY_HASH
    ∧ (rd cache_16_2_put_1_17_33.table 16).key = DT_CACHE_EMPTY_KEY
    ∧ (rd cache_16_2_put_1_17_33.table 16).first_delta = DT_CACHE_NULL_DELTA
    ∧ (rd cache_16_2_put_1_17_33.table 16).next_delta = DT_CACHE_NULL_DELTA := by
  have hinit : dt_cache_init undefined_x86 40 cache_zeroed 16 2 64 1 = .ok cache_16_2 := by
    decide!
  have h1 : dt_cache_put undefined_x86 20 cache_16_2 1 10 = .ok (0, cache_16_2_put_1) := by
    decide!
  have h2 : dt_cache_put undefined_x86 20 cache_16_2_put_1 17 11
      = .ok (0, cache_16_2_put_1_17) := by decide!
  have h3 : dt_cache_put undefined_x86 20 cache_16_2_put_1_17 33 12
      = .ok (0, cache_16_2_put_1_17_33) := by decide!
  have hrun := put_run.snoc (put_run.snoc (put_run.snoc put_run.nil h1) h2) h3
  have h := overflow_buckets_stay_empty undefined_x86 40 cache_zeroed cache_16_2 16 2 64 1
    hinit (by decide) ⟨1, by decide⟩ _ _ hrun 16 (by decide!) (by decide!)
  exact ⟨hinit, hrun, h⟩

/-- What `remove_key` would do to a reader if it ran beside one: it is called by
`dt_cache_remove` only, after `while(1);`, so this run is not one the program makes. On the
cache of `dt_cache_init(2, 4, 64, 1)` after the puts of keys 1 and 3 the chain of home bucket
1 is bucket 1 (key 1), then bucket 0 (key 3); key 1 belongs to segment 0 and key 3 to segment
1. A reader of key 3 that has read the hash of bucket 1 when the six writes of `remove_key`
for key 1 are made reads the cleared next offset of bucket 1 next, finds the timestamp of
segment 1 unchanged and returns 0, while key 3 is found on the state before these writes and
on the state after them. -/
theorem reader_misses_key_beside_remove_key :
    dt_cache_init undefined_x86 40 cache_zeroed 2 4 64 1 = .ok cache_2_4
    ∧ put_run undefined_x86 cache_2_4 (([] ++ [(1, 10)]) ++ [(3, 11)]) cache_2_4_put_1_3
    ∧ segment_of undefined_x86 cache_2_4_put_1_3 1 = 0
    ∧ segment_of undefined_x86 cache_2_4_put_1_3 3 = 1
    ∧ remove_key cache_2_4_put_1_3 0 1 1 none 1 = .ok cache_2_4_removed_1
    ∧ remove_key_steps 0 1 1 none 6 0 cache_2_4_put_1_3 = cache_2_4_removed_1
    ∧ dt_cache_contains undefined_x86 4200 cache_2_4_put_1_3 3 = .ok 1
    ∧ dt_cache_contains undefined_x86 4200 cache_2_4_removed_1 3 = .ok 1
    ∧ interleave undefined_x86 3 0 1 1 none
        [.reader, .reader, .reader, .writer, .writer, .writer, .writer, .writer, .writer,
          .reader, .reader]
        (cache_2_4_put_1_3, .at_start, 0) = (cache_2_4_removed_1, .returned 0, 6) := by
  have hinit : dt_cache_init undefined_x86 40 cache_zeroed 2 4 64 1 = .ok cache_2_4 := by
    decide!
  have h1 : dt_cache_put undefined_x86 20 cache_2_4 1 10 = .ok (0, cache_2_4_put_1) := by
    decide!
  have h2 : dt_cache_put undefined_x86 20 cache_2_4_put_1 3 11
      = .ok (0, cache_2_4_put_1_3) := by decide!
  have hrk : remove_key cache_2_4_put_1_3 0 1 1 none 1 = .ok cache_2_4_removed_1 := by
    decide!
  exact ⟨hinit, put_run.snoc (put_run.snoc put_run.nil h1) h2, by decide!, by decide!, hrk,
    remove_key_steps_eq hrk, by decide!, by decide!, by decide!⟩

end DtCache


namespace DtCache

/-! ## Properties of the cache -/

/-- C1: on a cache built by `dt_cache_init` with rounded capacity at most 16384 and a
power-of-two cache-line group no larger than the capacity, in every state reached by
`dt_cache_put` calls, for every 32-bit key `k` and every value `v`: when
`dt_cache_put(k, v)` returns, `dt_cache_contains(k)` returns 1 in the resulting state
(for every fuel above that of the put). -/
theorem C1_put_then_contains (U : undefined_t) (fuel0 : Nat) (cache c0 : dt_cache_t)
    (capacity num_threads cache_line_size optimize_cacheline : Int)
    (hinit : dt_cache_init U fuel0 cache capacity num_threads cache_line_size
      optimize_cacheline = .ok c0)
    (hcap : c0.bucket_mask + 1 ≤ 16384)
    (_hline : ∃ j : Nat, c0.cache_mask + 1 = 2 ^ j ∧ c0.cache_mask + 1 ≤ c0.bucket_mask + 1)
    (ops : List (Nat × Nat)) (c : dt_cache_t) (hrun : put_run U c0 ops c)
    (fuel k v r : Nat) (c' : dt_cache_t) (_hk : k < 4294967296)
    (hput : dt_cache_put U fuel c k v = .ok (r, c')) :
    ∀ m, fuel + 1 ≤ m → dt_cache_contains U m c' k = .ok 1 := by
  have hlen : c.table.length ≤ 32767 := by
    rw [(put_run_frame hrun).1]
    have := (dt_cache_init_shape hinit).1
    simp only [DT_CACHE_INSERT_RANGE] at this
    omega
  exact put_then_contains hlen hput

/-- Witness of C1: after `dt_cache_put(1, 7)` on the cache of `dt_cache_init(2, 2, 64, 1)`, the
colliding `dt_cache_put(3, 9)` returns and `dt_cache_contains(3)` returns 1. -/
theorem C1_put_then_contains_witness :
    dt_cache_init undefined_x86 40 cache_zeroed 2 2 64 1 = .ok (cache_2_2 1)
    ∧ put_run undefined_x86 (cache_2_2 1) ([] ++ [(1, 7)]) cache_2_2_put_1
    ∧ dt_cache_put undefined_x86 10 cache_2_2_put_1 3 9 = .ok (0, cache_2_2_put_1_3)
    ∧ dt_cache_contains undefined_x86 11 cache_2_2_put_1_3 3 = .ok 1 :=
  have hinit : dt_cache_init undefined_x86 40 cache_zeroed 2 2 64 1 = .ok (cache_2_2 1) := by
    decide!
  have hrun : put_run undefined_x86 (cache_2_2 1) ([] ++ [(1, 7)]) cache_2_2_put_1 :=
    put_run.snoc put_run.nil
      (by decide! : dt_cache_put undefined_x86 10 (cache_2_2 1) 1 7 = .ok (0, cache_2_2_put_1))
  have hput : dt_cache_put undefined_x86 10 cache_2_2_put_1 3 9 = .ok (0, cache_2_2_put_1_3) := by
    decide!
  ⟨hinit, hrun, hput,
    C1_put_then_contains undefined_x86 40 cache_zeroed (cache_2_2 1) 2 2 64 1 hinit (by decide)
      ⟨1, by decide⟩ _ _ hrun 10 3 9 0 _ (by decide) hput 11 (by decide)⟩

/-- C2: first writer wins. On a cache as in C1, in every state reached by `dt_cache_put`
calls, for every key `k` absent from the cache (`dt_cache_contains(k)` returns 0) and values
`v1`, `v2`, `v3`: when `dt_cache_put(k, v1)` returns the empty value, the following
`dt_cache_put(k, v2)` returns `v1` and leaves the cache as it was, and so does a third put
`dt_cache_put(k, v3)`. -/
theorem C2_first_writer_wins (U : undefined_t) (fuel0 : Nat) (cache c0 : dt_cache_t)
    (capacity num_threads cache_line_size optimize_cacheline : Int)
    (hinit : dt_cache_init U fuel0 cache capacity num_threads cache_line_size
      optimize_cacheline = .ok c0)
    (hcap : c0.bucket_mask + 1 ≤ 16384)
    (_hline : ∃ j : Nat, c0.cache_mask + 1 = 2 ^ j ∧ c0.cache_mask + 1 ≤ c0.bucket_mask + 1)
    (ops : List (Nat × Nat)) (c : dt_cache_t) (hrun : put_run U c0 ops c)
    (f0 fuel k v1 v2 v3 : Nat) (c1 : dt_cache_t)
    (habsent : dt_cache_contains U f0 c k = .ok 0)
    (hput : dt_cache_put U fuel c k v1 = .ok (DT_CACHE_EMPTY_DATA, c1)) :
    ∀ m, fuel + 1 ≤ m →
      dt_cache_put U m c1 k v2 = .ok (v1, c1) ∧ dt_cache_put U m c1 k v3 = .ok (v1, c1) := by
  have hlen : c.table.length ≤ 32767 := by
    rw [(put_run_frame hrun).1]
    have := (dt_cache_init_shape hinit).1
    simp only [DT_CACHE_INSERT_RANGE] at this
    omega
  intro m hm
  have h := (put_twice hlen habsent hput).2 m hm
  exact ⟨h v2, h v3⟩

/-- Witness of C2: on the cache of `dt_cache_init(2, 2, 64, 1)` after `dt_cache_put(1, 7)`, key 3
is absent, `dt_cache_put(3, 9)` returns the empty value, and the puts of 3 with 10 and with
11 that follow return 9 and change nothing. -/
theorem C2_first_writer_wins_witness :
    dt_cache_init undefined_x86 40 cache_zeroed 2 2 64 1 = .ok (cache_2_2 1)
    ∧ put_run undefined_x86 (cache_2_2 1) ([] ++ [(1, 7)]) cache_2_2_put_1
    ∧ dt_cache_contains undefined_x86 10 cache_2_2_put_1 3 = .ok 0
    ∧ dt_cache_put undefined_x86 10 cache_2_2_put_1 3 9
        = .ok (DT_CACHE_EMPTY_DATA, cache_2_2_put_1_3)
    ∧ dt_cache_put undefined_x86 11 cache_2_2_put_1_3 3 10 = .ok (9, cache_2_2_put_1_3)
    ∧ dt_cache_put undefined_x86 11 cache_2_2_put_1_3 3 11 = .ok (9, cache_2_2_put_1_3) :=
  have hinit : dt_cache_init undefined_x86 40 cache_zeroed 2 2 64 1 = .ok (cache_2_2 1) := by
    decide!
  have hrun : put_run undefined_x86 (cache_2_2 1) ([] ++ [(1, 7)]) cache_2_2_put_1 :=
    put_run.snoc put_run.nil
      (by decide! : dt_cache_put undefined_x86 10 (cache_2_2 1) 1 7 = .ok (0, cache_2_2_put_1))
  have habsent : dt_cache_contains undefined_x86 10 cache_2_2_put_1 3 = .ok 0 := by decide!
  have hput : dt_cache_put undefined_x86 10 cache_2_2_put_1 3 9
      = .ok (DT_CACHE_EMPTY_DATA, cache_2_2_put_1_3) := by decide!
  have h := C2_first_writer_wins undefined_x86 40 cache_zeroed (cache_2_2 1) 2 2 64 1 hinit
    (by decide) ⟨1, by decide⟩ _ _ hrun 10 10 3 9 10 11 _ habsent hput 11 (by decide)
  ⟨hinit, hrun, habsent, hput, h.1, h.2⟩

/-- C3 (defect of the code): on the cache of `dt_cache_init(2, 2, 64, 1)`, after
`dt_cache_put(1, 7)` has returned the empty value, `dt_cache_remove(1)` does not return 7:
whatever the fuel it is still inside its `while(1);` loop. -/
theorem C3_remove_never_returns :
    dt_cache_put undefined_x86 10 (cache_2_2 1) 1 7 = .ok (DT_CACHE_EMPTY_DATA, cache_2_2_put_1)
    ∧ ∀ fuel, dt_cache_remove undefined_x86 fuel cache_2_2_put_1 1 = .timeout :=
  ⟨by decide!, fun fuel => dt_cache_remove_timeout (by decide!) (by decide!) fuel⟩

/-- C7, as amended: for every cache, table state and key `k` with home bucket `home`, when
`dt_cache_put(k, v)` takes the fatal exit, every bucket it scanned is occupied: the buckets of
the cache line of `home` when cache-line placement is enabled (and `cache_mask ≥ 0`), the
buckets from `home + cache_mask + 1` up to `min(bucket_mask, home + 32766)`, and the buckets
from `home - cache_mask - 1` down to `max(0, home - 32766)`. -/
theorem C7_fatal_only_if_scanned_full (U : undefined_t) (fuel : Nat) (c : dt_cache_t)
    (k v : Nat) (hfatal : dt_cache_put U fuel c k v = .fatal) :
    (c.is_cacheline_alignment ≠ 0 → 0 ≤ c.cache_mask →
      ∀ i, get_start_cacheline_bucket c (home_of c k) ≤ i →
        i ≤ get_start_cacheline_bucket c (home_of c k) + c.cache_mask → occupied c.table i) ∧
    (∀ i : Int, home_of c k + (c.cache_mask + 1) ≤ i →
      i ≤ min (c.bucket_mask : Int) (home_of c k + 32766) → occupied c.table i) ∧
    (∀ i : Int, max 0 (home_of c k - 32766) ≤ i →
      i ≤ home_of c k - (c.cache_mask + 1) → occupied c.table i) := by
  obtain ⟨last, -, hplace⟩ := dt_cache_put_eq_fatal hfatal
  obtain ⟨h1, h2, h3⟩ := put_place_eq_fatal hplace
  have hhome : (0 : Int) ≤ home_of c k := by simp [home_of]
  refine ⟨fun ha hc => h1 ha hhome hc, ?_, ?_⟩
  · intro i hi1 hi2
    exact h2 i hi1 (le_trans hi2 (min_le_right _ _)) (le_trans hi2 (min_le_left _ _))
  · intro i hi1 hi2
    exact h3 i (le_trans (le_max_right _ _) hi1) (le_trans (le_max_left _ _) hi1) hi2

/-- Witness of C7 as amended: the fatal `dt_cache_put(5, 11)` on the cache of
`dt_cache_init(2, 2, 64, 1)` holding keys 1 and 3. -/
theorem C7_fatal_only_if_scanned_full_witness :
    dt_cache_put undefined_x86 10 cache_2_2_put_1_3 5 11 = .fatal
    ∧ occupied cache_2_2_put_1_3.table 0 ∧ occupied cache_2_2_put_1_3.table 1 :=
  have hfatal : dt_cache_put undefined_x86 10 cache_2_2_put_1_3 5 11 = .fatal := by decide!
  have h := (C7_fatal_only_if_scanned_full undefined_x86 10 cache_2_2_put_1_3 5 11 hfatal).1
    (by decide) (by decide)
  ⟨hfatal, h 0 (by decide!) (by decide!), h 1 (by decide!) (by decide!)⟩

/-- Counterexample to C7 as stated: on the fresh cache of `dt_cache_init(2, 2, 64, 0)`
(cache-line placement disabled) key 0 is absent and `dt_cache_put(0, 7)` takes the fatal exit,
although the home bucket 0, inside the stated range, is empty. -/
theorem C7_counterexample :
    dt_cache_init undefined_x86 40 cache_zeroed 2 2 64 0 = .ok (cache_2_2 0)
    ∧ dt_cache_contains undefined_x86 10 (cache_2_2 0) 0 = .ok 0
    ∧ dt_cache_put undefined_x86 10 (cache_2_2 0) 0 7 = .fatal
    ∧ ¬ (∀ i : Int, max 0 (home_of (cache_2_2 0) 0 - 32766) ≤ i →
          i ≤ min ((cache_2_2 0).bucket_mask : Int) (home_of (cache_2_2 0) 0 + 32766) →
          occupied (cache_2_2 0).table i) :=
  ⟨by decide!, by decide!, by decide!,
    fun h => absurd (h 0 (by decide) (by decide)) (by decide!)⟩

/-- C9 (defect of the code): `dt_cache_size` scans `bucket_mask + 4096` buckets, two fewer
than the `bucket_mask + 1 + 4096 + 1` that `dt_cache_init` allocates.
`dt_cache_init(2, 2, 262144, 1)` builds a cache of 4099 buckets whose cache-line group of
8192 buckets covers the whole array; the 4099 puts of the even keys 0, 2, ..., 8196 all
return and store key `2 * i` in bucket `i`. Every bucket of the array is then occupied, 4099
in all, one for each key, and `dt_cache_size` returns 4097. -/
theorem C9_size_misses_last_buckets :
    dt_cache_init undefined_x86 40 cache_zeroed 2 2 262144 1 = .ok cache_2_2_line_8192
    ∧ (line_fill_ops 4099).length = 4099
    ∧ ∃ c, put_run undefined_x86 cache_2_2_line_8192 (line_fill_ops 4099) c
        ∧ c.table.length = c.bucket_mask + 1 + DT_CACHE_INSERT_RANGE + 1
        ∧ (∀ i, inb c.table i → occupied c.table i)
        ∧ occupied_count c.table = 4099
        ∧ distinct_keys (line_fill_ops 4099) = 4099
        ∧ dt_cache_size c = .ok 4097 := by
  refine ⟨dt_cache_init_2_2_line_8192 _, by simp [line_fill_ops], ?_⟩
  obtain ⟨c, hrun, hc⟩ := line_fill_run undefined_x86 4099 le_rfl
  obtain ⟨h1, h2, h3⟩ := line_filled_size hc
  exact ⟨c, hrun, by rw [hc.len, hc.bm]; rfl, h1, h2, by rw [← hc.inv.count, h2], h3⟩

/-- C10 (defect of the code): on the cache built by `dt_cache_init(2, 4, 64, 1)` the keys 0
and 2 have the same home bucket, yet `(k >> segment_shift) & segment_mask` is segment 0 for
key 0 and segment 1 for key 2. -/
theorem C10_same_home_different_segment :
    dt_cache_init undefined_x86 40 cache_zeroed 2 4 64 1 = .ok cache_2_4
    ∧ home_of cache_2_4 0 = home_of cache_2_4 2
    ∧ segment_of undefined_x86 cache_2_4 0 = 0
    ∧ segment_of undefined_x86 cache_2_4 2 = 1 := by decide!

/-- C4: `dt_cache_put` never loses another key. On a cache built by `dt_cache_init` with
rounded capacity at most 16384 and a power-of-two cache-line group no larger than the
capacity, after every sequence `ops` of returning `dt_cache_put` calls on the fresh cache with
keys other than the reserved `0xFFFFFFFF`, every key `j` that was put is found by
`dt_cache_contains`, and `dt_cache_put(j, w)` returns the value given in the first put of `j`
and leaves the cache as it is. -/
theorem C4_put_keeps_other_keys (U : undefined_t) (fuel0 : Nat) (cache c0 : dt_cache_t)
    (capacity num_threads cache_line_size optimize_cacheline : Int)
    (hinit : dt_cache_init U fuel0 cache capacity num_threads cache_line_size
      optimize_cacheline = .ok c0)
    (hcap : c0.bucket_mask + 1 ≤ 16384)
    (_hline : ∃ j : Nat, c0.cache_mask + 1 = 2 ^ j ∧ c0.cache_mask + 1 ≤ c0.bucket_mask + 1)
    (ops : List (Nat × Nat)) (c : dt_cache_t) (hrun : put_run U c0 ops c)
    (hkeys : ∀ kv ∈ ops, kv.1 ≠ DT_CACHE_EMPTY_KEY)
    (j v w : Nat) (hj : (j, v) ∈ ops) :
    ∃ d, first_put ops j = some d ∧ ∀ m, c.table.length + 1 ≤ m →
      dt_cache_contains U m c j = .ok 1 ∧ dt_cache_put U m c j w = .ok (d, c) := by
  have hinv := reach_inv_put_run hrun (reach_inv_init hinit hcap) hkeys
  obtain ⟨d, hd, hwalk⟩ := walk_of_put_key hinv hj
  obtain ⟨hseg, hlock⟩ := segments_ready hinit hrun j
  refine ⟨d, hd, fun m hm => ⟨?_, ?_⟩⟩
  · exact contains_of_walk_found hseg (hinv.home_inb j) (by omega) (hwalk m hm none)
  · exact put_of_walk_found hseg (hinv.home_inb j) hlock (by omega) (hwalk m hm none)

/-- Witness of C4: capacity 16, puts of the colliding keys 1, 17, 33 with values 10, 11, 12;
key 17 is then found and `dt_cache_put(17, 99)` returns 11 and changes nothing. -/
theorem C4_put_keeps_other_keys_witness :
    dt_cache_init undefined_x86 40 cache_zeroed 16 2 64 1 = .ok cache_16_2
    ∧ put_run undefined_x86 cache_16_2 ((([] ++ [(1, 10)]) ++ [(17, 11)]) ++ [(33, 12)])
        cache_16_2_put_1_17_33
    ∧ dt_cache_contains undefined_x86 4114 cache_16_2_put_1_17_33 17 = .ok 1
    ∧ dt_cache_put undefined_x86 4114 cache_16_2_put_1_17_33 17 99
        = .ok (11, cache_16_2_put_1_17_33) := by
  have hinit : dt_cache_init undefined_x86 40 cache_zeroed 16 2 64 1 = .ok cache_16_2 := by
    decide!
  have h1 : dt_cache_put undefined_x86 20 cache_16_2 1 10 = .ok (0, cache_16_2_put_1) := by
    decide!
  have h2 : dt_cache_put undefined_x86 20 cache_16_2_put_1 17 11
      = .ok (0, cache_16_2_put_1_17) := by decide!
  have h3 : dt_cache_put undefined_x86 20 cache_16_2_put_1_17 33 12
      = .ok (0, cache_16_2_put_1_17_33) := by decide!
  have hrun := put_run.snoc (put_run.snoc (put_run.snoc put_run.nil h1) h2) h3
  obtain ⟨d, hd, h⟩ := C4_put_keeps_other_keys undefined_x86 40 cache_zeroed cache_16_2 16 2 64 1
    hinit (by decide) ⟨1, by decide⟩ _ _ hrun (by decide) 17 11 99 (by decide)
  have hd' : d = 11 := by
    have : first_put ((([] ++ [(1, 10)]) ++ [(17, 11)]) ++ [(33, 12)]) 17 = some 11 := by decide
    rw [this] at hd
    exact (Option.some.inj hd).symm
  subst hd'
  exact ⟨hinit, hrun, h 4114 (by decide!)⟩

/-- C5, as amended: absence is stable. On a cache built by `dt_cache_init` with rounded
capacity at most 16384, after every sequence `ops` of returning `dt_cache_put` calls on the
fresh cache, none of them with key `k` and none with the reserved key `0xFFFFFFFF`,
`dt_cache_contains(k)` returns 0 (for every fuel above the number of buckets); in particular
it returns 0 for every key on the fresh cache. -/
theorem C5_absent_key_not_found (U : undefined_t) (fuel0 : Nat) (cache c0 : dt_cache_t)
    (capacity num_threads cache_line_size optimize_cacheline : Int)
    (hinit : dt_cache_init U fuel0 cache capacity num_threads cache_line_size
      optimize_cacheline = .ok c0)
    (hcap : c0.bucket_mask + 1 ≤ 16384)
    (ops : List (Nat × Nat)) (c : dt_cache_t) (hrun : put_run U c0 ops c)
    (hkeys : ∀ kv ∈ ops, kv.1 ≠ DT_CACHE_EMPTY_KEY)
    (k : Nat) (hk : ∀ kv ∈ ops, kv.1 ≠ k) :
    ∀ m, c.table.length + 1 ≤ m → dt_cache_contains U m c k = .ok 0 := by
  have hinv := reach_inv_put_run hrun (reach_inv_init hinit hcap) hkeys
  obtain ⟨last, hwalk⟩ := walk_of_other_key hinv hk
  obtain ⟨hseg, -⟩ := segments_ready hinit hrun k
  intro m hm
  exact contains_of_walk_absent hseg (hinv.home_inb k) (by omega) (hwalk m (by omega))

/-- Witness of C5 as amended: capacity 16, after the puts of keys 1, 17, 33 the key 49, which
has the same home bucket, is not found. -/
theorem C5_absent_key_not_found_witness :
    dt_cache_init undefined_x86 40 cache_zeroed 16 2 64 1 = .ok cache_16_2
    ∧ put_run undefined_x86 cache_16_2 ((([] ++ [(1, 10)]) ++ [(17, 11)]) ++ [(33, 12)])
        cache_16_2_put_1_17_33
    ∧ dt_cache_contains undefined_x86 4114 cache_16_2_put_1_17_33 49 = .ok 0 := by
  have hinit : dt_cache_init undefined_x86 40 cache_zeroed 16 2 64 1 = .ok cache_16_2 := by
    decide!
  have h1 : dt_cache_put undefined_x86 20 cache_16_2 1 10 = .ok (0, cache_16_2_put_1) := by
    decide!
  have h2 : dt_cache_put undefined_x86 20 cache_16_2_put_1 17 11
      = .ok (0, cache_16_2_put_1_17) := by decide!
  have h3 : dt_cache_put undefined_x86 20 cache_16_2_put_1_17 33 12
      = .ok (0, cache_16_2_put_1_17_33) := by decide!
  have hrun := put_run.snoc (put_run.snoc (put_run.snoc put_run.nil h1) h2) h3
  exact ⟨hinit, hrun,
    C5_absent_key_not_found undefined_x86 40 cache_zeroed cache_16_2 16 2 64 1 hinit (by decide)
      _ _ hrun (by decide) 49 (by decide) 4114 (by decide!)⟩

/-- Counterexample to C5 as stated: on the fresh cache of `dt_cache_init(2, 2, 64, 1)` the
puts of the keys `0xFFFFFFFF` and 1 both return, key 3 was never put, and
`dt_cache_contains(3)` does not return: bucket 1 has become its own successor, and the walk
is still running whatever the fuel. -/
theorem C5_counterexample :
    dt_cache_init undefined_x86 40 cache_zeroed 2 2 64 1 = .ok (cache_2_2 1)
    ∧ put_run undefined_x86 (cache_2_2 1) (([] ++ [(4294967295, 1)]) ++ [(1, 2)])
        cache_2_2_put_reserved_1
    ∧ ∀ fuel, dt_cache_contains undefined_x86 fuel cache_2_2_put_reserved_1 3 = .timeout :=
  ⟨by decide!,
    put_run.snoc
      (put_run.snoc put_run.nil
        (by decide! : dt_cache_put undefined_x86 10 (cache_2_2 1) 4294967295 1
          = .ok (0, cache_2_2_put_reserved)))
      (by decide! : dt_cache_put undefined_x86 10 cache_2_2_put_reserved 1 2
          = .ok (0, cache_2_2_put_reserved_1)),
    contains_self_loop (by decide!) (by decide!) (by decide!) (by decide!) (by decide!)⟩

/-- C8: on a cache built by `dt_cache_init` with rounded capacity at most 16384 and a
power-of-two cache-line group no larger than the capacity, after every sequence `ops` of
returning `dt_cache_put` calls on the fresh cache with keys other than `0xFFFFFFFF`,
`dt_cache_size` returns the number of distinct keys that were put (0 on the fresh cache). -/
theorem C8_size_counts_distinct_keys (U : undefined_t) (fuel0 : Nat) (cache c0 : dt_cache_t)
    (capacity num_threads cache_line_size optimize_cacheline : Int)
    (hinit : dt_cache_init U fuel0 cache capacity num_threads cache_line_size
      optimize_cacheline = .ok c0)
    (hcap : c0.bucket_mask + 1 ≤ 16384)
    (hline : ∃ j : Nat, c0.cache_mask + 1 = 2 ^ j ∧ c0.cache_mask + 1 ≤ c0.bucket_mask + 1)
    (ops : List (Nat × Nat)) (c : dt_cache_t) (hrun : put_run U c0 ops c)
    (hkeys : ∀ kv ∈ ops, kv.1 ≠ DT_CACHE_EMPTY_KEY) :
    dt_cache_size c = .ok (distinct_keys ops) := by
  have h0 := reach_inv_init hinit hcap
  have hinv := reach_inv_put_run hrun h0 hkeys
  obtain ⟨j, hj, hle⟩ := hline
  obtain ⟨b, -, hb⟩ := dt_cache_init_bucket_mask hinit
  obtain ⟨-, ht, -, -⟩ := dt_cache_init_shape hinit
  have ht := ht (by omega)
  have hfresh : ∀ i, inb c0.table i → occupied c0.table i → i ≤ c0.bucket_mask := by
    intro i hi ho
    rw [ht] at hi ho
    have hrd := rd_replicate hi
    simp only [occupied, hrd] at ho
    exact absurd rfl ho
  have hrange := put_run_in_home_range hrun h0 hkeys hj hb hle hfresh
  obtain ⟨g1, -, g3, -⟩ := put_run_frame hrun
  have hlen : c.table.length = c.bucket_mask + 1 + DT_CACHE_INSERT_RANGE + 1 := by
    rw [g1, g3, ht]; simp
  rw [dt_cache_size_eq (by omega) (by rw [g3]; simp only [DT_CACHE_INSERT_RANGE]; omega),
    occupied_count_take, hinv.count]
  intro i hi1 hi2 ho
  have := hrange i ⟨by omega, by exact_mod_cast hi2⟩ ho
  simp only [DT_CACHE_INSERT_RANGE] at hi1
  omega

/-- Witness of C8: capacity 16, after the puts of keys 1, 17, 33 and a second put of key 1,
`dt_cache_size` returns 3. -/
theorem C8_size_counts_distinct_keys_witness :
    dt_cache_init undefined_x86 40 cache_zeroed 16 2 64 1 = .ok cache_16_2
    ∧ put_run undefined_x86 cache_16_2
        (((([] ++ [(1, 10)]) ++ [(17, 11)]) ++ [(33, 12)]) ++ [(1, 99)]) cache_16_2_put_1_17_33
    ∧ dt_cache_size cache_16_2_put_1_17_33 = .ok 3 := by
  have hinit : dt_cache_init undefined_x86 40 cache_zeroed 16 2 64 1 = .ok cache_16_2 := by
    decide!
  have h1 : dt_cache_put undefined_x86 20 cache_16_2 1 10 = .ok (0, cache_16_2_put_1) := by
    decide!
  have h2 : dt_cache_put undefined_x86 20 cache_16_2_put_1 17 11
      = .ok (0, cache_16_2_put_1_17) := by decide!
  have h3 : dt_cache_put undefined_x86 20 cache_16_2_put_1_17 33 12
      = .ok (0, cache_16_2_put_1_17_33) := by decide!
  have h4 : dt_cache_put undefined_x86 20 cache_16_2_put_1_17_33 1 99
      = .ok (10, cache_16_2_put_1_17_33) := by decide!
  have hrun := put_run.snoc (put_run.snoc (put_run.snoc (put_run.snoc put_run.nil h1) h2) h3) h4
  have h := C8_size_counts_distinct_keys undefined_x86 40 cache_zeroed cache_16_2 16 2 64 1
    hinit (by decide) ⟨1, by decide⟩ _ _ hrun (by decide)
  exact ⟨hinit, hrun, h⟩

/-- C6, as amended: defragmentation preserves membership when the cache line of the freed
bucket lies inside the array. For every well-formed table state of a cache whose array has at
most 32767 buckets and holds every home bucket, with one segment per segment index, and every
key `k` found in bucket `X` of its home chain, where the cache line of `X` (the buckets
`get_start_cacheline_bucket(X)` to that plus `cache_mask`) lies inside the array:
`remove_key` on `X` returns, `optimize_cacheline_use` on the freed bucket `X` then returns
(for every fuel above the group size plus the number of buckets plus one), the table is well formed again, `dt_cache_contains(k)`
returns 0, and every other key `j` that a bucket of its home chain held with data `d` is
found by `dt_cache_contains` and a bucket of its home chain holds it with data `d`. -/
theorem C6_defragmentation_preserves_membership (U : undefined_t) (c : dt_cache_t) (k : Nat)
    (X : Int) (l1 l2 : List Int)
    (hwf : well_formed c) (hlen : c.table.length ≤ 32767)
    (hmask : c.bucket_mask < c.table.length)
    (hsegs : c.segments.length = c.segment_mask + 1)
    (hchain : chain_list c (k &&& c.bucket_mask) = l1 ++ X :: l2)
    (hX : holds c.table k k X)
    (hline : line_in_table c X) :
    ∃ c1 c2,
      remove_key c (segment_of U c k) (home_of c k) X (last_of none l1) k = .ok c1 ∧
      (∀ fuel, c.cache_mask.toNat + c.table.length + 2 ≤ fuel →
        optimize_cacheline_use fuel c1 (segment_of U c k) X = .ok c2) ∧
      well_formed c2 ∧
      (∀ m, c2.table.length + 1 ≤ m → dt_cache_contains U m c2 k = .ok 0) ∧
      ∀ j d, j ≠ k →
        (∃ p ∈ chain_list c (j &&& c.bucket_mask),
          holds c.table j j p ∧ (rd c.table p).data = d) →
        (∀ m, c2.table.length + 1 ≤ m → dt_cache_contains U m c2 j = .ok 1) ∧
        ∃ p ∈ chain_list c2 (j &&& c2.bucket_mask),
          holds c2.table j j p ∧ (rd c2.table p).data = d := by
  have hwfp := wf_paths_of_well_formed hwf
  have hhome : ∀ j : Nat, j &&& c.bucket_mask < c.table.length := fun j =>
    lt_of_le_of_lt Nat.and_le_right hmask
  have hpath : ∀ j : Nat, Path c.table (hd c.table (home_of c j))
      (chain_list c (j &&& c.bucket_mask)) none := fun j =>
    path_of_chain_ends (hwf.1 _ (hhome j)).1
  have hp := hpath k
  rw [hchain] at hp
  have hkey : (rd c.table X).key = k := hX.2.symm
  obtain ⟨c1, c2, hrk, -, -, hopt, hwf2, hlen2, hbm, hsl, hsm, hss, hch⟩ :=
    remove_step_spec k hwfp hlen (inb_natCast.2 (hhome k)) hp (segment_of_lt (U := U) k hsegs)
      hline
  rw [hkey] at hch
  have hseg2 : ∀ j, segment_of U c2 j < c2.segments.length := fun j => by
    rw [segment_of_congr hsm hss, hsl]
    exact segment_of_lt j hsegs
  have hin2 : ∀ j, inb c2.table (home_of c2 j) := fun j => by
    rw [home_of_congr hbm]
    exact inb_of_length_eq hlen2 (inb_natCast.2 (hhome j))
  refine ⟨c1, c2, hrk, hopt, well_formed_of_wf_paths hwf2, ?_, ?_⟩
  · intro m hm
    obtain ⟨l', hl', -, hnone⟩ := hch (home_of c k) (inb_natCast.2 (hhome k)) _ hp
    rw [← home_of_congr hbm] at hl'
    have hw := @put_walk_of_chain _ k k _ _ hl' m (by omega : c2.table.length ≤ m) none
    rw [hnone] at hw
    exact contains_of_walk_absent (hseg2 k) (hin2 k) (by omega) hw
  · intro j d hjk ⟨p, hpm, hph, hpd⟩
    have hmem := hwfp.members (inb_natCast.2 (hhome j)) (hpath j)
    have hfind : find_entry j j ((chain_list c (j &&& c.bucket_mask)).map (entry c.table))
        = some d := by
      rw [← hpd]
      refine find_entry_of_mem _ hpm hph ?_
      intro q hq hqh
      exact hwfp.unique q p (Path.inb_of_mem (hpath j) q hq) (Path.inb_of_mem (hpath j) p hpm)
        (hmem q hq).1 (hmem p hpm).1 (hqh.2.symm.trans hph.2)
    obtain ⟨l', hl', hsame, -⟩ := hch (home_of c j) (inb_natCast.2 (hhome j)) _ (hpath j)
    rw [← home_of_congr hbm] at hl'
    have hfind' := (hsame j hjk).trans hfind
    refine ⟨?_, ?_⟩
    · intro m hm
      have hw := @put_walk_of_chain _ j j _ _ hl' m (by omega : c2.table.length ≤ m) none
      rw [hfind'] at hw
      exact contains_of_walk_found (hseg2 j) (hin2 j) (by omega) hw
    · obtain ⟨p', hp'm, hp'h, hp'd⟩ := mem_of_find_entry l' hfind'
      have hcl : chain_list c2 (j &&& c2.bucket_mask) = l' := (chain_list_of_path hl').2
      exact ⟨p', by rw [hcl]; exact hp'm, hp'h, hp'd⟩

/-- Witness of C6: capacity 16 with cache lines of two buckets, after the puts of the
colliding keys 1, 17, 33 the chain of home bucket 1 is 1, 0, 3 and key 17 is in bucket 0.
Removing it and defragmenting on bucket 0 moves key 33 from bucket 3 into bucket 0; key 17 is
gone and key 33 is found with its data 12. -/
theorem C6_defragmentation_preserves_membership_witness :
    well_formed cache_16_2_put_1_17_33
    ∧ chain_list cache_16_2_put_1_17_33 (17 &&& cache_16_2_put_1_17_33.bucket_mask)
        = [1] ++ 0 :: [3]
    ∧ remove_key cache_16_2_put_1_17_33 (segment_of undefined_x86 cache_16_2_put_1_17_33 17)
        (home_of cache_16_2_put_1_17_33 17) 0 (last_of none [1]) 17 = .ok cache_16_2_removed_17
    ∧ optimize_cacheline_use 4200 cache_16_2_removed_17
        (segment_of undefined_x86 cache_16_2_put_1_17_33 17) 0
        = .ok cache_16_2_removed_17_optimized
    ∧ well_formed cache_16_2_removed_17_optimized
    ∧ dt_cache_contains undefined_x86 4114 cache_16_2_removed_17_optimized 17 = .ok 0
    ∧ dt_cache_contains undefined_x86 4114 cache_16_2_removed_17_optimized 33 = .ok 1
    ∧ ∃ p ∈ chain_list cache_16_2_removed_17_optimized
          (33 &&& cache_16_2_removed_17_optimized.bucket_mask),
        holds cache_16_2_removed_17_optimized.table 33 33 p
        ∧ (rd cache_16_2_removed_17_optimized.table p).data = 12 := by
  have hinit : dt_cache_init undefined_x86 40 cache_zeroed 16 2 64 1 = .ok cache_16_2 := by
    decide!
  have h1 : dt_cache_put undefined_x86 20 cache_16_2 1 10 = .ok (0, cache_16_2_put_1) := by
    decide!
  have h2 : dt_cache_put undefined_x86 20 cache_16_2_put_1 17 11
      = .ok (0, cache_16_2_put_1_17) := by decide!
  have h3 : dt_cache_put undefined_x86 20 cache_16_2_put_1_17 33 12
      = .ok (0, cache_16_2_put_1_17_33) := by decide!
  have hrun := put_run.snoc (put_run.snoc (put_run.snoc put_run.nil h1) h2) h3
  have hwf : well_formed cache_16_2_put_1_17_33 :=
    well_formed_of_wf_paths
      (reach_inv_put_run hrun (reach_inv_init hinit (by decide)) (by decide)).wf
  have hchain : chain_list cache_16_2_put_1_17_33 (17 &&& cache_16_2_put_1_17_33.bucket_mask)
      = [1] ++ 0 :: [3] := by decide!
  have hrk : remove_key cache_16_2_put_1_17_33
      (segment_of undefined_x86 cache_16_2_put_1_17_33 17)
      (home_of cache_16_2_put_1_17_33 17) 0 (last_of none [1]) 17
      = .ok cache_16_2_removed_17 := by decide!
  have hopt : optimize_cacheline_use 4200 cache_16_2_removed_17
      (segment_of undefined_x86 cache_16_2_put_1_17_33 17) 0
      = .ok cache_16_2_removed_17_optimized := by decide!
  obtain ⟨c1, c2, g1, g2, g3, g4, g5⟩ :=
    C6_defragmentation_preserves_membership undefined_x86 cache_16_2_put_1_17_33 17 0 [1] [3]
      hwf (by decide!) (by decide!) (by decide) hchain (by decide!) (by decide!)
  have e1 : c1 = cache_16_2_removed_17 := Outcome.ok.inj (g1.symm.trans hrk)
  subst e1
  have e2 : c2 = cache_16_2_removed_17_optimized :=
    Outcome.ok.inj ((g2 4200 (by decide!)).symm.trans hopt)
  subst e2
  obtain ⟨g6, g7⟩ := g5 33 12 (by decide) ⟨3, by decide!, by decide!, by decide!⟩
  exact ⟨hwf, hchain, hrk, hopt, g3, g4 4114 (by decide!), g6 4114 (by decide!), g7⟩

/-- Counterexample to C6 as stated: `cache_2_2_far_entry` is a well-formed state of the cache
of `dt_cache_init(2, 2, 64, 1)` (4099 buckets, cache lines of two buckets) in which key 0 is
found in bucket 4098, the last of the array. `remove_key` on that bucket returns, and
`optimize_cacheline_use` on the freed bucket then reads bucket 4099, outside the array: it
yields no state, whatever the fuel. -/
theorem C6_counterexample :
    well_formed cache_2_2_far_entry
    ∧ cache_2_2_far_entry.table.length ≤ 32767
    ∧ chain_list cache_2_2_far_entry (0 &&& cache_2_2_far_entry.bucket_mask)
        = [] ++ 4098 :: []
    ∧ holds cache_2_2_far_entry.table 0 0 4098
    ∧ remove_key cache_2_2_far_entry (segment_of undefined_x86 cache_2_2_far_entry 0)
        (home_of cache_2_2_far_entry 0) 4098 (last_of none []) 0
        = .ok cache_2_2_far_entry_removed
    ∧ ¬ line_in_table cache_2_2_far_entry 4098
    ∧ (∀ fuel, 2 ≤ fuel → optimize_cacheline_use fuel cache_2_2_far_entry_removed
        (segment_of undefined_x86 cache_2_2_far_entry 0) 4098 = .ub)
    ∧ ∀ fuel c2, optimize_cacheline_use fuel cache_2_2_far_entry_removed
        (segment_of undefined_x86 cache_2_2_far_entry 0) 4098 ≠ .ok c2 := by
  have hwf := wf_paths_far_entry
  have hp : inb cache_2_2_far_entry.table 4098 :=
    (inb_far_entry 4098).2 (inb_replicate.2 (by decide))
  have hpath : Path cache_2_2_far_entry.table (hd cache_2_2_far_entry.table ((0 : Nat) : Int))
      [4098] none := by
    have h0 : hd cache_2_2_far_entry.table ((0 : Nat) : Int) = some 4098 := by decide!
    have h1 : nxt cache_2_2_far_entry.table 4098 = none := by decide!
    rw [h0]
    refine Path.cons hp ?_
    rw [h1]
    exact Path.nil _
  have hopt := optimize_reads_past_table (c := cache_2_2_far_entry_removed)
    (g := segment_of undefined_x86 cache_2_2_far_entry 0) (F := 4098)
    (by decide!) (by decide!) (by decide!) (by decide) (by decide!)
  exact ⟨well_formed_of_wf_paths hwf, by decide!, (chain_list_of_path hpath).2, by decide!,
    by decide!, by decide!, hopt.1, hopt.2⟩

end DtCache


namespace DtCache

/-- C11, as amended: for every capacity and thread count between 1 and `2^30`,
`dt_cache_init` returns (for every fuel of at least 31) a cache in which `bucket_mask + 1` is
the least power of two not below the capacity, `segment_mask + 1` is the least power of two
not below the thread count, the array has `bucket_mask + 1 + 4096 + 1` buckets, each with hash
and key `0xFFFFFFFF`, data null and both offsets `DT_CACHE_NULL_DELTA`, and the
`segment_mask + 1` segments have timestamp 0 and lock 0. -/
theorem C11_init_builds_empty_cache (U : undefined_t) (fuel : Nat) (cache : dt_cache_t)
    (capacity num_threads cache_line_size optimize_cacheline : Int)
    (hcap : 1 ≤ capacity) (hcap' : capacity ≤ 1073741824)
    (hnt : 1 ≤ num_threads) (hnt' : num_threads ≤ 1073741824) (hfuel : 31 ≤ fuel) :
    ∃ c0 b s, dt_cache_init U fuel cache capacity num_threads cache_line_size
        optimize_cacheline = .ok c0 ∧
      c0.bucket_mask + 1 = 2 ^ b ∧ capacity ≤ 2 ^ b ∧ (∀ i : Nat, capacity ≤ 2 ^ i → b ≤ i) ∧
      c0.segment_mask + 1 = 2 ^ s ∧ num_threads ≤ 2 ^ s ∧
      (∀ i : Nat, num_threads ≤ 2 ^ i → s ≤ i) ∧
      c0.table.length = c0.bucket_mask + 1 + 4096 + 1 ∧
      (∀ p, inb c0.table p → rd c0.table p = empty_bucket) ∧
      empty_bucket.hash = 4294967295 ∧ empty_bucket.key = 4294967295 ∧
      empty_bucket.data = 0 ∧ empty_bucket.first_delta = DT_CACHE_NULL_DELTA ∧
      empty_bucket.next_delta = DT_CACHE_NULL_DELTA ∧
      c0.segments = List.replicate (c0.segment_mask + 1) { timestamp := 0, lock := 0 } := by
  obtain ⟨c0, b, s, hinit, -, h1, h2, h3, -, h4, h5, h6, ht, hs⟩ :=
    @dt_cache_init_eq U fuel cache capacity num_threads cache_line_size optimize_cacheline
      hcap hcap' hnt hnt' hfuel
  refine ⟨c0, b, s, hinit, h1, h2, h3, h4, h5, h6, ?_, ?_, rfl, rfl, rfl, rfl, rfl, hs⟩
  · rw [ht, List.length_replicate]; rfl
  · intro p hp
    rw [ht] at hp ⊢
    exact rd_replicate hp

/-- Witness of C11: `dt_cache_init(16, 2, 64, 1)` builds the cache `cache_16_2`, with
`bucket_mask` 15, `segment_mask` 1, 4113 empty buckets and two segments. -/
theorem C11_init_builds_empty_cache_witness :
    dt_cache_init undefined_x86 40 cache_zeroed 16 2 64 1 = .ok cache_16_2
    ∧ cache_16_2.bucket_mask + 1 = 2 ^ 4 ∧ cache_16_2.segment_mask + 1 = 2 ^ 1
    ∧ cache_16_2.table.length = 4113
    ∧ cache_16_2.segments = List.replicate 2 { timestamp := 0, lock := 0 } := by
  have hinit : dt_cache_init undefined_x86 40 cache_zeroed 16 2 64 1 = .ok cache_16_2 := by
    decide!
  obtain ⟨c0, b, s, h0, h1, -, -, h4, -, -, h7, -, -, -, -, -, -, h9⟩ :=
    C11_init_builds_empty_cache undefined_x86 40 cache_zeroed 16 2 64 1 (by decide) (by decide)
      (by decide) (by decide) (by decide)
  have e : c0 = cache_16_2 := Outcome.ok.inj (h0.symm.trans hinit)
  subst e
  exact ⟨hinit, by decide, by decide, h7, h9⟩

/-- Counterexample to C11 as stated: for the capacity `2^30 + 1` the array has
`2^31 + 4097` buckets, the counter `int k` of the initialisation loop would have to pass
`INT_MAX`, and `dt_cache_init` yields no cache, whatever the fuel. -/
theorem C11_counterexample :
    (1 : Int) ≤ 1073741825 ∧ (1073741825 : Int) ≤ 2147483647
    ∧ dt_cache_init undefined_x86 40 cache_zeroed 1073741825 1 64 1 = .ub
    ∧ ∀ fuel c0, dt_cache_init undefined_x86 fuel cache_zeroed 1073741825 1 64 1 ≠ .ok c0 := by
  refine ⟨by decide, by decide, by decide!, ?_⟩
  intro fuel c0 h
  unfold dt_cache_init at h
  obtain ⟨adj_nt, -, h⟩ := Outcome.bind_eq_ok h
  obtain ⟨p, -, h⟩ := Outcome.bind_eq_ok h
  obtain ⟨sh, -, h⟩ := Outcome.bind_eq_ok h
  obtain ⟨adj, hadj, h⟩ := Outcome.bind_eq_ok h
  obtain ⟨i, hi, rfl⟩ := nearest_power_of_two_loop_pow _ 1 _ (Or.inl ⟨0, by omega, rfl⟩) hadj
  have hge := nearest_power_of_two_loop_ge _ _ _ hadj
  have hu : uint32_t 1073741825 = 1073741825 := by decide
  rw [hu] at hge
  have hi31 : i = 31 := by
    by_contra hne
    have : 2 ^ i ≤ 2 ^ 30 := Nat.pow_le_pow_right (by norm_num) (by omega)
    have h30 : (2 : Nat) ^ 30 = 1073741824 := by norm_num
    omega
  subst hi31
  simp only at h
  split at h
  · cases h
  · rename_i hng
    have : 2147483647 < (2 ^ 31 + DT_CACHE_INSERT_RANGE + 1) % 4294967296 := by decide
    simp only [this, if_true] at h
    cases h

/-- C12: `dt_cache_put` leaves the segment array as it was. For every cache state in which
the home segment of the key is unlocked, a `dt_cache_put(k, v)` that returns, whether it found
the key or placed it, returns a cache whose segment array equals the one before the call: no
timestamp has changed and the lock word of the home segment is 0 again. -/
theorem C12_put_keeps_segments (U : undefined_t) (fuel : Nat) (c c' : dt_cache_t)
    (k v r : Nat)
    (_hlock : (c.segments.getD (segment_of U c k) default).lock = 0)
    (hput : dt_cache_put U fuel c k v = .ok (r, c')) :
    c'.segments = c.segments ∧
    (∀ s, (c'.segments.getD s default).timestamp = (c.segments.getD s default).timestamp) ∧
    (c'.segments.getD (segment_of U c k) default).lock = 0 := by
  obtain ⟨-, -, h0, t', rfl, -⟩ := dt_cache_put_eq_ok hput
  have hs : c.segments.set (segment_of U c k)
      { c.segments.getD (segment_of U c k) default with lock := 0 } = c.segments :=
    set_unlock_self h0
  refine ⟨hs, fun s => ?_, ?_⟩
  · show ((c.segments.set _ _).getD s default).timestamp = _
    rw [hs]
  · show ((c.segments.set _ _).getD _ default).lock = 0
    rw [hs]; exact h0

/-- Witness of C12: on the cache of `dt_cache_init(16, 2, 64, 1)` holding key 1, the put of
the new key 17 and the put of the present key 1 both return and leave the two segments with
timestamp 0 and lock 0. -/
theorem C12_put_keeps_segments_witness :
    dt_cache_put undefined_x86 20 cache_16_2_put_1 17 11 = .ok (0, cache_16_2_put_1_17)
    ∧ cache_16_2_put_1_17.segments = cache_16_2_put_1.segments
    ∧ dt_cache_put undefined_x86 20 cache_16_2_put_1 1 99 = .ok (10, cache_16_2_put_1)
    ∧ cache_16_2_put_1.segments
        = [{ timestamp := 0, lock := 0 }, { timestamp := 0, lock := 0 }] := by
  have h1 : dt_cache_put undefined_x86 20 cache_16_2_put_1 17 11
      = .ok (0, cache_16_2_put_1_17) := by decide!
  have h2 : dt_cache_put undefined_x86 20 cache_16_2_put_1 1 99
      = .ok (10, cache_16_2_put_1) := by decide!
  exact ⟨h1, (C12_put_keeps_segments undefined_x86 20 cache_16_2_put_1 cache_16_2_put_1_17
    17 11 0 (by decide!) h1).1, h2, by decide⟩

/-- C16, as amended: splice correctness of `remove_key`. For every table state of a cache
whose array has at most 32767 buckets, in which the chain of home bucket `H` stays in the
array, ends at `DT_CACHE_NULL_DELTA` and is `l1 ++ X :: l2`, `remove_key(segment, H, X, P)`
with `P` the last bucket of `l1` (`NULL` when `l1` is empty) returns a state in which the
chain of `H` is `l1 ++ l2`; `X` has hash and key `0xFFFFFFFF`, data null and next offset
`DT_CACHE_NULL_DELTA`; the timestamp of the segment is one more modulo `2^32`, its lock and
the other segments are as before; and every other field of every bucket is as before, apart
from the one offset that is rewritten: the head offset of `H` when `X` is the first entry (it
is the head offset of `X` itself when `X` is `H`), the next offset of `P` otherwise. -/
theorem C16_remove_key_splices (c : dt_cache_t) (g H : Nat) (X : Int) (l1 l2 : List Int)
    (w : Nat) (hlen : c.table.length ≤ 32767) (hH : H < c.table.length)
    (hends : chain_ends c H) (hchain : chain_list c H = l1 ++ X :: l2)
    (hs : g < c.segments.length) :
    ∃ c1, remove_key c g H X (last_of none l1) w = .ok c1 ∧
      chain_ends c1 H ∧ chain_list c1 H = l1 ++ l2 ∧
      (rd c1.table X).hash = DT_CACHE_EMPTY_HASH ∧ (rd c1.table X).key = DT_CACHE_EMPTY_KEY ∧
      (rd c1.table X).data = DT_CACHE_EMPTY_DATA ∧
      (rd c1.table X).next_delta = DT_CACHE_NULL_DELTA ∧
      (c1.segments.getD g default).timestamp
        = ((c.segments.getD g default).timestamp + 1) % 4294967296 ∧
      (c1.segments.getD g default).lock = (c.segments.getD g default).lock ∧
      (∀ s, s ≠ g → c1.segments.getD s default = c.segments.getD s default) ∧
      c1.table.length = c.table.length ∧
      (∀ q, q ≠ X → (rd c1.table q).hash = (rd c.table q).hash ∧
        (rd c1.table q).key = (rd c.table q).key ∧
        (rd c1.table q).data = (rd c.table q).data) ∧
      (∀ q, (rd c1.table q).read = (rd c.table q).read ∧
        (rd c1.table q).write = (rd c.table q).write ∧
        (rd c1.table q).lru = (rd c.table q).lru ∧ (rd c1.table q).mru = (rd c.table q).mru) ∧
      (∀ q, (q ≠ (H : Int) ∨ l1 ≠ []) →
        (rd c1.table q).first_delta = (rd c.table q).first_delta) ∧
      (∀ q, q ≠ X → some q ≠ last_of none l1 →
        (rd c1.table q).next_delta = (rd c.table q).next_delta) := by
  have hHin : inb c.table (H : Int) := inb_natCast.2 hH
  have hp : Path c.table (hd c.table (H : Int)) (l1 ++ X :: l2) none := by
    rw [← hchain]; exact path_of_chain_ends hends
  have hXin : inb c.table X := Path.inb_of_mem hp X (by simp)
  have hnd := Path.nodup _ _ hp
  have hXl1 : X ∉ l1 := fun hm =>
    (List.nodup_append.1 hnd).2.2 hm (List.mem_cons_self _ _)
  have hlast : ∀ P, last_of none l1 = some P → P ∈ l1 := by
    intro P hP
    rcases List.eq_nil_or_concat l1 with rfl | ⟨l0, P', rfl⟩
    · simp [last_of_nil] at hP
    · rw [List.concat_eq_append, last_of_append_singleton] at hP
      cases hP; simp
  have hnone : last_of none l1 ≠ none ↔ l1 ≠ [] := by
    rcases List.eq_nil_or_concat l1 with rfl | ⟨l0, P', rfl⟩
    · simp [last_of_nil]
    · rw [List.concat_eq_append, last_of_append_singleton]; simp
  obtain ⟨c1, hrk, hlen1, e1, e2, e3, e4, f1, f2, f3, f4⟩ :=
    @remove_key_fields c g (H : Int) X (last_of none l1) w hXin hHin
      (fun P hP => ⟨Path.inb_of_mem hp P (by simp [hlast P hP]),
        fun e => hXl1 (e ▸ hlast P hP)⟩) hs
  obtain ⟨c1', hrk', hr, -⟩ := @removed_of_remove_key c g (H : Int) X l1 l2 w hlen hHin hp hs
  have e : c1' = c1 := Outcome.ok.inj (hrk'.symm.trans hrk)
  subst e
  obtain ⟨-, hseg, -⟩ := remove_key_frame hrk
  obtain ⟨hce, hcl⟩ := chain_list_of_path hr.chain
  refine ⟨c1', hrk, hce, hcl, e1, e2, e3, e4, ?_, ?_, ?_, hlen1, f1, f2, ?_, f4⟩
  · rw [hseg, getD_set_self hs]
  · rw [hseg, getD_set_self hs]
  · intro s hsg
    rw [hseg]
    simp only [List.getD_eq_getElem?_getD]
    rw [List.getElem?_set_ne (fun e => hsg e.symm)]
  · intro q hq
    refine f3 q ?_
    rcases hq with h | h
    · exact Or.inl h
    · exact Or.inr (hnone.2 h)

/-- Witness of C16: in `cache_16_2_put_1_17_33` the chain of home bucket 1 is 1, 0, 3;
`remove_key` on bucket 0 with predecessor 1 leaves the chain 1, 3, bucket 0 empty and the
timestamp of segment 0 at 1. -/
theorem C16_remove_key_splices_witness :
    chain_list cache_16_2_put_1_17_33 1 = [1] ++ 0 :: [3]
    ∧ remove_key cache_16_2_put_1_17_33 0 1 0 (last_of none [1]) 17
        = .ok cache_16_2_removed_17
    ∧ chain_list cache_16_2_removed_17 1 = [1] ++ [3]
    ∧ rd cache_16_2_removed_17.table 0 = empty_bucket
    ∧ (cache_16_2_removed_17.segments.getD 0 default).timestamp = 1 := by
  have hchain : chain_list cache_16_2_put_1_17_33 1 = [1] ++ 0 :: [3] := by decide!
  have hrk : remove_key cache_16_2_put_1_17_33 0 1 0 (last_of none [1]) 17
      = .ok cache_16_2_removed_17 := by decide!
  obtain ⟨c1, h1, -, h3, -⟩ := C16_remove_key_splices cache_16_2_put_1_17_33 0 1 0 [1] [3] 17
    (by decide!) (by decide!) (by decide!) hchain (by decide)
  have e : c1 = cache_16_2_removed_17 := Outcome.ok.inj (h1.symm.trans hrk)
  subst e
  exact ⟨hchain, hrk, h3, by decide!, by decide⟩

/-- Counterexample to C16 as stated: in `cache_16_2_put_1_17` the chain of home bucket 1 is
1, 0, so the bucket `X = 1` of key 1 is the home bucket itself and the first entry.
`remove_key` on it rewrites the head offset of bucket 1, the head offset of `X` itself, from
0 to -1. -/
theorem C16_counterexample :
    cache_16_2_put_1_17.table.length ≤ 32767
    ∧ chain_ends cache_16_2_put_1_17 1
    ∧ chain_list cache_16_2_put_1_17 1 = [] ++ 1 :: [0]
    ∧ remove_key cache_16_2_put_1_17 0 1 1 (last_of none []) 1
        = .ok cache_16_2_put_1_17_removed_1
    ∧ (rd cache_16_2_put_1_17.table 1).first_delta = 0
    ∧ (rd cache_16_2_put_1_17_removed_1.table 1).first_delta = -1 := by
  refine ⟨by decide!, by decide!, by decide!, by decide!, by decide!, by decide!⟩

/-- C17, as amended: defragmentation moves at most one entry, the first chain member off the
line of its home bucket. For every well-formed table state of a cache whose array has at most
32767 buckets and every empty bucket `F` whose cache-line group lies inside the array,
`optimize_cacheline_use(cache, segment, F)` returns (for every fuel above the group size plus
the number of buckets plus one), and either the cache is as it was, or the entry of exactly
one bucket `E` has moved to `F`: `E` is on the chain of a home bucket `H` of the group of `F`,
`E` lies below `H` or more than `cache_mask` above `H`, every chain member before `E` lies
between `H` and `H + cache_mask`, `E` is empty afterwards, and every bucket other than `E`
and `F` holds the entry it held. -/
theorem C17_relocates_one_entry (c : dt_cache_t) (g : Nat) (F : Int)
    (hwf : well_formed c) (hlen : c.table.length ≤ 32767) (hF : inb c.table F)
    (hFe : ¬ occupied c.table F) (hg : g < c.segments.length) (hline : line_in_table c F) :
    ∃ c2, (∀ fuel, c.cache_mask.toNat + c.table.length + 2 ≤ fuel →
        optimize_cacheline_use fuel c g F = .ok c2) ∧
      (c2 = c ∨ ∃ H E l1 l2,
        get_start_cacheline_bucket c F ≤ H ∧
        H ≤ get_start_cacheline_bucket c F + max 0 c.cache_mask ∧
        chain_list c H.toNat = l1 ++ E :: l2 ∧
        (∀ p ∈ l1, H ≤ p ∧ p ≤ H + c.cache_mask) ∧
        (E < H ∨ E > H + c.cache_mask) ∧ E ≠ F ∧
        entry c2.table F = entry c.table E ∧ ¬ occupied c2.table E ∧
        ∀ q, q ≠ E → q ≠ F → entry c2.table q = entry c.table q) := by
  have hwfp := wf_paths_of_well_formed hwf
  obtain ⟨c2, hopt, hc2⟩ := @optimize_cacheline_use_spec c g F hlen hF hg
    (fun h hh => by
      obtain ⟨l, hl, hm⟩ := hwfp.chains h hh
      exact ⟨l, hl, fun hX => hFe (hm F hX).1⟩) hline
  refine ⟨c2, hc2, ?_⟩
  cases hopt with
  | same e => exact Or.inl e
  | moved H E l1 l2 a1 a2 a3 a4 a5 a6 a7 a8 a9 a10 a11 a12 =>
    right
    have hHn : ((H.toNat : Nat) : Int) = H := Int.toNat_of_nonneg a3.1
    have hcl : chain_list c H.toNat = l1 ++ E :: l2 := by
      have hp : Path c.table (hd c.table ((H.toNat : Nat) : Int)) (l1 ++ E :: l2) none := by
        rw [hHn]; exact a4
      exact (chain_list_of_path hp).2
    have hEo := (hwfp.members a3 a4 E (by simp)).1
    refine ⟨H, E, l1, l2, a1, a2, hcl, ?_, ?_, ?_, a7.entry_new, a7.vacated, a7.entry_old⟩
    · intro p hp
      have := a5 p hp
      omega
    · omega
    · intro e
      exact hFe (e ▸ hEo)

/-- Witness of C17: in `cache_16_2_put_1_17_33` (cache lines of two buckets) with key 17
taken out of bucket 0, `optimize_cacheline_use` on bucket 0 moves key 33 from bucket 3, which
is more than `cache_mask` above its home bucket 1, and nothing else. -/
theorem C17_relocates_one_entry_witness :
    well_formed cache_16_2_removed_17
    ∧ optimize_cacheline_use 4200 cache_16_2_removed_17 0 0
        = .ok cache_16_2_removed_17_optimized
    ∧ chain_list cache_16_2_removed_17 1 = [1] ++ 3 :: []
    ∧ entry cache_16_2_removed_17_optimized.table 0 = entry cache_16_2_removed_17.table 3
    ∧ ¬ occupied cache_16_2_removed_17_optimized.table 3
    ∧ (3 : Int) > 1 + cache_16_2_removed_17.cache_mask := by
  have hinit : dt_cache_init undefined_x86 40 cache_zeroed 16 2 64 1 = .ok cache_16_2 := by
    decide!
  have h1 : dt_cache_put undefined_x86 20 cache_16_2 1 10 = .ok (0, cache_16_2_put_1) := by
    decide!
  have h2 : dt_cache_put undefined_x86 20 cache_16_2_put_1 17 11
      = .ok (0, cache_16_2_put_1_17) := by decide!
  have h3 : dt_cache_put undefined_x86 20 cache_16_2_put_1_17 33 12
      = .ok (0, cache_16_2_put_1_17_33) := by decide!
  have hrun := put_run.snoc (put_run.snoc (put_run.snoc put_run.nil h1) h2) h3
  have hwf0 := (reach_inv_put_run hrun (reach_inv_init hinit (by decide)) (by decide)).wf
  have hH : inb cache_16_2_put_1_17_33.table 1 := by decide!
  have hp : Path cache_16_2_put_1_17_33.table (hd cache_16_2_put_1_17_33.table 1)
      ([1] ++ 0 :: [3]) none := by
    have hh : hd cache_16_2_put_1_17_33.table 1 = some 1 := by decide!
    have n1 : nxt cache_16_2_put_1_17_33.table 1 = some 0 := by decide!
    have n0 : nxt cache_16_2_put_1_17_33.table 0 = some 3 := by decide!
    have n3 : nxt cache_16_2_put_1_17_33.table 3 = none := by decide!
    rw [hh]
    refine Path.cons hH ?_
    rw [n1]
    refine Path.cons (by decide!) ?_
    rw [n0]
    refine Path.cons (by decide!) ?_
    rw [n3]
    exact Path.nil _
  have hrk : remove_key cache_16_2_put_1_17_33 0 1 0 (last_of none [1]) 17
      = .ok cache_16_2_removed_17 := by decide!
  obtain ⟨c1, hrk', hr, hbm, -⟩ :=
    @removed_of_remove_key cache_16_2_put_1_17_33 0 1 0 [1] [3] 17 (by decide!) hH hp
      (by decide)
  have e : c1 = cache_16_2_removed_17 := Outcome.ok.inj (hrk'.symm.trans hrk)
  subst e
  have hwf : well_formed cache_16_2_removed_17 :=
    well_formed_of_wf_paths (wf_paths_removed hwf0 hbm hH hp hr)
  have hopt : optimize_cacheline_use 4200 cache_16_2_removed_17 0 0
      = .ok cache_16_2_removed_17_optimized := by decide!
  obtain ⟨c2, g1, -⟩ := C17_relocates_one_entry cache_16_2_removed_17 0 0 hwf (by decide!)
    (by decide!) (by decide!) (by decide) (by decide!)
  have hcl : chain_list cache_16_2_removed_17 1 = [1] ++ 3 :: [] := by decide!
  have he : entry cache_16_2_removed_17_optimized.table 0
      = entry cache_16_2_removed_17.table 3 := by decide!
  have ho : ¬ occupied cache_16_2_removed_17_optimized.table 3 := by decide!
  have e2 : c2 = cache_16_2_removed_17_optimized :=
    Outcome.ok.inj ((g1 4200 (by decide!)).symm.trans hopt)
  exact ⟨hwf, e2 ▸ g1 4200 (by decide!), hcl, he, ho, by decide!⟩

/-- Counterexample to C17 as stated: on the cache of `dt_cache_init(16, 2, 128, 1)` (cache
lines of four buckets) after the puts of keys 2, 3 and 18, key 18, whose home is bucket 2, is
stored in bucket 0. `optimize_cacheline_use` on the empty bucket 1 moves it from bucket 0 to
bucket 1, and bucket 0 lies inside the cache-line group 0 to 3 of bucket 1. -/
theorem C17_counterexample :
    dt_cache_init undefined_x86 40 cache_zeroed 16 2 128 1 = .ok cache_16_2_line4
    ∧ put_run undefined_x86 cache_16_2_line4 ((([] ++ [(2, 20)]) ++ [(3, 30)]) ++ [(18, 40)])
        cache_16_2_line4_put_2_3_18
    ∧ well_formed cache_16_2_line4_put_2_3_18
    ∧ ¬ occupied cache_16_2_line4_put_2_3_18.table 1
    ∧ optimize_cacheline_use 4200 cache_16_2_line4_put_2_3_18 0 1
        = .ok cache_16_2_line4_optimized
    ∧ holds cache_16_2_line4_put_2_3_18.table 18 18 0
    ∧ holds cache_16_2_line4_optimized.table 18 18 1
    ∧ ¬ occupied cache_16_2_line4_optimized.table 0
    ∧ get_start_cacheline_bucket cache_16_2_line4_put_2_3_18 1 ≤ 0
    ∧ (0 : Int) ≤ get_start_cacheline_bucket cache_16_2_line4_put_2_3_18 1
        + cache_16_2_line4_put_2_3_18.cache_mask := by
  have hinit : dt_cache_init undefined_x86 40 cache_zeroed 16 2 128 1
      = .ok cache_16_2_line4 := by decide!
  have h1 : dt_cache_put undefined_x86 20 cache_16_2_line4 2 20
      = .ok (0, cache_16_2_line4_put_2) := by decide!
  have h2 : dt_cache_put undefined_x86 20 cache_16_2_line4_put_2 3 30
      = .ok (0, cache_16_2_line4_put_2_3) := by decide!
  have h3 : dt_cache_put undefined_x86 20 cache_16_2_line4_put_2_3 18 40
      = .ok (0, cache_16_2_line4_put_2_3_18) := by decide!
  have hrun := put_run.snoc (put_run.snoc (put_run.snoc put_run.nil h1) h2) h3
  have hwf := (reach_inv_put_run hrun (reach_inv_init hinit (by decide)) (by decide)).wf
  exact ⟨hinit, hrun, well_formed_of_wf_paths hwf, by decide!, by decide!, by decide!,
    by decide!, by decide!, by decide!, by decide!⟩

/-- C19 (defect of the code): the timestamp bumped by a relocation is not that of the
relocated key. On the cache of `dt_cache_init(2, 4, 64, 1)` after the puts of keys 1 and 3
(both with home bucket 1, key 3 stored in bucket 0), the removal step for key 1, `remove_key`
then `optimize_cacheline_use` with segment 0, the segment of key 1, moves key 3 from bucket 0
to bucket 1 and leaves the timestamp of segment 0 at 2, while the segment of key 3,
`(3 >> segment_shift) & segment_mask`, is 1 and its timestamp is still 0. -/
theorem C19_relocation_bumps_other_segment :
    dt_cache_init undefined_x86 40 cache_zeroed 2 4 64 1 = .ok cache_2_4
    ∧ put_run undefined_x86 cache_2_4 (([] ++ [(1, 10)]) ++ [(3, 11)]) cache_2_4_put_1_3
    ∧ well_formed cache_2_4_put_1_3
    ∧ segment_of undefined_x86 cache_2_4_put_1_3 1 = 0
    ∧ segment_of undefined_x86 cache_2_4_put_1_3 3 = 1
    ∧ remove_key cache_2_4_put_1_3 (segment_of undefined_x86 cache_2_4_put_1_3 1)
        (home_of cache_2_4_put_1_3 1) 1 none 1 = .ok cache_2_4_removed_1
    ∧ optimize_cacheline_use 4200 cache_2_4_removed_1
        (segment_of undefined_x86 cache_2_4_put_1_3 1) 1 = .ok cache_2_4_removed_1_optimized
    ∧ holds cache_2_4_removed_1.table 3 3 0
    ∧ holds cache_2_4_removed_1_optimized.table 3 3 1
    ∧ ¬ occupied cache_2_4_removed_1_optimized.table 0
    ∧ (cache_2_4_removed_1.segments.getD 0 default).timestamp = 1
    ∧ (cache_2_4_removed_1_optimized.segments.getD 0 default).timestamp = 2
    ∧ (cache_2_4_removed_1.segments.getD 1 default).timestamp = 0
    ∧ (cache_2_4_removed_1_optimized.segments.getD 1 default).timestamp = 0 := by
  have hinit : dt_cache_init undefined_x86 40 cache_zeroed 2 4 64 1 = .ok cache_2_4 := by
    decide!
  have h1 : dt_cache_put undefined_x86 20 cache_2_4 1 10 = .ok (0, cache_2_4_put_1) := by
    decide!
  have h2 : dt_cache_put undefined_x86 20 cache_2_4_put_1 3 11
      = .ok (0, cache_2_4_put_1_3) := by decide!
  have hrun := put_run.snoc (put_run.snoc put_run.nil h1) h2
  have hwf := (reach_inv_put_run hrun (reach_inv_init hinit (by decide)) (by decide)).wf
  exact ⟨hinit, hrun, well_formed_of_wf_paths hwf, by decide!, by decide!, by decide!,
    by decide!, by decide!, by decide!, by decide!, by decide, by decide, by decide,
    by decide⟩

/-- C14, as amended: head placement. For every well-formed table state of a cache with
cache-line placement enabled whose array has at most 32767 buckets and holds every home
bucket, with the home segment of `k` inside the segment array and unlocked, and every key `k`
absent from its home chain such that the cache-line group of the home bucket lies inside the
array and has an empty bucket: `dt_cache_put(k, v)` returns null (for every fuel above the
number of buckets) and stores `k` with `v` in an empty bucket `F` of the group. Afterwards
the home chain is `F` followed by the previous chain in its previous order, unless the home
bucket is itself the first entry of its chain (head offset 0): then the chain is the home
bucket, then `F`, then the rest of the previous chain. -/
theorem C14_head_placement (U : undefined_t) (c : dt_cache_t) (k v : Nat)
    (hwf : well_formed c) (hlen : c.table.length ≤ 32767)
    (hmask : c.bucket_mask < c.table.length) (halign : c.is_cacheline_alignment ≠ 0)
    (hseg : segment_of U c k < c.segments.length)
    (hlock : (c.segments.getD (segment_of U c k) default).lock = 0)
    (habsent : ∀ p ∈ chain_list c (k &&& c.bucket_mask), ¬ holds c.table k k p)
    (hline : line_in_table c (home_of c k))
    (hempty : ∃ i, get_start_cacheline_bucket c (home_of c k) ≤ i ∧
      i ≤ get_start_cacheline_bucket c (home_of c k) + c.cache_mask ∧
      ¬ occupied c.table i) :
    ∃ F c2, (∀ m, c.table.length + 1 ≤ m →
        dt_cache_put U m c k v = .ok (DT_CACHE_EMPTY_DATA, c2)) ∧
      get_start_cacheline_bucket c (home_of c k) ≤ F ∧
      F ≤ get_start_cacheline_bucket c (home_of c k) + c.cache_mask ∧
      ¬ occupied c.table F ∧ holds c2.table k k F ∧ (rd c2.table F).data = v ∧
      chain_ends c2 (k &&& c.bucket_mask) ∧
      chain_list c2 (k &&& c.bucket_mask) =
        if (rd c.table (home_of c k)).first_delta = 0 then
          home_of c k :: F :: (chain_list c (k &&& c.bucket_mask)).tail
        else F :: chain_list c (k &&& c.bucket_mask) := by
  have hwfp := wf_paths_of_well_formed hwf
  have hHn : k &&& c.bucket_mask < c.table.length := lt_of_le_of_lt Nat.and_le_right hmask
  have hH : inb c.table (home_of c k) := inb_natCast.2 hHn
  have hp : Path c.table (hd c.table (home_of c k)) (chain_list c (k &&& c.bucket_mask))
      none := path_of_chain_ends (hwf.1 _ hHn).1
  obtain ⟨i, hi1, hi2, hi3⟩ := hempty
  obtain ⟨F, hF1, hF2, hFin, hFe, hput, hchain⟩ := @put_head_placement U c k v _ hlen halign
    hseg hlock hH hp (fun p hpm => (hwfp.members hH hp p hpm).1) habsent hline
    ⟨i, hi1, hi2, by simpa [occupied] using hi3⟩
  obtain ⟨hce, hcl⟩ := @chain_list_of_path
    { c with table := add_key_to_begining_of_list c.table (home_of c k) F k k v }
    (k &&& c.bucket_mask) _ hchain
  refine ⟨F, _, hput, hF1, hF2, by simpa [occupied] using hFe, ?_, ?_, hce, hcl⟩
  · exact ⟨by simp [hash_add_begin hFin], by simp [key_add_begin hFin]⟩
  · simp [data_add_begin hFin]

/-- Witness of C14: in `cache_16_2_put_1_17_removed_1` the home bucket 1 is empty and its
chain is bucket 0 alone, holding key 17. `dt_cache_put(33, 12)` stores key 33 in bucket 1 and
the chain becomes 1, 0: the new key first, then the previous chain. -/
theorem C14_head_placement_witness :
    well_formed cache_16_2_put_1_17_removed_1
    ∧ chain_list cache_16_2_put_1_17_removed_1 1 = [0]
    ∧ dt_cache_put undefined_x86 4200 cache_16_2_put_1_17_removed_1 33 12
        = .ok (0, cache_16_2_put_1_17_removed_1_put_33)
    ∧ chain_list cache_16_2_put_1_17_removed_1_put_33 1 = [1, 0]
    ∧ holds cache_16_2_put_1_17_removed_1_put_33.table 33 33 1 := by
  have hinit : dt_cache_init undefined_x86 40 cache_zeroed 16 2 64 1 = .ok cache_16_2 := by
    decide!
  have h1 : dt_cache_put undefined_x86 20 cache_16_2 1 10 = .ok (0, cache_16_2_put_1) := by
    decide!
  have h2 : dt_cache_put undefined_x86 20 cache_16_2_put_1 17 11
      = .ok (0, cache_16_2_put_1_17) := by decide!
  have hrun := put_run.snoc (put_run.snoc put_run.nil h1) h2
  have hwf0 := (reach_inv_put_run hrun (reach_inv_init hinit (by decide)) (by decide)).wf
  have hH : inb cache_16_2_put_1_17.table 1 := by decide!
  have hp : Path cache_16_2_put_1_17.table (hd cache_16_2_put_1_17.table 1)
      ([] ++ 1 :: [0]) none := by
    have hh : hd cache_16_2_put_1_17.table 1 = some 1 := by decide!
    have n1 : nxt cache_16_2_put_1_17.table 1 = some 0 := by decide!
    have n0 : nxt cache_16_2_put_1_17.table 0 = none := by decide!
    rw [hh]
    refine Path.cons hH ?_
    rw [n1]
    refine Path.cons (by decide!) ?_
    rw [n0]
    exact Path.nil _
  have hrk : remove_key cache_16_2_put_1_17 0 1 1 (last_of none []) 1
      = .ok cache_16_2_put_1_17_removed_1 := by decide!
  obtain ⟨c1, hrk2, hr, hbm, -⟩ :=
    @removed_of_remove_key cache_16_2_put_1_17 0 1 1 [] [0] 1 (by decide!) hH hp (by decide)
  have e : c1 = cache_16_2_put_1_17_removed_1 := Outcome.ok.inj (hrk2.symm.trans hrk)
  subst e
  have hwf : well_formed cache_16_2_put_1_17_removed_1 :=
    well_formed_of_wf_paths (wf_paths_removed hwf0 hbm hH hp hr)
  have hcl : chain_list cache_16_2_put_1_17_removed_1 1 = [0] := by decide!
  have hput : dt_cache_put undefined_x86 4200 cache_16_2_put_1_17_removed_1 33 12
      = .ok (0, cache_16_2_put_1_17_removed_1_put_33) := by decide!
  obtain ⟨F, c2, g1, -⟩ := C14_head_placement undefined_x86 cache_16_2_put_1_17_removed_1 33 12
    hwf (by decide!) (by decide!) (by decide) (by decide!) (by decide!)
    (by rw [show 33 &&& cache_16_2_put_1_17_removed_1.bucket_mask = 1 from by decide, hcl]
        intro p hpm
        rw [List.mem_singleton] at hpm
        subst hpm
        decide!)
    (by decide!) ⟨1, by decide!, by decide!, by decide!⟩
  have e2 : (0, cache_16_2_put_1_17_removed_1_put_33) = (DT_CACHE_EMPTY_DATA, c2) :=
    Outcome.ok.inj (hput.symm.trans (g1 4200 (by decide!)))
  exact ⟨hwf, hcl, hput, by decide!, by decide!⟩

/-- Counterexample to C14 as stated: `cache_16_2_put_1` is the well-formed state of the cache
of `dt_cache_init(16, 2, 64, 1)` after `dt_cache_put(1, 10)`; key 17, with home bucket 1, is
absent and bucket 0 of the cache line of bucket 1 is empty. After `dt_cache_put(17, 11)` the
chain of home bucket 1 is 1, 0: its first entry, bucket 1, still holds key 1, and key 17 in
bucket 0 comes second. -/
theorem C14_counterexample :
    dt_cache_init undefined_x86 40 cache_zeroed 16 2 64 1 = .ok cache_16_2
    ∧ put_run undefined_x86 cache_16_2 ([] ++ [(1, 10)]) cache_16_2_put_1
    ∧ well_formed cache_16_2_put_1
    ∧ cache_16_2_put_1.is_cacheline_alignment = 1
    ∧ dt_cache_contains undefined_x86 4200 cache_16_2_put_1 17 = .ok 0
    ∧ get_start_cacheline_bucket cache_16_2_put_1 (home_of cache_16_2_put_1 17) = 0
    ∧ ¬ occupied cache_16_2_put_1.table 0
    ∧ dt_cache_put undefined_x86 4200 cache_16_2_put_1 17 11 = .ok (0, cache_16_2_put_1_17)
    ∧ chain_list cache_16_2_put_1_17 1 = [1, 0]
    ∧ holds cache_16_2_put_1_17.table 1 1 1
    ∧ holds cache_16_2_put_1_17.table 17 17 0 := by
  have hinit : dt_cache_init undefined_x86 40 cache_zeroed 16 2 64 1 = .ok cache_16_2 := by
    decide!
  have h1 : dt_cache_put undefined_x86 20 cache_16_2 1 10 = .ok (0, cache_16_2_put_1) := by
    decide!
  have hrun := put_run.snoc put_run.nil h1
  have hwf := (reach_inv_put_run hrun (reach_inv_init hinit (by decide)) (by decide)).wf
  exact ⟨hinit, hrun, well_formed_of_wf_paths hwf, by decide!, by decide!, by decide!,
    by decide!, by decide!, by decide!, by decide!, by decide!⟩

/-- C15 (defect of the code): an offset written by `dt_cache_put` can be `DT_CACHE_NULL_DELTA`
or wrap. `dt_cache_init(65536, 65536, 524288, 0)` builds a cache of 65536 home buckets with
cache-line groups of 16384 buckets. After the 16383 puts of the keys 16386..32768 the state
is well formed, every chain member lies 16384 buckets above its home bucket, the chain of
home bucket 16386 is bucket 32770 alone and bucket 2 is empty. `dt_cache_put(81922, 0)`, a
key of home bucket 16386, returns null and stores the key in bucket 2, which is 16384 buckets
below the home bucket; the next offset it writes into bucket 32770 to link bucket 2 is
-32768, which is `DT_CACHE_NULL_DELTA` and outside -32767..32767, and
`dt_cache_contains(81922)` returns 0 afterwards. The next put of that home,
`dt_cache_put(147458, 0)`, stores its key in bucket 1 and writes 32767 into bucket 32770,
where the index difference is -32769. -/
theorem C15_put_stores_no_link :
    dt_cache_init undefined_x86 40 cache_zeroed 65536 65536 524288 0
      = .ok cache_65536_segments
    ∧ ∃ c c2 c3, put_run undefined_x86 cache_65536_segments (forward_fill_ops 16383) c
        ∧ well_formed c
        ∧ (∀ H : Nat, H < c.table.length → ∀ p ∈ chain_list c H, p = (H : Int) + 16384)
        ∧ chain_list c 16386 = [32770]
        ∧ home_of c 81922 = 16386 ∧ home_of c 147458 = 16386
        ∧ ¬ occupied c.table 2
        ∧ dt_cache_put undefined_x86 102401 c 81922 0 = .ok (DT_CACHE_EMPTY_DATA, c2)
        ∧ holds c2.table 81922 81922 2
        ∧ (rd c2.table 32770).next_delta = -32768
        ∧ (rd c2.table 32770).next_delta = DT_CACHE_NULL_DELTA
        ∧ ¬ exact_offset (rd c2.table 32770).next_delta 32770 2
        ∧ dt_cache_contains undefined_x86 102401 c2 81922 = .ok 0
        ∧ dt_cache_put undefined_x86 102401 c2 147458 0 = .ok (DT_CACHE_EMPTY_DATA, c3)
        ∧ holds c3.table 147458 147458 1
        ∧ (rd c3.table 32770).next_delta = 32767
        ∧ ¬ exact_offset (rd c3.table 32770).next_delta 32770 1 := by
  refine ⟨dt_cache_init_65536_segments _, ?_⟩
  obtain ⟨c, c2, c3, c4, hrun, hc, h2, h3, -, hf2, hh2, hn2, hh3, hn3, -⟩ :=
    overflow_steps undefined_x86 forward_filled_segments
  have hcl : chain_list c 16386 = [32770] :=
    (@chain_list_of_path c 16386 _ (hc.path_of_home (i := 0) (by decide) le_rfl)).2
  refine ⟨c, c2, c3, hrun, well_formed_of_wf_paths (hc.well_linked le_rfl), hc.chain_near le_rfl, hcl,
    by rw [home_of, hc.bm]; rfl, by rw [home_of, hc.bm]; rfl, ?_, h2, hh2, hn2, ?_, ?_,
    contains_after_no_link hf2 hn2, h3, hh3, hn3, ?_⟩
  · intro ho
    exact ho (hc.empty 2 (by decide) (by decide) (Or.inl (by decide))).1
  · rw [hn2]; rfl
  · rw [hn2]; intro h; exact absurd h.2.1 (by decide)
  · rw [hn3]; intro h; exact absurd h.1 (by decide)

/-- C18 (defect of the code): a put writes into a bucket past `bucket_mask`.
`dt_cache_init(65536, 65536, 524288, 0)` builds a cache of
65536 home buckets with cache-line groups of 16384 buckets. The 16386 puts `overflow_ops`, none
of the reserved key, all return: the keys 16386..32768 fill the buckets 32770..49152, the
forward range of home bucket 16386, and the keys 81922, 147458 and 212994 of that home go
to the buckets 2, 1 and 0 below it. The offset from bucket 32770 to bucket 1, -32769, is stored
as 32767 and makes bucket 65537 the end of the chain; the last put then links bucket 0 after
it and writes the next offset -1 into bucket 65537, which is past `bucket_mask = 65535`. -/
theorem C18_put_writes_past_bucket_mask :
    dt_cache_init undefined_x86 40 cache_zeroed 65536 65536 524288 0
      = .ok cache_65536_segments
    ∧ cache_65536_segments.cache_mask + 1 = 2 ^ 14
    ∧ cache_65536_segments.cache_mask + 1 ≤ cache_65536_segments.bucket_mask + 1
    ∧ overflow_ops.length = 16386
    ∧ (∀ kv ∈ overflow_ops, kv.1 ≠ DT_CACHE_EMPTY_KEY)
    ∧ ∃ c, put_run undefined_x86 cache_65536_segments overflow_ops c
        ∧ inb c.table 65537 ∧ (c.bucket_mask : Int) < 65537
        ∧ (rd c.table 65537).hash = DT_CACHE_EMPTY_HASH
        ∧ (rd c.table 65537).next_delta = -1 := by
  refine ⟨dt_cache_init_65536_segments _, by decide, by decide, ?_, ?_, ?_⟩
  · simp [overflow_ops, forward_fill_ops]
  · intro kv hkv
    simp only [overflow_ops, forward_fill_ops, List.mem_append, List.mem_map, List.mem_range,
      List.mem_singleton] at hkv
    simp only [DT_CACHE_EMPTY_KEY]
    rcases hkv with ((⟨i, hi, rfl⟩ | rfl) | rfl) | rfl
    · show 16386 + i ≠ 4294967295
      omega
    · decide
    · decide
    · decide
  · obtain ⟨c, hrun, hbm, hlen, hh, hn⟩ := overflow_run undefined_x86 forward_filled_segments
    refine ⟨c, hrun, ⟨by decide, by rw [hlen]; decide⟩, by rw [hbm]; decide, hh, hn⟩

end DtCache
